import Mathlib

/-!
# File-context label resolution (libselinux `label_file.c` / `label_file.h`)

A shallow embedding of the specification store, the stem index, the text
loader (`process_line`, `read_spec_entries`), `sort_specs`, the reverse
matching walk of `lookup_common`, and `lookup_best_match`.

Conventions of the embedding.

* A C string is a `List Char` holding the bytes before the terminating NUL;
  the end of the list plays the role of the NUL byte.
* `int`, `unsigned`, `size_t` values are `Int` / `Nat`.  The width matters in
  three places, where it is written out: the cast `(mode_t)type`, taken modulo
  `2 ^ 32`; the conversions to `int32_t` of the compiled-file loader
  (`to_int32`); and the counter `matches`, an `int` that `lookup_common`
  increments (`int_incr`).
* The pattern engine (libpcre) is an external collaborator and is a parameter
  of the development (`pcre_engine`).
* `malloc` / `realloc` / `calloc` are taken to succeed.
* Three names of the source are keywords here and are written differently:
  the field `matches` is `matches_`, the flag `partial` of `lookup_common` is
  `soft`, and the argument `prefix` of `process_line` is `subset`.
-/

namespace LabelFile

/-! ## C string helpers -/

/-- The byte at the head of a C string, NUL when the string is exhausted. -/
def c_head (s : List Char) : Char := s.headD (Char.ofNat 0)

/-- Result `strncmp(a, b, n) == 0`: the first `n` bytes agree, the comparison
stopping early at a common terminating NUL. -/
def strncmp_eq : List Char → List Char → Nat → Bool
  | _, _, 0 => true
  | a, b, n + 1 =>
    if c_head a ≠ c_head b then false
    else if c_head a = Char.ofNat 0 then true
    else strncmp_eq a.tail b.tail n

/-- Offset of the first occurrence of `c` in the C string `s`
(`strchr(s, c) - s`), `none` when `strchr` returns NULL. -/
def strchr (s : List Char) (c : Char) : Option Nat :=
  match s with
  | [] => none
  | x :: xs => if x = c then some 0 else (strchr xs c).map (· + 1)

/-- Offset of the first occurrence of the two bytes `//` in `s`
(`strstr(s, "//") - s`), `none` when `strstr` returns NULL. -/
def strstr_slashes : List Char → Option Nat
  | [] => none
  | [_] => none
  | x :: y :: rest =>
    if x = '/' ∧ y = '/' then some 0 else (strstr_slashes (y :: rest)).map (· + 1)

/-! ## Data model (`label_file.h`) -/

/-- The lookup record embedded in every specification: only the raw context
is read by the code modelled here. -/
structure selabel_lookup_rec where
  ctx_raw : List Char
  deriving DecidableEq, Repr, Inhabited

/-- Mirror of `struct spec`.  `R` is the type of compiled patterns and `S` the
type of study data of the pattern engine; the union `sd` / `lsd` is the single
field `sd`. -/
structure spec (R S : Type) where
  lr : selabel_lookup_rec
  regex_str : List Char
  type_str : Option (List Char)
  regex : Option R
  sd : Option S
  mode : Nat
  matches_ : Int
  stem_id : Int
  hasMetaChars : Bool
  regcomp : Bool
  from_mmap : Bool
  prefix_len : Nat

/-- A zeroed slot, as left by the `memset` of `grow_specs`. -/
def blank_spec (R S : Type) : spec R S :=
  { lr := ⟨[]⟩, regex_str := [], type_str := none, regex := none, sd := none,
    mode := 0, matches_ := 0, stem_id := 0, hasMetaChars := false,
    regcomp := false, from_mmap := false, prefix_len := 0 }

instance (R S : Type) : Inhabited (spec R S) := ⟨blank_spec R S⟩

/-- Mirror of `struct stem`: `buf` is the C string found at the stem's buffer,
`len` the recorded length. -/
structure stem where
  buf : List Char
  len : Nat
  from_mmap : Bool
  deriving DecidableEq, Repr, Inhabited

/-- Mirror of `struct saved_data`.  `spec_arr` lists the allocated slots, of
which the first `nspec` are in use; `stem_arr` lists the `num_stems` stems in
use (the spare capacity `alloc_stems` of that array is not modelled). -/
structure saved_data (R S : Type) where
  spec_arr : List (spec R S)
  nspec : Nat
  alloc_specs : Nat
  stem_arr : List stem

/-- The store of a fresh handle (`memset(data, 0, sizeof(*data))`). -/
def empty_data (R S : Type) : saved_data R S :=
  { spec_arr := [], nspec := 0, alloc_specs := 0, stem_arr := [] }

/-- The slot `spec_arr[i]`. -/
def spec_at {R S : Type} (d : saved_data R S) (i : Nat) : spec R S :=
  d.spec_arr.getD i (blank_spec R S)

/-! ## The pattern engine -/

/-- Outcome of `pcre_study`: an error (NULL result with an error message), or
the possibly absent study data. -/
inductive study_result (S : Type) where
  | error : study_result S
  | ok : Option S → study_result S

/-- The services of libpcre used by the code: `pcre_compile` with
`PCRE_DOTALL` (`none` for a NULL result), `pcre_study`, and `pcre_exec` on a
compiled pattern, the extra data, the subject and the soft-partial option,
returning the engine's return code. -/
structure pcre_engine (R S : Type) where
  pcre_compile : List Char → Option R
  pcre_study : R → study_result S
  pcre_exec : R → Option S → List Char → Bool → Int

def PCRE_ERROR_NOMATCH : Int := -1
def PCRE_ERROR_NULL : Int := -2
def PCRE_ERROR_PARTIAL : Int := -12

def S_IFMT : Nat := 0o170000
def S_IFSOCK : Nat := 0o140000
def S_IFLNK : Nat := 0o120000
def S_IFREG : Nat := 0o100000
def S_IFBLK : Nat := 0o060000
def S_IFDIR : Nat := 0o040000
def S_IFCHR : Nat := 0o020000
def S_IFIFO : Nat := 0o010000

/-! ## `label_file.c`: stems of file names -/

/-- Mirror of `get_stem_from_file_name`: the offset of the first `/` found from
the second byte on, 0 when there is none.  (For the empty string the C code
reads past the terminator; the model lets the search fail there.) -/
def get_stem_from_file_name (buf : List Char) : Nat :=
  match strchr buf.tail '/' with
  | none => 0
  | some k => k + 1

/-- The scan of `find_stem_from_file` over `stem_arr[i ..]`: the index of the
first stem with the length `stem_len` and the same first `stem_len` bytes. -/
def find_stem_scan (buf : List Char) (stem_len : Nat) : List stem → Nat → Int
  | [], _ => -1
  | st :: rest, i =>
    if stem_len = st.len ∧ strncmp_eq buf st.buf stem_len = true then (i : Int)
    else find_stem_scan buf stem_len rest (i + 1)

/-- Mirror of `find_stem_from_file`: the stem id of a file name (-1 when the
name has no stem in the index) and the text that `*buf` points to afterwards
(advanced past the stem only when one was found). -/
def find_stem_from_file {R S : Type} (d : saved_data R S) (buf : List Char) :
    Int × List Char :=
  let stem_len := get_stem_from_file_name buf
  if stem_len = 0 then (-1, buf)
  else
    let i := find_stem_scan buf stem_len d.stem_arr 0
    if i < 0 then (-1, buf) else (i, buf.drop stem_len)

/-! ## `label_file.h`: lazy compilation -/

/-- The length `stem_arr[id].len` of a stem. -/
def stem_len_at (stem_arr : List stem) (id : Int) : Nat :=
  (stem_arr.getD id.toNat default).len

/-- The text handed to `pcre_compile` by `compile_regex`: `^`, the pattern
without its stem, `$`. -/
def anchored_regex {R S : Type} (stem_arr : List stem) (sp : spec R S) : List Char :=
  let reg_buf :=
    if 0 ≤ sp.stem_id then sp.regex_str.drop (stem_len_at stem_arr sp.stem_id)
    else sp.regex_str
  '^' :: (reg_buf ++ ['$'])

/-- Mirror of `compile_regex` on one specification: the updated specification
and the return code (0, or -1 on failure). -/
def compile_regex {R S : Type} (E : pcre_engine R S) (stem_arr : List stem)
    (sp : spec R S) : spec R S × Int :=
  if sp.regcomp then (sp, 0)
  else
    match E.pcre_compile (anchored_regex stem_arr sp) with
    | none => ({ sp with regex := none }, -1)
    | some r =>
      match E.pcre_study r with
      | study_result.error => ({ sp with regex := some r, sd := none }, -1)
      | study_result.ok s => ({ sp with regex := some r, sd := s, regcomp := true }, 0)

/-- The call `pcre_exec(spec->regex, get_pcre_extra(spec), subject, ...)`; a
NULL compiled pattern makes the engine answer `PCRE_ERROR_NULL`. -/
def exec_spec {R S : Type} (E : pcre_engine R S) (sp : spec R S)
    (subject : List Char) (soft : Bool) : Int :=
  match sp.regex with
  | none => PCRE_ERROR_NULL
  | some r => E.pcre_exec r sp.sd subject soft

/-! ## `label_file.c`: `lookup_common` -/

/-- The loop of the "Remove duplicate slashes" block: `prev` is the text at
`prev_slash`, `acc` the first `sofar` bytes of `clean_key`.  Every round
consumes at least one byte of `prev`, so `fuel = strlen(key) + 1` rounds are
enough. -/
def remove_dup_loop : Nat → List Char → List Char → List Char
  | 0, acc, prev => acc ++ prev
  | fuel + 1, acc, prev =>
    match strstr_slashes prev with
    | none => acc ++ prev
    | some k => remove_dup_loop fuel (acc ++ prev.take k) (prev.drop (k + 1))

/-- The key after the "Remove duplicate slashes" block of `lookup_common`. -/
def clean_key (key : List Char) : List Char :=
  match strstr_slashes key with
  | none => key
  | some _ => remove_dup_loop (key.length + 1) [] key

/-- The value of an `int` object after `++` on the value `x`: `x + 1` as long
as that is at most `INT_MAX`.  At `INT_MAX` the addition overflows; C leaves
the result undefined, and the embedding takes the two's complement result
`INT_MIN`, the value modulo `2 ^ 32`.  In no case can the object hold
`INT_MAX + 1`. -/
def int_incr (x : Int) : Int := (x + 1 + 2147483648) % 4294967296 - 2147483648

/-- The pre-filter of the walk: the specification has no stem or the stem of
the file, and it has no mode or the query has none or both are equal. -/
def candidate {R S : Type} (sp : spec R S) (file_stem : Int) (mode : Nat) : Bool :=
  (sp.stem_id == -1 || sp.stem_id == file_stem) &&
  (mode == 0 || sp.mode == 0 || mode == sp.mode)

/-- How the `for` loop of `lookup_common` ends: `stopped i` after a `break` at
index `i`, `exhausted` when `i` ran below 0, `failed` on `goto finish`. -/
inductive walk_end where
  | stopped : Nat → walk_end
  | exhausted : walk_end
  | failed : walk_end
  deriving DecidableEq, Repr

/-- State at the end of the walk: the store, how the loop ended, and the
indices handed to `compile_regex` (most recent first). -/
structure walk_out (R S : Type) where
  data : saved_data R S
  ending : walk_end
  tried : List Nat

/-- The `for (i = nspec - 1; i >= 0; i--)` loop of `lookup_common`; `n` is
`i + 1`, `key` the cleaned key, `buf` the text after the file's stem. -/
def lookup_walk {R S : Type} (E : pcre_engine R S) (key buf : List Char)
    (file_stem : Int) (mode : Nat) (soft : Bool) :
    Nat → saved_data R S → List Nat → walk_out R S
  | 0, d, tr => ⟨d, walk_end.exhausted, tr⟩
  | i + 1, d, tr =>
    let sp := spec_at d i
    if candidate sp file_stem mode then
      let c := compile_regex E d.stem_arr sp
      let d1 : saved_data R S := { d with spec_arr := d.spec_arr.set i c.1 }
      if c.2 < 0 then ⟨d1, walk_end.failed, i :: tr⟩
      else
        let rc := if c.1.stem_id = -1 then exec_spec E c.1 key soft
                  else exec_spec E c.1 buf soft
        if rc = 0 then
          ⟨{ d1 with spec_arr := d1.spec_arr.set i { c.1 with matches_ := int_incr c.1.matches_ } },
            walk_end.stopped i, i :: tr⟩
        else if soft ∧ rc = PCRE_ERROR_PARTIAL then ⟨d1, walk_end.stopped i, i :: tr⟩
        else if rc = PCRE_ERROR_NOMATCH then
          lookup_walk E key buf file_stem mode soft i d1 (i :: tr)
        else ⟨d1, walk_end.failed, i :: tr⟩
    else lookup_walk E key buf file_stem mode soft i d tr

/-- The mode of a query: `(mode_t)type & S_IFMT`. -/
def query_mode (type : Int) : Nat := (type % 4294967296).toNat &&& S_IFMT

/-- The label that means "no label". -/
def none_label : List Char := "<<none>>".toList

/-- The walk that `lookup_common` runs for a query: the key is cleaned, the
file's stem looked up, the mode masked, and the loop started at `nspec - 1`. -/
def lookup_walk_of {R S : Type} (E : pcre_engine R S) (d : saved_data R S)
    (key : List Char) (type : Int) (soft : Bool) : walk_out R S :=
  let key1 := clean_key key
  let fs := find_stem_from_file d key1
  lookup_walk E key1 fs.2 fs.1 (query_mode type) soft d.nspec d []

/-- Mirror of `lookup_common`: the store afterwards and the returned pointer,
as the index of the specification it points to (`none` for NULL). -/
def lookup_common {R S : Type} (E : pcre_engine R S) (d : saved_data R S)
    (key : List Char) (type : Int) (soft : Bool) : saved_data R S × Option Nat :=
  if d.nspec = 0 then (d, none)
  else
    let w := lookup_walk_of E d key type soft
    match w.ending with
    | walk_end.stopped i =>
      if (spec_at w.data i).lr.ctx_raw = none_label then (w.data, none)
      else (w.data, some i)
    | _ => (w.data, none)

/-- Mirror of `lookup`: the record of the specification found. -/
def lookup {R S : Type} (E : pcre_engine R S) (d : saved_data R S)
    (key : List Char) (type : Int) : saved_data R S × Option Nat :=
  lookup_common E d key type false

/-! ## `label_file.h`: `sort_specs` -/

/-- The first loop of `sort_specs`: entries with meta characters are written at
`front++`, the others at `back--`. -/
def sort_pass1 {α : Type} (hm : α → Bool) :
    List α → List α → Nat → Int → List α × Nat × Int
  | [], copy, front, back => (copy, front, back)
  | x :: xs, copy, front, back =>
    if hm x then sort_pass1 hm xs (copy.set front x) (front + 1) back
    else sort_pass1 hm xs (copy.set back.toNat x) front (back - 1)

/-- The second loop of `sort_specs`: `while (front < back)` swap the two ends
and move both inwards.  At most `fuel` rounds are run. -/
def sort_swap {α : Type} (fill : α) : Nat → List α → Int → Int → List α
  | 0, copy, _, _ => copy
  | fuel + 1, copy, front, back =>
    if front < back then
      let a := copy.getD front.toNat fill
      let b := copy.getD back.toNat fill
      sort_swap fill fuel ((copy.set front.toNat b).set back.toNat a) (front + 1) (back - 1)
    else copy

/-- The array computed by `sort_specs` from the `nspec` entries `arr`; `fill`
stands for the uninitialised contents of the fresh `spec_copy`. -/
def sort_specs_arr {α : Type} (hm : α → Bool) (fill : α) (arr : List α) : List α :=
  let n := arr.length
  let p := sort_pass1 hm arr (List.replicate n fill) 0 ((n : Int) - 1)
  sort_swap fill n p.1 (p.2.1 : Int) ((n : Int) - 1)

/-- Mirror of `sort_specs`: `spec_arr` is replaced by the rearranged copy of
its first `nspec` entries. -/
def sort_specs {R S : Type} (d : saved_data R S) : saved_data R S :=
  let used := (List.range d.nspec).map (spec_at d)
  let spec_copy := sort_specs_arr (fun sp => sp.hasMetaChars) (blank_spec R S) used
  { d with spec_arr := spec_copy }

/-! ## `label_file.c`: `lookup_best_match` -/

/-- The `for (i = 1; i <= n; i++)` loop of `lookup_best_match` together with
the code after it.  `specs` holds `specs[0 .. i-1]` (indices of the
specifications found, `none` for NULL), `best` and `plen` are the variables
`best` and `prefix_len`. -/
def best_match_loop {R S : Type} (E : pcre_engine R S) (type : Int) :
    List (List Char) → saved_data R S → List (Option Nat) → Int → Nat →
    saved_data R S × Option Nat
  | [], d, specs, best, _ =>
    if 0 ≤ best then (d, specs.getD best.toNat none) else (d, none)
  | a :: rest, d, specs, best, plen =>
    let r := lookup_common E d a type false
    match r.2 with
    | some j =>
      if (spec_at r.1 j).hasMetaChars = false then (r.1, some j)
      else if (spec_at r.1 j).prefix_len > plen then
        best_match_loop E type rest r.1 (specs ++ [some j]) specs.length
          (spec_at r.1 j).prefix_len
      else best_match_loop E type rest r.1 (specs ++ [some j]) best plen
    | none => best_match_loop E type rest r.1 (specs ++ [none]) best plen

/-- Mirror of `lookup_best_match`; `aliases` is the NULL-terminated array as a
list (a NULL array and an array whose first entry is NULL are both `[]`). -/
def lookup_best_match {R S : Type} (E : pcre_engine R S) (d : saved_data R S)
    (key : List Char) (aliases : List (List Char)) (type : Int) :
    saved_data R S × Option Nat :=
  match aliases with
  | [] => lookup E d key type
  | _ :: _ =>
    let r := lookup_common E d key type false
    match r.2 with
    | some j =>
      if (spec_at r.1 j).hasMetaChars = false then (r.1, some j)
      else best_match_loop E type aliases r.1 [some j] 0 (spec_at r.1 j).prefix_len
    | none => best_match_loop E type aliases r.1 [none] (-1) 0

/-! ## `label_file.h`: the text loader's per-specification scans -/

/-- Membership in the string `".^$?*+|[({"`. -/
def is_meta_char (c : Char) : Bool :=
  c = '.' ∨ c = '^' ∨ c = '$' ∨ c = '?' ∨ c = '*' ∨ c = '+' ∨ c = '|' ∨
  c = '[' ∨ c = '(' ∨ c = '{'

/-- The `while (c < end)` loop of `spec_hasMetaChars` at offset `pos` of the
pattern: `some p` when a meta character is reached at offset `p`; a backslash
skips the byte after it. -/
def meta_scan : List Char → Nat → Option Nat
  | [], _ => none
  | [c], pos => if is_meta_char c then some pos else none
  | c :: c2 :: rest, pos =>
    if is_meta_char c then some pos
    else if c = '\\' then meta_scan rest (pos + 2)
    else meta_scan (c2 :: rest) (pos + 1)

/-- Mirror of `spec_hasMetaChars`. -/
def spec_hasMetaChars {R S : Type} (sp : spec R S) : spec R S :=
  match meta_scan sp.regex_str 0 with
  | some p => { sp with hasMetaChars := true, prefix_len := p }
  | none => { sp with hasMetaChars := false, prefix_len := sp.regex_str.length }

/-- Mirror of `get_stem_from_spec`: the length of the stem of a pattern, 0 when
it has none. -/
def get_stem_from_spec (buf : List Char) : Nat :=
  match strchr buf.tail '/' with
  | none => 0
  | some k => if (buf.take (k + 1)).any is_meta_char then 0 else k + 1

/-- Mirror of `find_stem`: the id of the stem with the given text and length,
-1 when the index has none. -/
def find_stem {R S : Type} (d : saved_data R S) (buf : List Char) (stem_len : Nat) : Int :=
  find_stem_scan buf stem_len d.stem_arr 0

/-- Mirror of `store_stem`: the stem is appended and its index returned.  The
slot's `from_mmap` byte is not written by the C function; the model reads it
as 0. -/
def store_stem {R S : Type} (d : saved_data R S) (buf : List Char) (stem_len : Nat) :
    saved_data R S × Int :=
  ({ d with stem_arr := d.stem_arr ++ [⟨buf, stem_len, false⟩] }, (d.stem_arr.length : Int))

/-- Mirror of `find_stem_from_spec`: the id of the pattern's stem, interned
when new; -1 when the pattern has no stem. -/
def find_stem_from_spec {R S : Type} (d : saved_data R S) (buf : List Char) :
    saved_data R S × Int :=
  let stem_len := get_stem_from_spec buf
  if stem_len = 0 then (d, -1)
  else
    let stemid := find_stem d buf stem_len
    if 0 ≤ stemid then (d, stemid)
    else store_stem d (buf.take stem_len) stem_len

/-- Mirror of `grow_specs`: when all slots are in use the array is reallocated
to `nspec + (nspec + 16)` slots and the new ones are blanked. -/
def grow_specs {R S : Type} (d : saved_data R S) : saved_data R S :=
  if d.nspec < d.alloc_specs then d
  else
    let new_specs := d.nspec + 16
    let total_specs := d.nspec + new_specs
    { d with
      spec_arr := (List.range d.nspec).map (spec_at d) ++ List.replicate new_specs (blank_spec R S)
      alloc_specs := total_specs }

/-- The value `(mode_t)-1` that `string_to_mode` returns for a bad token. -/
def MODE_INVALID : Nat := 4294967295

/-- Mirror of `string_to_mode` on a non-NULL token. -/
def string_to_mode (mode : List Char) : Nat :=
  match mode with
  | ['-', c] =>
    if c = 'b' then S_IFBLK
    else if c = 'c' then S_IFCHR
    else if c = 'd' then S_IFDIR
    else if c = 'p' then S_IFIFO
    else if c = 'l' then S_IFLNK
    else if c = 's' then S_IFSOCK
    else if c = '-' then S_IFREG
    else MODE_INVALID
  | _ => MODE_INVALID

/-! ## `label_support.c`: splitting a line into entries -/

/-- The C library's `isspace` in the "C" locale. -/
def c_isspace (c : Char) : Bool :=
  c = ' ' ∨ c = '\t' ∨ c = '\n' ∨ c = '\x0b' ∨ c = '\x0c' ∨ c = '\r'

/-- Mirror of `read_spec_entry`: blanks are skipped, then the entry runs to the
next blank or the end; the entry (`none` when its length is 0) and the text at
the advanced `*ptr`. -/
def read_spec_entry (ptr : List Char) : Option (List Char) × List Char :=
  let p := ptr.dropWhile c_isspace
  let entry := p.takeWhile (fun c => !c_isspace c)
  (if entry.isEmpty then none else some entry, p.dropWhile (fun c => !c_isspace c))

/-- The `while (items < num_args)` loop of `read_spec_entries`: `out` lists the
entries stored through the output pointers taken so far.  A round that reads
no entry has reached the end of the line, so `fuel = num_args + 1` rounds are
enough. -/
def read_spec_entries_loop (num_args : Nat) :
    Nat → Nat → List Char → List (Option (List Char)) → Nat × List (Option (List Char))
  | 0, items, _, out => (items, out)
  | fuel + 1, items, buf_p, out =>
    if items < num_args then
      if buf_p.isEmpty then (items, out)
      else
        let r := read_spec_entry buf_p
        read_spec_entries_loop num_args fuel (if r.1.isSome then items + 1 else items) r.2
          (out ++ [r.1])
    else (items, out)

/-- Mirror of `read_spec_entries`: the number of items and the entries stored,
in the order of the output pointers. -/
def read_spec_entries (line_buf : List Char) (num_args : Nat) :
    Nat × List (Option (List Char)) :=
  let line := if line_buf.getLast? = some '\n' then line_buf.dropLast else line_buf
  let buf_p := line.dropWhile c_isspace
  if buf_p.head? = some '#' ∨ buf_p.isEmpty then (0, [])
  else read_spec_entries_loop num_args (num_args + 1) 0 buf_p []

/-! ## `label_file.h`: `process_line` -/

/-- Mirror of `process_line`: the store afterwards and the return code.  The
optional `subset` is the `prefix` argument; logging and `compat_validate`
have no effect on the store. -/
def process_line {R S : Type} (E : pcre_engine R S) (validating : Bool)
    (subset : Option (List Char)) (d : saved_data R S) (line_buf : List Char) :
    saved_data R S × Int :=
  let r := read_spec_entries line_buf 3
  let items := r.1
  let regex := (r.2.getD 0 none).getD []
  if items = 0 then (d, 0)
  else if items < 2 then (d, 0)
  else
    let type := if items = 2 then none else r.2.getD 1 none
    let context := if items = 2 then (r.2.getD 1 none).getD [] else (r.2.getD 2 none).getD []
    let len := get_stem_from_spec regex
    if len ≠ 0 ∧ (match subset with
        | none => false
        | some p => !strncmp_eq p regex len) = true then (d, 0)
    else
      let d1 := grow_specs d
      let nspec := d.nspec
      let fs := find_stem_from_spec d1 regex
      let d2 := fs.1
      let sp0 : spec R S := { spec_at d2 nspec with stem_id := fs.2, regex_str := regex }
      let sp1 := if validating then (compile_regex E d2.stem_arr sp0).1 else sp0
      let mode := match type with
        | none => 0
        | some t => if string_to_mode t = MODE_INVALID then 0 else string_to_mode t
      let sp2 : spec R S := { sp1 with type_str := type, mode := mode, lr := ⟨context⟩ }
      let sp3 := spec_hasMetaChars sp2
      ({ d2 with spec_arr := d2.spec_arr.set nspec sp3, nspec := nspec + 1 }, 0)

/-- The `while (getline(...) > 0)` loop of `process_file` when no compiled file
is loaded: the lines are processed in order until one returns non-zero. -/
def process_lines {R S : Type} (E : pcre_engine R S) (validating : Bool)
    (subset : Option (List Char)) : saved_data R S → List (List Char) → saved_data R S × Int
  | d, [] => (d, 0)
  | d, line :: rest =>
    let r := process_line E validating subset d line
    if r.2 ≠ 0 then r else process_lines E validating subset r.1 rest

/-! ## `label_file.c`: `partial_match`, `nodups_specs` -/

/-- Mirror of `partial_match`: `lookup_common(rec, key, 0, true) ? true : false`,
with the store afterwards. -/
def partial_match {R S : Type} (E : pcre_engine R S) (d : saved_data R S)
    (key : List Char) : saved_data R S × Bool :=
  let r := lookup_common E d key 0 true
  (r.1, r.2.isSome)

/-- The call of `lookup_best_match` with the pointer `aliases` as the caller
passes it: `none` is a NULL pointer, `some l` an array holding the strings `l`
before its terminating NULL entry. -/
def lookup_best_match_call {R S : Type} (E : pcre_engine R S) (d : saved_data R S)
    (key : List Char) (aliases : Option (List (List Char))) (type : Int) :
    saved_data R S × Option Nat :=
  match aliases with
  | none => lookup E d key type
  | some l => lookup_best_match E d key l type

/-- The test of `nodups_specs` on a pair: the same pattern text, and one of the
two modes absent or both equal. -/
def nodups_clash {R S : Type} (curr sp : spec R S) : Bool :=
  (sp.regex_str == curr.regex_str) && (sp.mode == 0 || curr.mode == 0 || sp.mode == curr.mode)

/-- The inner loop of `nodups_specs` (`jj` over the specifications after
`curr`), threading `rc`. -/
def nodups_inner {R S : Type} (curr : spec R S) : List (spec R S) → Int → Int
  | [], rc => rc
  | sp :: rest, rc => nodups_inner curr rest (if nodups_clash curr sp then -1 else rc)

/-- The outer loop of `nodups_specs` (`ii` over the specifications in use),
threading `rc`. -/
def nodups_outer {R S : Type} : List (spec R S) → Int → Int
  | [], rc => rc
  | curr :: rest, rc => nodups_outer rest (nodups_inner curr rest rc)

/-- Mirror of `nodups_specs`: the store (the function only reads it and logs)
and the return code, 0 or -1. -/
def nodups_specs {R S : Type} (d : saved_data R S) : saved_data R S × Int :=
  (d, nodups_outer ((List.range d.nspec).map (spec_at d)) 0)

/-! ## `label_file.h` / `label_file.c`: the compiled file (`next_entry`, `load_mmap`)

The compiled file is a `List Char`, one `Char` a byte; integers are read in the
byte order of the host, taken to be little-endian.  The file is mapped in whole
pages, and the bytes of the last page behind the end of the file are 0: a read
behind the end of the list gives a shorter list, and `le_value`, `getD _ NUL`
and `c_str` take the missing bytes as NUL. -/

def SELINUX_MAGIC_COMPILED_FCONTEXT : Nat := 0xf97cff8a
def SELINUX_COMPILED_FCONTEXT_NOPCRE_VERS : Nat := 1
def SELINUX_COMPILED_FCONTEXT_PCRE_VERS : Nat := 2
def SELINUX_COMPILED_FCONTEXT_MODE : Nat := 3
def SELINUX_COMPILED_FCONTEXT_PREFIX_LEN : Nat := 4
def SELINUX_COMPILED_FCONTEXT_MAX_VERS : Nat := SELINUX_COMPILED_FCONTEXT_PREFIX_LEN
def UINT32_MAX : Nat := 4294967295

/-- The NUL byte. -/
def NUL : Char := Char.ofNat 0

/-- The C string that starts at the first of the given bytes. -/
def c_str (bytes : List Char) : List Char := bytes.takeWhile (fun c => c ≠ NUL)

/-- The value of an unsigned integer object, initially 0, into which the given
bytes have been copied. -/
def le_value : List Char → Nat
  | [] => 0
  | b :: rest => b.toNat % 256 + 256 * le_value rest

/-- The value of an `int32_t` object holding the bits of the `uint32_t` `n`. -/
def to_int32 (n : Nat) : Int := if n < 2147483648 then (n : Int) else (n : Int) - 4294967296

/-- Mirror of `struct mmap_area`: `addr` is the offset of the cursor in the
mapped file, `len` the number of bytes left. -/
structure mmap_area where
  addr : Nat
  len : Nat
  deriving DecidableEq, Repr

/-- Mirror of `next_entry` on the mapped file `mem`: `none` for the return
code -1 (the area is then unchanged), else the `bytes` bytes at the cursor
(copied to `buf` when that is not NULL) and the advanced area. -/
def next_entry (mem : List Char) (fp : mmap_area) (bytes : Nat) :
    Option (List Char × mmap_area) :=
  if bytes > fp.len then none
  else some ((mem.drop fp.addr).take bytes, { addr := fp.addr + bytes, len := fp.len - bytes })

/-- The call `next_entry(&x, mmap_area, sizeof(uint32_t))` for a 32-bit `x`. -/
def next_u32 (mem : List Char) (fp : mmap_area) : Option (Nat × mmap_area) :=
  match next_entry mem fp 4 with
  | none => none
  | some r => some (le_value r.1, r.2)

/-- The services of libpcre and of the platform that `load_mmap` uses:
`pcre_version()`; the compiled pattern and the study data that a pointer into
the mapped file denotes (given the bytes from that address on);
`pcre_fullinfo` for `PCRE_INFO_SIZE` and `PCRE_INFO_STUDYSIZE` (`none` for a
negative return code); `sizeof(mode_t)`; and `sysconf(_SC_PAGE_SIZE)`, a power
of two. -/
structure pcre_cache (R S : Type) where
  pcre_version : List Char
  regex_at : List Char → R
  study_at : List Char → S
  info_size : R → Option Nat
  info_studysize : R → S → Option Nat
  sizeof_mode_t : Nat
  page_size : Nat

/-- The length of the mapping of a compiled file: `len = st_size;
len += page - 1; len &= ~(page - 1)`, the size rounded up to whole pages. -/
def mapped_len {R S : Type} (A : pcre_cache R S) (mem : List Char) : Nat :=
  let len := mem.length + (A.page_size - 1)
  len - len % A.page_size

/-- The header checks of `load_mmap` (magic, version, and from version 2 on
the version string of libpcre): `none` for `return -1`, else the version and
the area behind the header. -/
def load_header {R S : Type} (A : pcre_cache R S) (mem : List Char) (fp : mmap_area) :
    Option (Nat × mmap_area) :=
  match next_u32 mem fp with
  | none => none
  | some (magic, fp1) =>
    if magic ≠ SELINUX_MAGIC_COMPILED_FCONTEXT then none
    else
      match next_u32 mem fp1 with
      | none => none
      | some (version, fp2) =>
        if version > SELINUX_COMPILED_FCONTEXT_MAX_VERS then none
        else if version ≥ SELINUX_COMPILED_FCONTEXT_PCRE_VERS then
          match next_u32 mem fp2 with
          | none => none
          | some (entry_len, fp3) =>
            if A.pcre_version.length ≠ entry_len then none
            else
              match next_entry mem fp3 entry_len with
              | none => none
              | some (str_buf, fp4) =>
                if c_str str_buf ≠ A.pcre_version then none else some (version, fp4)
        else some (version, fp2)

/-- The stem loop of `load_mmap`, with `n` stems still to read: the store
afterwards and, unless the loop went to `err`, the area and the filled part of
`stem_map`. -/
def load_stems {R S : Type} (mem : List Char) :
    Nat → saved_data R S → mmap_area → List Int → saved_data R S × Option (mmap_area × List Int)
  | 0, d, fp, stem_map => (d, some (fp, stem_map))
  | n + 1, d, fp, stem_map =>
    match next_u32 mem fp with
    | none => (d, none)
    | some (stem_len, fp1) =>
      if stem_len = 0 then (d, none)
      else if stem_len < UINT32_MAX then
        match next_entry mem fp1 (stem_len + 1) with
        | none => (d, none)
        | some (bytes, fp2) =>
          if bytes.getD stem_len NUL ≠ NUL then (d, none)
          else
            let buf := c_str (mem.drop fp1.addr)
            let newid := find_stem d buf stem_len
            if newid < 0 then
              let r := store_stem d buf stem_len
              let st := r.1.stem_arr.getD r.2.toNat default
              let stems := r.1.stem_arr.set r.2.toNat { st with from_mmap := true }
              load_stems mem n { r.1 with stem_arr := stems } fp2 (stem_map ++ [r.2])
            else load_stems mem n d fp2 (stem_map ++ [newid])
      else (d, none)

/-- The store with the slot `spec_arr[nspec]` replaced by `f` of it. -/
def set_slot {R S : Type} (d : saved_data R S) (f : spec R S → spec R S) : saved_data R S :=
  { d with spec_arr := d.spec_arr.set d.nspec (f (spec_at d d.nspec)) }

/-- The last part of one round of the specification loop of `load_mmap`: the
compiled pattern and the study data, each length-prefixed and checked against
`pcre_fullinfo`, then `data->nspec++`. -/
def load_spec_blobs {R S : Type} (A : pcre_cache R S) (mem : List Char)
    (d : saved_data R S) (fp : mmap_area) : saved_data R S × Option mmap_area :=
  match next_u32 mem fp with
  | none => (d, none)
  | some (entry_len, fp1) =>
    if entry_len = 0 then (d, none)
    else
      let regex := A.regex_at (mem.drop fp1.addr)
      let d1 := set_slot d (fun sp => { sp with regex := some regex })
      match next_entry mem fp1 entry_len with
      | none => (d1, none)
      | some (_, fp2) =>
        if A.info_size regex ≠ some entry_len then (d1, none)
        else
          match next_u32 mem fp2 with
          | none => (d1, none)
          | some (study_len, fp3) =>
            if study_len = 0 then (d1, none)
            else
              let study := A.study_at (mem.drop fp3.addr)
              let d2 := set_slot d1 (fun sp => { sp with sd := some study })
              match next_entry mem fp3 study_len with
              | none => (d2, none)
              | some (_, fp4) =>
                if A.info_studysize regex study ≠ some study_len then (d2, none)
                else ({ d2 with nspec := d2.nspec + 1 }, some fp4)

/-- The middle part of one round of the specification loop of `load_mmap`: the
mode, the stem id, the meta-character flag and, from version 4 on, the prefix
length. -/
def load_spec_fields {R S : Type} (A : pcre_cache R S) (mem : List Char) (version : Nat)
    (stem_map_len : Nat) (stem_map : List Int) (d : saved_data R S) (fp : mmap_area) :
    saved_data R S × Option mmap_area :=
  let mode_size := if version ≥ SELINUX_COMPILED_FCONTEXT_MODE then 4 else A.sizeof_mode_t
  match next_entry mem fp mode_size with
  | none => (d, none)
  | some (mode_bytes, fp1) =>
    let d1 := set_slot d (fun sp => { sp with mode := le_value mode_bytes })
    match next_u32 mem fp1 with
    | none => (d1, none)
    | some (stem_bits, fp2) =>
      let stem_id := to_int32 stem_bits
      let id : Int :=
        if stem_id < 0 ∨ stem_id ≥ to_int32 stem_map_len then -1
        else stem_map.getD stem_id.toNat 0
      let d2 := set_slot d1 (fun sp => { sp with stem_id := id })
      match next_u32 mem fp2 with
      | none => (d2, none)
      | some (meta_chars, fp3) =>
        let d3 := set_slot d2 (fun sp => { sp with hasMetaChars := decide (meta_chars % 256 ≠ 0) })
        if version ≥ SELINUX_COMPILED_FCONTEXT_PREFIX_LEN then
          match next_u32 mem fp3 with
          | none => (d3, none)
          | some (plen, fp4) =>
            load_spec_blobs A mem (set_slot d3 (fun sp => { sp with prefix_len := plen })) fp4
        else load_spec_blobs A mem d3 fp3

/-- One round of the specification loop of `load_mmap`: the slot
`spec_arr[nspec]` is filled field by field, and `nspec` is incremented when
the whole record has been read; `none` stands for `goto err`. -/
def load_spec_record {R S : Type} (A : pcre_cache R S) (mem : List Char) (version : Nat)
    (stem_map_len : Nat) (stem_map : List Int) (d : saved_data R S) (fp : mmap_area) :
    saved_data R S × Option mmap_area :=
  let d0 := set_slot (grow_specs d) (fun sp => { sp with from_mmap := true, regcomp := true })
  match next_u32 mem fp with
  | none => (d0, none)
  | some (ctx_len, fp1) =>
    if ctx_len = 0 then (d0, none)
    else
      match next_entry mem fp1 ctx_len with
      | none => (d0, none)
      | some (str_buf, fp2) =>
        if str_buf.getD (ctx_len - 1) NUL ≠ NUL then (d0, none)
        else
          let d1 := set_slot d0 (fun sp => { sp with lr := ⟨c_str str_buf⟩ })
          match next_u32 mem fp2 with
          | none => (d1, none)
          | some (regex_len, fp3) =>
            if regex_len = 0 then (d1, none)
            else
              let d2 := set_slot d1 (fun sp => { sp with regex_str := c_str (mem.drop fp3.addr) })
              match next_entry mem fp3 regex_len with
              | none => (d2, none)
              | some (regex_bytes, fp4) =>
                if regex_bytes.getD (regex_len - 1) NUL ≠ NUL then (d2, none)
                else load_spec_fields A mem version stem_map_len stem_map d2 fp4

/-- The specification loop of `load_mmap`, with `n` records still to read. -/
def load_specs {R S : Type} (A : pcre_cache R S) (mem : List Char) (version : Nat)
    (stem_map_len : Nat) (stem_map : List Int) :
    Nat → saved_data R S → mmap_area → saved_data R S × Option mmap_area
  | 0, d, fp => (d, some fp)
  | n + 1, d, fp =>
    let r := load_spec_record A mem version stem_map_len stem_map d fp
    match r.2 with
    | none => (r.1, none)
    | some fp1 => load_specs A mem version stem_map_len stem_map n r.1 fp1

/-- Mirror of `load_mmap` from the point where the compiled file is mapped
(`mem` holds the bytes of the file): the store afterwards and the return code,
0 or -1.  An empty file cannot be mapped, and `load_mmap` returns -1 for it as
the model does, its first read failing. -/
def load_mmap {R S : Type} (A : pcre_cache R S) (d : saved_data R S) (mem : List Char) :
    saved_data R S × Int :=
  match load_header A mem ⟨0, mapped_len A mem⟩ with
  | none => (d, -1)
  | some (version, fp) =>
    match next_u32 mem fp with
    | none => (d, -1)
    | some (stem_map_len, fp1) =>
      if stem_map_len = 0 then (d, -1)
      else
        let r := load_stems mem stem_map_len d fp1 []
        match r.2 with
        | none => (r.1, -1)
        | some (fp2, stem_map) =>
          match next_u32 mem fp2 with
          | none => (r.1, -1)
          | some (regex_array_len, fp3) =>
            if regex_array_len = 0 then (r.1, -1)
            else
              let r2 := load_specs A mem version stem_map_len stem_map regex_array_len r.1 fp3
              match r2.2 with
              | none => (r2.1, -1)
              | some _ => (r2.1, 0)

/-! ## `label_file.c`: `process_file`, `init` -/

/-- What `process_file` finds under a path: no file (`fopen` fails with
`ENOENT`), a file it cannot use (another failure of `fopen` or `fstat`, or not
a regular file), or a regular file with its lines and, when a compiled file
that is not older exists and can be opened, the bytes of that file. -/
inductive spec_file where
  | absent : spec_file
  | unusable : spec_file
  | present : List (List Char) → Option (List Char) → spec_file

/-- The outcome of `process_file`: the store, the return code, and whether
`errno` is `ENOENT` when the return code is not 0. -/
structure file_result (R S : Type) where
  data : saved_data R S
  rc : Int
  enoent : Bool

/-- Mirror of `process_file`: the compiled file is tried first; when
`load_mmap` does not return 0 the lines of the text file are processed. -/
def process_file {R S : Type} (E : pcre_engine R S) (A : pcre_cache R S)
    (validating : Bool) (subset : Option (List Char)) (d : saved_data R S)
    (f : spec_file) : file_result R S :=
  match f with
  | spec_file.absent => ⟨d, -1, true⟩
  | spec_file.unusable => ⟨d, -1, false⟩
  | spec_file.present lines cache =>
    let m : saved_data R S × Int :=
      match cache with
      | none => (d, -1)
      | some mem => load_mmap A d mem
    if m.2 = 0 then ⟨m.1, 0, false⟩
    else
      let r := process_lines E validating subset m.1 lines
      ⟨r.1, r.2, false⟩

/-- The store after `free(data->spec_arr)`: no slot is left. -/
def free_spec_arr {R S : Type} (d : saved_data R S) : saved_data R S :=
  { d with spec_arr := [] }

/-- Mirror of `init` from the call of `process_file` on: `validating` is
`rec->validating`, `subset` the `SELABEL_OPT_SUBSET` option, `baseonly` the
`SELABEL_OPT_BASEONLY` option, and the three files are the specification file
and its `.homedirs` and `.local` companions. -/
def init {R S : Type} (E : pcre_engine R S) (A : pcre_cache R S)
    (validating : Bool) (subset : Option (List Char)) (baseonly : Bool)
    (file homedirs local_file : spec_file) (d : saved_data R S) : saved_data R S × Int :=
  let r := process_file E A validating subset d file
  if r.rc ≠ 0 then (free_spec_arr r.data, r.rc)
  else
    let dups : Int := if validating then (nodups_specs r.data).2 else 0
    if dups ≠ 0 then (free_spec_arr r.data, dups)
    else if baseonly then (sort_specs r.data, 0)
    else
      let h := process_file E A validating subset r.data homedirs
      if h.rc ≠ 0 ∧ h.enoent = false then (free_spec_arr h.data, h.rc)
      else
        let l := process_file E A validating subset h.data local_file
        if l.rc ≠ 0 ∧ l.enoent = false then (free_spec_arr l.data, l.rc)
        else (sort_specs l.data, 0)

/-! ## A small pattern engine for the worked examples

The theorems below hold for every `pcre_engine`.  The worked examples need one
concrete engine; `demo_engine` implements the fragment of the pattern syntax
they use (literals, `.`, `*`, `+`, `?`, groups, `|` inside a group and
backslash escapes, between the anchors `^` and `$`) by Brzozowski derivatives,
for subjects without a newline; any other pattern fails to compile. -/

/-- Patterns of the demo engine. -/
inductive demo_re where
  | void : demo_re
  | eps : demo_re
  | chr : Char → demo_re
  | any : demo_re
  | seq : demo_re → demo_re → demo_re
  | alt : demo_re → demo_re → demo_re
  | star : demo_re → demo_re
  deriving DecidableEq, Repr

namespace demo_re

/-- The pattern matches the empty string. -/
def nullable : demo_re → Bool
  | void => false
  | eps => true
  | chr _ => false
  | any => false
  | seq a b => nullable a && nullable b
  | alt a b => nullable a || nullable b
  | star _ => true

/-- The pattern matches at least one string. -/
def inhabited : demo_re → Bool
  | void => false
  | eps => true
  | chr _ => true
  | any => true
  | seq a b => inhabited a && inhabited b
  | alt a b => inhabited a || inhabited b
  | star _ => true

/-- Sequence, absorbing `void` and `eps`. -/
def mk_seq : demo_re → demo_re → demo_re
  | void, _ => void
  | _, void => void
  | eps, b => b
  | a, eps => a
  | a, b => seq a b

/-- Alternative, absorbing `void`. -/
def mk_alt : demo_re → demo_re → demo_re
  | void, b => b
  | a, void => a
  | a, b => alt a b

/-- Brzozowski derivative with respect to one character. -/
def deriv : demo_re → Char → demo_re
  | void, _ => void
  | eps, _ => void
  | chr a, c => if a = c then eps else void
  | any, _ => eps
  | seq a b, c =>
    if nullable a then mk_alt (mk_seq (deriv a c) b) (deriv b c)
    else mk_seq (deriv a c) b
  | alt a b, c => mk_alt (deriv a c) (deriv b c)
  | star a, c => mk_seq (deriv a c) (star a)

end demo_re

/-- One open group of the demo parser: the finished alternatives and the atoms
of the alternative under construction, last atom first. -/
structure demo_frame where
  alts : List demo_re
  cur : List demo_re

/-- The sequence of the atoms `cur` (last atom first). -/
def demo_seq_of (cur : List demo_re) : demo_re :=
  cur.foldl (fun acc a => demo_re.mk_seq a acc) demo_re.eps

/-- The pattern of a closed group. -/
def demo_close (f : demo_frame) : demo_re :=
  f.alts.foldr demo_re.mk_alt (demo_seq_of f.cur)

/-- Parser of the demo engine: `stack` holds the open groups, innermost first;
`esc` tells that the previous byte was a backslash. -/
def demo_parse : List Char → List demo_frame → Bool → Option demo_re
  | [], [f], false => some (demo_close f)
  | [], _, _ => none
  | _ :: _, [], _ => none
  | c :: rest, f :: stack, true =>
    demo_parse rest ({ f with cur := demo_re.chr c :: f.cur } :: stack) false
  | c :: rest, f :: stack, false =>
    if c = '\\' then demo_parse rest (f :: stack) true
    else if c = '(' then demo_parse rest (⟨[], []⟩ :: f :: stack) false
    else if c = ')' then
      match stack with
      | [] => none
      | g :: stack1 => demo_parse rest ({ g with cur := demo_close f :: g.cur } :: stack1) false
    else if c = '|' then
      if stack.isEmpty then none
      else demo_parse rest (⟨f.alts ++ [demo_seq_of f.cur], []⟩ :: stack) false
    else if c = '*' ∨ c = '+' ∨ c = '?' then
      match f.cur with
      | [] => none
      | a :: cur1 =>
        let q := if c = '*' then demo_re.star a
                 else if c = '+' then demo_re.seq a (demo_re.star a)
                 else demo_re.alt a demo_re.eps
        demo_parse rest ({ f with cur := q :: cur1 } :: stack) false
    else if c = '.' then demo_parse rest ({ f with cur := demo_re.any :: f.cur } :: stack) false
    else if c = '^' ∨ c = '$' ∨ c = '[' ∨ c = ']' ∨ c = '{' ∨ c = '}' then none
    else demo_parse rest ({ f with cur := demo_re.chr c :: f.cur } :: stack) false

/-- Compilation in the demo engine: the text must be `^body$`. -/
def demo_compile (text : List Char) : Option demo_re :=
  match text with
  | '^' :: body =>
    if body.getLast? = some '$' then demo_parse body.dropLast [⟨[], []⟩] false else none
  | _ => none

/-- Execution in the demo engine: 0 on a match of the whole subject,
`PCRE_ERROR_PARTIAL` in soft mode when the subject can still be extended to a
match, `PCRE_ERROR_NOMATCH` otherwise. -/
def demo_exec (r : demo_re) (subject : List Char) (soft : Bool) : Int :=
  let r1 := subject.foldl demo_re.deriv r
  if r1.nullable then 0
  else if soft ∧ r1.inhabited then PCRE_ERROR_PARTIAL
  else PCRE_ERROR_NOMATCH

/-- The demo engine; it has no study data. -/
def demo_engine : pcre_engine demo_re Unit :=
  { pcre_compile := demo_compile
    pcre_study := fun _ => study_result.ok none
    pcre_exec := fun r _ subject soft => demo_exec r subject soft }

/-- The text of a demo pattern; compiled demo patterns are stored in a
compiled file as this text followed by a NUL byte. -/
def demo_print : demo_re → List Char
  | demo_re.void => ['[', ']']
  | demo_re.eps => []
  | demo_re.chr c => if is_meta_char c ∨ c = ')' ∨ c = '\\' then ['\\', c] else [c]
  | demo_re.any => ['.']
  | demo_re.seq a b => demo_print a ++ demo_print b
  | demo_re.alt a b => '(' :: (demo_print a ++ '|' :: (demo_print b ++ [')']))
  | demo_re.star a => '(' :: (demo_print a ++ [')', '*'])

/-- The services of `load_mmap` for the demo engine: a compiled pattern in the
mapped file is the NUL-terminated text of the pattern, its size is the length
of that text plus one; study data is one byte. -/
def demo_cache : pcre_cache demo_re Unit :=
  { pcre_version := "8.32".toList
    regex_at := fun bytes => (demo_parse (c_str bytes) [⟨[], []⟩] false).getD demo_re.void
    study_at := fun _ => ()
    info_size := fun r => some ((demo_print r).length + 1)
    info_studysize := fun _ _ => some 1
    sizeof_mode_t := 4
    page_size := 4096 }

/-- The four bytes of a 32-bit value in the byte order of the host. -/
def enc32 (n : Nat) : List Char :=
  [Char.ofNat (n % 256), Char.ofNat (n / 256 % 256), Char.ofNat (n / 65536 % 256),
    Char.ofNat (n / 16777216 % 256)]

/-- A length-prefixed NUL-terminated string whose length counts the NUL (the
form of labels and pattern texts in a compiled file). -/
def enc_str (s : List Char) : List Char := enc32 (s.length + 1) ++ s ++ [NUL]

/-- A stem record of a compiled file: the length does not count the NUL. -/
def enc_stem (s : List Char) : List Char := enc32 s.length ++ s ++ [NUL]

/-- The length-prefixed compiled pattern and study data of a demo pattern. -/
def enc_blobs (r : demo_re) : List Char :=
  enc32 ((demo_print r).length + 1) ++ demo_print r ++ [NUL] ++ enc32 1 ++ [NUL]

/-- A specification record of a version 4 compiled file for the demo engine;
`stem_id` is the stem id written and `stem_len` the length of the stem, which
the compiled pattern leaves out. -/
def enc_spec (context regex : List Char) (mode : Nat) (stem_id : Nat) (stem_len : Nat)
    (has_meta : Nat) (plen : Nat) : List Char :=
  enc_str context ++ enc_str regex ++ enc32 mode ++ enc32 stem_id ++ enc32 has_meta ++
    enc32 plen ++
    enc_blobs ((demo_compile ('^' :: (regex.drop stem_len ++ ['$']))).getD demo_re.void)

/-- The match oracle of the demo engine, a function of the pattern text and
the stem length: the pattern without its stem is compiled between the anchors
and run on the subject (`none` when it does not compile). -/
def demo_oracle (regex_str : List Char) (stem_len : Nat) (subject : List Char) : Option Int :=
  (demo_compile ('^' :: (regex_str.drop stem_len ++ ['$']))).map
    (fun r => demo_exec r subject false)

/-- The header of a version 4 compiled file for the demo engine. -/
def enc_header : List Char :=
  enc32 SELINUX_MAGIC_COMPILED_FCONTEXT ++ enc32 4 ++ enc32 4 ++ "8.32".toList

/-! ## Notions used to state the properties -/

/-- What trying one specification on a subject gives: `none` when
`compile_regex` fails, else the return code of `pcre_exec`. -/
def spec_try {R S : Type} (E : pcre_engine R S) (stem_arr : List stem)
    (sp : spec R S) (subject : List Char) (soft : Bool) : Option Int :=
  let c := compile_regex E stem_arr sp
  if c.2 < 0 then none else some (exec_spec E c.1 subject soft)

/-- The subject a specification is matched against: the whole key when it has
no stem, the text after the file's stem otherwise. -/
def subject_of {R S : Type} (sp : spec R S) (key buf : List Char) : List Char :=
  if sp.stem_id = -1 then key else buf

/-- The data of a query that the walk works with. -/
structure query where
  key : List Char
  buf : List Char
  file_stem : Int
  mode : Nat

/-- The query that `lookup_common` derives from a key and a type. -/
def query_of {R S : Type} (d : saved_data R S) (key : List Char) (type : Int) : query :=
  let key1 := clean_key key
  let fs := find_stem_from_file d key1
  ⟨key1, fs.2, fs.1, query_mode type⟩

/-- The return code of trying `sp` for the query `q` (`none`: compile failure). -/
def try_query {R S : Type} (E : pcre_engine R S) (stem_arr : List stem)
    (q : query) (sp : spec R S) (soft : Bool) : Option Int :=
  spec_try E stem_arr sp (subject_of sp q.key q.buf) soft

/-- The specification passes the pre-filter of the query and its pattern
matches the subject (return code 0). -/
def spec_hit {R S : Type} (E : pcre_engine R S) (stem_arr : List stem)
    (q : query) (sp : spec R S) : Prop :=
  candidate sp q.file_stem q.mode = true ∧ try_query E stem_arr q sp false = some 0

instance spec_hit_decidable {R S : Type} (E : pcre_engine R S) (stem_arr : List stem)
    (q : query) (sp : spec R S) : Decidable (spec_hit E stem_arr q sp) :=
  inferInstanceAs (Decidable (_ ∧ _))

/-- How the walk over the slots `specs 0 .. specs (n-1)` ends, computed from
the slots as they are before the walk. -/
def walk_ending {R S : Type} (E : pcre_engine R S) (stem_arr : List stem)
    (q : query) (soft : Bool) (specs : Nat → spec R S) : Nat → walk_end
  | 0 => walk_end.exhausted
  | i + 1 =>
    if candidate (specs i) q.file_stem q.mode then
      match try_query E stem_arr q (specs i) soft with
      | none => walk_end.failed
      | some rc =>
        if rc = 0 then walk_end.stopped i
        else if soft ∧ rc = PCRE_ERROR_PARTIAL then walk_end.stopped i
        else if rc = PCRE_ERROR_NOMATCH then walk_ending E stem_arr q soft specs i
        else walk_end.failed
    else walk_ending E stem_arr q soft specs i

/-- The store after `compile_regex` has been run on slot `i`. -/
def store_compiled {R S : Type} (E : pcre_engine R S) (d : saved_data R S) (i : Nat) :
    saved_data R S :=
  { d with spec_arr := d.spec_arr.set i (compile_regex E d.stem_arr (spec_at d i)).1 }

/-- The store after slot `i` has been compiled and its hit counted. -/
def store_counted {R S : Type} (E : pcre_engine R S) (d : saved_data R S) (i : Nat) :
    saved_data R S :=
  let c := compile_regex E d.stem_arr (spec_at d i)
  let hit : spec R S := { c.1 with matches_ := int_incr c.1.matches_ }
  { d with spec_arr := (d.spec_arr.set i c.1).set i hit }

/-- The return code of `pcre_exec` on the compiled slot `i` in the walk. -/
def walk_rc {R S : Type} (E : pcre_engine R S) (d : saved_data R S) (i : Nat)
    (key buf : List Char) (soft : Bool) : Int :=
  if (compile_regex E d.stem_arr (spec_at d i)).1.stem_id = -1
  then exec_spec E (compile_regex E d.stem_arr (spec_at d i)).1 key soft
  else exec_spec E (compile_regex E d.stem_arr (spec_at d i)).1 buf soft

/-- Two specifications differ at most in hit count and compilation state, and
trying either gives the same return code on every subject. -/
def spec_equiv {R S : Type} (E : pcre_engine R S) (stem_arr : List stem)
    (a b : spec R S) : Prop :=
  a.lr = b.lr ∧ a.regex_str = b.regex_str ∧ a.type_str = b.type_str ∧
  a.mode = b.mode ∧ a.stem_id = b.stem_id ∧ a.hasMetaChars = b.hasMetaChars ∧
  a.from_mmap = b.from_mmap ∧ a.prefix_len = b.prefix_len ∧
  ∀ subject soft, spec_try E stem_arr a subject soft = spec_try E stem_arr b subject soft

/-- Two stores with the same stems and count whose slots are equivalent. -/
def store_equiv {R S : Type} (E : pcre_engine R S) (d d1 : saved_data R S) : Prop :=
  d.nspec = d1.nspec ∧ d.stem_arr = d1.stem_arr ∧
  ∀ i, spec_equiv E d.stem_arr (spec_at d i) (spec_at d1 i)

/-- The pointer returned by `lookup_common`, computed from the store as it is
before the call. -/
def lookup_index {R S : Type} (E : pcre_engine R S) (d : saved_data R S)
    (key : List Char) (type : Int) (soft : Bool) : Option Nat :=
  match walk_ending E d.stem_arr (query_of d key type) soft (spec_at d) d.nspec with
  | walk_end.stopped i => if (spec_at d i).lr.ctx_raw = none_label then none else some i
  | _ => none

/-- The maximal runs of non-blank bytes of a line, in order. -/
def ws_tokens (line : List Char) : List (List Char) :=
  (line.splitOnP c_isspace).filter (fun t => !t.isEmpty)

/-- The first non-blank byte of a line, `none` for a blank line. -/
def first_nonblank (line : List Char) : Option Char :=
  line.find? (fun c => !c_isspace c)

/-- The part of `process_line` that follows the reading of the entries, for
the pattern `regex`, the optional type token and the label `context`. -/
def process_entries {R S : Type} (E : pcre_engine R S) (validating : Bool)
    (subset : Option (List Char)) (d : saved_data R S)
    (regex : List Char) (type : Option (List Char)) (context : List Char) :
    saved_data R S × Int :=
  let len := get_stem_from_spec regex
  if len ≠ 0 ∧ (match subset with
      | none => false
      | some p => !strncmp_eq p regex len) = true then (d, 0)
  else
    let d1 := grow_specs d
    let nspec := d.nspec
    let fs := find_stem_from_spec d1 regex
    let d2 := fs.1
    let sp0 : spec R S := { spec_at d2 nspec with stem_id := fs.2, regex_str := regex }
    let sp1 := if validating then (compile_regex E d2.stem_arr sp0).1 else sp0
    let mode := match type with
      | none => 0
      | some t => if string_to_mode t = MODE_INVALID then 0 else string_to_mode t
    let sp2 : spec R S := { sp1 with type_str := type, mode := mode, lr := ⟨context⟩ }
    let sp3 := spec_hasMetaChars sp2
    ({ d2 with spec_arr := d2.spec_arr.set nspec sp3, nspec := nspec + 1 }, 0)

/-- The prefix filter of `process_line` discards the pattern: a prefix is given,
the pattern has a stem, and `strncmp(prefix, regex, len)` is not 0. -/
def subset_discards (subset : Option (List Char)) (regex : List Char) : Prop :=
  ∃ p, subset = some p ∧ get_stem_from_spec regex ≠ 0 ∧
    strncmp_eq p regex (get_stem_from_spec regex) = false

/-- The array has at least the `alloc_specs` slots of which `grow_specs` takes
the unused ones. -/
def slots_ok {R S : Type} (d : saved_data R S) : Prop :=
  d.alloc_specs ≤ d.spec_arr.length

/-- The 32-bit field at offset `off` of a mapped file. -/
def field32 (mem : List Char) (off : Nat) : Nat := le_value ((mem.drop off).take 4)

/-- The header of a compiled file fails one of the checks: the mapping is too
short for the magic or the version, a wrong magic, a version above 4, or, from
version 2 on, a mapping too short for the length-prefixed version string of
the pattern engine, or a string of another length or with another byte than
the running engine's. -/
def header_rejected {R S : Type} (A : pcre_cache R S) (mem : List Char) : Prop :=
  mapped_len A mem < 4 ∨ field32 mem 0 ≠ SELINUX_MAGIC_COMPILED_FCONTEXT ∨
  mapped_len A mem < 8 ∨
  field32 mem 4 > SELINUX_COMPILED_FCONTEXT_MAX_VERS ∨
  (field32 mem 4 ≥ SELINUX_COMPILED_FCONTEXT_PCRE_VERS ∧
    (mapped_len A mem < 12 ∨ field32 mem 8 ≠ A.pcre_version.length ∨
      mapped_len A mem < 12 + field32 mem 8 ∨
      (mem.drop 12).take (field32 mem 8) ≠ A.pcre_version))

/-- Where the header of an accepted mapped file ends: behind the version
string from version 2 on, behind the version field before. -/
def header_end {R S : Type} (A : pcre_cache R S) (mem : List Char) : mmap_area :=
  if field32 mem 4 ≥ SELINUX_COMPILED_FCONTEXT_PCRE_VERS then
    ⟨12 + A.pcre_version.length, mapped_len A mem - (12 + A.pcre_version.length)⟩
  else ⟨8, mapped_len A mem - 8⟩

/-- The stem test of `find_stem` and `find_stem_from_file`. -/
def stem_matches (buf : List Char) (stem_len : Nat) (st : stem) : Prop :=
  stem_len = st.len ∧ strncmp_eq buf st.buf stem_len = true

/-- No two stems of the index have the same length and the same text. -/
def stems_distinct (stems : List stem) : Prop :=
  stems.Pairwise (fun a b => ¬ (a.len = b.len ∧ strncmp_eq a.buf b.buf a.len = true))

/-- The stem id is -1 or the index of a stem. -/
def stem_id_ok (stems : List stem) (id : Int) : Prop :=
  id = -1 ∨ (0 ≤ id ∧ id.toNat < stems.length)

/-- Every specification in use has the stem id -1 or the index of a stem. -/
def stem_ids_ok {R S : Type} (d : saved_data R S) : Prop :=
  ∀ i, i < d.nspec → stem_id_ok d.stem_arr (spec_at d i).stem_id

/-- What both loaders keep true of the store: the allocated slots exist, the
stems are distinct and the stem ids of the specifications are in range. -/
def store_ok {R S : Type} (d : saved_data R S) : Prop :=
  slots_ok d ∧ stems_distinct d.stem_arr ∧ stem_ids_ok d

/-- The store `d1` differs from `d` at most in the contents of the slot
`spec_arr[nspec]`. -/
def slot_changed {R S : Type} (d d1 : saved_data R S) : Prop :=
  d1.stem_arr = d.stem_arr ∧ d1.nspec = d.nspec ∧ d1.alloc_specs = d.alloc_specs ∧
  d1.spec_arr.length = d.spec_arr.length ∧ ∀ i, i ≠ d.nspec → spec_at d1 i = spec_at d i

/-- What the stem loop of `load_mmap` keeps true when it runs `n` rounds from
the store `d` and the map `stem_map` and ends with `r`: the stems stay
distinct, only stems are added, and a finished map has `n` more entries, each
the index of a stem. -/
def stems_loaded {R S : Type} (d : saved_data R S) (stem_map : List Int) (n : Nat)
    (r : saved_data R S × Option (mmap_area × List Int)) : Prop :=
  stems_distinct r.1.stem_arr ∧ r.1.spec_arr = d.spec_arr ∧ r.1.nspec = d.nspec ∧
  r.1.alloc_specs = d.alloc_specs ∧ d.stem_arr.length ≤ r.1.stem_arr.length ∧
  ∀ fp1 map1, r.2 = some (fp1, map1) →
    map1.length = stem_map.length + n ∧ ∀ x ∈ map1, 0 ≤ x ∧ x.toNat < r.1.stem_arr.length

/-- The store that `load_mmap` builds from a mapped file on a fresh handle. -/
def cache_store {R S : Type} (A : pcre_cache R S) (mem : List Char) : saved_data R S :=
  (load_mmap A (empty_data R S) mem).1

/-- The store that the text parser builds from the lines of a file on a fresh
handle. -/
def text_store {R S : Type} (E : pcre_engine R S) (validating : Bool)
    (subset : Option (List Char)) (lines : List (List Char)) : saved_data R S :=
  (process_lines E validating subset (empty_data R S) lines).1

/-- The text and the length of the stem of a specification, `none` when it
has no stem. -/
def spec_stem {R S : Type} (d : saved_data R S) (sp : spec R S) : Option (List Char × Nat) :=
  if sp.stem_id < 0 then none
  else some ((d.stem_arr.getD sp.stem_id.toNat default).buf, stem_len_at d.stem_arr sp.stem_id)

/-- The length of the stem of a specification, 0 when it has no stem. -/
def spec_stem_len {R S : Type} (d : saved_data R S) (sp : spec R S) : Nat :=
  if sp.stem_id < 0 then 0 else stem_len_at d.stem_arr sp.stem_id

/-- The `i`-th records of two stores have the same pattern text, label, type
filter, meta-character flag and stem text. -/
def records_agree {R S : Type} (dc dt : saved_data R S) (i : Nat) : Prop :=
  (spec_at dc i).regex_str = (spec_at dt i).regex_str ∧
  (spec_at dc i).lr.ctx_raw = (spec_at dt i).lr.ctx_raw ∧
  (spec_at dc i).mode = (spec_at dt i).mode ∧
  (spec_at dc i).hasMetaChars = (spec_at dt i).hasMetaChars ∧
  spec_stem dc (spec_at dc i) = spec_stem dt (spec_at dt i)

instance records_agree_decidable {R S : Type} (dc dt : saved_data R S) (i : Nat) :
    Decidable (records_agree dc dt i) :=
  inferInstanceAs (Decidable (_ ∧ _))

/-- The area `*fp` after the call `next_entry(buf, fp, bytes)`: the advanced
area, or the area as it was when the call returns -1. -/
def area_after (mem : List Char) (fp : mmap_area) (bytes : Nat) : mmap_area :=
  match next_entry mem fp bytes with
  | none => fp
  | some r => r.2

/-- The area after a sequence of calls of `next_entry` with the given byte
counts, failed calls included. -/
def area_after_all (mem : List Char) : mmap_area → List Nat → mmap_area
  | fp, [] => fp
  | fp, n :: ns => area_after_all mem (area_after mem fp n) ns

/-- Whether a left-to-right scan that skips the byte after every backslash it
meets looks at the byte at index `i` of `s`. -/
def scan_visits (s : List Char) : Nat → Bool
  | 0 => true
  | i + 1 => !(scan_visits s i && s.getD i NUL == '\\')

/-- Index `i` of the pattern holds a meta character that the scan looks at. -/
def unskipped_meta (s : List Char) (i : Nat) : Prop :=
  i < s.length ∧ scan_visits s i = true ∧ is_meta_char (s.getD i NUL) = true

/-- What the unsplit anchored pattern `^pattern$` of a specification gives on
a whole path: the specification is compiled and run as one without a stem. -/
def unsplit_try {R S : Type} (E : pcre_engine R S) (sp : spec R S) (key : List Char) :
    Option Int :=
  spec_try E [] { sp with stem_id := -1, regcomp := false } key false

/-- The fields of one specification record of a compiled file, in the order
of the layout: label, pattern text, type filter, signed stem id, has-meta
flag, fixed-prefix length (from version 4 on), compiled pattern blob and
auxiliary blob, the last two as the pattern engine reads them. -/
structure cache_record (R S : Type) where
  label : List Char
  pattern_text : List Char
  type_filter : Nat
  stem_id : Int
  has_meta : Nat
  fixed_prefix_len : Option Nat
  pattern_blob : R
  aux_blob : S

/-- A length-prefixed run of bytes at the cursor: its declared length, which
must not be 0, the bytes from its first byte on, and the cursor behind it. -/
def decode_blob (mem : List Char) (fp : mmap_area) : Option (Nat × List Char × mmap_area) :=
  match next_u32 mem fp with
  | none => none
  | some (len, fp1) =>
    if len = 0 then none
    else
      match next_entry mem fp1 len with
      | none => none
      | some (_, fp2) => some (len, mem.drop fp1.addr, fp2)

/-- A length-prefixed string at the cursor that is NUL-terminated within its
declared length: the string and the cursor behind it. -/
def decode_string (mem : List Char) (fp : mmap_area) : Option (List Char × mmap_area) :=
  match decode_blob mem fp with
  | none => none
  | some (len, bytes, fp1) =>
    if bytes.getD (len - 1) NUL ≠ NUL then none else some (c_str bytes, fp1)

/-- The compiled pattern blob and the auxiliary blob at the cursor, each
length-prefixed and of the size that the pattern engine reports for it. -/
def decode_blobs {R S : Type} (A : pcre_cache R S) (mem : List Char) (fp : mmap_area) :
    Option (R × S × mmap_area) :=
  match decode_blob mem fp with
  | none => none
  | some (len, bytes, fp1) =>
    if A.info_size (A.regex_at bytes) ≠ some len then none
    else
      match decode_blob mem fp1 with
      | none => none
      | some (aux_len, aux_bytes, fp2) =>
        if A.info_studysize (A.regex_at bytes) (A.study_at aux_bytes) ≠ some aux_len then none
        else some (A.regex_at bytes, A.study_at aux_bytes, fp2)

/-- The fixed-prefix length field at the cursor: a 32-bit field from version
4 on, absent before. -/
def decode_prefix_len (mem : List Char) (version : Nat) (fp : mmap_area) :
    Option (Option Nat × mmap_area) :=
  if version ≥ SELINUX_COMPILED_FCONTEXT_PREFIX_LEN then
    match next_u32 mem fp with
    | none => none
    | some (plen, fp1) => some (some plen, fp1)
  else some (none, fp)

/-- The part of a specification record behind its two strings: the type
filter (32 bits from version 3 on, of the size of `mode_t` before), the signed
stem id, the has-meta flag, the fixed-prefix length and the two blobs. -/
def decode_fields {R S : Type} (A : pcre_cache R S) (mem : List Char) (version : Nat)
    (label pattern_text : List Char) (fp : mmap_area) :
    Option (cache_record R S × mmap_area) :=
  match next_entry mem fp
      (if version ≥ SELINUX_COMPILED_FCONTEXT_MODE then 4 else A.sizeof_mode_t) with
  | none => none
  | some (mode_bytes, fp1) =>
    match next_u32 mem fp1 with
    | none => none
    | some (stem_bits, fp2) =>
      match next_u32 mem fp2 with
      | none => none
      | some (meta_chars, fp3) =>
        match decode_prefix_len mem version fp3 with
        | none => none
        | some (plen, fp4) =>
          match decode_blobs A mem fp4 with
          | none => none
          | some (regex, study, fp5) =>
            some (⟨label, pattern_text, le_value mode_bytes, to_int32 stem_bits, meta_chars,
              plen, regex, study⟩, fp5)

/-- One specification record at the cursor, decoded by the layout of the
compiled file, and the cursor behind it. -/
def decode_record {R S : Type} (A : pcre_cache R S) (mem : List Char) (version : Nat)
    (fp : mmap_area) : Option (cache_record R S × mmap_area) :=
  match decode_string mem fp with
  | none => none
  | some (label, fp1) =>
    match decode_string mem fp1 with
    | none => none
    | some (pattern_text, fp2) => decode_fields A mem version label pattern_text fp2

/-- The next `n` specification records at the cursor, in order. -/
def decode_records {R S : Type} (A : pcre_cache R S) (mem : List Char) (version : Nat) :
    Nat → mmap_area → Option (List (cache_record R S) × mmap_area)
  | 0, fp => some ([], fp)
  | n + 1, fp =>
    match decode_record A mem version fp with
    | none => none
    | some (r, fp1) =>
      match decode_records A mem version n fp1 with
      | none => none
      | some (rs, fp2) => some (r :: rs, fp2)

/-- The stem id that `load_mmap` gives a specification for the signed stem id
`s` of its record: -1, or the entry `s` of `stem_map`. -/
def translate_stem_id (stem_map_len : Nat) (stem_map : List Int) (s : Int) : Int :=
  if s < 0 ∨ s ≥ to_int32 stem_map_len then -1 else stem_map.getD s.toNat 0

/-- The slot that `load_mmap` completes for a record: every field that the
loop assigns, the others (hit count, type string, and the fixed-prefix length
before version 4) as the slot had them. -/
def fill_slot {R S : Type} (stem_map_len : Nat) (stem_map : List Int)
    (r : cache_record R S) (sp : spec R S) : spec R S :=
  { sp with
    from_mmap := true
    regcomp := true
    lr := ⟨r.label⟩
    regex_str := r.pattern_text
    mode := r.type_filter
    stem_id := translate_stem_id stem_map_len stem_map r.stem_id
    hasMetaChars := decide (r.has_meta % 256 ≠ 0)
    prefix_len := r.fixed_prefix_len.getD sp.prefix_len
    regex := some r.pattern_blob
    sd := some r.aux_blob }

/-- The store after a complete record has been loaded into the next slot. -/
def append_record {R S : Type} (stem_map_len : Nat) (stem_map : List Int)
    (d : saved_data R S) (r : cache_record R S) : saved_data R S :=
  let d1 := set_slot (grow_specs d) (fill_slot stem_map_len stem_map r)
  { d1 with nspec := d1.nspec + 1 }

/-- The store after the records `rs` have been loaded in order. -/
def append_records {R S : Type} (stem_map_len : Nat) (stem_map : List Int)
    (d : saved_data R S) (rs : List (cache_record R S)) : saved_data R S :=
  rs.foldl (append_record stem_map_len stem_map) d

/-- The part of `load_mmap` before the specification loop: the version, the
stem count, the finished `stem_map`, the store with the stems interned, the
specification count and the cursor at the first record; `none` when
`load_mmap` returns -1 before the loop. -/
def spec_section {R S : Type} (A : pcre_cache R S) (d : saved_data R S) (mem : List Char) :
    Option (Nat × Nat × List Int × saved_data R S × Nat × mmap_area) :=
  match load_header A mem ⟨0, mapped_len A mem⟩ with
  | none => none
  | some (version, fp) =>
    match next_u32 mem fp with
    | none => none
    | some (stem_map_len, fp1) =>
      if stem_map_len = 0 then none
      else
        match (load_stems mem stem_map_len d fp1 []).2 with
        | none => none
        | some (fp2, stem_map) =>
          match next_u32 mem fp2 with
          | none => none
          | some (regex_array_len, fp3) =>
            if regex_array_len = 0 then none
            else some (version, stem_map_len, stem_map,
              (load_stems mem stem_map_len d fp1 []).1, regex_array_len, fp3)

/-- The stem record at the cursor has what the layout asks of it: its length
field `L` can be read, `L + 1` more bytes remain behind the field, and the
byte at offset `L` of the record's text is NUL. -/
def stem_record_fits (mem : List Char) (fp : mmap_area) : Prop :=
  4 ≤ fp.len ∧ field32 mem fp.addr + 1 ≤ fp.len - 4 ∧
  (mem.drop (fp.addr + 4)).getD (field32 mem fp.addr) NUL = NUL

instance stem_record_fits_decidable (mem : List Char) (fp : mmap_area) :
    Decidable (stem_record_fits mem fp) :=
  inferInstanceAs (Decidable (_ ∧ _))

/-- The stem loop of `load_mmap` refuses the stem record at the cursor: the
record does not fit, or its length field is 0 or `UINT32_MAX`. -/
def stem_record_rejected (mem : List Char) (fp : mmap_area) : Prop :=
  ¬ stem_record_fits mem fp ∨ field32 mem fp.addr = 0 ∨ field32 mem fp.addr = UINT32_MAX

instance stem_record_rejected_decidable (mem : List Char) (fp : mmap_area) :
    Decidable (stem_record_rejected mem fp) :=
  inferInstanceAs (Decidable (_ ∨ _))

/-- The text of the stem record at the cursor as a C string: the bytes behind
the length field up to the first NUL. -/
def stem_record_text (mem : List Char) (fp : mmap_area) : List Char :=
  c_str (mem.drop (fp.addr + 4))

/-- The cursor behind the stem record at the cursor: past the length field
`L` and `L + 1` bytes. -/
def stem_record_end (mem : List Char) (fp : mmap_area) : mmap_area :=
  ⟨fp.addr + 4 + (field32 mem fp.addr + 1), fp.len - 4 - (field32 mem fp.addr + 1)⟩

/-- The area `fp` of a mapping seen from `a` bytes further to the front and
with `k` more bytes at the end. -/
def moved (a k : Nat) (fp : mmap_area) : mmap_area := ⟨a + fp.addr, fp.len + k⟩

/-- The calls `find_stem_from_spec(data, p)` for the patterns `ps`, in order:
the store afterwards and the ids returned. -/
def intern_stems {R S : Type} (d : saved_data R S) :
    List (List Char) → saved_data R S × List Int
  | [] => (d, [])
  | p :: ps =>
    ((intern_stems (find_stem_from_spec d p).1 ps).1,
      (find_stem_from_spec d p).2 :: (intern_stems (find_stem_from_spec d p).1 ps).2)

/-- The stem of the specification at index `i`, when it has one, is not empty,
ends before the end of the pattern, and lies within the fixed prefix, which
lies within the pattern. -/
def stem_within_prefix {R S : Type} (d : saved_data R S) (i : Nat) : Prop :=
  0 ≤ (spec_at d i).stem_id →
    1 ≤ stem_len_at d.stem_arr (spec_at d i).stem_id ∧
    stem_len_at d.stem_arr (spec_at d i).stem_id ≤ (spec_at d i).prefix_len ∧
    (spec_at d i).prefix_len ≤ (spec_at d i).regex_str.length ∧
    stem_len_at d.stem_arr (spec_at d i).stem_id < (spec_at d i).regex_str.length

/-- The compiled state of a specification is one that `compile_regex` leaves:
when it is marked compiled, its compiled pattern and its study data are what
the engine gives for its anchored text. -/
def lazily_compiled {R S : Type} (E : pcre_engine R S) (stem_arr : List stem)
    (sp : spec R S) : Prop :=
  sp.regcomp = true →
    ∃ r s, E.pcre_compile (anchored_regex stem_arr sp) = some r ∧
      E.pcre_study r = study_result.ok s ∧ sp.regex = some r ∧ sp.sd = s

/-- Two specifications differ at most in the hit count and in the compiled
state (compiled pattern, study data and mark), and either the compiled state
is the same or it is in both one that `compile_regex` leaves. -/
def spec_variant {R S : Type} (E : pcre_engine R S) (stem_arr : List stem)
    (a b : spec R S) : Prop :=
  a.lr = b.lr ∧ a.regex_str = b.regex_str ∧ a.type_str = b.type_str ∧
  a.mode = b.mode ∧ a.stem_id = b.stem_id ∧ a.hasMetaChars = b.hasMetaChars ∧
  a.from_mmap = b.from_mmap ∧ a.prefix_len = b.prefix_len ∧
  ((a.regcomp = b.regcomp ∧ a.regex = b.regex ∧ a.sd = b.sd) ∨
    (lazily_compiled E stem_arr a ∧ lazily_compiled E stem_arr b))

/-- Two stores with the same stems and the same number of specifications that
differ at most in hit counts and in which specifications `compile_regex` has
compiled. -/
def store_variant {R S : Type} (E : pcre_engine R S) (d d1 : saved_data R S) : Prop :=
  d.nspec = d1.nspec ∧ d.stem_arr = d1.stem_arr ∧
  ∀ i, spec_variant E d.stem_arr (spec_at d i) (spec_at d1 i)

/-- The declared lengths of the `n` stem records laid out from the offset
`off` of a compiled file: each record is a 32-bit length `L` followed by
`L + 1` bytes. -/
def stem_lengths (mem : List Char) : Nat → Nat → List Nat
  | 0, _ => []
  | n + 1, off => field32 mem off :: stem_lengths mem n (off + 4 + (field32 mem off + 1))

/-- The offset behind the `n` stem records laid out from the offset `off`. -/
def stems_end (mem : List Char) : Nat → Nat → Nat
  | 0, off => off
  | n + 1, off => stems_end mem n (off + 4 + (field32 mem off + 1))

/-- The size of the fields of a specification record between its pattern
text and its blobs: the type filter (32 bits from version 3 on, of the size of
`mode_t` before), the stem id, the has-meta flag and, from version 4 on, the
fixed-prefix length. -/
def fixed_size {R S : Type} (A : pcre_cache R S) (version : Nat) : Nat :=
  (if version ≥ SELINUX_COMPILED_FCONTEXT_MODE then 4 else A.sizeof_mode_t) + 4 + 4 +
    (if version ≥ SELINUX_COMPILED_FCONTEXT_PREFIX_LEN then 4 else 0)

/-- The four declared lengths of the specification record laid out at the
offset `off` (label, pattern text, compiled pattern blob, auxiliary blob) and
the offset behind the record; `fixed` is the size of the fields between the
pattern text and the blobs. -/
def record_lengths (mem : List Char) (fixed : Nat) (off : Nat) : List Nat × Nat :=
  let l1 := field32 mem off
  let o1 := off + 4 + l1
  let l2 := field32 mem o1
  let o2 := o1 + 4 + l2 + fixed
  let l3 := field32 mem o2
  let o3 := o2 + 4 + l3
  let l4 := field32 mem o3
  ([l1, l2, l3, l4], o3 + 4 + l4)

/-- The declared lengths of the `n` specification records laid out from the
offset `off`. -/
def spec_lengths (mem : List Char) (fixed : Nat) : Nat → Nat → List Nat
  | 0, _ => []
  | n + 1, off =>
    (record_lengths mem fixed off).1 ++
      spec_lengths mem fixed n (record_lengths mem fixed off).2

/-- The counts and declared lengths of a compiled file by its layout: the
stem count, the length of every stem, the specification count, and of every
specification record the lengths of its label, its pattern text, its compiled
pattern blob and its auxiliary blob. -/
def declared_lengths {R S : Type} (A : pcre_cache R S) (mem : List Char) : List Nat :=
  let off0 := (header_end A mem).addr
  let nstems := field32 mem off0
  let off1 := stems_end mem nstems (off0 + 4)
  let nspecs := field32 mem off1
  nstems :: (stem_lengths mem nstems (off0 + 4) ++
    nspecs :: spec_lengths mem (fixed_size A (field32 mem 4)) nspecs (off1 + 4))

/-- The store after `n` calls of `lookup` with the same key and type, one
after the other. -/
def lookup_times {R S : Type} (E : pcre_engine R S) (key : List Char) (type : Int) :
    Nat → saved_data R S → saved_data R S
  | 0, d => d
  | n + 1, d => lookup_times E key type n (lookup E d key type).1

/-- The store `d1` holds every specification of `d` at its index. -/
def specs_kept {R S : Type} (d d1 : saved_data R S) : Prop :=
  d.nspec ≤ d1.nspec ∧ ∀ k, k < d.nspec → spec_at d1 k = spec_at d k

/-- The key with every run of slashes collapsed to one slash. -/
def collapse_slashes : List Char → List Char
  | [] => []
  | [c] => [c]
  | x :: y :: rest =>
    if x = '/' ∧ y = '/' then collapse_slashes (y :: rest)
    else x :: collapse_slashes (y :: rest)

/-- The `nspec` specifications in use, in the order of the array. -/
def used_specs {R S : Type} (d : saved_data R S) : List (spec R S) :=
  (List.range d.nspec).map (spec_at d)

/-- The declaration indices `0 .. nspec-1` in the order in which `sort_specs`
arranges the specifications. -/
def decl_order {R S : Type} (d : saved_data R S) : List Nat :=
  sort_specs_arr (fun i => (spec_at d i).hasMetaChars) 0 (List.range d.nspec)

/-- The index of the specification that a lookup returns. -/
def lookup_result {R S : Type} (E : pcre_engine R S) (d : saved_data R S)
    (key : List Char) (type : Int) : Option Nat :=
  (lookup_common E d key type false).2

/-- The scan of `lookup_best_match` over the results `rs` of the remaining
lookups (indices of the specifications found, `none` for NULL), computed on a
fixed store: `best` is the specification `specs[best]` (`none` while `best` is
-1) and `plen` the variable `prefix_len`. -/
def best_scan {R S : Type} (d : saved_data R S) :
    List (Option Nat) → Option Nat → Nat → Option Nat
  | [], best, _ => best
  | none :: rest, best, plen => best_scan d rest best plen
  | some j :: rest, best, plen =>
    if (spec_at d j).hasMetaChars = false then some j
    else if (spec_at d j).prefix_len > plen then
      best_scan d rest (some j) (spec_at d j).prefix_len
    else best_scan d rest best plen

/-- The first exact specification (no meta characters) among the results. -/
def first_exact {R S : Type} (d : saved_data R S) : List (Option Nat) → Option Nat
  | [] => none
  | none :: rest => first_exact d rest
  | some j :: rest =>
    if (spec_at d j).hasMetaChars = false then some j else first_exact d rest

/-- The results of the lookups that `lookup_best_match` runs, in scan order:
the key first, then the aliases. -/
def scan_results {R S : Type} (E : pcre_engine R S) (d : saved_data R S)
    (key : List Char) (aliases : List (List Char)) (type : Int) : List (Option Nat) :=
  (key :: aliases).map (fun k => lookup_result E d k type)

/-- What `lookup_best_match` returns for a non-empty alias list, computed from
the results of the individual lookups (`rs`, the key's first): an exact first
result is returned at once; a pattern first result becomes `best` with its
fixed prefix length; then the remaining results are scanned. -/
def best_of_results {R S : Type} (d : saved_data R S) : List (Option Nat) → Option Nat
  | [] => none
  | none :: rest => best_scan d rest none 0
  | some j :: rest =>
    if (spec_at d j).hasMetaChars = false then some j
    else best_scan d rest (some j) (spec_at d j).prefix_len

/-! ## Stores of the worked examples -/

/-- The store after the lines of one specification file have been processed
in order, with validation off and no prefix: the specifications are in
declaration order. -/
def load_lines (lines : List (List Char)) : saved_data demo_re Unit :=
  (process_lines demo_engine false none (empty_data demo_re Unit) lines).1

/-- The rules `/etc/passwd -> L1`, then `/etc(/.*)? -> L2`, as declared. -/
def decl_etc : saved_data demo_re Unit :=
  load_lines ["/etc/passwd L1\n".toList, "/etc(/.*)? L2\n".toList]

/-- The store of `decl_etc` after `sort_specs`. -/
def store_etc : saved_data demo_re Unit := sort_specs decl_etc

/-- The rules `/var/.* -> L1`, then `/var/log/.* -> L2`, as declared. -/
def decl_var : saved_data demo_re Unit :=
  load_lines ["/var/.* L1\n".toList, "/var/log/.* L2\n".toList]

/-- The store of `decl_var` after `sort_specs`. -/
def store_var : saved_data demo_re Unit := sort_specs decl_var

/-- The rules `/etc/.* -> L1`, then `/etc/shadow -> <<none>>`, sorted. -/
def store_shadow : saved_data demo_re Unit :=
  sort_specs (load_lines ["/etc/.* L1\n".toList, "/etc/shadow <<none>>\n".toList])

/-- The rules `/a/.* -> L1`, then `/a/real -> L2`, sorted. -/
def store_alias_exact : saved_data demo_re Unit :=
  sort_specs (load_lines ["/a/.* L1\n".toList, "/a/real L2\n".toList])

/-- The rules `/a/.eal -> L1` (fixed prefix of length 3), then `/a/ot.* -> L2`
(fixed prefix of length 5), sorted. -/
def store_alias_len : saved_data demo_re Unit :=
  sort_specs (load_lines ["/a/.eal L1\n".toList, "/a/ot.* L2\n".toList])

/-- The rules `.*/real -> L1`, then `.*/other -> L2` (both with a fixed prefix
of length 0), sorted. -/
def store_alias_zero : saved_data demo_re Unit :=
  sort_specs (load_lines [".*/real L1\n".toList, ".*/other L2\n".toList])

/-- The rule `/etc/shadow -> <<none>>`, sorted. -/
def store_none_only : saved_data demo_re Unit :=
  sort_specs (load_lines ["/etc/shadow <<none>>\n".toList])

/-- A compiled file of the rules `/etc/passwd -> L1`, `/var/.* -> L2`, whose
stem table lists `/var` before `/etc`. -/
def cache_two_rules : List Char :=
  enc_header ++ enc32 2 ++ enc_stem "/var".toList ++ enc_stem "/etc".toList ++ enc32 2 ++
    enc_spec "L1".toList "/etc/passwd".toList 0 1 4 0 11 ++
    enc_spec "L2".toList "/var/.*".toList 0 0 4 1 5

/-- The compiled file `cache_two_rules` cut off 5 bytes before its end, inside
the second specification record: the length of its study data is missing and
reads as 0 in the mapping. -/
def cache_cut : List Char := cache_two_rules.take (cache_two_rules.length - 5)

/-- The text file of the rules `/etc/passwd -> L1`, `/var/.* -> L2`. -/
def lines_two_rules : List (List Char) := ["/etc/passwd L1\n".toList, "/var/.* L2\n".toList]

/-- The compiled file `cache_two_rules` with another magic number. -/
def cache_bad_magic : List Char := enc32 0xf97cff8b ++ cache_two_rules.drop 4

/-- The compiled file `cache_two_rules` with the version number 5. -/
def cache_version_5 : List Char :=
  cache_two_rules.take 4 ++ enc32 5 ++ cache_two_rules.drop 8

/-- The compiled file `cache_two_rules` written for the engine version 8.33. -/
def cache_other_engine : List Char :=
  cache_two_rules.take 12 ++ "8.33".toList ++ cache_two_rules.drop 16

/-- A version 1 compiled file of the rule `/etc/passwd -> L1`: no engine
version string, no prefix length. -/
def cache_v1 : List Char :=
  enc32 SELINUX_MAGIC_COMPILED_FCONTEXT ++ enc32 1 ++ enc32 1 ++ enc_stem "/etc".toList ++
    enc32 1 ++ enc_str "L1".toList ++ enc_str "/etc/passwd".toList ++ enc32 0 ++ enc32 0 ++
    enc32 0 ++ enc_blobs ((demo_compile "^/passwd$".toList).getD demo_re.void)

/-- A text file with the same pattern twice. -/
def lines_duplicate : List (List Char) := ["/a L1\n".toList, "/a L2\n".toList]

/-- The rules `/etc/.* -> L1`, then `/etc/[a -> L2`, whose pattern does not
compile, sorted. -/
def store_bad_pattern : saved_data demo_re Unit :=
  sort_specs (load_lines ["/etc/.* L1\n".toList, "/etc/[a L2\n".toList])

/-- The rule `/etc/? -> L1`, whose stem `/etc` is followed by an optional
slash, sorted. -/
def store_optional_slash : saved_data demo_re Unit :=
  sort_specs (load_lines ["/etc/? L1\n".toList])

/-- The rule `/a\/b -> L1`, whose stem `/a\` ends in the backslash that
escapes the second slash, sorted. -/
def store_backslash : saved_data demo_re Unit :=
  sort_specs (load_lines ["/a\\/b L1\n".toList])

/-- A compiled file whose only stem record has the length 0 and a NUL byte
as its text; one specification record follows. -/
def cache_empty_stem : List Char :=
  enc_header ++ enc32 1 ++ enc_stem [] ++ enc32 1 ++
    enc_spec "L1".toList "/etc/passwd".toList 0 0 0 0 11

/-- A specification record of a version 4 compiled file with the stem id 0:
the rule `/a/b -> L1` with the stem `/a`. -/
def record_stem_zero : List Char := enc_spec "L1".toList "/a/b".toList 0 0 2 0 4

/-- A version 3 compiled file of the rule `/home/.* -> L3`: the engine
version string and a 32-bit type filter, no prefix length. -/
def cache_v3 : List Char :=
  enc32 SELINUX_MAGIC_COMPILED_FCONTEXT ++ enc32 3 ++ enc32 4 ++ "8.32".toList ++ enc32 1 ++
    enc_stem "/home".toList ++ enc32 1 ++ enc_str "L3".toList ++ enc_str "/home/.*".toList ++
    enc32 0 ++ enc32 0 ++ enc32 1 ++ enc_blobs ((demo_compile "^/.*$".toList).getD demo_re.void)

/-- The text file of the rule `/home/.* -> L3`. -/
def lines_home : List (List Char) := ["/home/.* L3\n".toList]

/-- The bytes `b` repeated `n` times. -/
def rep_bytes : Nat → List Char → List Char
  | 0, _ => []
  | n + 1, b => b ++ rep_bytes n b

/-- A version 4 compiled file with the stem count `n`, `n` stem records that
all hold the stem `/a`, and the one specification record `record_stem_zero`,
whose stem id is 0. -/
def cache_many_stems (n : Nat) : List Char :=
  enc_header ++ enc32 n ++ rep_bytes n (enc_stem "/a".toList) ++ enc32 1 ++ record_stem_zero

/-- The empty store with the stem `/a` interned from a compiled file. -/
def stem_a_store : saved_data demo_re Unit :=
  { empty_data demo_re Unit with stem_arr := [⟨"/a".toList, 2, true⟩] }

/-- A text file without a rule: one comment line. -/
def lines_comment : List (List Char) := ["# no rule\n".toList]

/-- The text file of the rule `/etc/passwd -> L1`. -/
def lines_passwd : List (List Char) := ["/etc/passwd L1\n".toList]

/-- The label of the specification a lookup returned. -/
def label_of {R S : Type} (d : saved_data R S) (r : Option Nat) : Option (List Char) :=
  r.map (fun i => (spec_at d i).lr.ctx_raw)

/-! # Properties -/

/-! ## The walk of `lookup_common` -/

section walk
variable {R S : Type}

theorem compile_regex_stem_id (E : pcre_engine R S) (stems : List stem) (sp : spec R S) :
    (compile_regex E stems sp).1.stem_id = sp.stem_id := by
  unfold compile_regex
  split
  · rfl
  · split
    · rfl
    · split <;> rfl

theorem spec_at_set_ne (d : saved_data R S) (i j : Nat) (x : spec R S) (h : j ≠ i) :
    spec_at { d with spec_arr := d.spec_arr.set i x } j = spec_at d j := by
  simp [spec_at, List.getD_eq_getElem?_getD, List.getElem?_set, Ne.symm h]

theorem walk_ending_congr (E : pcre_engine R S) (stems : List stem) (q : query)
    (soft : Bool) (f g : Nat → spec R S) (n : Nat) (h : ∀ j, j < n → f j = g j) :
    walk_ending E stems q soft f n = walk_ending E stems q soft g n := by
  induction n with
  | zero => rfl
  | succ i ih =>
    have hi : f i = g i := h i (Nat.lt_succ_self i)
    have ih1 := ih (fun j hj => h j (Nat.lt_succ_of_lt hj))
    simp only [walk_ending, hi, ih1]

theorem try_query_eq (E : pcre_engine R S) (stems : List stem) (q : query)
    (sp : spec R S) (soft : Bool) :
    try_query E stems q sp soft =
      if (compile_regex E stems sp).2 < 0 then none
      else some (if (compile_regex E stems sp).1.stem_id = -1
        then exec_spec E (compile_regex E stems sp).1 q.key soft
        else exec_spec E (compile_regex E stems sp).1 q.buf soft) := by
  simp only [try_query, spec_try, subject_of, compile_regex_stem_id]
  split
  · rfl
  · split <;> rfl

theorem try_query_slot (E : pcre_engine R S) (q : query) (d : saved_data R S) (i : Nat)
    (soft : Bool) :
    try_query E d.stem_arr q (spec_at d i) soft =
      if (compile_regex E d.stem_arr (spec_at d i)).2 < 0 then none
      else some (walk_rc E d i q.key q.buf soft) :=
  try_query_eq E d.stem_arr q (spec_at d i) soft

/-- One round of the loop, written out. -/
theorem lookup_walk_succ (E : pcre_engine R S) (key buf : List Char) (fs : Int)
    (mode : Nat) (soft : Bool) (i : Nat) (d : saved_data R S) (tr : List Nat) :
    lookup_walk E key buf fs mode soft (i + 1) d tr =
      if candidate (spec_at d i) fs mode = true then
        if (compile_regex E d.stem_arr (spec_at d i)).2 < 0 then
          ⟨store_compiled E d i, walk_end.failed, i :: tr⟩
        else if walk_rc E d i key buf soft = 0 then
          ⟨store_counted E d i, walk_end.stopped i, i :: tr⟩
        else if soft = true ∧ walk_rc E d i key buf soft = PCRE_ERROR_PARTIAL then
          ⟨store_compiled E d i, walk_end.stopped i, i :: tr⟩
        else if walk_rc E d i key buf soft = PCRE_ERROR_NOMATCH then
          lookup_walk E key buf fs mode soft i (store_compiled E d i) (i :: tr)
        else ⟨store_compiled E d i, walk_end.failed, i :: tr⟩
      else lookup_walk E key buf fs mode soft i d tr := rfl

/-- The loop ends as `walk_ending` computes from the store before the walk. -/
theorem lookup_walk_ending (E : pcre_engine R S) (q : query) (soft : Bool) (n : Nat) :
    ∀ (d : saved_data R S) (tr : List Nat),
      (lookup_walk E q.key q.buf q.file_stem q.mode soft n d tr).ending =
        walk_ending E d.stem_arr q soft (spec_at d) n := by
  induction n with
  | zero => intro d tr; rfl
  | succ i ih =>
    intro d tr
    rw [lookup_walk_succ, walk_ending]
    by_cases hc : candidate (spec_at d i) q.file_stem q.mode = true
    · simp only [hc, if_true]
      rw [try_query_slot]
      by_cases hf : (compile_regex E d.stem_arr (spec_at d i)).2 < 0
      · simp only [hf, if_true]
      · simp only [hf, if_false]
        generalize walk_rc E d i q.key q.buf soft = rc
        split_ifs with h0 h1 h2
        · rfl
        · rfl
        · rw [ih]
          exact walk_ending_congr E _ q soft _ _ i
            (fun j hj => spec_at_set_ne d i j _ (Nat.ne_of_lt hj))
        · rfl
    · simp only [hc, Bool.false_eq_true, if_false]
      exact ih d tr

end walk


section equiv
variable {R S : Type}

theorem spec_equiv_refl (E : pcre_engine R S) (stems : List stem) (a : spec R S) :
    spec_equiv E stems a a :=
  ⟨rfl, rfl, rfl, rfl, rfl, rfl, rfl, rfl, fun _ _ => rfl⟩

theorem spec_equiv_symm (E : pcre_engine R S) (stems : List stem) {a b : spec R S}
    (h : spec_equiv E stems a b) : spec_equiv E stems b a := by
  obtain ⟨h1, h2, h3, h4, h5, h6, h7, h8, h9⟩ := h
  exact ⟨h1.symm, h2.symm, h3.symm, h4.symm, h5.symm, h6.symm, h7.symm, h8.symm,
    fun s o => (h9 s o).symm⟩

theorem spec_equiv_trans (E : pcre_engine R S) (stems : List stem) {a b c : spec R S}
    (h : spec_equiv E stems a b) (k : spec_equiv E stems b c) : spec_equiv E stems a c := by
  obtain ⟨h1, h2, h3, h4, h5, h6, h7, h8, h9⟩ := h
  obtain ⟨k1, k2, k3, k4, k5, k6, k7, k8, k9⟩ := k
  exact ⟨h1.trans k1, h2.trans k2, h3.trans k3, h4.trans k4, h5.trans k5, h6.trans k6,
    h7.trans k7, h8.trans k8, fun s o => (h9 s o).trans (k9 s o)⟩

theorem compile_regex_of_regcomp (E : pcre_engine R S) (stems : List stem) (sp : spec R S)
    (h : sp.regcomp = true) : compile_regex E stems sp = (sp, 0) := by
  simp [compile_regex, h]

theorem compile_regex_of_none (E : pcre_engine R S) (stems : List stem) (sp : spec R S)
    (h : sp.regcomp = false) (hc : E.pcre_compile (anchored_regex stems sp) = none) :
    compile_regex E stems sp = ({ sp with regex := none }, -1) := by
  simp [compile_regex, h, hc]

theorem compile_regex_of_study_error (E : pcre_engine R S) (stems : List stem)
    (sp : spec R S) (r : R) (h : sp.regcomp = false)
    (hc : E.pcre_compile (anchored_regex stems sp) = some r)
    (hs : E.pcre_study r = study_result.error) :
    compile_regex E stems sp = ({ sp with regex := some r, sd := none }, -1) := by
  simp [compile_regex, h, hc, hs]

theorem compile_regex_of_ok (E : pcre_engine R S) (stems : List stem)
    (sp : spec R S) (r : R) (s : Option S) (h : sp.regcomp = false)
    (hc : E.pcre_compile (anchored_regex stems sp) = some r)
    (hs : E.pcre_study r = study_result.ok s) :
    compile_regex E stems sp = ({ sp with regex := some r, sd := s, regcomp := true }, 0) := by
  simp [compile_regex, h, hc, hs]

/-- Compiling a specification does not change what trying it gives. -/
theorem spec_equiv_compile (E : pcre_engine R S) (stems : List stem) (sp : spec R S) :
    spec_equiv E stems sp (compile_regex E stems sp).1 := by
  cases h : sp.regcomp with
  | true => rw [compile_regex_of_regcomp E stems sp h]; exact spec_equiv_refl E stems sp
  | false =>
    cases hc : E.pcre_compile (anchored_regex stems sp) with
    | none =>
      rw [compile_regex_of_none E stems sp h hc]
      refine ⟨rfl, rfl, rfl, rfl, rfl, rfl, rfl, rfl, fun subject soft => ?_⟩
      have h2 := compile_regex_of_none E stems { sp with regex := none } h hc
      simp only [spec_try, compile_regex_of_none E stems sp h hc, h2]
    | some r =>
      cases hs : E.pcre_study r with
      | error =>
        rw [compile_regex_of_study_error E stems sp r h hc hs]
        refine ⟨rfl, rfl, rfl, rfl, rfl, rfl, rfl, rfl, fun subject soft => ?_⟩
        have h2 := compile_regex_of_study_error E stems
          { sp with regex := some r, sd := none } r h hc hs
        simp only [spec_try, compile_regex_of_study_error E stems sp r h hc hs, h2]
      | ok s =>
        rw [compile_regex_of_ok E stems sp r s h hc hs]
        refine ⟨rfl, rfl, rfl, rfl, rfl, rfl, rfl, rfl, fun subject soft => ?_⟩
        have h2 := compile_regex_of_regcomp E stems
          { sp with regex := some r, sd := s, regcomp := true } rfl
        simp only [spec_try, compile_regex_of_ok E stems sp r s h hc hs, h2]

/-- Counting a hit does not change what trying a specification gives. -/
theorem spec_equiv_hit (E : pcre_engine R S) (stems : List stem) (sp : spec R S) (m : Int) :
    spec_equiv E stems sp { sp with matches_ := m } := by
  refine ⟨rfl, rfl, rfl, rfl, rfl, rfl, rfl, rfl, fun subject soft => ?_⟩
  rcases Bool.eq_false_or_eq_true sp.regcomp with h | h
  · have h2 := compile_regex_of_regcomp E stems { sp with matches_ := m } h
    simp only [spec_try, compile_regex_of_regcomp E stems sp h, h2]; rfl
  · rcases hc : E.pcre_compile (anchored_regex stems sp) with _ | r
    · have h2 := compile_regex_of_none E stems { sp with matches_ := m } h hc
      simp only [spec_try, compile_regex_of_none E stems sp h hc, h2]; rfl
    · rcases hs : E.pcre_study r with _ | s
      · have h2 := compile_regex_of_study_error E stems { sp with matches_ := m } r h hc hs
        simp only [spec_try, compile_regex_of_study_error E stems sp r h hc hs, h2]; rfl
      · have h2 := compile_regex_of_ok E stems { sp with matches_ := m } r s h hc hs
        simp only [spec_try, compile_regex_of_ok E stems sp r s h hc hs, h2]; rfl

end equiv


section store
variable {R S : Type}

theorem store_equiv_refl (E : pcre_engine R S) (d : saved_data R S) : store_equiv E d d :=
  ⟨rfl, rfl, fun _ => spec_equiv_refl E _ _⟩

theorem store_equiv_symm (E : pcre_engine R S) {d d1 : saved_data R S}
    (h : store_equiv E d d1) : store_equiv E d1 d :=
  ⟨h.1.symm, h.2.1.symm, fun i => h.2.1 ▸ spec_equiv_symm E _ (h.2.2 i)⟩

theorem store_equiv_trans (E : pcre_engine R S) {d d1 d2 : saved_data R S}
    (h : store_equiv E d d1) (k : store_equiv E d1 d2) : store_equiv E d d2 :=
  ⟨h.1.trans k.1, h.2.1.trans k.2.1,
    fun i => spec_equiv_trans E _ (h.2.2 i) (h.2.1 ▸ k.2.2 i)⟩

/-- Overwriting a slot with an equivalent specification gives an equivalent store. -/
theorem store_equiv_set (E : pcre_engine R S) (d : saved_data R S) (i : Nat) (x : spec R S)
    (h : spec_equiv E d.stem_arr (spec_at d i) x) :
    store_equiv E d { d with spec_arr := d.spec_arr.set i x } := by
  refine ⟨rfl, rfl, fun j => ?_⟩
  by_cases hj : j = i
  · subst hj
    by_cases hlen : j < d.spec_arr.length
    · have : spec_at { d with spec_arr := d.spec_arr.set j x } j = x := by
        simp [spec_at, List.getD_eq_getElem?_getD, List.getElem?_set, hlen]
      rw [this]; exact h
    · have : spec_at { d with spec_arr := d.spec_arr.set j x } j = spec_at d j := by
        simp [spec_at, List.getD_eq_getElem?_getD, List.getElem?_set, hlen,
          List.getElem?_eq_none (not_lt.1 hlen)]
      rw [this]; exact spec_equiv_refl E _ _
  · rw [spec_at_set_ne d i j x hj]; exact spec_equiv_refl E _ _

theorem store_equiv_compiled (E : pcre_engine R S) (d : saved_data R S) (i : Nat) :
    store_equiv E d (store_compiled E d i) :=
  store_equiv_set E d i _ (spec_equiv_compile E d.stem_arr (spec_at d i))

theorem store_equiv_counted (E : pcre_engine R S) (d : saved_data R S) (i : Nat) :
    store_equiv E d (store_counted E d i) := by
  have h := store_equiv_set E d i _
    (spec_equiv_trans E d.stem_arr (spec_equiv_compile E d.stem_arr (spec_at d i))
      (spec_equiv_hit E d.stem_arr (compile_regex E d.stem_arr (spec_at d i)).1
        (int_incr (compile_regex E d.stem_arr (spec_at d i)).1.matches_)))
  simpa [store_counted, List.set_set] using h

/-- The walk leaves an equivalent store: it only compiles specifications and
counts hits. -/
theorem lookup_walk_data (E : pcre_engine R S) (key buf : List Char) (fs : Int)
    (mode : Nat) (soft : Bool) (n : Nat) :
    ∀ (d : saved_data R S) (tr : List Nat),
      store_equiv E d (lookup_walk E key buf fs mode soft n d tr).data := by
  induction n with
  | zero => intro d tr; exact store_equiv_refl E d
  | succ i ih =>
    intro d tr
    rw [lookup_walk_succ]
    split_ifs
    · exact store_equiv_compiled E d i
    · exact store_equiv_counted E d i
    · exact store_equiv_compiled E d i
    · exact store_equiv_trans E (store_equiv_compiled E d i) (ih _ _)
    · exact store_equiv_compiled E d i
    · exact ih d tr

end store


section lookup
variable {R S : Type}

theorem lookup_walk_of_eq (E : pcre_engine R S) (d : saved_data R S) (key : List Char)
    (type : Int) (soft : Bool) :
    lookup_walk_of E d key type soft =
      lookup_walk E (query_of d key type).key (query_of d key type).buf
        (query_of d key type).file_stem (query_of d key type).mode soft d.nspec d [] := rfl

theorem lookup_walk_of_ending (E : pcre_engine R S) (d : saved_data R S) (key : List Char)
    (type : Int) (soft : Bool) :
    (lookup_walk_of E d key type soft).ending =
      walk_ending E d.stem_arr (query_of d key type) soft (spec_at d) d.nspec := by
  rw [lookup_walk_of_eq]; exact lookup_walk_ending E _ soft d.nspec d []

theorem lookup_walk_of_data (E : pcre_engine R S) (d : saved_data R S) (key : List Char)
    (type : Int) (soft : Bool) :
    store_equiv E d (lookup_walk_of E d key type soft).data := by
  rw [lookup_walk_of_eq]; exact lookup_walk_data E _ _ _ _ soft d.nspec d []

/-- The store after `lookup_common` is equivalent to the store before. -/
theorem lookup_common_data (E : pcre_engine R S) (d : saved_data R S) (key : List Char)
    (type : Int) (soft : Bool) :
    store_equiv E d (lookup_common E d key type soft).1 := by
  unfold lookup_common
  by_cases h0 : d.nspec = 0
  · simp only [h0, if_true]; exact store_equiv_refl E d
  · simp only [h0, if_false]
    have hd := lookup_walk_of_data E d key type soft
    split
    · split <;> exact hd
    · exact hd

/-- The pointer returned by `lookup_common` is the one `lookup_index` computes. -/
theorem lookup_common_index (E : pcre_engine R S) (d : saved_data R S) (key : List Char)
    (type : Int) (soft : Bool) :
    (lookup_common E d key type soft).2 = lookup_index E d key type soft := by
  unfold lookup_common lookup_index
  by_cases h0 : d.nspec = 0
  · simp only [h0, if_true, walk_ending]
  · simp only [h0, if_false]
    have hd := lookup_walk_of_data E d key type soft
    rw [← lookup_walk_of_ending]
    cases hend : (lookup_walk_of E d key type soft).ending with
    | stopped i =>
      have hl : (spec_at (lookup_walk_of E d key type soft).data i).lr = (spec_at d i).lr :=
        ((hd.2.2 i).1).symm
      simp only [hl]
      split <;> rfl
    | exhausted => rfl
    | failed => rfl

theorem walk_ending_stopped (E : pcre_engine R S) (stems : List stem) (q : query)
    (soft : Bool) (specs : Nat → spec R S) (n i : Nat)
    (h : walk_ending E stems q soft specs n = walk_end.stopped i) :
    i < n ∧ candidate (specs i) q.file_stem q.mode = true ∧
      (try_query E stems q (specs i) soft = some 0 ∨
        (soft = true ∧ try_query E stems q (specs i) soft = some PCRE_ERROR_PARTIAL)) ∧
      ∀ j, i < j → j < n → candidate (specs j) q.file_stem q.mode = true →
        try_query E stems q (specs j) soft = some PCRE_ERROR_NOMATCH := by
  induction n with
  | zero => simp [walk_ending] at h
  | succ k ih =>
    rw [walk_ending] at h
    have lift : (i < k ∧ candidate (specs i) q.file_stem q.mode = true ∧
        (try_query E stems q (specs i) soft = some 0 ∨
          (soft = true ∧ try_query E stems q (specs i) soft = some PCRE_ERROR_PARTIAL)) ∧
        ∀ j, i < j → j < k → candidate (specs j) q.file_stem q.mode = true →
          try_query E stems q (specs j) soft = some PCRE_ERROR_NOMATCH) →
        (candidate (specs k) q.file_stem q.mode = true →
          try_query E stems q (specs k) soft = some PCRE_ERROR_NOMATCH) →
        i < k + 1 ∧ candidate (specs i) q.file_stem q.mode = true ∧
        (try_query E stems q (specs i) soft = some 0 ∨
          (soft = true ∧ try_query E stems q (specs i) soft = some PCRE_ERROR_PARTIAL)) ∧
        ∀ j, i < j → j < k + 1 → candidate (specs j) q.file_stem q.mode = true →
          try_query E stems q (specs j) soft = some PCRE_ERROR_NOMATCH := by
      intro ⟨h1, h2, h3, h4⟩ hk
      refine ⟨Nat.lt_succ_of_lt h1, h2, h3, fun j hij hj hcj => ?_⟩
      rcases Nat.lt_succ_iff_lt_or_eq.1 hj with hlt | heq
      · exact h4 j hij hlt hcj
      · subst heq; exact hk hcj
    by_cases hc : candidate (specs k) q.file_stem q.mode = true
    · simp only [hc, if_true] at h
      cases ht : try_query E stems q (specs k) soft with
      | none => simp [ht] at h
      | some rc =>
        simp only [ht] at h
        split_ifs at h with h0 h1 h2
        · injection h with h; subst h; subst h0
          exact ⟨Nat.lt_succ_self _, hc, Or.inl ht, fun j hij hj => absurd hj (by omega)⟩
        · injection h with h; subst h
          exact ⟨Nat.lt_succ_self _, hc, Or.inr ⟨h1.1, h1.2 ▸ ht⟩,
            fun j hij hj => absurd hj (by omega)⟩
        · exact lift (ih h) (fun _ => h2 ▸ ht)
    · simp only [hc, Bool.false_eq_true, if_false] at h
      exact lift (ih h) (fun hk => absurd hk hc)

theorem walk_ending_exhausted (E : pcre_engine R S) (stems : List stem) (q : query)
    (soft : Bool) (specs : Nat → spec R S) (n : Nat)
    (h : walk_ending E stems q soft specs n = walk_end.exhausted) :
    ∀ j, j < n → candidate (specs j) q.file_stem q.mode = true →
      try_query E stems q (specs j) soft = some PCRE_ERROR_NOMATCH := by
  induction n with
  | zero => intro j hj; omega
  | succ k ih =>
    rw [walk_ending] at h
    intro j hj hcj
    by_cases hc : candidate (specs k) q.file_stem q.mode = true
    · simp only [hc, if_true] at h
      cases ht : try_query E stems q (specs k) soft with
      | none => simp [ht] at h
      | some rc =>
        simp only [ht] at h
        split_ifs at h with h0 h1 h2
        rcases Nat.lt_succ_iff_lt_or_eq.1 hj with hlt | heq
        · exact ih h j hlt hcj
        · subst heq; exact h2 ▸ ht
    · simp only [hc, Bool.false_eq_true, if_false] at h
      rcases Nat.lt_succ_iff_lt_or_eq.1 hj with hlt | heq
      · exact ih h j hlt hcj
      · subst heq; exact absurd hcj hc

end lookup


section claims
variable {R S : Type}

/-- For a walk that does not fail, the ending is `stopped i` exactly when `i`
is the greatest index below `n` whose specification is hit. -/
theorem walk_ending_stopped_iff (E : pcre_engine R S) (stems : List stem) (q : query)
    (specs : Nat → spec R S) (n i : Nat)
    (hok : walk_ending E stems q false specs n ≠ walk_end.failed) :
    walk_ending E stems q false specs n = walk_end.stopped i ↔
      (i < n ∧ spec_hit E stems q (specs i) ∧
        ∀ j, i < j → j < n → ¬ spec_hit E stems q (specs j)) := by
  have nomatch_ne : (some PCRE_ERROR_NOMATCH : Option Int) ≠ some 0 := by decide
  constructor
  · intro h
    obtain ⟨h1, h2, h3, h4⟩ := walk_ending_stopped E stems q false specs n i h
    refine ⟨h1, ⟨h2, ?_⟩, fun j hij hj hhit => ?_⟩
    · rcases h3 with h3 | h3
      · exact h3
      · exact absurd h3.1 (by decide)
    · have := h4 j hij hj hhit.1
      rw [hhit.2] at this
      exact nomatch_ne this.symm
  · intro ⟨h1, h2, h3⟩
    cases hend : walk_ending E stems q false specs n with
    | stopped k =>
      obtain ⟨k1, k2, k3, k4⟩ := walk_ending_stopped E stems q false specs n k hend
      have hk : spec_hit E stems q (specs k) := by
        refine ⟨k2, ?_⟩
        rcases k3 with k3 | k3
        · exact k3
        · exact absurd k3.1 (by decide)
      rcases Nat.lt_trichotomy i k with hlt | heq | hgt
      · exact absurd hk (h3 k hlt k1)
      · rw [heq]
      · have := k4 i hgt h1 h2.1
        rw [h2.2] at this
        exact absurd this.symm nomatch_ne
    | exhausted =>
      have := walk_ending_exhausted E stems q false specs n hend i h1 h2.1
      rw [h2.2] at this
      exact absurd this.symm nomatch_ne
    | failed => exact absurd hend hok

/-- A walk of `lookup_common` that does not fail stops at `i` exactly when `i`
is the greatest index in use whose specification is hit by the query. -/
theorem walk_stops_at_greatest_hit (E : pcre_engine R S) (d : saved_data R S)
    (key : List Char) (type : Int) (i : Nat)
    (hok : (lookup_walk_of E d key type false).ending ≠ walk_end.failed) :
    (lookup_walk_of E d key type false).ending = walk_end.stopped i ↔
      (i < d.nspec ∧ spec_hit E d.stem_arr (query_of d key type) (spec_at d i) ∧
        ∀ j, i < j → j < d.nspec →
          ¬ spec_hit E d.stem_arr (query_of d key type) (spec_at d j)) := by
  rw [lookup_walk_of_ending] at hok ⊢
  exact walk_ending_stopped_iff E d.stem_arr _ (spec_at d) d.nspec i hok

end claims


/-! ## `sort_specs` is a stable partition -/

section sort
variable {α : Type}

theorem set_middle (pre post : List α) (x y : α) :
    (pre ++ x :: post).set pre.length y = pre ++ y :: post := by
  induction pre with
  | nil => rfl
  | cons a t ih => simp [ih]

theorem getD_middle (pre post : List α) (x fill : α) :
    (pre ++ x :: post).getD pre.length fill = x := by
  induction pre with
  | nil => rfl
  | cons a t ih => simpa using ih

theorem sort_pass1_spec (hm : α → Bool) (fill : α) (xs : List α) :
    ∀ (pre post : List α) (g : Nat), xs.length ≤ g →
      sort_pass1 hm xs (pre ++ List.replicate g fill ++ post) pre.length
          ((pre.length : Int) + g - 1) =
        (pre ++ xs.filter hm ++ List.replicate (g - xs.length) fill ++
            (xs.filter (fun x => !hm x)).reverse ++ post,
          pre.length + (xs.filter hm).length,
          (pre.length : Int) + (xs.filter hm).length + ((g - xs.length : Nat) : Int) - 1) := by
  induction xs with
  | nil => intro pre post g _; simp [sort_pass1]
  | cons x xs ih =>
    intro pre post g hg
    obtain ⟨g1, rfl⟩ : ∃ g1, g = g1 + 1 := ⟨g - 1, by simp at hg; omega⟩
    have hg1 : xs.length ≤ g1 := by simp at hg; omega
    rw [sort_pass1]
    by_cases hx : hm x = true
    · simp only [hx, if_true]
      have hset : (pre ++ List.replicate (g1 + 1) fill ++ post).set pre.length x =
          (pre ++ [x]) ++ List.replicate g1 fill ++ post := by
        rw [List.replicate_succ, List.append_assoc, List.cons_append, set_middle]
        simp
      rw [hset]
      have := ih (pre ++ [x]) post g1 hg1
      simp only [List.length_append, List.length_singleton, Nat.cast_add, Nat.cast_one] at this
      have e1 : ((pre.length : Int) + 1 + g1 - 1) = (pre.length : Int) + ((g1 : Int) + 1) - 1 - 0 := by
        omega
      simp only [List.length_append, List.length_singleton, Nat.cast_add, Nat.cast_one,
        List.filter_cons, hx, if_true, List.length_cons, Bool.not_true, Bool.false_eq_true,
        if_false, Nat.add_sub_add_right]
      have e2 : ((pre.length : Int) + ((g1 : Int) + 1) - 1) = (pre.length : Int) + 1 + g1 - 1 := by
        omega
      rw [e2, this]
      simp only [List.append_assoc, List.singleton_append, Prod.mk.injEq, true_and]
      constructor <;> omega
    · simp only [hx, Bool.false_eq_true, if_false]
      have hidx : ((pre.length : Int) + ((g1 + 1 : Nat) : Int) - 1).toNat =
          (pre ++ List.replicate g1 fill).length := by
        simp only [List.length_append, List.length_replicate]; omega
      have hset : (pre ++ List.replicate (g1 + 1) fill ++ post).set
          ((pre.length : Int) + ((g1 + 1 : Nat) : Int) - 1).toNat x =
          pre ++ List.replicate g1 fill ++ (x :: post) := by
        rw [hidx, List.replicate_succ', ← List.append_assoc, List.append_assoc _ [fill] post,
          List.singleton_append, set_middle]
      rw [hset]
      have := ih pre (x :: post) g1 hg1
      have e2 : ((pre.length : Int) + ((g1 + 1 : Nat) : Int) - 1 - 1) = (pre.length : Int) + g1 - 1 := by
        omega
      rw [e2, this]
      simp only [List.filter_cons, hx, Bool.false_eq_true, if_false, Bool.not_false, if_true,
        List.reverse_cons, List.append_assoc, List.singleton_append, List.length_cons,
        Nat.add_sub_add_right]

theorem sort_swap_spec (fill : α) (fuel : Nat) :
    ∀ (pre mid post : List α), mid.length ≤ fuel →
      sort_swap fill fuel (pre ++ mid ++ post) (pre.length : Int)
          ((pre.length : Int) + mid.length - 1) =
        pre ++ mid.reverse ++ post := by
  induction fuel with
  | zero =>
    intro pre mid post h
    have : mid = [] := List.length_eq_zero.1 (Nat.le_zero.1 h)
    subst this; simp [sort_swap]
  | succ fuel ih =>
    intro pre mid post h
    rw [sort_swap]
    cases mid with
    | nil => simp
    | cons a t =>
      rcases List.eq_nil_or_concat t with rfl | ⟨t1, b, rfl⟩
      · simp
      · rw [List.concat_eq_append] at h ⊢
        have hlt : (pre.length : Int) < (pre.length : Int) + ((a :: (t1 ++ [b])).length : Nat) - 1 := by
          simp; omega
        simp only [hlt, if_true]
        have hback : ((pre.length : Int) + ((a :: (t1 ++ [b])).length : Nat) - 1).toNat =
            (pre ++ a :: t1).length := by
          simp; omega
        have hbackb : ((pre.length : Int) + ((a :: (t1 ++ [b])).length : Nat) - 1).toNat =
            (pre ++ b :: t1).length := by
          simp; omega
        have hfront : ((pre.length : Int)).toNat = pre.length := by simp
        have hshape : pre ++ a :: (t1 ++ [b]) ++ post = (pre ++ a :: t1) ++ b :: post := by simp
        have hga : (pre ++ a :: (t1 ++ [b]) ++ post).getD pre.length fill = a := by
          rw [List.append_assoc, List.cons_append, getD_middle]
        have hgb : (pre ++ a :: (t1 ++ [b]) ++ post).getD (pre ++ a :: t1).length fill = b := by
          rw [hshape, getD_middle]
        rw [hfront, hback, hga, hgb]
        have hs1 : (pre ++ a :: (t1 ++ [b]) ++ post).set pre.length b =
            (pre ++ b :: t1) ++ b :: post := by
          rw [List.append_assoc, List.cons_append, set_middle]; simp
        have hlen : (pre ++ a :: t1).length = (pre ++ b :: t1).length := by simp
        rw [hs1, hlen, set_middle]
        have := ih (pre ++ [b]) t1 (a :: post) (by simp at h; omega)
        have e1 : (pre.length : Int) + 1 = ((pre ++ [b]).length : Int) := by simp
        have e2 : (pre.length : Int) + ((a :: (t1 ++ [b])).length : Nat) - 1 - 1 =
            ((pre ++ [b]).length : Int) + t1.length - 1 := by
          simp; omega
        have e3 : pre ++ b :: t1 ++ a :: post = pre ++ [b] ++ t1 ++ a :: post := by simp
        rw [e1, e2, e3, this]
        simp

theorem filter_length_add (hm : α → Bool) (arr : List α) :
    (arr.filter hm).length + (arr.filter (fun x => !hm x)).length = arr.length := by
  induction arr with
  | nil => rfl
  | cons x xs ih => by_cases hx : hm x = true <;> simp [List.filter_cons, hx] <;> omega

/-- The array computed by `sort_specs` is the entries with meta characters in
their original order, followed by the others in their original order. -/
theorem sort_specs_arr_eq (hm : α → Bool) (fill : α) (arr : List α) :
    sort_specs_arr hm fill arr = arr.filter hm ++ arr.filter (fun x => !hm x) := by
  unfold sort_specs_arr
  have h1 := sort_pass1_spec hm fill arr [] [] arr.length (Nat.le_refl _)
  simp only [List.nil_append, List.length_nil, Nat.cast_zero, zero_add, List.append_nil,
    Nat.sub_self, List.replicate_zero] at h1
  simp only [h1]
  have hlen := filter_length_add hm arr
  have h2 := sort_swap_spec fill arr.length (arr.filter hm)
    (arr.filter (fun x => !hm x)).reverse [] (by simp; omega)
  simp only [List.append_nil, List.length_reverse, List.reverse_reverse] at h2
  have e : ((arr.length : Int) - 1) =
      ((arr.filter hm).length : Int) + ((arr.filter (fun x => !hm x)).length : Nat) - 1 := by
    omega
  rw [e, h2]

end sort


section sorted_store
variable {R S : Type}

/-- In a stable partition the entries with the flag are exactly those at the
positions below the number of flagged entries. -/
theorem partition_index {α : Type} (hm : α → Bool) (l : List α) (i : Nat)
    (h : i < (l.filter hm ++ l.filter (fun x => !hm x)).length) :
    hm ((l.filter hm ++ l.filter (fun x => !hm x))[i]) = true ↔ i < (l.filter hm).length := by
  by_cases hi : i < (l.filter hm).length
  · rw [List.getElem_append_left hi]
    have := List.getElem_mem hi
    simp only [List.mem_filter] at this
    simp [this.2, hi]
  · rw [List.getElem_append_right (not_lt.1 hi)]
    have hlen : i - (l.filter hm).length < (l.filter (fun x => !hm x)).length := by
      simp only [List.length_append] at h; omega
    have := List.getElem_mem hlen
    simp only [List.mem_filter] at this
    have h2 := this.2
    simp only [Bool.not_eq_true'] at h2
    simp [h2, hi]

theorem sort_specs_spec_arr (d : saved_data R S) :
    (sort_specs d).spec_arr =
      (used_specs d).filter (fun sp => sp.hasMetaChars) ++
        (used_specs d).filter (fun sp => !sp.hasMetaChars) :=
  sort_specs_arr_eq _ _ _

theorem used_specs_length (d : saved_data R S) : (used_specs d).length = d.nspec := by
  simp [used_specs]

theorem sort_specs_length (d : saved_data R S) : (sort_specs d).spec_arr.length = d.nspec := by
  rw [sort_specs_spec_arr, List.length_append, filter_length_add, used_specs_length]

theorem spec_at_eq_getElem (d : saved_data R S) (i : Nat) (h : i < d.spec_arr.length) :
    spec_at d i = d.spec_arr[i] := by
  simp [spec_at, List.getD_eq_getElem?_getD, List.getElem?_eq_getElem h]

/-- In the sorted store every specification with meta characters stands
before every specification without. -/
theorem sort_specs_meta_first (d : saved_data R S) (i j : Nat)
    (hi : i < d.nspec) (hj : j < d.nspec)
    (hmi : (spec_at (sort_specs d) i).hasMetaChars = true)
    (hmj : (spec_at (sort_specs d) j).hasMetaChars = false) : i < j := by
  have hli : i < (sort_specs d).spec_arr.length := by rw [sort_specs_length]; exact hi
  have hlj : j < (sort_specs d).spec_arr.length := by rw [sort_specs_length]; exact hj
  rw [spec_at_eq_getElem _ _ hli] at hmi
  rw [spec_at_eq_getElem _ _ hlj] at hmj
  have e := sort_specs_spec_arr d
  have pi := partition_index (fun sp : spec R S => sp.hasMetaChars) (used_specs d) i
    (by rw [← e]; exact hli)
  have pj := partition_index (fun sp : spec R S => sp.hasMetaChars) (used_specs d) j
    (by rw [← e]; exact hlj)
  simp only [← e] at pi pj
  have h1 := pi.1 hmi
  have h2 : ¬ j < ((used_specs d).filter (fun sp => sp.hasMetaChars)).length := by
    intro hlt
    have := pj.2 hlt
    rw [hmj] at this
    exact Bool.false_ne_true this
  omega

/-- C4. For every store, `sort_specs` leaves the count unchanged and replaces
the array by a permutation of the specifications in use in which every
specification with meta characters precedes every specification without, the
relative order inside each of the two groups being that of the input (a stable
partition). -/
theorem sort_specs_stable_partition (d : saved_data R S) :
    (sort_specs d).nspec = d.nspec ∧
    (sort_specs d).spec_arr.length = d.nspec ∧
    (sort_specs d).spec_arr.Perm (used_specs d) ∧
    (sort_specs d).spec_arr =
      (used_specs d).filter (fun sp => sp.hasMetaChars) ++
        (used_specs d).filter (fun sp => !sp.hasMetaChars) ∧
    (sort_specs d).spec_arr.filter (fun sp => sp.hasMetaChars) =
      (used_specs d).filter (fun sp => sp.hasMetaChars) ∧
    (sort_specs d).spec_arr.filter (fun sp => !sp.hasMetaChars) =
      (used_specs d).filter (fun sp => !sp.hasMetaChars) ∧
    (∀ i j, i < d.nspec → j < d.nspec →
      (spec_at (sort_specs d) i).hasMetaChars = true →
      (spec_at (sort_specs d) j).hasMetaChars = false → i < j) := by
  refine ⟨rfl, sort_specs_length d, ?_, sort_specs_spec_arr d, ?_, ?_,
    fun i j hi hj hmi hmj => sort_specs_meta_first d i j hi hj hmi hmj⟩
  · rw [sort_specs_spec_arr]; exact List.filter_append_perm _ _
  · rw [sort_specs_spec_arr, List.filter_append, List.filter_filter, List.filter_filter]
    simp
  · rw [sort_specs_spec_arr, List.filter_append, List.filter_filter, List.filter_filter]
    simp

end sorted_store


section precedence
variable {R S : Type}

theorem decl_order_eq (d : saved_data R S) :
    decl_order d =
      (List.range d.nspec).filter (fun i => (spec_at d i).hasMetaChars) ++
        (List.range d.nspec).filter (fun i => !(spec_at d i).hasMetaChars) :=
  sort_specs_arr_eq _ _ _

theorem sort_specs_eq_map (d : saved_data R S) :
    (sort_specs d).spec_arr = (decl_order d).map (spec_at d) := by
  rw [sort_specs_spec_arr, decl_order_eq, used_specs, List.map_append, List.filter_map,
    List.filter_map]
  rfl

theorem decl_order_length (d : saved_data R S) : (decl_order d).length = d.nspec := by
  rw [decl_order_eq, List.length_append, filter_length_add, List.length_range]

theorem decl_order_perm (d : saved_data R S) : (decl_order d).Perm (List.range d.nspec) := by
  rw [decl_order_eq]; exact List.filter_append_perm _ _

theorem decl_order_lt (d : saved_data R S) (k : Nat) (hk : k < d.nspec) :
    (decl_order d).getD k 0 < d.nspec := by
  have hl : k < (decl_order d).length := by rw [decl_order_length]; exact hk
  rw [List.getD_eq_getElem _ _ hl]
  have := (decl_order_perm d).mem_iff.1 (List.getElem_mem hl)
  exact List.mem_range.1 this

/-- Slot `k` of the sorted store holds the specification declared at index
`decl_order[k]`. -/
theorem spec_at_sort_specs (d : saved_data R S) (k : Nat) (hk : k < d.nspec) :
    spec_at (sort_specs d) k = spec_at d ((decl_order d).getD k 0) := by
  have hl : k < (decl_order d).length := by rw [decl_order_length]; exact hk
  have hs : k < (sort_specs d).spec_arr.length := by rw [sort_specs_length]; exact hk
  rw [spec_at_eq_getElem _ _ hs, List.getD_eq_getElem _ _ hl]
  simp only [sort_specs_eq_map, List.getElem_map]

/-- Every declaration index occupies a slot of the sorted store. -/
theorem decl_order_position (d : saved_data R S) (q : Nat) (hq : q < d.nspec) :
    ∃ k, k < d.nspec ∧ (decl_order d).getD k 0 = q := by
  have hm : q ∈ decl_order d := (decl_order_perm d).mem_iff.2 (List.mem_range.2 hq)
  obtain ⟨k, hk, hkq⟩ := List.getElem_of_mem hm
  refine ⟨k, by rw [← decl_order_length d]; exact hk, ?_⟩
  rw [List.getD_eq_getElem _ _ hk]; exact hkq

/-- Inside each of the two groups of the sorted store the declaration indices
increase with the position. -/
theorem decl_order_increasing (d : saved_data R S) (i k : Nat) (hik : i < k)
    (hk : k < d.nspec)
    (hkind : (spec_at d ((decl_order d).getD i 0)).hasMetaChars =
      (spec_at d ((decl_order d).getD k 0)).hasMetaChars) :
    (decl_order d).getD i 0 < (decl_order d).getD k 0 := by
  have hlk : k < (decl_order d).length := by rw [decl_order_length]; exact hk
  have hli : i < (decl_order d).length := Nat.lt_trans hik hlk
  have hp : (decl_order d).Pairwise
      (fun x y => (spec_at d x).hasMetaChars = (spec_at d y).hasMetaChars → x < y) := by
    rw [decl_order_eq, List.pairwise_append]
    refine ⟨?_, ?_, ?_⟩
    · refine List.Pairwise.imp ?_ ((List.pairwise_lt_range d.nspec).filter _)
      intro x y h _; exact h
    · refine List.Pairwise.imp ?_ ((List.pairwise_lt_range d.nspec).filter _)
      intro x y h _; exact h
    · intro a ha b hb hab
      simp only [List.mem_filter, Bool.not_eq_true'] at ha hb
      rw [ha.2, hb.2] at hab
      exact absurd hab (by decide)
  have := List.pairwise_iff_getElem.1 hp i k hli hlk hik
  rw [List.getD_eq_getElem _ _ hli, List.getD_eq_getElem _ _ hlk] at hkind ⊢
  exact this hkind

theorem query_of_sort_specs (d : saved_data R S) (key : List Char) (type : Int) :
    query_of (sort_specs d) key type = query_of d key type := rfl

/-- C2. Take any store in declaration order, sort it with `sort_specs` and run
a lookup that completes without engine error.  If some exact specification
(no meta characters) and some pattern specification both pass the pre-filter
and match the query, the walk stops at a matching exact specification, and
that one is returned unless its label is `<<none>>`. -/
theorem exact_outranks_pattern (E : pcre_engine R S) (d : saved_data R S)
    (key : List Char) (type : Int) (a b : Nat)
    (ha : a < d.nspec) (hb : b < d.nspec)
    (hea : (spec_at d a).hasMetaChars = false)
    (hpb : (spec_at d b).hasMetaChars = true)
    (hita : spec_hit E d.stem_arr (query_of d key type) (spec_at d a))
    (hitb : spec_hit E d.stem_arr (query_of d key type) (spec_at d b))
    (hok : (lookup_walk_of E (sort_specs d) key type false).ending ≠ walk_end.failed) :
    ∃ i, i < d.nspec ∧
      (lookup_walk_of E (sort_specs d) key type false).ending = walk_end.stopped i ∧
      (spec_at (sort_specs d) i).hasMetaChars = false ∧
      spec_hit E d.stem_arr (query_of d key type) (spec_at (sort_specs d) i) ∧
      (lookup_common E (sort_specs d) key type false).2 =
        if (spec_at (sort_specs d) i).lr.ctx_raw = none_label then none else some i := by
  have _ := And.intro hb (And.intro hpb hitb)
  obtain ⟨ka, hka, hkaq⟩ := decl_order_position d a ha
  have hhit_ka : spec_hit E d.stem_arr (query_of d key type) (spec_at (sort_specs d) ka) := by
    rw [spec_at_sort_specs d ka hka, hkaq]; exact hita
  have hex_ka : (spec_at (sort_specs d) ka).hasMetaChars = false := by
    rw [spec_at_sort_specs d ka hka, hkaq]; exact hea
  have hend := lookup_walk_of_ending E (sort_specs d) key type false
  rw [hend] at hok
  cases hw : walk_ending E (sort_specs d).stem_arr (query_of (sort_specs d) key type) false
      (spec_at (sort_specs d)) (sort_specs d).nspec with
  | failed => exact absurd hw hok
  | exhausted =>
    have := walk_ending_exhausted E _ _ false _ _ hw ka hka hhit_ka.1
    exact absurd (this.symm.trans hhit_ka.2) (by decide)
  | stopped i =>
    have hi := (walk_ending_stopped_iff E _ _ _ _ i hok).1 hw
    refine ⟨i, hi.1, by rw [hend, hw], ?_, hi.2.1, ?_⟩
    · by_contra hmeta
      have hmeta1 : (spec_at (sort_specs d) i).hasMetaChars = true := by
        simpa using hmeta
      have hlt := sort_specs_meta_first d i ka hi.1 hka hmeta1 hex_ka
      exact hi.2.2 ka hlt hka hhit_ka
    · rw [lookup_common_index, lookup_index, hw]

/-- Instance of C2: with the rules `/etc/passwd -> L1` then `/etc(/.*)? -> L2`
the query `/etc/passwd` gives `L1`. -/
theorem exact_outranks_pattern_witness :
    ((0 < decl_etc.nspec ∧ 1 < decl_etc.nspec ∧
      (spec_at decl_etc 0).regex_str = "/etc/passwd".toList ∧
      (spec_at decl_etc 0).hasMetaChars = false ∧
      (spec_at decl_etc 1).regex_str = "/etc(/.*)?".toList ∧
      (spec_at decl_etc 1).hasMetaChars = true) ∧
     label_of store_etc (lookup demo_engine store_etc "/etc/passwd".toList 0).2 =
       some "L1".toList) ∧
    ∃ i, i < decl_etc.nspec ∧
      (lookup_walk_of demo_engine (sort_specs decl_etc) "/etc/passwd".toList 0 false).ending =
        walk_end.stopped i ∧
      (spec_at (sort_specs decl_etc) i).hasMetaChars = false ∧
      spec_hit demo_engine decl_etc.stem_arr (query_of decl_etc "/etc/passwd".toList 0)
        (spec_at (sort_specs decl_etc) i) ∧
      (lookup_common demo_engine (sort_specs decl_etc) "/etc/passwd".toList 0 false).2 =
        if (spec_at (sort_specs decl_etc) i).lr.ctx_raw = none_label then none else some i :=
  ⟨by decide,
    exact_outranks_pattern demo_engine decl_etc "/etc/passwd".toList 0 0 1
      (by decide) (by decide) (by decide) (by decide) (by decide) (by decide) (by decide)⟩

/-- C3. Take any store in declaration order, sort it with `sort_specs` and run
a lookup.  The specification at which the walk stops was declared at index
`p = decl_order[i]` and matches; no specification of the same kind (both
exact, or both pattern) declared after `p` passes the pre-filter and matches:
among matching specifications of one kind the one declared last is chosen. -/
theorem later_declaration_wins (E : pcre_engine R S) (d : saved_data R S)
    (key : List Char) (type : Int) (i : Nat)
    (hstop : (lookup_walk_of E (sort_specs d) key type false).ending = walk_end.stopped i) :
    (decl_order d).getD i 0 < d.nspec ∧
    spec_at (sort_specs d) i = spec_at d ((decl_order d).getD i 0) ∧
    spec_hit E d.stem_arr (query_of d key type) (spec_at d ((decl_order d).getD i 0)) ∧
    ∀ q, (decl_order d).getD i 0 < q → q < d.nspec →
      (spec_at d q).hasMetaChars = (spec_at d ((decl_order d).getD i 0)).hasMetaChars →
      ¬ spec_hit E d.stem_arr (query_of d key type) (spec_at d q) := by
  rw [lookup_walk_of_ending] at hstop
  have hok : walk_ending E (sort_specs d).stem_arr (query_of (sort_specs d) key type) false
      (spec_at (sort_specs d)) (sort_specs d).nspec ≠ walk_end.failed := by
    rw [hstop]; exact fun h => walk_end.noConfusion h
  obtain ⟨hi, hhit, hmax⟩ := (walk_ending_stopped_iff E _ _ _ _ i hok).1 hstop
  have hi1 : i < d.nspec := hi
  have hsp := spec_at_sort_specs d i hi1
  refine ⟨decl_order_lt d i hi1, hsp, hsp ▸ hhit, fun q hpq hq hkind hitq => ?_⟩
  obtain ⟨k, hk, hkq⟩ := decl_order_position d q hq
  have hspk := spec_at_sort_specs d k hk
  rcases Nat.lt_trichotomy i k with hlt | heq | hgt
  · refine hmax k hlt hk ?_
    rw [hspk, hkq]; exact hitq
  · rw [← heq] at hkq; omega
  · have := decl_order_increasing d k i hgt hi1 (by rw [hkq]; exact hkind)
    omega

/-- Instance of C3: with the rules `/var/.* -> L1` then `/var/log/.* -> L2` the
query `/var/log/messages` gives `L2`. -/
theorem later_declaration_wins_witness :
    ((lookup_walk_of demo_engine (sort_specs decl_var) "/var/log/messages".toList 0
        false).ending = walk_end.stopped 1 ∧
     (spec_at decl_var 0).regex_str = "/var/.*".toList ∧
     (spec_at decl_var 1).regex_str = "/var/log/.*".toList ∧
     label_of store_var (lookup demo_engine store_var "/var/log/messages".toList 0).2 =
       some "L2".toList) ∧
    ((decl_order decl_var).getD 1 0 < decl_var.nspec ∧
    spec_at (sort_specs decl_var) 1 = spec_at decl_var ((decl_order decl_var).getD 1 0) ∧
    spec_hit demo_engine decl_var.stem_arr (query_of decl_var "/var/log/messages".toList 0)
      (spec_at decl_var ((decl_order decl_var).getD 1 0)) ∧
    ∀ q, (decl_order decl_var).getD 1 0 < q → q < decl_var.nspec →
      (spec_at decl_var q).hasMetaChars =
        (spec_at decl_var ((decl_order decl_var).getD 1 0)).hasMetaChars →
      ¬ spec_hit demo_engine decl_var.stem_arr (query_of decl_var "/var/log/messages".toList 0)
        (spec_at decl_var q)) :=
  ⟨by decide,
    later_declaration_wins demo_engine decl_var "/var/log/messages".toList 0 1 (by decide)⟩

end precedence


section none_label
variable {R S : Type}

/-- C5. A lookup never returns a specification labelled `<<none>>`: when the
walk stops at such a specification (the highest-precedence match) the result
is NULL, whatever specifications of lower precedence would have matched. -/
theorem none_label_is_not_found (E : pcre_engine R S) (d : saved_data R S)
    (key : List Char) (type : Int) :
    (∀ i, (lookup E d key type).2 = some i →
      (spec_at d i).lr.ctx_raw ≠ none_label ∧
      (spec_at (lookup E d key type).1 i).lr.ctx_raw ≠ none_label) ∧
    (∀ i, (lookup_walk_of E d key type false).ending = walk_end.stopped i →
      (spec_at d i).lr.ctx_raw = none_label → (lookup E d key type).2 = none) ∧
    (∀ i, (lookup_walk_of E d key type false).ending ≠ walk_end.failed →
      i < d.nspec → spec_hit E d.stem_arr (query_of d key type) (spec_at d i) →
      (∀ j, i < j → j < d.nspec →
        ¬ spec_hit E d.stem_arr (query_of d key type) (spec_at d j)) →
      (spec_at d i).lr.ctx_raw = none_label → (lookup E d key type).2 = none) := by
  have key2 : ∀ i, (lookup_walk_of E d key type false).ending = walk_end.stopped i →
      (spec_at d i).lr.ctx_raw = none_label → (lookup E d key type).2 = none := by
    intro i hstop hl
    rw [lookup_walk_of_ending] at hstop
    show (lookup_common E d key type false).2 = none
    rw [lookup_common_index, lookup_index, hstop]
    simp [hl]
  refine ⟨fun i hi => ?_, key2, fun i hok hi hhit hmax hl => ?_⟩
  · have hi1 : (lookup_common E d key type false).2 = some i := hi
    rw [lookup_common_index, lookup_index] at hi1
    have hne : (spec_at d i).lr.ctx_raw ≠ none_label := by
      split at hi1
      · split at hi1
        · cases hi1
        · injection hi1 with hi1; subst hi1; assumption
      · cases hi1
    refine ⟨hne, ?_⟩
    have heq := ((lookup_common_data E d key type false).2.2 i).1
    show (spec_at (lookup_common E d key type false).1 i).lr.ctx_raw ≠ none_label
    rw [← heq]; exact hne
  · have := (walk_stops_at_greatest_hit E d key type i hok).2 ⟨hi, hhit, hmax⟩
    exact key2 i this hl

/-- Instance of C5: with the rules `/etc/.* -> L1` then `/etc/shadow -> <<none>>`
the query `/etc/shadow` stops at the `<<none>>` rule and is not found, though
the rule `/etc/.*` matches it too. -/
theorem none_label_is_not_found_witness :
    (lookup_walk_of demo_engine store_shadow "/etc/shadow".toList 0 false).ending =
      walk_end.stopped 1 ∧
    (spec_at store_shadow 1).lr.ctx_raw = none_label ∧
    (spec_at store_shadow 0).lr.ctx_raw = "L1".toList ∧
    spec_hit demo_engine store_shadow.stem_arr (query_of store_shadow "/etc/shadow".toList 0)
      (spec_at store_shadow 0) ∧
    (lookup demo_engine store_shadow "/etc/shadow".toList 0).2 = none :=
  ⟨by decide, by decide, by decide, by decide,
    (none_label_is_not_found demo_engine store_shadow "/etc/shadow".toList 0).2.1 1
      (by decide) (by decide)⟩

end none_label


section type_filter
variable {R S : Type}

end type_filter

/-! ## Collapsing slashes -/

section slashes
variable {R S : Type}

theorem strstr_slashes_none (s : List Char) (h : strstr_slashes s = none) :
    collapse_slashes s = s := by
  induction s with
  | nil => rfl
  | cons x t ih =>
    cases t with
    | nil => rfl
    | cons y rest =>
      rw [strstr_slashes] at h
      by_cases hxy : x = '/' ∧ y = '/'
      · simp [hxy] at h
      · simp only [hxy, if_false, Option.map_eq_none'] at h
        rw [collapse_slashes, if_neg hxy, ih h]

theorem strstr_slashes_some (s : List Char) (k : Nat) (h : strstr_slashes s = some k) :
    collapse_slashes s = s.take k ++ collapse_slashes (s.drop (k + 1)) ∧ k + 1 < s.length := by
  induction s generalizing k with
  | nil => simp [strstr_slashes] at h
  | cons x t ih =>
    cases t with
    | nil => simp [strstr_slashes] at h
    | cons y rest =>
      rw [strstr_slashes] at h
      by_cases hxy : x = '/' ∧ y = '/'
      · simp only [hxy, and_self, if_true, Option.some.injEq] at h
        subst h
        refine ⟨?_, by simp⟩
        rw [collapse_slashes, if_pos hxy]
        simp
      · simp only [hxy, if_false, Option.map_eq_some'] at h
        obtain ⟨k1, hk1, rfl⟩ := h
        obtain ⟨e, hl⟩ := ih k1 hk1
        refine ⟨?_, by simp at hl ⊢; omega⟩
        rw [collapse_slashes, if_neg hxy, e]
        simp

theorem remove_dup_loop_eq (fuel : Nat) :
    ∀ (acc prev : List Char), prev.length < fuel →
      remove_dup_loop fuel acc prev = acc ++ collapse_slashes prev := by
  induction fuel with
  | zero => intro acc prev h; omega
  | succ fuel ih =>
    intro acc prev h
    rw [remove_dup_loop]
    cases hs : strstr_slashes prev with
    | none => simp only; rw [strstr_slashes_none prev hs]
    | some k =>
      simp only
      obtain ⟨e, hl⟩ := strstr_slashes_some prev k hs
      rw [ih _ _ (by simp; omega), e, List.append_assoc]

/-- The cleaned key is the key with its runs of slashes collapsed. -/
theorem clean_key_eq (key : List Char) : clean_key key = collapse_slashes key := by
  unfold clean_key
  cases hs : strstr_slashes key with
  | none => simp only; rw [strstr_slashes_none key hs]
  | some k => simp only; rw [remove_dup_loop_eq _ _ _ (Nat.lt_succ_self _)]; rfl

theorem strstr_collapse (s : List Char) : strstr_slashes (collapse_slashes s) = none := by
  induction s with
  | nil => rfl
  | cons x t ih =>
    cases t with
    | nil => rfl
    | cons y rest =>
      rw [collapse_slashes]
      by_cases hxy : x = '/' ∧ y = '/'
      · rw [if_pos hxy]; exact ih
      · rw [if_neg hxy]
        cases hc : collapse_slashes (y :: rest) with
        | nil => rfl
        | cons z u =>
          rw [hc] at ih
          have hz : z = y := by
            cases rest with
            | nil => simp [collapse_slashes] at hc; exact hc.1.symm
            | cons w v =>
              rw [collapse_slashes] at hc
              by_cases hyw : y = '/' ∧ w = '/'
              · rw [if_pos hyw] at hc
                have : ∀ l : List Char, l.head? = some '/' →
                    (collapse_slashes l).head? = some '/' := by
                  intro l
                  induction l with
                  | nil => simp
                  | cons a l1 ih1 =>
                    cases l1 with
                    | nil => simp [collapse_slashes]
                    | cons b l2 =>
                      intro ha
                      simp only [List.head?_cons, Option.some.injEq] at ha
                      rw [collapse_slashes]
                      by_cases hab : a = '/' ∧ b = '/'
                      · rw [if_pos hab]; exact ih1 (by simp [hab.2])
                      · rw [if_neg hab]; simp [ha]
                have h2 := this (w :: v) (by simp [hyw.2])
                rw [hc] at h2
                simp only [List.head?_cons, Option.some.injEq] at h2
                rw [h2, hyw.1]
              · rw [if_neg hyw] at hc
                injection hc with h1 _
                exact h1.symm
          subst hz
          rw [strstr_slashes, if_neg hxy, ih]; rfl

/-- Collapsing keeps every byte other than `/`, in order. -/
theorem collapse_keeps_others (s : List Char) :
    (collapse_slashes s).filter (fun c => c ≠ '/') = s.filter (fun c => c ≠ '/') := by
  induction s with
  | nil => rfl
  | cons x t ih =>
    cases t with
    | nil => rfl
    | cons y rest =>
      rw [collapse_slashes]
      by_cases hxy : x = '/' ∧ y = '/'
      · rw [if_pos hxy, ih]; simp [hxy.1]
      · rw [if_neg hxy, List.filter_cons, ih]
        simp only [List.filter_cons]

/-- A run of one or more slashes followed by text that does not start with a
slash collapses to a single slash followed by the collapsed text. -/
theorem collapse_run (n : Nat) (rest : List Char) (h : rest.head? ≠ some '/') :
    collapse_slashes (List.replicate (n + 1) '/' ++ rest) = '/' :: collapse_slashes rest := by
  induction n with
  | zero =>
    cases rest with
    | nil => rfl
    | cons y r =>
      have hy : y ≠ '/' := by simpa using h
      show collapse_slashes ('/' :: y :: r) = _
      rw [collapse_slashes, if_neg (fun hh => hy hh.2)]
  | succ n ih =>
    show collapse_slashes ('/' :: (List.replicate (n + 1) '/' ++ rest)) = _
    rw [List.replicate_succ, List.cons_append, collapse_slashes, if_pos ⟨rfl, rfl⟩,
      ← List.cons_append, ← List.replicate_succ]
    exact ih

/-- A byte other than `/` is kept. -/
theorem collapse_other (c : Char) (rest : List Char) (h : c ≠ '/') :
    collapse_slashes (c :: rest) = c :: collapse_slashes rest := by
  cases rest with
  | nil => rfl
  | cons y r => rw [collapse_slashes, if_neg (fun hh => h hh.1)]

/-- C7. The key that `lookup_common` matches against is the given key with
every maximal run of two or more `/` replaced by one `/` and all other bytes
kept in order; it contains no `//`; and the outcome of `lookup_common` for a
key is the outcome for its collapsed form.  `/a//b///c` is matched as
`/a/b/c`. -/
theorem clean_key_collapses_slashes (key : List Char) :
    clean_key key = collapse_slashes key ∧
    strstr_slashes (clean_key key) = none ∧
    (clean_key key).filter (fun c => c ≠ '/') = key.filter (fun c => c ≠ '/') ∧
    (∀ (E : pcre_engine R S) (d : saved_data R S) (type : Int) (soft : Bool),
      (query_of d key type).key = clean_key key ∧
      lookup_common E d key type soft = lookup_common E d (clean_key key) type soft) ∧
    clean_key "/a//b///c".toList = "/a/b/c".toList := by
  have hnone : strstr_slashes (clean_key key) = none := by
    rw [clean_key_eq]; exact strstr_collapse key
  have hidem : clean_key (clean_key key) = clean_key key := by
    conv_lhs => rw [clean_key]
    rw [hnone]
  refine ⟨clean_key_eq key, hnone, ?_, fun E d type soft => ⟨rfl, ?_⟩, by decide⟩
  · rw [clean_key_eq]; exact collapse_keeps_others key
  · unfold lookup_common lookup_walk_of
    rw [hidem]

end slashes


/-! ## `lookup_best_match` -/

section best_match
variable {R S : Type}

theorem walk_ending_equiv (E : pcre_engine R S) (stems : List stem) (q : query)
    (soft : Bool) (f g : Nat → spec R S) (n : Nat)
    (h : ∀ j, spec_equiv E stems (f j) (g j)) :
    walk_ending E stems q soft f n = walk_ending E stems q soft g n := by
  induction n with
  | zero => rfl
  | succ i ih =>
    obtain ⟨_, _, _, hmode, hstem, _, _, _, htry⟩ := h i
    have hc : candidate (f i) q.file_stem q.mode = candidate (g i) q.file_stem q.mode := by
      simp only [candidate, hmode, hstem]
    have ht : try_query E stems q (f i) soft = try_query E stems q (g i) soft := by
      simp only [try_query, subject_of, hstem, htry]
    simp only [walk_ending, hc, ht, ih]

theorem query_of_congr (d d1 : saved_data R S) (h : d.stem_arr = d1.stem_arr)
    (key : List Char) (type : Int) : query_of d1 key type = query_of d key type := by
  simp only [query_of, find_stem_from_file, h]

/-- Equivalent stores answer every lookup alike. -/
theorem lookup_index_congr (E : pcre_engine R S) (d d1 : saved_data R S)
    (h : store_equiv E d d1) (key : List Char) (type : Int) (soft : Bool) :
    lookup_index E d1 key type soft = lookup_index E d key type soft := by
  obtain ⟨hn, hs, hsp⟩ := h
  unfold lookup_index
  rw [query_of_congr d d1 hs, ← hn, ← hs,
    ← walk_ending_equiv E d.stem_arr _ soft (spec_at d) (spec_at d1) d.nspec hsp]
  cases walk_ending E d.stem_arr (query_of d key type) soft (spec_at d) d.nspec with
  | stopped i => simp only [(hsp i).1]
  | exhausted => rfl
  | failed => rfl

theorem lookup_result_congr (E : pcre_engine R S) (d d1 : saved_data R S)
    (h : store_equiv E d d1) (key : List Char) (type : Int) :
    (lookup_common E d1 key type false).2 = lookup_result E d key type := by
  rw [lookup_result, lookup_common_index, lookup_common_index]
  exact lookup_index_congr E d d1 h key type false

/-- The loop of `lookup_best_match`, run on a store equivalent to `d`, returns
what `best_scan` computes from the lookups of the aliases on `d`. -/
theorem best_match_loop_scan (E : pcre_engine R S) (type : Int) (d : saved_data R S)
    (aliases : List (List Char)) :
    ∀ (d1 : saved_data R S) (specs : List (Option Nat)) (best : Int) (plen : Nat)
      (bs : Option Nat),
      store_equiv E d d1 →
      (0 ≤ best → best.toNat < specs.length) →
      (if 0 ≤ best then specs.getD best.toNat none else none) = bs →
      (best_match_loop E type aliases d1 specs best plen).2 =
        best_scan d (aliases.map (fun k => lookup_result E d k type)) bs plen := by
  induction aliases with
  | nil =>
    intro d1 specs best plen bs _ _ hbs
    simp only [best_match_loop, List.map_nil, best_scan]
    split_ifs at hbs ⊢ <;> exact hbs
  | cons a rest ih =>
    intro d1 specs best plen bs heq hlt hbs
    have hr := lookup_result_congr E d d1 heq a type
    have hd := store_equiv_trans E heq (lookup_common_data E d1 a type false)
    have hkeep : ∀ x : Option Nat,
        (if 0 ≤ best then (specs ++ [x]).getD best.toNat none else none) = bs := by
      intro x
      by_cases hb : 0 ≤ best
      · simp only [hb, if_true] at hbs ⊢
        rw [← hbs, List.getD_eq_getElem?_getD, List.getD_eq_getElem?_getD,
          List.getElem?_append_left (hlt hb)]
      · simp only [hb, if_false] at hbs ⊢; exact hbs
    have hlt2 : ∀ x : Option Nat, 0 ≤ best → best.toNat < (specs ++ [x]).length := by
      intro x hb; have := hlt hb; simp; omega
    rw [best_match_loop, List.map_cons, ← hr]
    cases hres : (lookup_common E d1 a type false).2 with
    | none =>
      simp only [best_scan]
      exact ih _ _ _ _ _ hd (hlt2 none) (hkeep none)
    | some j =>
      have hmeta : (spec_at (lookup_common E d1 a type false).1 j).hasMetaChars =
          (spec_at d j).hasMetaChars := ((hd.2.2 j).2.2.2.2.2.1).symm
      have hplen : (spec_at (lookup_common E d1 a type false).1 j).prefix_len =
          (spec_at d j).prefix_len := ((hd.2.2 j).2.2.2.2.2.2.2.1).symm
      simp only [best_scan, hmeta, hplen]
      split_ifs with h1 h2
      · rfl
      · refine ih _ _ _ _ _ hd (fun _ => by simp) ?_
        simp [List.getD_eq_getElem?_getD]
      · exact ih _ _ _ _ _ hd (hlt2 (some j)) (hkeep (some j))

/-- With a non-empty alias list `lookup_best_match` returns what
`best_of_results` computes from the results of the individual lookups, each
taken on the store as it is before the call. -/
theorem lookup_best_match_scan (E : pcre_engine R S) (d : saved_data R S)
    (key : List Char) (aliases : List (List Char)) (type : Int) (hne : aliases ≠ []) :
    (lookup_best_match E d key aliases type).2 =
      best_of_results d (scan_results E d key aliases type) := by
  cases aliases with
  | nil => exact absurd rfl hne
  | cons a rest =>
    have hd := lookup_common_data E d key type false
    rw [lookup_best_match, scan_results, List.map_cons]
    simp only [lookup_result]
    cases hres : (lookup_common E d key type false).2 with
    | none =>
      simp only [best_of_results]
      exact best_match_loop_scan E type d (a :: rest) _ [none] (-1) 0 none hd
        (fun h => absurd h (by decide)) rfl
    | some j =>
      have hmeta : (spec_at (lookup_common E d key type false).1 j).hasMetaChars =
          (spec_at d j).hasMetaChars := ((hd.2.2 j).2.2.2.2.2.1).symm
      have hplen : (spec_at (lookup_common E d key type false).1 j).prefix_len =
          (spec_at d j).prefix_len := ((hd.2.2 j).2.2.2.2.2.2.2.1).symm
      simp only [best_of_results, hmeta, hplen]
      split_ifs with h1
      · rfl
      · exact best_match_loop_scan E type d (a :: rest) _ [some j] 0 _ (some j) hd
          (fun _ => by simp) rfl

end best_match


section best_match_claims
variable {R S : Type}

theorem best_match_loop_data (E : pcre_engine R S) (type : Int) (d : saved_data R S)
    (aliases : List (List Char)) :
    ∀ (d1 : saved_data R S) (specs : List (Option Nat)) (best : Int) (plen : Nat),
      store_equiv E d d1 →
      store_equiv E d (best_match_loop E type aliases d1 specs best plen).1 := by
  induction aliases with
  | nil =>
    intro d1 specs best plen h
    rw [best_match_loop]; split_ifs <;> exact h
  | cons a rest ih =>
    intro d1 specs best plen h
    have hd := store_equiv_trans E h (lookup_common_data E d1 a type false)
    rw [best_match_loop]
    split
    · split_ifs
      · exact hd
      · exact ih _ _ _ _ hd
      · exact ih _ _ _ _ hd
    · exact ih _ _ _ _ hd

/-- The store after `lookup_best_match` is equivalent to the store before. -/
theorem lookup_best_match_data (E : pcre_engine R S) (d : saved_data R S)
    (key : List Char) (aliases : List (List Char)) (type : Int) :
    store_equiv E d (lookup_best_match E d key aliases type).1 := by
  have hd := lookup_common_data E d key type false
  cases aliases with
  | nil => exact hd
  | cons a rest =>
    rw [lookup_best_match]
    split
    · split_ifs
      · exact hd
      · exact best_match_loop_data E type d _ _ _ _ _ hd
    · exact best_match_loop_data E type d _ _ _ _ _ hd

theorem best_scan_first_exact (d : saved_data R S) (rs : List (Option Nat)) (j : Nat)
    (h : first_exact d rs = some j) :
    ∀ (best : Option Nat) (plen : Nat), best_scan d rs best plen = some j := by
  induction rs with
  | nil => simp [first_exact] at h
  | cons r rest ih =>
    intro best plen
    cases r with
    | none => rw [first_exact] at h; rw [best_scan]; exact ih h best plen
    | some i =>
      rw [first_exact] at h
      rw [best_scan]
      by_cases hm : (spec_at d i).hasMetaChars = false
      · rw [if_pos hm] at h ⊢; exact h
      · rw [if_neg hm] at h ⊢
        split_ifs
        · exact ih h _ _
        · exact ih h _ _

theorem best_of_results_first_exact (d : saved_data R S) (rs : List (Option Nat)) (j : Nat)
    (h : first_exact d rs = some j) : best_of_results d rs = some j := by
  cases rs with
  | nil => simp [first_exact] at h
  | cons r rest =>
    cases r with
    | none =>
      rw [first_exact] at h; rw [best_of_results]
      exact best_scan_first_exact d rest j h none 0
    | some i =>
      rw [first_exact] at h
      rw [best_of_results]
      by_cases hm : (spec_at d i).hasMetaChars = false
      · rw [if_pos hm] at h ⊢; exact h
      · rw [if_neg hm] at h ⊢
        exact best_scan_first_exact d rest j h _ _

/-- The value of `first_exact` is an exact result, and every result scanned
before it is NULL or a pattern specification. -/
theorem first_exact_spec (d : saved_data R S) (rs : List (Option Nat)) (j : Nat)
    (h : first_exact d rs = some j) :
    (spec_at d j).hasMetaChars = false ∧
    ∃ pre post, rs = pre ++ some j :: post ∧
      ∀ i, some i ∈ pre → (spec_at d i).hasMetaChars = true := by
  induction rs with
  | nil => simp [first_exact] at h
  | cons r rest ih =>
    cases r with
    | none =>
      rw [first_exact] at h
      obtain ⟨h1, pre, post, h2, h3⟩ := ih h
      refine ⟨h1, none :: pre, post, by rw [h2]; rfl, fun i hi => ?_⟩
      rcases List.mem_cons.1 hi with hi | hi
      · cases hi
      · exact h3 i hi
    | some i0 =>
      rw [first_exact] at h
      by_cases hm : (spec_at d i0).hasMetaChars = false
      · rw [if_pos hm] at h
        injection h with h; subst h
        exact ⟨hm, [], rest, rfl, fun i hi => absurd hi (List.not_mem_nil _)⟩
      · rw [if_neg hm] at h
        obtain ⟨h1, pre, post, h2, h3⟩ := ih h
        refine ⟨h1, some i0 :: pre, post, by rw [h2]; rfl, fun i hi => ?_⟩
        rcases List.mem_cons.1 hi with hi | hi
        · injection hi with hi; subst hi; simpa using hm
        · exact h3 i hi

theorem first_exact_exists (d : saved_data R S) (rs : List (Option Nat))
    (h : ∃ i, some i ∈ rs ∧ (spec_at d i).hasMetaChars = false) :
    ∃ j, first_exact d rs = some j := by
  induction rs with
  | nil => obtain ⟨i, hi, _⟩ := h; exact absurd hi (List.not_mem_nil _)
  | cons r rest ih =>
    obtain ⟨i, hi, hm⟩ := h
    cases r with
    | none =>
      rw [first_exact]
      rcases List.mem_cons.1 hi with hi | hi
      · cases hi
      · exact ih ⟨i, hi, hm⟩
    | some i0 =>
      rw [first_exact]
      by_cases hm0 : (spec_at d i0).hasMetaChars = false
      · exact ⟨i0, by rw [if_pos hm0]⟩
      · rw [if_neg hm0]
        rcases List.mem_cons.1 hi with hi | hi
        · injection hi with hi; subst hi; exact absurd hm hm0
        · exact ih ⟨i, hi, hm⟩

/-- C8. With a non-empty alias list, if the lookup of the key or of any alias
yields an exact specification (no meta characters), `lookup_best_match`
returns an exact specification: the first exact one in scan order (the key,
then the aliases in order), every result scanned before it being NULL or a
pattern specification.  Its label is unchanged by the call. -/
theorem best_match_prefers_exact (E : pcre_engine R S) (d : saved_data R S)
    (key : List Char) (aliases : List (List Char)) (type : Int)
    (hne : aliases ≠ [])
    (hex : ∃ k, k ∈ key :: aliases ∧ ∃ i, lookup_result E d k type = some i ∧
      (spec_at d i).hasMetaChars = false) :
    ∃ j, (lookup_best_match E d key aliases type).2 = some j ∧
      (spec_at d j).hasMetaChars = false ∧
      (spec_at (lookup_best_match E d key aliases type).1 j).lr = (spec_at d j).lr ∧
      first_exact d (scan_results E d key aliases type) = some j ∧
      ∃ pre post, scan_results E d key aliases type = pre ++ some j :: post ∧
        ∀ i, some i ∈ pre → (spec_at d i).hasMetaChars = true := by
  obtain ⟨k, hk, i, hki, hmi⟩ := hex
  have hmem : some i ∈ scan_results E d key aliases type := by
    rw [scan_results, ← hki]
    exact List.mem_map.2 ⟨k, hk, rfl⟩
  obtain ⟨j, hj⟩ := first_exact_exists d _ ⟨i, hmem, hmi⟩
  obtain ⟨h1, h2⟩ := first_exact_spec d _ j hj
  refine ⟨j, ?_, h1, ?_, hj, h2⟩
  · rw [lookup_best_match_scan E d key aliases type hne]
    exact best_of_results_first_exact d _ j hj
  · exact (((lookup_best_match_data E d key aliases type).2.2 j).1).symm

/-- Instance of C8: with the rules `/a/.* -> L1` and `/a/real -> L2`, the key
`/a/link` (matched by the pattern only) and the alias `/a/real` give `L2`. -/
theorem best_match_prefers_exact_witness :
    (label_of store_alias_exact
        (lookup_result demo_engine store_alias_exact "/a/link".toList 0) = some "L1".toList ∧
     label_of store_alias_exact
        (lookup_best_match demo_engine store_alias_exact "/a/link".toList
          ["/a/real".toList] 0).2 = some "L2".toList) ∧
    ∃ j, (lookup_best_match demo_engine store_alias_exact "/a/link".toList
          ["/a/real".toList] 0).2 = some j ∧
      (spec_at store_alias_exact j).hasMetaChars = false ∧
      (spec_at (lookup_best_match demo_engine store_alias_exact "/a/link".toList
          ["/a/real".toList] 0).1 j).lr = (spec_at store_alias_exact j).lr ∧
      first_exact store_alias_exact
        (scan_results demo_engine store_alias_exact "/a/link".toList ["/a/real".toList] 0) =
          some j ∧
      ∃ pre post,
        scan_results demo_engine store_alias_exact "/a/link".toList ["/a/real".toList] 0 =
          pre ++ some j :: post ∧
        ∀ i, some i ∈ pre → (spec_at store_alias_exact i).hasMetaChars = true :=
  ⟨by decide,
    best_match_prefers_exact demo_engine store_alias_exact "/a/link".toList
      ["/a/real".toList] 0 (by decide)
      ⟨"/a/real".toList, by decide, 1, by decide, by decide⟩⟩

end best_match_claims


section best_match_length
variable {R S : Type}

/-- The scan of the remaining results, when none of them is exact: either
`best` is kept and no result has a fixed prefix longer than `plen`, or the
scan ends on a result with a longer fixed prefix than `plen`, strictly longer
than that of every result before it and at least as long as that of every
result after it. -/
theorem best_scan_spec (d : saved_data R S) (rs : List (Option Nat)) :
    ∀ (best : Option Nat) (plen : Nat),
      (∀ i, some i ∈ rs → (spec_at d i).hasMetaChars = true) →
      (best_scan d rs best plen = best ∧
        ∀ i, some i ∈ rs → (spec_at d i).prefix_len ≤ plen) ∨
      ∃ j pre post, rs = pre ++ some j :: post ∧ best_scan d rs best plen = some j ∧
        plen < (spec_at d j).prefix_len ∧
        (∀ i, some i ∈ pre → (spec_at d i).prefix_len < (spec_at d j).prefix_len) ∧
        (∀ i, some i ∈ post → (spec_at d i).prefix_len ≤ (spec_at d j).prefix_len) := by
  induction rs with
  | nil =>
    intro best plen _
    exact Or.inl ⟨rfl, fun i hi => absurd hi (List.not_mem_nil _)⟩
  | cons r rest ih =>
    intro best plen hpat
    have hrest : ∀ i, some i ∈ rest → (spec_at d i).hasMetaChars = true :=
      fun i hi => hpat i (List.mem_cons_of_mem _ hi)
    cases r with
    | none =>
      rw [best_scan]
      rcases ih best plen hrest with ⟨h1, h2⟩ | ⟨j, pre, post, h1, h2, h3, h4, h5⟩
      · refine Or.inl ⟨h1, fun i hi => ?_⟩
        rcases List.mem_cons.1 hi with hi | hi
        · cases hi
        · exact h2 i hi
      · refine Or.inr ⟨j, none :: pre, post, by rw [h1]; rfl, h2, h3, fun i hi => ?_, h5⟩
        rcases List.mem_cons.1 hi with hi | hi
        · cases hi
        · exact h4 i hi
    | some i0 =>
      have hm : ¬ (spec_at d i0).hasMetaChars = false := by
        rw [hpat i0 (List.mem_cons_self _ _)]; decide
      rw [best_scan, if_neg hm]
      by_cases hgt : (spec_at d i0).prefix_len > plen
      · rw [if_pos hgt]
        rcases ih (some i0) (spec_at d i0).prefix_len hrest with
          ⟨h1, h2⟩ | ⟨j, pre, post, h1, h2, h3, h4, h5⟩
        · exact Or.inr ⟨i0, [], rest, rfl, h1, hgt,
            fun i hi => absurd hi (List.not_mem_nil _), h2⟩
        · refine Or.inr ⟨j, some i0 :: pre, post, by rw [h1]; rfl, h2,
            Nat.lt_trans hgt h3, fun i hi => ?_, h5⟩
          rcases List.mem_cons.1 hi with hi | hi
          · injection hi with hi; subst hi; exact h3
          · exact h4 i hi
      · rw [if_neg hgt]
        rcases ih best plen hrest with ⟨h1, h2⟩ | ⟨j, pre, post, h1, h2, h3, h4, h5⟩
        · refine Or.inl ⟨h1, fun i hi => ?_⟩
          rcases List.mem_cons.1 hi with hi | hi
          · injection hi with hi; subst hi; omega
          · exact h2 i hi
        · refine Or.inr ⟨j, some i0 :: pre, post, by rw [h1]; rfl, h2, h3,
            fun i hi => ?_, h5⟩
          rcases List.mem_cons.1 hi with hi | hi
          · injection hi with hi; subst hi; omega
          · exact h4 i hi

/-- What `lookup_best_match` does when no individual result is exact.  It
returns NULL exactly when the key was not found and every alias that was found
has a fixed prefix of length 0; a specification it returns is one of the
results, its fixed prefix is at least as long as that of every result, and
strictly longer than that of every result scanned before it. -/
theorem best_of_results_spec (d : saved_data R S) (rs : List (Option Nat))
    (hpat : ∀ i, some i ∈ rs → (spec_at d i).hasMetaChars = true) :
    (best_of_results d rs = none ↔
      (∀ j, rs.head? ≠ some (some j)) ∧
        ∀ i, some i ∈ rs.tail → (spec_at d i).prefix_len = 0) ∧
    (∀ j, best_of_results d rs = some j →
      ∃ pre post, rs = pre ++ some j :: post ∧
        (∀ i, some i ∈ pre → (spec_at d i).prefix_len < (spec_at d j).prefix_len) ∧
        (∀ i, some i ∈ post → (spec_at d i).prefix_len ≤ (spec_at d j).prefix_len)) := by
  cases rs with
  | nil => simp [best_of_results]
  | cons r rest =>
    have hrest : ∀ i, some i ∈ rest → (spec_at d i).hasMetaChars = true :=
      fun i hi => hpat i (List.mem_cons_of_mem _ hi)
    cases r with
    | none =>
      rw [best_of_results]
      rcases best_scan_spec d rest none 0 hrest with
        ⟨h1, h2⟩ | ⟨j, pre, post, h1, h2, h3, h4, h5⟩
      · rw [h1]
        refine ⟨⟨fun _ => ⟨fun j hj => (by cases hj), fun i hi => Nat.le_zero.1 (h2 i hi)⟩,
          fun _ => rfl⟩, fun j hj => by cases hj⟩
      · rw [h2]
        refine ⟨⟨fun h => (by cases h), fun h => ?_⟩, fun j1 hj1 => ?_⟩
        · have := h.2 j (by simp [h1])
          omega
        · injection hj1 with hj1; subst hj1
          refine ⟨none :: pre, post, by rw [h1]; rfl, fun i hi => ?_, h5⟩
          rcases List.mem_cons.1 hi with hi | hi
          · cases hi
          · exact h4 i hi
    | some i0 =>
      have hm : ¬ (spec_at d i0).hasMetaChars = false := by
        rw [hpat i0 (List.mem_cons_self _ _)]; decide
      rw [best_of_results, if_neg hm]
      rcases best_scan_spec d rest (some i0) (spec_at d i0).prefix_len hrest with
        ⟨h1, h2⟩ | ⟨j, pre, post, h1, h2, h3, h4, h5⟩
      · rw [h1]
        refine ⟨⟨fun h => (by cases h), fun h => ?_⟩, fun j hj => ?_⟩
        · exact absurd rfl (h.1 i0)
        · injection hj with hj; subst hj
          exact ⟨[], rest, rfl, fun i hi => absurd hi (List.not_mem_nil _), h2⟩
      · rw [h2]
        refine ⟨⟨fun h => (by cases h), fun h => ?_⟩, fun j1 hj1 => ?_⟩
        · exact absurd rfl (h.1 i0)
        · injection hj1 with hj1; subst hj1
          refine ⟨some i0 :: pre, post, by rw [h1]; rfl, fun i hi => ?_, h5⟩
          rcases List.mem_cons.1 hi with hi | hi
          · injection hi with hi; subst hi; exact h3
          · exact h4 i hi

/-- With a non-empty alias list and no exact individual result,
`lookup_best_match` returns NULL exactly when the key is not found and every
alias that is found has a fixed prefix of length 0; otherwise it returns a
result whose fixed prefix is at least as long as that of every result and
strictly longer than that of every result scanned before it (so, of several
results with the longest fixed prefix, the earliest). -/
theorem lookup_best_match_no_exact (E : pcre_engine R S) (d : saved_data R S)
    (key : List Char) (aliases : List (List Char)) (type : Int) (hne : aliases ≠ [])
    (hpat : ∀ i, some i ∈ scan_results E d key aliases type →
      (spec_at d i).hasMetaChars = true) :
    ((lookup_best_match E d key aliases type).2 = none ↔
      lookup_result E d key type = none ∧
        ∀ a, a ∈ aliases → ∀ i, lookup_result E d a type = some i →
          (spec_at d i).prefix_len = 0) ∧
    (∀ j, (lookup_best_match E d key aliases type).2 = some j →
      ∃ pre post, scan_results E d key aliases type = pre ++ some j :: post ∧
        (∀ i, some i ∈ pre → (spec_at d i).prefix_len < (spec_at d j).prefix_len) ∧
        (∀ i, some i ∈ post → (spec_at d i).prefix_len ≤ (spec_at d j).prefix_len)) := by
  rw [lookup_best_match_scan E d key aliases type hne]
  obtain ⟨h1, h2⟩ := best_of_results_spec d _ hpat
  refine ⟨h1.trans ?_, h2⟩
  simp only [scan_results, List.map_cons, List.head?_cons, List.tail_cons, List.mem_map]
  constructor
  · intro ⟨ha, hb⟩
    refine ⟨?_, fun a hmem i hi => hb i ⟨a, hmem, hi⟩⟩
    cases hk : lookup_result E d key type with
    | none => rfl
    | some j => exact absurd (by rw [hk]) (ha j)
  · intro ⟨ha, hb⟩
    refine ⟨fun j hj => ?_, fun i ⟨a, hmem, hi⟩ => hb a hmem i hi⟩
    rw [ha] at hj; cases hj

/-- Scenario D: with the rules `/a/.eal -> L1` (fixed prefix length 3) and
`/a/ot.* -> L2` (fixed prefix length 5), the key `/a/link` (not found) and
the aliases `/a/real`, `/a/other` give `L2`. -/
theorem best_match_longest_prefix_example :
    lookup_result demo_engine store_alias_len "/a/link".toList 0 = none ∧
    (spec_at store_alias_len 0).prefix_len = 3 ∧
    (spec_at store_alias_len 1).prefix_len = 5 ∧
    lookup_result demo_engine store_alias_len "/a/real".toList 0 = some 0 ∧
    lookup_result demo_engine store_alias_len "/a/other".toList 0 = some 1 ∧
    label_of store_alias_len
      (lookup_best_match demo_engine store_alias_len "/a/link".toList
        ["/a/real".toList, "/a/other".toList] 0).2 = some "L2".toList := by
  decide

/-- C9 (failing input). With the rule `.*/real -> L1`, whose fixed prefix has
length 0, the key `/a/link` is not found and the alias `/a/real` is found (a
pattern result), yet `lookup_best_match` returns NULL: the test
`prefix_len > 0` discards the only matched result. -/
theorem best_match_drops_zero_prefix_alias :
    lookup_result demo_engine store_alias_zero "/a/link".toList 0 = none ∧
    lookup_result demo_engine store_alias_zero "/a/real".toList 0 = some 0 ∧
    (spec_at store_alias_zero 0).hasMetaChars = true ∧
    (spec_at store_alias_zero 0).prefix_len = 0 ∧
    (spec_at store_alias_zero 0).lr.ctx_raw = "L1".toList ∧
    (lookup_best_match demo_engine store_alias_zero "/a/link".toList
      ["/a/real".toList] 0).2 = none ∧
    (lookup_best_match demo_engine store_alias_zero "/a/real".toList
      ["/a/link".toList] 0).2 = some 0 := by
  decide

/-- C10 (failing input). With the rules `.*/real -> L1` and `.*/other -> L2`,
both with a fixed prefix of length 0, the key `/a/link` is not found and the
aliases `/a/real` and `/a/other` are both found with the same, largest fixed
prefix length; `lookup_best_match` returns NULL instead of the earliest of
the two. -/
theorem best_match_tie_at_zero_not_found :
    lookup_result demo_engine store_alias_zero "/a/link".toList 0 = none ∧
    lookup_result demo_engine store_alias_zero "/a/real".toList 0 = some 0 ∧
    lookup_result demo_engine store_alias_zero "/a/other".toList 0 = some 1 ∧
    (spec_at store_alias_zero 0).hasMetaChars = true ∧
    (spec_at store_alias_zero 1).hasMetaChars = true ∧
    (spec_at store_alias_zero 0).prefix_len = (spec_at store_alias_zero 1).prefix_len ∧
    (lookup_best_match demo_engine store_alias_zero "/a/link".toList
      ["/a/real".toList, "/a/other".toList] 0).2 = none := by
  decide

end best_match_length

/-! ## `partial_match`, the call without aliases, `nodups_specs` -/

section second_batch
variable {R S : Type}

/-- C11. `lookup_best_match` called with no aliases, the pointer being NULL or
the array holding no string, returns exactly what `lookup` returns for the same
key and type: the same specification and the same store. -/
theorem best_match_without_aliases (E : pcre_engine R S) (d : saved_data R S)
    (key : List Char) (type : Int) :
    lookup_best_match_call E d key none type = lookup E d key type ∧
    lookup_best_match_call E d key (some []) type = lookup E d key type ∧
    lookup_best_match E d key [] type = lookup E d key type :=
  ⟨rfl, rfl, rfl⟩

/-- The converse of `walk_ending_stopped`: an index whose specification passes
the pre-filter and matches (fully, or partially in soft mode), all candidates
above it giving no match, is where the walk stops. -/
theorem walk_ending_of_first (E : pcre_engine R S) (stems : List stem) (q : query)
    (soft : Bool) (specs : Nat → spec R S) (n i : Nat) (hi : i < n)
    (hc : candidate (specs i) q.file_stem q.mode = true)
    (ht : try_query E stems q (specs i) soft = some 0 ∨
      (soft = true ∧ try_query E stems q (specs i) soft = some PCRE_ERROR_PARTIAL))
    (hup : ∀ j, i < j → j < n → candidate (specs j) q.file_stem q.mode = true →
      try_query E stems q (specs j) soft = some PCRE_ERROR_NOMATCH) :
    walk_ending E stems q soft specs n = walk_end.stopped i := by
  induction n with
  | zero => omega
  | succ k ih =>
    rw [walk_ending]
    rcases Nat.lt_succ_iff_lt_or_eq.1 hi with hlt | heq
    · have ih1 := ih hlt (fun j hij hj => hup j hij (Nat.lt_succ_of_lt hj))
      by_cases hck : candidate (specs k) q.file_stem q.mode = true
      · have hk := hup k hlt (Nat.lt_succ_self k) hck
        simp only [hck, if_true, hk]
        have h1 : ¬ PCRE_ERROR_NOMATCH = 0 := by decide
        have h2 : ¬ (soft = true ∧ PCRE_ERROR_NOMATCH = PCRE_ERROR_PARTIAL) :=
          fun h => absurd h.2 (by decide)
        simp only [h1, h2, if_false, if_true]
        exact ih1
      · simp only [hck, Bool.false_eq_true, if_false]
        exact ih1
    · subst heq
      simp only [hc, if_true]
      rcases ht with ht | ht
      · simp only [ht, if_true]
      · simp only [ht.2]
        have h1 : ¬ PCRE_ERROR_PARTIAL = 0 := by decide
        simp only [h1, if_false, ht.1, true_and, if_true]

/-- C12 (as amended). `partial_match` returns true exactly when the reverse walk
in soft-partial mode stops at a specification whose label is not `<<none>>`;
the walk stops at `i` exactly when `i` is in use, passes the stem pre-filter
(the type is 0, so the type filter excludes nothing), its pattern matches
fully or signals a soft-partial match, and every candidate above it gives no
match.  It returns false when the walk stops at a `<<none>>` specification,
falls off the array or fails. -/
theorem partial_match_iff (E : pcre_engine R S) (d : saved_data R S) (key : List Char) :
    ((partial_match E d key).2 = true ↔
      ∃ i, (lookup_walk_of E d key 0 true).ending = walk_end.stopped i ∧
        (spec_at d i).lr.ctx_raw ≠ none_label) ∧
    (∀ i, (lookup_walk_of E d key 0 true).ending = walk_end.stopped i ↔
      (i < d.nspec ∧
        ((spec_at d i).stem_id = -1 ∨ (spec_at d i).stem_id = (query_of d key 0).file_stem) ∧
        (try_query E d.stem_arr (query_of d key 0) (spec_at d i) true = some 0 ∨
          try_query E d.stem_arr (query_of d key 0) (spec_at d i) true =
            some PCRE_ERROR_PARTIAL) ∧
        ∀ j, i < j → j < d.nspec →
          ((spec_at d j).stem_id = -1 ∨
            (spec_at d j).stem_id = (query_of d key 0).file_stem) →
          try_query E d.stem_arr (query_of d key 0) (spec_at d j) true =
            some PCRE_ERROR_NOMATCH)) := by
  have hmode : (query_of d key 0).mode = 0 := by
    show query_mode 0 = 0
    decide
  have hcand : ∀ sp : spec R S,
      candidate sp (query_of d key 0).file_stem (query_of d key 0).mode = true ↔
        (sp.stem_id = -1 ∨ sp.stem_id = (query_of d key 0).file_stem) := by
    intro sp
    rw [hmode]
    simp [candidate]
  constructor
  · show ((lookup_common E d key 0 true).2.isSome = true ↔ _)
    rw [lookup_common_index, lookup_index, ← lookup_walk_of_ending]
    cases hend : (lookup_walk_of E d key 0 true).ending with
    | stopped k =>
      by_cases hl : (spec_at d k).lr.ctx_raw = none_label
      · simp only [hl, if_true, Option.isSome_none, Bool.false_eq_true, false_iff]
        intro ⟨i, hi, hne⟩
        injection hi with hi; subst hi; exact hne hl
      · simp only [hl, if_false, Option.isSome_some, true_iff]
        exact ⟨k, rfl, hl⟩
    | exhausted => simp
    | failed => simp
  · intro i
    rw [lookup_walk_of_ending]
    constructor
    · intro h
      obtain ⟨h1, h2, h3, h4⟩ := walk_ending_stopped E _ _ true _ _ i h
      refine ⟨h1, (hcand _).1 h2, ?_, fun j hij hj hcj => h4 j hij hj ((hcand _).2 hcj)⟩
      rcases h3 with h3 | h3
      · exact Or.inl h3
      · exact Or.inr h3.2
    · intro ⟨h1, h2, h3, h4⟩
      refine walk_ending_of_first E _ _ true _ _ i h1 ((hcand _).2 h2) ?_
        (fun j hij hj hcj => h4 j hij hj ((hcand _).1 hcj))
      rcases h3 with h3 | h3
      · exact Or.inl h3
      · exact Or.inr ⟨rfl, h3⟩

/-- C12 (counterexample). With the single rule `/etc/shadow -> <<none>>`, the
soft-partial walk for `/etc/shadow` stops at the rule, whose pattern fully
matches, and the walk for `/etc/sha` stops at it on a soft-partial match; in
both cases `partial_match` returns false. -/
theorem partial_match_none_label_false :
    ((lookup_walk_of demo_engine store_none_only "/etc/shadow".toList 0 true).ending =
        walk_end.stopped 0 ∧
      try_query demo_engine store_none_only.stem_arr
        (query_of store_none_only "/etc/shadow".toList 0) (spec_at store_none_only 0) true =
          some 0 ∧
      (partial_match demo_engine store_none_only "/etc/shadow".toList).2 = false) ∧
    ((lookup_walk_of demo_engine store_none_only "/etc/sha".toList 0 true).ending =
        walk_end.stopped 0 ∧
      try_query demo_engine store_none_only.stem_arr
        (query_of store_none_only "/etc/sha".toList 0) (spec_at store_none_only 0) true =
          some PCRE_ERROR_PARTIAL ∧
      (partial_match demo_engine store_none_only "/etc/sha".toList).2 = false) := by
  decide

/-- The inner loop of `nodups_specs` ends with -1 when `rc` was -1 or some
later specification clashes with `curr`, and with `rc` otherwise. -/
theorem nodups_inner_eq (curr : spec R S) (l : List (spec R S)) :
    ∀ rc : Int, nodups_inner curr l rc =
      if ∃ sp, sp ∈ l ∧ nodups_clash curr sp = true then -1 else rc := by
  induction l with
  | nil => intro rc; simp [nodups_inner]
  | cons x rest ih =>
    intro rc
    rw [nodups_inner, ih]
    by_cases hx : nodups_clash curr x = true
    · simp [hx]
    · by_cases hr : ∃ sp, sp ∈ rest ∧ nodups_clash curr sp = true
      · have : ∃ sp, sp ∈ x :: rest ∧ nodups_clash curr sp = true := by
          obtain ⟨sp, h1, h2⟩ := hr; exact ⟨sp, List.mem_cons_of_mem _ h1, h2⟩
        simp [hr, this]
      · have : ¬ ∃ sp, sp ∈ x :: rest ∧ nodups_clash curr sp = true := by
          intro ⟨sp, h1, h2⟩
          rcases List.mem_cons.1 h1 with h1 | h1
          · subst h1; exact hx h2
          · exact hr ⟨sp, h1, h2⟩
        simp [hr, this, hx]

/-- The outer loop of `nodups_specs` returns 0 or -1, and -1 exactly when `rc`
was -1 or two entries at different positions clash. -/
theorem nodups_outer_spec (l : List (spec R S)) :
    ∀ rc : Int, (rc = 0 ∨ rc = -1) →
      (nodups_outer l rc = 0 ∨ nodups_outer l rc = -1) ∧
      (nodups_outer l rc = -1 ↔
        (rc = -1 ∨ ∃ i j, ∃ (hi : i < j) (hj : j < l.length),
            nodups_clash (l.get ⟨i, Nat.lt_trans hi hj⟩) (l.get ⟨j, hj⟩) = true)) := by
  induction l with
  | nil =>
    intro rc hrc
    refine ⟨hrc, ?_⟩
    simp [nodups_outer]
  | cons x rest ih =>
    intro rc hrc
    rw [nodups_outer, nodups_inner_eq]
    have hin : ((if ∃ sp, sp ∈ rest ∧ nodups_clash x sp = true then (-1 : Int) else rc) = 0 ∨
         (if ∃ sp, sp ∈ rest ∧ nodups_clash x sp = true then (-1 : Int) else rc) = -1) := by
      split_ifs
      · exact Or.inr rfl
      · exact hrc
    obtain ⟨ih1, ih2⟩ := ih _ hin
    refine ⟨ih1, ih2.trans ?_⟩
    constructor
    · rintro (h | ⟨i, j, hi, hj, h⟩)
      · split_ifs at h with hex
        · obtain ⟨sp, hsp, hcl⟩ := hex
          obtain ⟨k, hk, rfl⟩ := List.getElem_of_mem hsp
          exact Or.inr ⟨0, k + 1, Nat.succ_pos k, Nat.succ_lt_succ hk, hcl⟩
        · exact Or.inl h
      · exact Or.inr ⟨i + 1, j + 1, Nat.succ_lt_succ hi, Nat.succ_lt_succ hj, h⟩
    · rintro (h | ⟨i, j, hi, hj, h⟩)
      · left; split_ifs
        · rfl
        · exact h
      · cases i with
        | zero =>
          cases j with
          | zero => omega
          | succ j1 =>
            left
            have hmem : rest.get ⟨j1, Nat.lt_of_succ_lt_succ hj⟩ ∈ rest := List.get_mem _ _ _
            rw [if_pos ⟨_, hmem, h⟩]
        | succ i1 =>
          cases j with
          | zero => omega
          | succ j1 =>
            exact Or.inr ⟨i1, j1, Nat.lt_of_succ_lt_succ hi, Nat.lt_of_succ_lt_succ hj, h⟩

theorem nodups_clash_iff (a b : spec R S) :
    nodups_clash a b = true ↔
      (b.regex_str = a.regex_str ∧ (b.mode = 0 ∨ a.mode = 0 ∨ b.mode = a.mode)) := by
  simp [nodups_clash, or_assoc]

/-- C16. `nodups_specs` returns -1 exactly when two distinct specifications in
use have the same pattern text and compatible type filters (one of the two
modes absent, or both equal), whatever their labels; otherwise (in particular
for equal patterns with two different non-absent modes and no other clash) it
returns 0; it leaves the store unchanged. -/
theorem nodups_specs_iff (d : saved_data R S) :
    ((nodups_specs d).2 = -1 ↔
      ∃ i j, i ≠ j ∧ i < d.nspec ∧ j < d.nspec ∧
        (spec_at d i).regex_str = (spec_at d j).regex_str ∧
        ((spec_at d i).mode = 0 ∨ (spec_at d j).mode = 0 ∨
          (spec_at d i).mode = (spec_at d j).mode)) ∧
    ((nodups_specs d).2 = 0 ∨ (nodups_specs d).2 = -1) ∧
    (nodups_specs d).1 = d := by
  obtain ⟨h1, h2⟩ := nodups_outer_spec ((List.range d.nspec).map (spec_at d)) 0 (Or.inl rfl)
  refine ⟨?_, h1, rfl⟩
  show nodups_outer _ 0 = -1 ↔ _
  rw [h2]
  have hlen : ((List.range d.nspec).map (spec_at d)).length = d.nspec := by simp
  constructor
  · rintro (h | ⟨i, j, hi, hj, h⟩)
    · exact absurd h (by decide)
    · have hj1 : j < d.nspec := hlen ▸ hj
      have hi1 : i < d.nspec := Nat.lt_trans hi hj1
      rw [nodups_clash_iff] at h
      simp only [List.get_eq_getElem, List.getElem_map, List.getElem_range] at h
      refine ⟨i, j, Nat.ne_of_lt hi, hi1, hj1, h.1.symm, ?_⟩
      rcases h.2 with h | h | h
      · exact Or.inr (Or.inl h)
      · exact Or.inl h
      · exact Or.inr (Or.inr h.symm)
  · rintro ⟨i, j, hne, hi, hj, hre, hmo⟩
    right
    rcases Nat.lt_or_gt_of_ne hne with hlt | hgt
    · refine ⟨i, j, hlt, hlen.symm ▸ hj, ?_⟩
      rw [nodups_clash_iff]
      simp only [List.get_eq_getElem, List.getElem_map, List.getElem_range]
      refine ⟨hre.symm, ?_⟩
      rcases hmo with h | h | h
      · exact Or.inr (Or.inl h)
      · exact Or.inl h
      · exact Or.inr (Or.inr h.symm)
    · refine ⟨j, i, hgt, hlen.symm ▸ hi, ?_⟩
      rw [nodups_clash_iff]
      simp only [List.get_eq_getElem, List.getElem_map, List.getElem_range]
      refine ⟨hre, ?_⟩
      rcases hmo with h | h | h
      · exact Or.inl h
      · exact Or.inr (Or.inl h)
      · exact Or.inr (Or.inr h)

/-- Instances of C16: the same pattern with two different non-absent type
filters is no clash; the same pattern with one filter absent, or with no
filter and different labels, or repeated verbatim, is. -/
theorem nodups_specs_examples :
    (nodups_specs (load_lines ["/dev/x -b L1\n".toList, "/dev/x -c L2\n".toList])).2 = 0 ∧
    (nodups_specs (load_lines ["/dev/x -b L1\n".toList, "/dev/x L2\n".toList])).2 = -1 ∧
    (nodups_specs (load_lines ["/a L1\n".toList, "/b L1\n".toList, "/a L2\n".toList])).2 = -1 ∧
    (nodups_specs (load_lines ["/a L1\n".toList, "/a L1\n".toList])).2 = -1 := by
  decide

end second_batch

/-! ## `read_spec_entries` -/

section entries

theorem ws_tokens_nil : ws_tokens [] = [] := by
  simp [ws_tokens]

theorem ws_tokens_cons_space (c : Char) (l : List Char) (h : c_isspace c = true) :
    ws_tokens (c :: l) = ws_tokens l := by
  simp [ws_tokens, List.splitOnP_cons, h]

theorem ws_tokens_dropWhile (l : List Char) :
    ws_tokens (l.dropWhile c_isspace) = ws_tokens l := by
  induction l with
  | nil => rfl
  | cons c t ih =>
    by_cases h : c_isspace c = true
    · rw [List.dropWhile_cons_of_pos h, ih, ws_tokens_cons_space c t h]
    · rw [List.dropWhile_cons_of_neg h]

theorem ws_tokens_cons_token (c : Char) (l : List Char) (h : c_isspace c = false) :
    ws_tokens (c :: l) =
      (c :: l).takeWhile (fun x => !c_isspace x) ::
        ws_tokens ((c :: l).dropWhile (fun x => !c_isspace x)) := by
  have hsplit := List.takeWhile_append_dropWhile (fun x => !c_isspace x) (c :: l)
  have htok : ∀ x ∈ (c :: l).takeWhile (fun x => !c_isspace x), ¬ c_isspace x = true := by
    intro x hx
    have := List.mem_takeWhile_imp hx
    simpa using this
  have hne : (c :: l).takeWhile (fun x => !c_isspace x) ≠ [] := by
    simp [List.takeWhile_cons, h]
  cases hrest : (c :: l).dropWhile (fun x => !c_isspace x) with
  | nil =>
    rw [hrest, List.append_nil] at hsplit
    rw [hsplit] at htok hne ⊢
    rw [ws_tokens, List.splitOnP_eq_single c_isspace _ htok, ws_tokens_nil]
    simp [hne]
  | cons sep rest =>
    have hsep : c_isspace sep = true := by
      have := List.head_dropWhile_not (fun x => !c_isspace x) (c :: l)
        (by rw [hrest]; exact List.cons_ne_nil _ _)
      simp only [hrest, List.head_cons] at this
      simpa using this
    rw [ws_tokens_cons_space sep rest hsep]
    rw [hrest] at hsplit
    conv_lhs => rw [← hsplit]
    rw [ws_tokens, List.splitOnP_first c_isspace _ htok sep hsep]
    simp [hne, ws_tokens]

theorem ws_tokens_append_space (l : List Char) (c : Char) (h : c_isspace c = true) :
    ws_tokens (l ++ [c]) = ws_tokens l := by
  have key : (l ++ [c]).splitOnP c_isspace = l.splitOnP c_isspace ++ [[]] := by
    induction l with
    | nil => simp [List.splitOnP_cons, h]
    | cons x xs ih =>
      rw [List.cons_append, List.splitOnP_cons, List.splitOnP_cons, ih]
      by_cases hx : c_isspace x = true
      · simp [hx]
      · simp only [hx, Bool.false_eq_true, if_false]
        cases hs : List.splitOnP c_isspace xs with
        | nil => exact absurd hs (List.splitOnP_ne_nil _ _)
        | cons a b => rfl
  simp [ws_tokens, key]

/-- What `read_spec_entry` does: on text without an entry it stores NULL and
reaches the end; otherwise it stores the first entry and stops behind it. -/
theorem read_spec_entry_spec (ptr : List Char) :
    (ws_tokens ptr = [] ∧ read_spec_entry ptr = (none, [])) ∨
    (∃ t ts, ws_tokens ptr = t :: ts ∧ (read_spec_entry ptr).1 = some t ∧
      ws_tokens (read_spec_entry ptr).2 = ts) := by
  rw [← ws_tokens_dropWhile ptr]
  unfold read_spec_entry
  cases hp : ptr.dropWhile c_isspace with
  | nil => left; simp [ws_tokens_nil]
  | cons c rest =>
    have hc : c_isspace c = false := by
      have := List.head_dropWhile_not c_isspace ptr (by rw [hp]; exact List.cons_ne_nil _ _)
      simp only [hp, List.head_cons] at this
      simpa using this
    right
    refine ⟨_, _, ws_tokens_cons_token c rest hc, ?_, rfl⟩
    have hne : (c :: rest).takeWhile (fun x => !c_isspace x) ≠ [] := by
      simp [List.takeWhile_cons, hc]
    simp [hne]

/-- The loop of `read_spec_entries` with enough fuel: the items counted are the
entries of the text, at most `num_args` in all, and the entries are stored in
order, followed by one NULL when the loop ran once more over trailing blanks. -/
theorem read_spec_entries_loop_spec (num_args : Nat) :
    ∀ (fuel items : Nat) (buf_p : List Char) (out : List (Option (List Char))),
      items ≤ num_args → num_args - items < fuel →
      (read_spec_entries_loop num_args fuel items buf_p out).1 =
        min (items + (ws_tokens buf_p).length) num_args ∧
      ∃ tail, (tail = [] ∨ tail = [none]) ∧
        (read_spec_entries_loop num_args fuel items buf_p out).2 =
          out ++ ((ws_tokens buf_p).take (num_args - items)).map some ++ tail := by
  intro fuel
  induction fuel with
  | zero => intro items buf_p out _ h; omega
  | succ fuel ih =>
    intro items buf_p out hle hfuel
    rw [read_spec_entries_loop]
    by_cases hlt : items < num_args
    · simp only [hlt, if_true]
      cases buf_p with
      | nil => simp [ws_tokens_nil]; omega
      | cons c rest =>
        simp only [List.isEmpty_cons, Bool.false_eq_true, if_false]
        rcases read_spec_entry_spec (c :: rest) with ⟨h0, hr⟩ | ⟨t, ts, h0, h1, h2⟩
        · rw [hr, h0]
          simp only [Option.isSome_none, Bool.false_eq_true, if_false]
          cases fuel with
          | zero => omega
          | succ f =>
            rw [read_spec_entries_loop]
            simp only [hlt, if_true, List.isEmpty_nil]
            refine ⟨by simp; omega, [none], Or.inr rfl, by simp⟩
        · rw [h0]
          have hsome : (read_spec_entry (c :: rest)).1.isSome = true := by rw [h1]; rfl
          simp only [hsome, if_true]
          obtain ⟨ih1, tail, ih2, ih3⟩ := ih (items + 1) (read_spec_entry (c :: rest)).2
            (out ++ [(read_spec_entry (c :: rest)).1]) hlt (by omega)
          rw [h2] at ih1 ih3
          refine ⟨by rw [ih1]; simp only [List.length_cons]; omega, tail, ih2, ?_⟩
          rw [ih3, h1]
          obtain ⟨k, hk⟩ : ∃ k, num_args - items = k + 1 := ⟨num_args - items - 1, by omega⟩
          have hk2 : num_args - (items + 1) = k := by omega
          rw [hk, hk2]
          simp
    · have : items = num_args := by omega
      subst this
      simp [hlt]

end entries

section entries_claim

theorem head_dropWhile_space (l : List Char) :
    (l.dropWhile c_isspace).head? = first_nonblank l := by
  induction l with
  | nil => rfl
  | cons c t ih =>
    by_cases h : c_isspace c = true
    · rw [List.dropWhile_cons_of_pos h, ih]
      simp [first_nonblank, List.find?_cons, h]
    · rw [List.dropWhile_cons_of_neg h]
      simp [first_nonblank, List.find?_cons, h]

theorem first_nonblank_none_iff (l : List Char) :
    first_nonblank l = none ↔ ∀ c, c ∈ l → c_isspace c = true := by
  simp [first_nonblank]

/-- Removing a final newline changes neither the entries nor the first
non-blank byte of a line. -/
theorem strip_newline_same (line_buf : List Char) :
    ws_tokens (if line_buf.getLast? = some '\n' then line_buf.dropLast else line_buf) =
      ws_tokens line_buf ∧
    first_nonblank (if line_buf.getLast? = some '\n' then line_buf.dropLast else line_buf) =
      first_nonblank line_buf := by
  by_cases h : line_buf.getLast? = some '\n'
  · simp only [h, if_true]
    have hl : line_buf.dropLast ++ ['\n'] = line_buf :=
      List.dropLast_append_getLast? '\n' (by rw [h]; rfl)
    constructor
    · conv_rhs => rw [← hl]
      exact (ws_tokens_append_space _ '\n' (by decide)).symm
    · conv_rhs => rw [← hl]
      have hn : c_isspace '\n' = true := by decide
      simp [first_nonblank, List.find?_append, hn]
  · simp only [h, if_false, and_self]

/-- What `read_spec_entries` returns and stores, in terms of the maximal runs
of non-blank bytes of the line. -/
theorem read_spec_entries_split (line_buf : List Char) (num_args : Nat) :
    ((first_nonblank line_buf = none ∨ first_nonblank line_buf = some '#') →
      read_spec_entries line_buf num_args = (0, [])) ∧
    (¬ (first_nonblank line_buf = none ∨ first_nonblank line_buf = some '#') →
      (read_spec_entries line_buf num_args).1 = min (ws_tokens line_buf).length num_args ∧
      ∃ tail, (tail = [] ∨ tail = [none]) ∧
        (read_spec_entries line_buf num_args).2 =
          ((ws_tokens line_buf).take num_args).map some ++ tail) := by
  obtain ⟨hs1, hs2⟩ := strip_newline_same line_buf
  have hcond : ((List.dropWhile c_isspace
        (if line_buf.getLast? = some '\n' then line_buf.dropLast else line_buf)).head? = some '#' ∨
      (List.dropWhile c_isspace
        (if line_buf.getLast? = some '\n' then line_buf.dropLast else line_buf)).isEmpty = true) ↔
      (first_nonblank line_buf = none ∨ first_nonblank line_buf = some '#') := by
    rw [List.isEmpty_iff, ← List.head?_eq_none_iff, head_dropWhile_space, hs2]
    exact Or.comm
  refine ⟨fun h => ?_, fun h => ?_⟩
  · unfold read_spec_entries
    exact if_pos (hcond.2 h)
  · unfold read_spec_entries
    simp only []
    rw [if_neg (fun hh => h (hcond.1 hh))]
    obtain ⟨h1, tail, h2, h3⟩ := read_spec_entries_loop_spec num_args (num_args + 1) 0
      (List.dropWhile c_isspace
        (if line_buf.getLast? = some '\n' then line_buf.dropLast else line_buf)) []
      (Nat.zero_le _) (by omega)
    rw [ws_tokens_dropWhile, hs1] at h1 h3
    refine ⟨by rw [h1]; simp, tail, h2, ?_⟩
    rw [h3]; simp

/-- C18. `read_spec_entries(line, num_args, ...)` (the loader calls it with
`num_args = 3`) returns 0 and stores nothing when the line is blank or its
first non-blank byte is `#`.  Otherwise it returns `min(k, num_args)`, where
`k` is the number of maximal runs of non-blank bytes of the line, and the
entries it stores are the first `min(k, num_args)` of those runs, in order,
followed by at most one NULL; a final newline makes no difference. -/
theorem read_spec_entries_tokens (line_buf : List Char) (num_args : Nat) :
    ((first_nonblank line_buf = none ∨ first_nonblank line_buf = some '#') →
      read_spec_entries line_buf num_args = (0, [])) ∧
    (¬ (first_nonblank line_buf = none ∨ first_nonblank line_buf = some '#') →
      (read_spec_entries line_buf num_args).1 = min (ws_tokens line_buf).length num_args ∧
      ∃ tail, (tail = [] ∨ tail = [none]) ∧
        (read_spec_entries line_buf num_args).2 =
          ((ws_tokens line_buf).take num_args).map some ++ tail) ∧
    (line_buf.getLast? ≠ some '\n' →
      read_spec_entries (line_buf ++ ['\n']) num_args = read_spec_entries line_buf num_args) := by
  obtain ⟨h0, h1⟩ := read_spec_entries_split line_buf num_args
  refine ⟨h0, h1, fun h => ?_⟩
  unfold read_spec_entries
  have e1 : (line_buf ++ ['\n']).getLast? = some '\n' := by simp
  simp only [e1, if_true, h, if_false, List.dropLast_concat]

/-- Instance of C18: leading, repeated and trailing blanks and a fourth entry
do not change the three entries read; a comment and a blank line give 0. -/
theorem read_spec_entries_examples :
    read_spec_entries "  /a \t -d   ctx  extra \n".toList 3 =
      (3, [some "/a".toList, some "-d".toList, some "ctx".toList]) ∧
    read_spec_entries "/a -d ctx".toList 3 =
      (3, [some "/a".toList, some "-d".toList, some "ctx".toList]) ∧
    read_spec_entries "/a ctx  \n".toList 3 = (2, [some "/a".toList, some "ctx".toList, none]) ∧
    read_spec_entries "/a\n".toList 3 = (1, [some "/a".toList]) ∧
    read_spec_entries "  # /a ctx\n".toList 3 = (0, []) ∧
    read_spec_entries " \t\n".toList 3 = (0, []) := by
  decide

end entries_claim

/-! ## `process_line` -/

section process_line_props
variable {R S : Type}

/-- What `process_line` does with a line, by the entries of the line: a blank
line, a comment and a line with one entry leave the store alone; two entries
are a pattern and a label, three or more a pattern, a type token and a label. -/
theorem process_line_cases (E : pcre_engine R S) (validating : Bool)
    (subset : Option (List Char)) (d : saved_data R S) (line : List Char) :
    ((first_nonblank line = none ∨ first_nonblank line = some '#') →
      process_line E validating subset d line = (d, 0)) ∧
    (¬ (first_nonblank line = none ∨ first_nonblank line = some '#') →
      (∀ a, ws_tokens line = [a] → process_line E validating subset d line = (d, 0)) ∧
      (∀ regex context, ws_tokens line = [regex, context] →
        process_line E validating subset d line =
          process_entries E validating subset d regex none context) ∧
      (∀ regex type context more, ws_tokens line = regex :: type :: context :: more →
        process_line E validating subset d line =
          process_entries E validating subset d regex (some type) context)) := by
  obtain ⟨h0, h1⟩ := read_spec_entries_split line 3
  constructor
  · intro h
    unfold process_line
    simp only [h0 h, if_true]
  · intro h
    obtain ⟨hn, tail, htail, hout⟩ := h1 h
    have hpair : read_spec_entries line 3 =
        (min (ws_tokens line).length 3, ((ws_tokens line).take 3).map some ++ tail) :=
      Prod.ext hn hout
    refine ⟨fun a ha => ?_, fun regex context ht => ?_, fun regex type context more ht => ?_⟩
    · unfold process_line
      rw [hpair, ha]
      simp
    · unfold process_line process_entries
      rw [hpair, ht]
      simp
    · unfold process_line process_entries
      rw [hpair, ht]
      simp

end process_line_props

section process_entries_props
variable {R S : Type}

theorem discard_cond_iff (subset : Option (List Char)) (regex : List Char) :
    (get_stem_from_spec regex ≠ 0 ∧ (match subset with
        | none => false
        | some p => !strncmp_eq p regex (get_stem_from_spec regex)) = true) ↔
      subset_discards subset regex := by
  unfold subset_discards
  cases subset with
  | none => simp
  | some p => simp

theorem process_entries_discarded (E : pcre_engine R S) (validating : Bool)
    (subset : Option (List Char)) (d : saved_data R S)
    (regex : List Char) (type : Option (List Char)) (context : List Char)
    (h : subset_discards subset regex) :
    process_entries E validating subset d regex type context = (d, 0) := by
  unfold process_entries
  simp only []
  rw [if_pos ((discard_cond_iff subset regex).2 h)]

theorem spec_at_grow_specs (d : saved_data R S) (i : Nat) (hi : i < d.nspec) :
    spec_at (grow_specs d) i = spec_at d i := by
  unfold grow_specs
  split_ifs
  · rfl
  · simp only [spec_at]
    rw [List.getD_eq_getElem?_getD, List.getElem?_append_left (by simpa using hi)]
    simp [List.getElem?_range hi, spec_at]

theorem grow_specs_room (d : saved_data R S) (h : slots_ok d) :
    d.nspec < (grow_specs d).spec_arr.length ∧ slots_ok (grow_specs d) ∧
    d.nspec < (grow_specs d).alloc_specs := by
  unfold grow_specs slots_ok at *
  split_ifs with hlt
  · exact ⟨Nat.lt_of_lt_of_le hlt h, h, hlt⟩
  · simp only [List.length_append, List.length_map, List.length_range, List.length_replicate]
    refine ⟨by omega, by omega, by omega⟩

theorem find_stem_from_spec_specs (d : saved_data R S) (buf : List Char) :
    (find_stem_from_spec d buf).1.spec_arr = d.spec_arr ∧
    (find_stem_from_spec d buf).1.nspec = d.nspec ∧
    (find_stem_from_spec d buf).1.alloc_specs = d.alloc_specs := by
  unfold find_stem_from_spec store_stem
  simp only []
  split_ifs <;> exact ⟨rfl, rfl, rfl⟩

theorem compile_regex_fields (E : pcre_engine R S) (stems : List stem) (sp : spec R S) :
    (compile_regex E stems sp).1.regex_str = sp.regex_str ∧
    (compile_regex E stems sp).1.stem_id = sp.stem_id ∧
    (compile_regex E stems sp).1.from_mmap = sp.from_mmap ∧
    (compile_regex E stems sp).1.matches_ = sp.matches_ := by
  unfold compile_regex
  split
  · exact ⟨rfl, rfl, rfl, rfl⟩
  · split
    · exact ⟨rfl, rfl, rfl, rfl⟩
    · split <;> exact ⟨rfl, rfl, rfl, rfl⟩

theorem spec_hasMetaChars_fields (sp : spec R S) :
    (spec_hasMetaChars sp).regex_str = sp.regex_str ∧
    (spec_hasMetaChars sp).lr = sp.lr ∧
    (spec_hasMetaChars sp).type_str = sp.type_str ∧
    (spec_hasMetaChars sp).mode = sp.mode ∧
    (spec_hasMetaChars sp).stem_id = sp.stem_id ∧
    (spec_hasMetaChars sp).regcomp = sp.regcomp ∧
    (spec_hasMetaChars sp).from_mmap = sp.from_mmap := by
  unfold spec_hasMetaChars
  split <;> exact ⟨rfl, rfl, rfl, rfl, rfl, rfl, rfl⟩

/-- A pattern that the prefix filter keeps is appended at index `nspec`: the
count grows by one, the new specification carries the pattern, the label, the
type token and its mode (0 for no token and for an invalid one), and the
specifications before it are as they were. -/
theorem process_entries_appended (E : pcre_engine R S) (validating : Bool)
    (subset : Option (List Char)) (d : saved_data R S)
    (regex : List Char) (type : Option (List Char)) (context : List Char)
    (hkeep : ¬ subset_discards subset regex) (hok : slots_ok d) :
    (process_entries E validating subset d regex type context).2 = 0 ∧
    (process_entries E validating subset d regex type context).1.nspec = d.nspec + 1 ∧
    (spec_at (process_entries E validating subset d regex type context).1 d.nspec).regex_str =
      regex ∧
    (spec_at (process_entries E validating subset d regex type context).1 d.nspec).lr.ctx_raw =
      context ∧
    (spec_at (process_entries E validating subset d regex type context).1 d.nspec).type_str =
      type ∧
    (spec_at (process_entries E validating subset d regex type context).1 d.nspec).mode =
      (match type with
        | none => 0
        | some t => if string_to_mode t = MODE_INVALID then 0 else string_to_mode t) ∧
    (∀ i, i < d.nspec →
      spec_at (process_entries E validating subset d regex type context).1 i = spec_at d i) ∧
    slots_ok (process_entries E validating subset d regex type context).1 := by
  unfold process_entries
  simp only []
  rw [if_neg (fun h => hkeep ((discard_cond_iff subset regex).1 h))]
  obtain ⟨hroom, hslots, _⟩ := grow_specs_room d hok
  obtain ⟨hfs1, _, hfs3⟩ := find_stem_from_spec_specs (grow_specs d) regex
  have hlen : d.nspec < (find_stem_from_spec (grow_specs d) regex).1.spec_arr.length := by
    rw [hfs1]; exact hroom
  have hget : ∀ x : spec R S,
      spec_at { (find_stem_from_spec (grow_specs d) regex).1 with
          spec_arr := (find_stem_from_spec (grow_specs d) regex).1.spec_arr.set d.nspec x,
          nspec := d.nspec + 1 } d.nspec = x := by
    intro x
    simp [spec_at, List.getD_eq_getElem?_getD, List.getElem?_set, hlen]
  refine ⟨rfl, rfl, ?_, ?_, ?_, ?_, ?_, ?_⟩
  · rw [hget, (spec_hasMetaChars_fields _).1]
    cases validating
    · rfl
    · exact (compile_regex_fields E _ _).1
  · rw [hget, (spec_hasMetaChars_fields _).2.1]
  · rw [hget, (spec_hasMetaChars_fields _).2.2.1]
  · rw [hget, (spec_hasMetaChars_fields _).2.2.2.1]
  · intro i hi
    have hne : i ≠ d.nspec := Nat.ne_of_lt hi
    simp only [spec_at, List.getD_eq_getElem?_getD, List.getElem?_set, hfs1]
    rw [if_neg (Ne.symm hne)]
    have := spec_at_grow_specs d i hi
    simpa [spec_at, List.getD_eq_getElem?_getD] using this
  · show (find_stem_from_spec (grow_specs d) regex).1.alloc_specs ≤
      ((find_stem_from_spec (grow_specs d) regex).1.spec_arr.set d.nspec _).length
    rw [List.length_set, hfs1, hfs3]; exact hslots

end process_entries_props

section type_and_subset
variable {R S : Type}

/-- The tokens that `string_to_mode` accepts. -/
theorem string_to_mode_valid_iff (t : List Char) :
    string_to_mode t ≠ MODE_INVALID ↔
      t ∈ ["-b".toList, "-c".toList, "-d".toList, "-p".toList, "-l".toList, "-s".toList,
        "--".toList] := by
  unfold string_to_mode
  split
  · rename_i c
    split_ifs with h1 h2 h3 h4 h5 h6 h7
    all_goals first
      | (subst_vars; decide)
      | (constructor
         · intro h; exact absurd rfl h
         · intro h
           simp only [String.toList, List.mem_cons, List.cons.injEq, and_true,
             List.mem_singleton, List.not_mem_nil, or_false] at h
           rcases h with h | h | h | h | h | h | h
           all_goals first
             | exact absurd h.2 h1
             | exact absurd h.2 h2
             | exact absurd h.2 h3
             | exact absurd h.2 h4
             | exact absurd h.2 h5
             | exact absurd h.2 h6
             | exact absurd h.2 h7)
  · rename_i hne
    constructor
    · intro h; exact absurd rfl h
    · intro h
      simp only [String.toList, List.mem_cons, List.mem_singleton, List.not_mem_nil,
        or_false] at h
      rcases h with h | h | h | h | h | h | h <;> exact absurd h (hne _)

/-- C19 (as amended). `string_to_mode` accepts a token exactly when it is one of
`-b -c -d -p -l -s --`, mapping them to block device, character device,
directory, fifo, symlink, socket and regular file; every other token (the
single dash included) yields the invalid marker `(mode_t)-1`.  A line whose
type token is invalid and which the prefix filter keeps is still appended by
`process_line`, with the type constraint absent (mode 0). -/
theorem string_to_mode_tokens :
    (∀ t : List Char, string_to_mode t ≠ MODE_INVALID ↔
      t ∈ ["-b".toList, "-c".toList, "-d".toList, "-p".toList, "-l".toList, "-s".toList,
        "--".toList]) ∧
    (string_to_mode "-b".toList = S_IFBLK ∧ string_to_mode "-c".toList = S_IFCHR ∧
      string_to_mode "-d".toList = S_IFDIR ∧ string_to_mode "-p".toList = S_IFIFO ∧
      string_to_mode "-l".toList = S_IFLNK ∧ string_to_mode "-s".toList = S_IFSOCK ∧
      string_to_mode "--".toList = S_IFREG) ∧
    (∀ (E : pcre_engine R S) (validating : Bool) (subset : Option (List Char))
      (d : saved_data R S) (line regex type context : List Char) (more : List (List Char)),
      ¬ (first_nonblank line = none ∨ first_nonblank line = some '#') →
      ws_tokens line = regex :: type :: context :: more →
      string_to_mode type = MODE_INVALID →
      ¬ subset_discards subset regex → slots_ok d →
      (process_line E validating subset d line).2 = 0 ∧
      (process_line E validating subset d line).1.nspec = d.nspec + 1 ∧
      (spec_at (process_line E validating subset d line).1 d.nspec).regex_str = regex ∧
      (spec_at (process_line E validating subset d line).1 d.nspec).lr.ctx_raw = context ∧
      (spec_at (process_line E validating subset d line).1 d.nspec).type_str = some type ∧
      (spec_at (process_line E validating subset d line).1 d.nspec).mode = 0) := by
  refine ⟨string_to_mode_valid_iff, by decide, ?_⟩
  intro E validating subset d line regex type context more hc ht hbad hkeep hok
  rw [((process_line_cases E validating subset d line).2 hc).2.2 regex type context more ht]
  obtain ⟨h1, h2, h3, h4, h5, h6, _, _⟩ :=
    process_entries_appended E validating subset d regex (some type) context hkeep hok
  refine ⟨h1, h2, h3, h4, h5, ?_⟩
  rw [h6]
  simp only [hbad, if_true]

/-- C19 (counterexample). The single dash, listed as the token of regular
files, is rejected by `string_to_mode`; the token of regular files is the
double dash. -/
theorem string_to_mode_single_dash :
    string_to_mode "-".toList = MODE_INVALID ∧ string_to_mode "--".toList = S_IFREG := by
  decide

/-- Instance of C19: the line `/a -x ctx` is appended with mode 0. -/
theorem string_to_mode_invalid_example :
    string_to_mode "-x".toList = MODE_INVALID ∧
    (load_lines ["/a -x ctx\n".toList]).nspec = 1 ∧
    (spec_at (load_lines ["/a -x ctx\n".toList]) 0).mode = 0 ∧
    (spec_at (load_lines ["/a -x ctx\n".toList]) 0).type_str = some "-x".toList ∧
    (spec_at (load_lines ["/a -x ctx\n".toList]) 0).lr.ctx_raw = "ctx".toList := by
  decide

theorem strchr_lt (s : List Char) (c : Char) (k : Nat) (h : strchr s c = some k) :
    k < s.length := by
  induction s generalizing k with
  | nil => simp [strchr] at h
  | cons x xs ih =>
    rw [strchr] at h
    split_ifs at h
    · injection h with h; subst h; simp
    · simp only [Option.map_eq_some'] at h
      obtain ⟨k1, hk1, rfl⟩ := h
      have := ih k1 hk1
      simp; omega

theorem get_stem_from_spec_le (buf : List Char) : get_stem_from_spec buf ≤ buf.length := by
  unfold get_stem_from_spec
  cases h : strchr buf.tail '/' with
  | none => simp
  | some k =>
    simp only
    split_ifs
    · simp
    · have := strchr_lt _ _ _ h
      simp at this; omega

/-- On a second string without NUL in its first `n` bytes, `strncmp(a, b, n)`
is 0 exactly when the first `n` bytes of both strings are the same. -/
theorem strncmp_eq_iff_take (n : Nat) :
    ∀ (a b : List Char), n ≤ b.length → (∀ c, c ∈ b.take n → c ≠ Char.ofNat 0) →
      (strncmp_eq a b n = true ↔ a.take n = b.take n) := by
  induction n with
  | zero => intro a b _ _; simp [strncmp_eq]
  | succ n ih =>
    intro a b hlen hnul
    cases b with
    | nil => simp at hlen
    | cons y b1 =>
      have hy : y ≠ Char.ofNat 0 := hnul y (by simp)
      have hb1 : ∀ c, c ∈ b1.take n → c ≠ Char.ofNat 0 :=
        fun c hc => hnul c (by simp [hc])
      have hlen1 : n ≤ b1.length := by simp at hlen; omega
      rw [strncmp_eq]
      cases a with
      | nil =>
        simp only [c_head, List.headD_nil, List.headD_cons]
        simp [Ne.symm hy]
      | cons x a1 =>
        simp only [c_head, List.headD_cons, List.tail_cons, List.take_succ_cons,
          List.cons.injEq]
        by_cases hxy : x = y
        · subst hxy
          simp only [ne_eq, not_true_eq_false, if_false, hy, true_and]
          exact ih a1 b1 hlen1 hb1
        · simp [hxy]

/-- C20. For a line with at least two entries, `process_line` leaves the store
(specifications and stems) unchanged exactly when the prefix filter discards
the pattern: a prefix is supplied, the pattern has a stem of length `L > 0`,
and `strncmp(prefix, regex, L)` is not 0, that is, the first `L` bytes of the
prefix are not the stem.  A pattern without a stem, and any pattern when no
prefix is supplied, is appended. -/
theorem subset_filter_discards (E : pcre_engine R S) (validating : Bool)
    (subset : Option (List Char)) (d : saved_data R S)
    (line regex second : List Char) (more : List (List Char))
    (hc : ¬ (first_nonblank line = none ∨ first_nonblank line = some '#'))
    (ht : ws_tokens line = regex :: second :: more) :
    ((process_line E validating subset d line).1 = d ↔ subset_discards subset regex) ∧
    (process_line E validating subset d line).2 = 0 ∧
    (¬ subset_discards subset regex →
      (process_line E validating subset d line).1.nspec = d.nspec + 1) ∧
    (get_stem_from_spec regex = 0 → ¬ subset_discards subset regex) ∧
    (subset = none → ¬ subset_discards subset regex) ∧
    ((∀ c, c ∈ regex → c ≠ Char.ofNat 0) →
      (subset_discards subset regex ↔
        ∃ p, subset = some p ∧ 0 < get_stem_from_spec regex ∧
          p.take (get_stem_from_spec regex) ≠ regex.take (get_stem_from_spec regex))) := by
  have hcases := (process_line_cases E validating subset d line).2 hc
  have heq : ∃ type context, process_line E validating subset d line =
      process_entries E validating subset d regex type context := by
    cases more with
    | nil => exact ⟨none, second, hcases.2.1 regex second ht⟩
    | cons third rest => exact ⟨some second, third, hcases.2.2 regex second third rest ht⟩
  obtain ⟨type, context, heq⟩ := heq
  have hnspec : ¬ subset_discards subset regex →
      (process_entries E validating subset d regex type context).1.nspec = d.nspec + 1 := by
    intro hkeep
    unfold process_entries
    simp only []
    rw [if_neg (fun h => hkeep ((discard_cond_iff subset regex).1 h))]
  have hrc : (process_entries E validating subset d regex type context).2 = 0 := by
    unfold process_entries
    simp only []
    split_ifs <;> rfl
  rw [heq]
  refine ⟨⟨fun h => ?_, fun h => ?_⟩, hrc, hnspec, ?_, ?_, ?_⟩
  · by_contra hkeep
    have := hnspec hkeep
    rw [h] at this
    omega
  · rw [process_entries_discarded E validating subset d regex type context h]
  · intro h0 ⟨p, _, hne, _⟩; exact hne h0
  · intro hs ⟨p, hp, _, _⟩; rw [hs] at hp; cases hp
  · intro hnul
    have hle := get_stem_from_spec_le regex
    have hiff : ∀ p, strncmp_eq p regex (get_stem_from_spec regex) = false ↔
        p.take (get_stem_from_spec regex) ≠ regex.take (get_stem_from_spec regex) := by
      intro p
      have := strncmp_eq_iff_take (get_stem_from_spec regex) p regex hle
        (fun c hc => hnul c (List.mem_of_mem_take hc))
      rw [Ne, ← this]; simp
    unfold subset_discards
    constructor
    · intro ⟨p, hp, hne, hcmp⟩
      exact ⟨p, hp, Nat.pos_of_ne_zero hne, (hiff p).1 hcmp⟩
    · intro ⟨p, hp, hpos, hcmp⟩
      exact ⟨p, hp, Nat.ne_of_gt hpos, (hiff p).2 hcmp⟩

/-- Instance of C20: with the prefix `/var` the line `/etc/passwd L1` (stem
`/etc`) is discarded and the line `/var/log L2` (stem `/var`) is appended. -/
theorem subset_filter_discards_witness :
    (¬ (first_nonblank "/etc/passwd L1\n".toList = none ∨
        first_nonblank "/etc/passwd L1\n".toList = some '#') ∧
     ws_tokens "/etc/passwd L1\n".toList = ["/etc/passwd".toList, "L1".toList] ∧
     subset_discards (some "/var".toList) "/etc/passwd".toList ∧
     (process_line demo_engine false (some "/var".toList) (empty_data demo_re Unit)
        "/var/log L2\n".toList).1.nspec = 1) ∧
    ((process_line demo_engine false (some "/var".toList) (empty_data demo_re Unit)
        "/etc/passwd L1\n".toList).1 = empty_data demo_re Unit ↔
      subset_discards (some "/var".toList) "/etc/passwd".toList) :=
  ⟨⟨by decide, by decide, ⟨"/var".toList, rfl, by decide, by decide⟩, by decide⟩,
    (subset_filter_discards demo_engine false (some "/var".toList) (empty_data demo_re Unit)
      "/etc/passwd L1\n".toList "/etc/passwd".toList "L1".toList [] (by decide) (by decide)).1⟩

end type_and_subset

/-! ## The header of a compiled file -/

section
variable {R S : Type}

theorem next_entry_eq (mem : List Char) (fp : mmap_area) (bytes : Nat) (h : bytes ≤ fp.len) :
    next_entry mem fp bytes =
      some ((mem.drop fp.addr).take bytes, ⟨fp.addr + bytes, fp.len - bytes⟩) := by
  unfold next_entry
  rw [if_neg (by omega)]

theorem next_entry_none (mem : List Char) (fp : mmap_area) (bytes : Nat) (h : fp.len < bytes) :
    next_entry mem fp bytes = none := by
  unfold next_entry
  rw [if_pos (by omega)]

theorem next_u32_eq (mem : List Char) (fp : mmap_area) (h : 4 ≤ fp.len) :
    next_u32 mem fp = some (field32 mem fp.addr, ⟨fp.addr + 4, fp.len - 4⟩) := by
  unfold next_u32
  rw [next_entry_eq mem fp 4 h]
  rfl

theorem next_u32_none (mem : List Char) (fp : mmap_area) (h : fp.len < 4) :
    next_u32 mem fp = none := by
  unfold next_u32
  rw [next_entry_none mem fp 4 h]

theorem c_str_eq_iff (s v : List Char) (hl : s.length ≤ v.length) (hv : NUL ∉ v) :
    c_str s = v ↔ s = v := by
  constructor
  · intro h
    have hp : c_str s <+: s := List.takeWhile_prefix _
    have hle := hp.length_le
    have := hp.eq_of_length (by rw [h] at hle ⊢; omega)
    rw [← this, h]
  · intro h
    subst h
    unfold c_str
    rw [List.takeWhile_eq_self_iff]
    intro x hx
    simp only [ne_eq, decide_not, Bool.not_eq_true', decide_eq_false_iff_not]
    intro hx2
    exact hv (hx2 ▸ hx)

theorem load_header_spec (A : pcre_cache R S) (mem : List Char) (hv : NUL ∉ A.pcre_version) :
    (header_rejected A mem → load_header A mem ⟨0, mapped_len A mem⟩ = none) ∧
    (¬ header_rejected A mem →
      load_header A mem ⟨0, mapped_len A mem⟩ = some (field32 mem 4, header_end A mem)) := by
  unfold load_header header_rejected header_end
  by_cases h1 : mapped_len A mem < 4
  · rw [next_u32_none _ _ h1]
    simp [h1]
  rw [next_u32_eq _ _ (by simp only; omega)]
  simp only [Nat.zero_add, Nat.reduceAdd]
  by_cases h2 : field32 mem 0 ≠ SELINUX_MAGIC_COMPILED_FCONTEXT
  · rw [if_pos h2]
    simp [h2]
  rw [if_neg h2]
  by_cases h3 : mapped_len A mem < 8
  · rw [next_u32_none _ _ (by simp only; omega)]
    simp [h3]
  rw [next_u32_eq _ _ (by simp only; omega)]
  simp only [Nat.reduceAdd]
  by_cases h4 : field32 mem 4 > SELINUX_COMPILED_FCONTEXT_MAX_VERS
  · rw [if_pos h4]
    simp [h4]
  rw [if_neg h4]
  by_cases h5 : field32 mem 4 ≥ SELINUX_COMPILED_FCONTEXT_PCRE_VERS
  · rw [if_pos h5, if_pos h5]
    by_cases h6 : mapped_len A mem < 12
    · rw [next_u32_none _ _ (by simp only; omega)]
      simp [h5, h6]
    rw [next_u32_eq _ _ (by simp only; omega)]
    simp only [Nat.reduceAdd]
    by_cases h7 : A.pcre_version.length ≠ field32 mem 8
    · rw [if_pos h7]
      simp [h5, Ne.symm h7]
    rw [if_neg h7]
    have h7e : A.pcre_version.length = field32 mem 8 := not_not.mp h7
    by_cases h8 : mapped_len A mem < 12 + field32 mem 8
    · rw [next_entry_none _ _ _ (by simp only; omega)]
      simp [h5, h8]
    rw [next_entry_eq _ _ _ (by simp only; omega)]
    simp only []
    have hlen : ((mem.drop 12).take (field32 mem 8)).length ≤ A.pcre_version.length := by
      rw [List.length_take, h7e]
      exact Nat.min_le_left _ _
    have hc := c_str_eq_iff _ _ hlen hv
    by_cases h9 : (mem.drop 12).take (field32 mem 8) = A.pcre_version
    · rw [if_neg (not_not.mpr (hc.2 h9))]
      constructor
      · intro h
        exfalso
        rcases h with h | h | h | h | ⟨_, h | h | h | h⟩
        · exact h1 h
        · exact h2 h
        · exact h3 h
        · exact h4 h
        · exact h6 h
        · exact h7 h.symm
        · exact h8 h
        · exact h h9
      · intro _
        rw [h7e]
        refine congrArg some (Prod.ext rfl ?_)
        show mmap_area.mk _ _ = mmap_area.mk _ _
        congr 1
        omega
    · rw [if_pos (fun h => h9 (hc.1 h))]
      simp [h5, h9]
  · rw [if_neg h5, if_neg h5]
    constructor
    · intro h
      exfalso
      rcases h with h | h | h | h | ⟨h, _⟩
      · exact h1 h
      · exact h2 h
      · exact h3 h
      · exact h4 h
      · exact h5 h
    · intro _
      rfl

/-- C15. `load_mmap` rejects a compiled file exactly on these header faults:
fewer bytes left in the mapping than the magic or the version field needs, a
magic other than 0xf97cff8a, a version above 4, and from version 2 on a
length-prefixed engine version string for which the mapping is too short or
which differs in length or in a byte from the running engine's (a C string,
so without NUL); a rejected file leaves the store as it was and gives -1.
Below version 2 no version string is read: the header ends at offset 8, and
the field there is taken as the stem count. -/
theorem load_mmap_header_checks (A : pcre_cache R S) (mem : List Char)
    (hv : NUL ∉ A.pcre_version) :
    (load_header A mem ⟨0, mapped_len A mem⟩ = none ↔ header_rejected A mem) ∧
    (header_rejected A mem → ∀ d : saved_data R S, load_mmap A d mem = (d, -1)) ∧
    (¬ header_rejected A mem →
      load_header A mem ⟨0, mapped_len A mem⟩ = some (field32 mem 4, header_end A mem)) ∧
    (¬ header_rejected A mem → field32 mem 4 < SELINUX_COMPILED_FCONTEXT_PCRE_VERS →
      header_end A mem = ⟨8, mapped_len A mem - 8⟩ ∧
      ((mapped_len A mem < 12 ∨ field32 mem 8 = 0) →
        ∀ d : saved_data R S, load_mmap A d mem = (d, -1))) := by
  have hs := load_header_spec A mem hv
  refine ⟨⟨fun h => ?_, hs.1⟩, fun h d => ?_, hs.2, fun h hlt => ⟨?_, fun h8 d => ?_⟩⟩
  · by_contra hr
    rw [hs.2 hr] at h
    cases h
  · unfold load_mmap
    rw [hs.1 h]
  · unfold header_end
    rw [if_neg (by omega)]
  · have he : header_end A mem = ⟨8, mapped_len A mem - 8⟩ := by
      unfold header_end
      rw [if_neg (by omega)]
    unfold load_mmap
    rw [hs.2 h, he]
    simp only []
    by_cases h12 : mapped_len A mem < 12
    · rw [next_u32_none _ _ (by simp only; omega)]
    · rw [next_u32_eq _ _ (by simp only; omega)]
      simp only []
      rw [if_pos (h8.resolve_left h12)]

end

section
set_option maxRecDepth 20000

/-- The checks of C15 at the compiled file `cache_other_engine`, written for
another engine version: it is rejected. -/
theorem load_mmap_header_checks_witness :
    NUL ∉ demo_cache.pcre_version ∧
    header_rejected demo_cache cache_other_engine ∧
    load_mmap demo_cache (empty_data demo_re Unit) cache_other_engine =
      (empty_data demo_re Unit, -1) :=
  ⟨by decide, by unfold header_rejected; decide,
    (load_mmap_header_checks demo_cache cache_other_engine (by decide)).2.1
      (by unfold header_rejected; decide) (empty_data demo_re Unit)⟩

/-- Worked examples of the header checks: a wrong magic, the version 5,
another engine version and an empty file are rejected; a version 1 file, which
has no engine version string, is loaded. -/
theorem load_mmap_header_examples :
    (load_mmap demo_cache (empty_data demo_re Unit) cache_bad_magic).2 = -1 ∧
    (load_mmap demo_cache (empty_data demo_re Unit) cache_version_5).2 = -1 ∧
    (load_mmap demo_cache (empty_data demo_re Unit) cache_other_engine).2 = -1 ∧
    (load_mmap demo_cache (empty_data demo_re Unit) []).2 = -1 ∧
    (load_mmap demo_cache (empty_data demo_re Unit) cache_two_rules).2 = 0 ∧
    (load_mmap demo_cache (empty_data demo_re Unit) cache_v1).2 = 0 ∧
    (load_mmap demo_cache (empty_data demo_re Unit) cache_v1).1.nspec = 1 := by
  decide

end

/-! ## A failed load of a compiled file; duplicates at initialisation -/

section
set_option maxRecDepth 20000

/-- C13. The compiled file `cache_cut` ends inside its second specification
record, where the length of the study data reads as 0 in the mapping.
`load_mmap` returns -1 on it, yet the store, empty before the call,
afterwards holds both stems and the first record (`nspec` is 1), and the
half-read second record stays in the next slot.  The text parse that
`process_file` then runs appends both rules behind the first record, the first
of them into the half-read slot, which keeps the compiled pattern of the
compiled file's second record: the store ends with three specifications, the
rule `/etc/passwd` twice; with validation the duplicate makes `init` fail,
without it a lookup of `/etc/shadow` finds the label `L1`, where the store
built from the text file alone finds nothing. -/
theorem load_mmap_failure_keeps_records :
    (load_mmap demo_cache (empty_data demo_re Unit) cache_cut).2 = -1 ∧
    (load_mmap demo_cache (empty_data demo_re Unit) cache_cut).1.nspec = 1 ∧
    (spec_at (load_mmap demo_cache (empty_data demo_re Unit) cache_cut).1 0).regex_str =
      "/etc/passwd".toList ∧
    (spec_at (load_mmap demo_cache (empty_data demo_re Unit) cache_cut).1 0).lr.ctx_raw =
      "L1".toList ∧
    (load_mmap demo_cache (empty_data demo_re Unit) cache_cut).1.stem_arr.length = 2 ∧
    (spec_at (load_mmap demo_cache (empty_data demo_re Unit) cache_cut).1 1).regcomp = true ∧
    (process_file demo_engine demo_cache false none (empty_data demo_re Unit)
      (spec_file.present lines_two_rules (some cache_cut))).rc = 0 ∧
    (used_specs (process_file demo_engine demo_cache false none (empty_data demo_re Unit)
      (spec_file.present lines_two_rules (some cache_cut))).data).map (fun sp => sp.regex_str) =
      ["/etc/passwd".toList, "/etc/passwd".toList, "/var/.*".toList] ∧
    (init demo_engine demo_cache true none true
      (spec_file.present lines_two_rules (some cache_cut)) spec_file.absent spec_file.absent
      (empty_data demo_re Unit)).2 = -1 ∧
    (init demo_engine demo_cache true none true
      (spec_file.present lines_two_rules none) spec_file.absent spec_file.absent
      (empty_data demo_re Unit)).2 = 0 ∧
    label_of (init demo_engine demo_cache false none true
        (spec_file.present lines_two_rules (some cache_cut)) spec_file.absent spec_file.absent
        (empty_data demo_re Unit)).1
      (lookup demo_engine (init demo_engine demo_cache false none true
        (spec_file.present lines_two_rules (some cache_cut)) spec_file.absent spec_file.absent
        (empty_data demo_re Unit)).1 "/etc/shadow".toList 0).2 = some "L1".toList ∧
    label_of (init demo_engine demo_cache false none true
        (spec_file.present lines_two_rules none) spec_file.absent spec_file.absent
        (empty_data demo_re Unit)).1
      (lookup demo_engine (init demo_engine demo_cache false none true
        (spec_file.present lines_two_rules none) spec_file.absent spec_file.absent
        (empty_data demo_re Unit)).1 "/etc/shadow".toList 0).2 = none := by
  decide

end

section
variable {R S : Type}

theorem nodups_specs_of_clash (d : saved_data R S) (i j : Nat) (hij : i < j)
    (hj : j < d.nspec) (h : nodups_clash (spec_at d i) (spec_at d j) = true) :
    (nodups_specs d).2 = -1 := by
  unfold nodups_specs
  have hl : ((List.range d.nspec).map (spec_at d)).length = d.nspec := by simp
  have hj2 : j < ((List.range d.nspec).map (spec_at d)).length := by rw [hl]; exact hj
  refine ((nodups_outer_spec _ 0 (Or.inl rfl)).2).2 (Or.inr ⟨i, j, hij, hj2, ?_⟩)
  simpa using h

end

section
set_option maxRecDepth 20000

/-- C17 as claimed fails: in validating mode the primary file `lines_duplicate`,
whose two lines have the same pattern, makes `init` return -1 with no slot
left, where the claim has it return success with both specifications kept; the
same file without validation gives 0 and keeps both. -/
theorem init_duplicate_returns_error :
    (init demo_engine demo_cache true none false (spec_file.present lines_duplicate none)
      spec_file.absent spec_file.absent (empty_data demo_re Unit)).2 = -1 ∧
    (init demo_engine demo_cache true none false (spec_file.present lines_duplicate none)
      spec_file.absent spec_file.absent (empty_data demo_re Unit)).1.spec_arr.length = 0 ∧
    (init demo_engine demo_cache false none false (spec_file.present lines_duplicate none)
      spec_file.absent spec_file.absent (empty_data demo_re Unit)).2 = 0 ∧
    (init demo_engine demo_cache false none false (spec_file.present lines_duplicate none)
      spec_file.absent spec_file.absent (empty_data demo_re Unit)).1.nspec = 2 := by
  decide

end

/-! ## Lookups on a store from a compiled file and on a store from the text -/

section
variable {R S : Type}

theorem strncmp_eq_symm (n : Nat) :
    ∀ a b : List Char, strncmp_eq a b n = strncmp_eq b a n := by
  induction n with
  | zero => intro a b; rfl
  | succ n ih =>
    intro a b
    rw [strncmp_eq, strncmp_eq]
    by_cases h : c_head a = c_head b
    · rw [if_neg (not_not.mpr h), if_neg (not_not.mpr h.symm), ih a.tail b.tail, h]
    · rw [if_pos h, if_pos (Ne.symm h)]

theorem strncmp_eq_trans (n : Nat) :
    ∀ a b c : List Char, strncmp_eq a c n = true → strncmp_eq b c n = true →
      strncmp_eq a b n = true := by
  induction n with
  | zero => intro a b c _ _; rfl
  | succ n ih =>
    intro a b c h1 h2
    rw [strncmp_eq] at h1 h2 ⊢
    by_cases ha : c_head a = c_head c
    · by_cases hb : c_head b = c_head c
      · rw [if_neg (not_not.mpr ha)] at h1
        rw [if_neg (not_not.mpr hb)] at h2
        rw [if_neg (not_not.mpr (ha.trans hb.symm))]
        by_cases h0 : c_head a = Char.ofNat 0
        · rw [if_pos h0]
        · rw [if_neg h0] at h1 ⊢
          rw [if_neg (by rw [hb, ← ha]; exact h0)] at h2
          exact ih _ _ _ h1 h2
      · rw [if_pos hb] at h2
        cases h2
    · rw [if_pos ha] at h1
      cases h1

theorem strncmp_eq_take_right (n : Nat) :
    ∀ (a b : List Char) (m : Nat), n ≤ m →
      strncmp_eq a (b.take m) n = strncmp_eq a b n := by
  induction n with
  | zero => intro a b m _; rfl
  | succ n ih =>
    intro a b m hm
    obtain ⟨m1, rfl⟩ : ∃ m1, m = m1 + 1 := ⟨m - 1, by omega⟩
    cases b with
    | nil => simp
    | cons x xs =>
      rw [strncmp_eq, strncmp_eq]
      simp only [List.take_succ_cons, c_head, List.headD_cons, List.tail_cons]
      rw [ih a.tail xs m1 (by omega)]

theorem find_stem_scan_spec (buf : List Char) (L : Nat) :
    ∀ (stems : List stem) (start : Nat),
      (find_stem_scan buf L stems start = -1 ∧ ∀ st ∈ stems, ¬ stem_matches buf L st) ∨
      ∃ k, k < stems.length ∧ find_stem_scan buf L stems start = ((start + k : Nat) : Int) ∧
        stem_matches buf L (stems.getD k default) ∧
        ∀ j, j < k → ¬ stem_matches buf L (stems.getD j default) := by
  intro stems
  induction stems with
  | nil =>
    intro start
    exact Or.inl ⟨rfl, by simp⟩
  | cons st rest ih =>
    intro start
    rw [find_stem_scan]
    by_cases h : L = st.len ∧ strncmp_eq buf st.buf L = true
    · rw [if_pos h]
      exact Or.inr ⟨0, by simp, by simp, h, fun j hj => absurd hj (Nat.not_lt_zero j)⟩
    · rw [if_neg h]
      rcases ih (start + 1) with ⟨h1, h2⟩ | ⟨k, hk, h1, h2, h3⟩
      · left
        refine ⟨h1, ?_⟩
        intro s hs
        rcases List.mem_cons.1 hs with rfl | hs
        · exact h
        · exact h2 s hs
      · right
        refine ⟨k + 1, by simpa using hk, ?_, by simpa using h2, ?_⟩
        · rw [h1]
          push_cast
          ring
        · intro j hj
          cases j with
          | zero =>
            rw [List.getD_cons_zero]
            exact h
          | succ j => simpa using h3 j (by omega)

theorem stems_distinct_unique (stems : List stem) (h : stems_distinct stems)
    (buf : List Char) (L : Nat) (i j : Nat) (hi : i < stems.length) (hj : j < stems.length)
    (mi : stem_matches buf L (stems.getD i default))
    (mj : stem_matches buf L (stems.getD j default)) : i = j := by
  have key : ∀ i j, i < j → j < stems.length → stem_matches buf L (stems.getD i default) →
      stem_matches buf L (stems.getD j default) → False := by
    intro i j hij hj mi mj
    have hi : i < stems.length := by omega
    have hr := List.pairwise_iff_getElem.1 h i j hi hj hij
    rw [List.getD_eq_getElem _ _ hi] at mi
    rw [List.getD_eq_getElem _ _ hj] at mj
    apply hr
    refine ⟨mi.1.symm.trans mj.1, ?_⟩
    rw [← mi.1]
    refine strncmp_eq_trans L _ _ buf ?_ ?_
    · rw [strncmp_eq_symm]; exact mi.2
    · rw [strncmp_eq_symm]; exact mj.2
  rcases Nat.lt_trichotomy i j with hlt | heq | hgt
  · exact (key i j hlt hj mi mj).elim
  · exact heq
  · exact (key j i hgt hi mj mi).elim

theorem find_stem_from_file_spec (d : saved_data R S) (hd : stems_distinct d.stem_arr)
    (key1 : List Char) (id : Int) (h0 : 0 ≤ id) (hlt : id.toNat < d.stem_arr.length) :
    (find_stem_from_file d key1).1 = id ↔
      (get_stem_from_file_name key1 ≠ 0 ∧
        stem_matches key1 (get_stem_from_file_name key1)
          (d.stem_arr.getD id.toNat default)) := by
  unfold find_stem_from_file
  simp only []
  by_cases hL : get_stem_from_file_name key1 = 0
  · rw [if_pos hL]
    constructor
    · intro h
      simp only at h
      omega
    · intro h
      exact (h.1 hL).elim
  · rw [if_neg hL]
    rcases find_stem_scan_spec key1 (get_stem_from_file_name key1) d.stem_arr 0 with
      ⟨h1, h2⟩ | ⟨k, hk, h1, h2, h3⟩
    · rw [h1]
      simp only [Int.reduceNeg, Int.reduceLT, if_true]
      constructor
      · intro h
        omega
      · intro h
        exact (h2 _ (by rw [List.getD_eq_getElem _ _ hlt]; exact List.getElem_mem _) h.2).elim
    · rw [h1]
      simp only [Nat.zero_add]
      rw [if_neg (by omega)]
      simp only []
      constructor
      · intro h
        have : id.toNat = k := by omega
        rw [this]
        exact ⟨hL, h2⟩
      · intro h
        have := stems_distinct_unique _ hd _ _ _ _ hk hlt h2 h.2
        omega

theorem find_stem_from_file_buf (d : saved_data R S) (key1 : List Char)
    (h : 0 ≤ (find_stem_from_file d key1).1) :
    (find_stem_from_file d key1).2 = key1.drop (get_stem_from_file_name key1) := by
  unfold find_stem_from_file at h ⊢
  simp only [] at h ⊢
  split_ifs at h ⊢ with h1 h2
  · simp only at h
    omega
  · simp only at h
    omega
  · rfl

theorem walk_ending_two (E : pcre_engine R S) (s1 s2 : List stem) (q1 q2 : query)
    (soft : Bool) (f g : Nat → spec R S) (n : Nat)
    (h : ∀ j, j < n →
      candidate (f j) q1.file_stem q1.mode = candidate (g j) q2.file_stem q2.mode ∧
      (candidate (f j) q1.file_stem q1.mode = true →
        try_query E s1 q1 (f j) soft = try_query E s2 q2 (g j) soft)) :
    walk_ending E s1 q1 soft f n = walk_ending E s2 q2 soft g n := by
  induction n with
  | zero => rfl
  | succ i ih =>
    have hi := h i (Nat.lt_succ_self i)
    have ih1 := ih (fun j hj => h j (Nat.lt_succ_of_lt hj))
    simp only [walk_ending]
    rw [← hi.1]
    by_cases hc : candidate (f i) q1.file_stem q1.mode = true
    · rw [if_pos hc, if_pos hc, ← hi.2 hc, ih1]
    · rw [if_neg hc, if_neg hc, ih1]

theorem spec_stem_cases (d : saved_data R S) (sp : spec R S)
    (hok : sp.stem_id = -1 ∨ (0 ≤ sp.stem_id ∧ sp.stem_id.toNat < d.stem_arr.length)) :
    (sp.stem_id = -1 ∧ spec_stem d sp = none ∧ spec_stem_len d sp = 0) ∨
    (0 ≤ sp.stem_id ∧ sp.stem_id.toNat < d.stem_arr.length ∧
      spec_stem d sp =
        some ((d.stem_arr.getD sp.stem_id.toNat default).buf,
          (d.stem_arr.getD sp.stem_id.toNat default).len) ∧
      spec_stem_len d sp = (d.stem_arr.getD sp.stem_id.toNat default).len) := by
  unfold spec_stem spec_stem_len stem_len_at
  rcases hok with h | ⟨h0, hl⟩
  · left
    rw [h]
    exact ⟨rfl, rfl, rfl⟩
  · right
    rw [if_neg (by omega), if_neg (by omega)]
    exact ⟨h0, hl, rfl, rfl⟩

theorem slot_agree (E : pcre_engine R S) (dc dt : saved_data R S)
    (m : List Char → Nat → List Char → Option Int)
    (hsc : stems_distinct dc.stem_arr) (hst : stems_distinct dt.stem_arr)
    (key : List Char) (type : Int) (i : Nat)
    (hic : (spec_at dc i).stem_id = -1 ∨
      (0 ≤ (spec_at dc i).stem_id ∧ (spec_at dc i).stem_id.toNat < dc.stem_arr.length))
    (hit : (spec_at dt i).stem_id = -1 ∨
      (0 ≤ (spec_at dt i).stem_id ∧ (spec_at dt i).stem_id.toNat < dt.stem_arr.length))
    (hrec : records_agree dc dt i)
    (hmc : ∀ subject, spec_try E dc.stem_arr (spec_at dc i) subject false =
      m (spec_at dc i).regex_str (spec_stem_len dc (spec_at dc i)) subject)
    (hmt : ∀ subject, spec_try E dt.stem_arr (spec_at dt i) subject false =
      m (spec_at dt i).regex_str (spec_stem_len dt (spec_at dt i)) subject) :
    candidate (spec_at dc i) (query_of dc key type).file_stem (query_of dc key type).mode =
      candidate (spec_at dt i) (query_of dt key type).file_stem (query_of dt key type).mode ∧
    (candidate (spec_at dc i) (query_of dc key type).file_stem (query_of dc key type).mode =
        true →
      try_query E dc.stem_arr (query_of dc key type) (spec_at dc i) false =
        try_query E dt.stem_arr (query_of dt key type) (spec_at dt i) false) := by
  obtain ⟨hre, _, hmode, _, hstem⟩ := hrec
  unfold query_of candidate try_query subject_of
  simp only []
  rw [hmc, hmt, hre, hmode]
  rcases spec_stem_cases dc _ hic with ⟨c1, c2, c3⟩ | ⟨c0, cl, c2, c3⟩
  · rcases spec_stem_cases dt _ hit with ⟨t1, t2, t3⟩ | ⟨t0, tl, t2, t3⟩
    · rw [c1, t1, c3, t3]
      simp
    · rw [c2, t2] at hstem
      cases hstem
  · rcases spec_stem_cases dt _ hit with ⟨t1, t2, t3⟩ | ⟨t0, tl, t2, t3⟩
    · rw [c2, t2] at hstem
      cases hstem
    · rw [c2, t2] at hstem
      have hbuf := congrArg Prod.fst (Option.some.inj hstem)
      have hlen := congrArg Prod.snd (Option.some.inj hstem)
      simp only at hbuf hlen
      have hc1 : (spec_at dc i).stem_id ≠ -1 := by omega
      have ht1 : (spec_at dt i).stem_id ≠ -1 := by omega
      have fc := find_stem_from_file_spec dc hsc (clean_key key) _ c0 cl
      have ft := find_stem_from_file_spec dt hst (clean_key key) _ t0 tl
      have hiff : (find_stem_from_file dc (clean_key key)).1 = (spec_at dc i).stem_id ↔
          (find_stem_from_file dt (clean_key key)).1 = (spec_at dt i).stem_id := by
        rw [fc, ft]
        unfold stem_matches
        rw [hbuf, hlen]
      have hdec : ((spec_at dc i).stem_id == (find_stem_from_file dc (clean_key key)).1) =
          ((spec_at dt i).stem_id == (find_stem_from_file dt (clean_key key)).1) := by
        rw [Bool.eq_iff_iff]
        simp only [beq_iff_eq]
        constructor
        · intro h
          exact (hiff.1 h.symm).symm
        · intro h
          exact (hiff.2 h.symm).symm
      have hn1 : ((spec_at dc i).stem_id == -1) = false := by simpa using hc1
      have hn2 : ((spec_at dt i).stem_id == -1) = false := by simpa using ht1
      rw [hn1, hn2, hdec, if_neg hc1, if_neg ht1, c3, t3, hlen]
      refine ⟨rfl, ?_⟩
      intro hcand
      simp only [Bool.false_or, Bool.and_eq_true, beq_iff_eq] at hcand
      have e2 := hcand.1
      have e1 : (spec_at dc i).stem_id = (find_stem_from_file dc (clean_key key)).1 :=
        (hiff.2 e2.symm).symm
      rw [find_stem_from_file_buf dc _ (by rw [← e1]; exact c0),
        find_stem_from_file_buf dt _ (by rw [← e2]; exact t0)]

theorem decl_order_agree (dc dt : saved_data R S) (hn : dc.nspec = dt.nspec)
    (hrec : ∀ i, i < dc.nspec → records_agree dc dt i) : decl_order dc = decl_order dt := by
  rw [decl_order_eq, decl_order_eq, ← hn]
  congr 1
  · apply List.filter_congr
    intro x hx
    rw [(hrec x (List.mem_range.1 hx)).2.2.2.1]
  · apply List.filter_congr
    intro x hx
    rw [(hrec x (List.mem_range.1 hx)).2.2.2.1]

/-- Two stores with the same number of specifications whose records agree and
whose patterns answer as one oracle of pattern text and stem length says give
the same lookup result after `sort_specs`, however each numbers its stems. -/
theorem lookup_index_two_stores (E : pcre_engine R S) (dc dt : saved_data R S)
    (m : List Char → Nat → List Char → Option Int)
    (hn : dc.nspec = dt.nspec)
    (hsc : stems_distinct dc.stem_arr) (hst : stems_distinct dt.stem_arr)
    (hic : stem_ids_ok dc) (hit : stem_ids_ok dt)
    (hrec : ∀ i, i < dc.nspec → records_agree dc dt i)
    (hmc : ∀ i, i < dc.nspec → ∀ subject,
      spec_try E dc.stem_arr (spec_at dc i) subject false =
        m (spec_at dc i).regex_str (spec_stem_len dc (spec_at dc i)) subject)
    (hmt : ∀ i, i < dt.nspec → ∀ subject,
      spec_try E dt.stem_arr (spec_at dt i) subject false =
        m (spec_at dt i).regex_str (spec_stem_len dt (spec_at dt i)) subject)
    (key : List Char) (type : Int) :
    lookup_index E (sort_specs dc) key type false =
      lookup_index E (sort_specs dt) key type false ∧
    label_of (sort_specs dc) (lookup_index E (sort_specs dc) key type false) =
      label_of (sort_specs dt) (lookup_index E (sort_specs dt) key type false) := by
  have hord := decl_order_agree dc dt hn hrec
  have hslot : ∀ j, j < dc.nspec →
      (decl_order dc).getD j 0 < dc.nspec ∧
      spec_at (sort_specs dc) j = spec_at dc ((decl_order dc).getD j 0) ∧
      spec_at (sort_specs dt) j = spec_at dt ((decl_order dc).getD j 0) := by
    intro j hj
    refine ⟨decl_order_lt dc j hj, spec_at_sort_specs dc j hj, ?_⟩
    rw [hord]
    exact spec_at_sort_specs dt j (hn ▸ hj)
  have hw : walk_ending E (sort_specs dc).stem_arr (query_of (sort_specs dc) key type) false
        (spec_at (sort_specs dc)) (sort_specs dc).nspec =
      walk_ending E (sort_specs dt).stem_arr (query_of (sort_specs dt) key type) false
        (spec_at (sort_specs dt)) (sort_specs dt).nspec := by
    rw [query_of_sort_specs, query_of_sort_specs]
    show walk_ending E dc.stem_arr (query_of dc key type) false (spec_at (sort_specs dc))
        dc.nspec =
      walk_ending E dt.stem_arr (query_of dt key type) false (spec_at (sort_specs dt)) dt.nspec
    rw [← hn]
    apply walk_ending_two
    intro j hj
    obtain ⟨hlt, e1, e2⟩ := hslot j hj
    rw [e1, e2]
    exact slot_agree E dc dt m hsc hst key type _ (hic _ hlt) (hit _ (hn ▸ hlt))
      (hrec _ hlt) (hmc _ hlt) (hmt _ (hn ▸ hlt))
  have hres : lookup_index E (sort_specs dc) key type false =
      lookup_index E (sort_specs dt) key type false := by
    unfold lookup_index
    rw [← hw]
    cases hwe : walk_ending E (sort_specs dc).stem_arr (query_of (sort_specs dc) key type)
      false (spec_at (sort_specs dc)) (sort_specs dc).nspec with
    | stopped i =>
      have hi : i < dc.nspec := (walk_ending_stopped _ _ _ _ _ _ _ hwe).1
      obtain ⟨hlt, e1, e2⟩ := hslot i hi
      simp only [e1, e2, (hrec _ hlt).2.1]
    | exhausted => rfl
    | failed => rfl
  refine ⟨hres, ?_⟩
  rw [← hres]
  cases hl : lookup_index E (sort_specs dc) key type false with
  | none => rfl
  | some i =>
    have hi : i < dc.nspec := by
      unfold lookup_index at hl
      cases hwe : walk_ending E (sort_specs dc).stem_arr (query_of (sort_specs dc) key type)
        false (spec_at (sort_specs dc)) (sort_specs dc).nspec with
      | stopped k =>
        rw [hwe] at hl
        simp only at hl
        split_ifs at hl
        have := (walk_ending_stopped _ _ _ _ _ _ _ hwe).1
        cases hl
        exact this
      | exhausted => rw [hwe] at hl; cases hl
      | failed => rw [hwe] at hl; cases hl
    obtain ⟨hlt, e1, e2⟩ := hslot i hi
    simp only [label_of, Option.map_some', e1, e2, (hrec _ hlt).2.1]

end

/-! ## What the two loaders keep true of the store -/

section
variable {R S : Type}

theorem store_ok_empty : store_ok (empty_data R S) := by
  refine ⟨Nat.le_refl _, List.Pairwise.nil, ?_⟩
  intro i hi
  exact absurd hi (Nat.not_lt_zero i)

theorem stem_id_ok_mono (s1 s2 : List stem) (id : Int) (h : s1.length ≤ s2.length) :
    stem_id_ok s1 id → stem_id_ok s2 id := by
  rintro (h1 | ⟨h0, hl⟩)
  · exact Or.inl h1
  · exact Or.inr ⟨h0, by omega⟩

theorem find_stem_neg (d : saved_data R S) (buf : List Char) (L : Nat)
    (h : ¬ 0 ≤ find_stem d buf L) : ∀ st ∈ d.stem_arr, ¬ stem_matches buf L st := by
  unfold find_stem at h
  rcases find_stem_scan_spec buf L d.stem_arr 0 with ⟨_, h2⟩ | ⟨k, _, h1, _, _⟩
  · exact h2
  · rw [h1] at h
    omega

theorem find_stem_nonneg (d : saved_data R S) (buf : List Char) (L : Nat)
    (h : 0 ≤ find_stem d buf L) : (find_stem d buf L).toNat < d.stem_arr.length := by
  unfold find_stem at h ⊢
  rcases find_stem_scan_spec buf L d.stem_arr 0 with ⟨h1, _⟩ | ⟨k, hk, h1, _, _⟩
  · rw [h1] at h
    omega
  · rw [h1]
    omega

theorem stems_distinct_snoc (stems : List stem) (h : stems_distinct stems)
    (buf buf1 : List Char) (L : Nat) (fm : Bool)
    (hno : ∀ st ∈ stems, ¬ stem_matches buf L st)
    (hb : ∀ st : stem, strncmp_eq buf1 st.buf L = strncmp_eq buf st.buf L) :
    stems_distinct (stems ++ [⟨buf1, L, fm⟩]) := by
  unfold stems_distinct
  rw [List.pairwise_append]
  refine ⟨h, List.pairwise_singleton _ _, ?_⟩
  intro a ha b hb1
  rw [List.mem_singleton] at hb1
  subst hb1
  rintro ⟨hlen, hcmp⟩
  apply hno a ha
  simp only at hlen hcmp
  refine ⟨hlen.symm, ?_⟩
  rw [← hb a, strncmp_eq_symm, ← hlen]
  exact hcmp

theorem find_stem_from_spec_ok (d : saved_data R S) (regex : List Char)
    (hd : stems_distinct d.stem_arr) :
    stems_distinct (find_stem_from_spec d regex).1.stem_arr ∧
    stem_id_ok (find_stem_from_spec d regex).1.stem_arr (find_stem_from_spec d regex).2 ∧
    d.stem_arr.length ≤ (find_stem_from_spec d regex).1.stem_arr.length := by
  unfold find_stem_from_spec
  simp only []
  split_ifs with h1 h2
  · exact ⟨hd, Or.inl rfl, le_refl _⟩
  · exact ⟨hd, Or.inr ⟨h2, find_stem_nonneg d _ _ h2⟩, le_refl _⟩
  · unfold store_stem
    simp only [List.length_append, List.length_singleton]
    refine ⟨?_, Or.inr ⟨by omega, by simp⟩, by omega⟩
    refine stems_distinct_snoc _ hd regex _ _ _ (find_stem_neg d _ _ h2) ?_
    intro st
    rw [strncmp_eq_symm, strncmp_eq_take_right _ _ _ _ (le_refl _), strncmp_eq_symm]

theorem grow_specs_frame (d : saved_data R S) :
    (grow_specs d).stem_arr = d.stem_arr ∧ (grow_specs d).nspec = d.nspec := by
  unfold grow_specs
  split_ifs <;> exact ⟨rfl, rfl⟩

theorem process_entries_ok (E : pcre_engine R S) (validating : Bool)
    (subset : Option (List Char)) (d : saved_data R S)
    (regex : List Char) (type : Option (List Char)) (context : List Char)
    (h : store_ok d) :
    store_ok (process_entries E validating subset d regex type context).1 := by
  by_cases hdisc : subset_discards subset regex
  · rw [process_entries_discarded E validating subset d regex type context hdisc]
    exact h
  obtain ⟨hslots, hstems, hids⟩ := h
  obtain ⟨_, hn, _, _, _, _, hold, hslots1⟩ :=
    process_entries_appended E validating subset d regex type context hdisc hslots
  obtain ⟨hroom, _, _⟩ := grow_specs_room d hslots
  obtain ⟨hfs1, _, _⟩ := find_stem_from_spec_specs (grow_specs d) regex
  have hfs := find_stem_from_spec_ok (grow_specs d) regex
    (by rw [(grow_specs_frame d).1]; exact hstems)
  rw [(grow_specs_frame d).1] at hfs
  have hst : (process_entries E validating subset d regex type context).1.stem_arr =
      (find_stem_from_spec (grow_specs d) regex).1.stem_arr := by
    unfold process_entries
    simp only []
    rw [if_neg (fun hh => hdisc ((discard_cond_iff subset regex).1 hh))]
  have hid : (spec_at (process_entries E validating subset d regex type context).1
      d.nspec).stem_id = (find_stem_from_spec (grow_specs d) regex).2 := by
    unfold process_entries
    simp only []
    rw [if_neg (fun hh => hdisc ((discard_cond_iff subset regex).1 hh))]
    have hlen : d.nspec < (find_stem_from_spec (grow_specs d) regex).1.spec_arr.length := by
      rw [hfs1]; exact hroom
    simp only [spec_at, List.getD_eq_getElem?_getD, List.getElem?_set, hlen, if_true,
      Option.getD_some]
    rw [(spec_hasMetaChars_fields _).2.2.2.2.1]
    cases validating
    · rfl
    · exact (compile_regex_fields E _ _).2.1
  refine ⟨hslots1, ?_, ?_⟩
  · rw [hst]
    exact hfs.1
  · intro i hi
    rw [hn] at hi
    rw [hst]
    by_cases hlt : i < d.nspec
    · rw [hold i hlt]
      exact stem_id_ok_mono _ _ _ hfs.2.2 (hids i hlt)
    · have : i = d.nspec := by omega
      subst this
      rw [hid]
      exact hfs.2.1

theorem process_line_shape (E : pcre_engine R S) (validating : Bool)
    (subset : Option (List Char)) (d : saved_data R S) (line_buf : List Char) :
    process_line E validating subset d line_buf = (d, 0) ∨
    ∃ regex type context, process_line E validating subset d line_buf =
      process_entries E validating subset d regex type context := by
  by_cases h0 : (read_spec_entries line_buf 3).1 = 0
  · left
    unfold process_line
    simp only [h0, if_true]
  by_cases h1 : (read_spec_entries line_buf 3).1 < 2
  · left
    unfold process_line
    simp only [h0, h1, if_true, if_false]
  · right
    refine ⟨((read_spec_entries line_buf 3).2.getD 0 none).getD [],
      if (read_spec_entries line_buf 3).1 = 2 then none
        else (read_spec_entries line_buf 3).2.getD 1 none,
      if (read_spec_entries line_buf 3).1 = 2
        then ((read_spec_entries line_buf 3).2.getD 1 none).getD []
        else ((read_spec_entries line_buf 3).2.getD 2 none).getD [], ?_⟩
    unfold process_line process_entries
    simp only [h0, h1, if_false]

theorem process_lines_ok (E : pcre_engine R S) (validating : Bool)
    (subset : Option (List Char)) (lines : List (List Char)) :
    ∀ d : saved_data R S, store_ok d →
      store_ok (process_lines E validating subset d lines).1 := by
  induction lines with
  | nil => intro d h; exact h
  | cons line rest ih =>
    intro d h
    have h1 : store_ok (process_line E validating subset d line).1 := by
      rcases process_line_shape E validating subset d line with e | ⟨regex, type, context, e⟩
      · rw [e]; exact h
      · rw [e]; exact process_entries_ok E validating subset d regex type context h
    rw [process_lines]
    split_ifs
    · exact h1
    · exact ih _ h1

theorem text_store_ok (E : pcre_engine R S) (validating : Bool)
    (subset : Option (List Char)) (lines : List (List Char)) :
    store_ok (text_store E validating subset lines) :=
  process_lines_ok E validating subset lines _ store_ok_empty

end

section
variable {R S : Type}

theorem stems_loaded_step (d d1 : saved_data R S) (stem_map : List Int) (id : Int) (n : Nat)
    (r : saved_data R S × Option (mmap_area × List Int))
    (h1 : d1.spec_arr = d.spec_arr) (h2 : d1.nspec = d.nspec)
    (h3 : d1.alloc_specs = d.alloc_specs) (h4 : d.stem_arr.length ≤ d1.stem_arr.length)
    (h : stems_loaded d1 (stem_map ++ [id]) n r) : stems_loaded d stem_map (n + 1) r := by
  obtain ⟨a, b, c, e, f, g⟩ := h
  refine ⟨a, b.trans h1, c.trans h2, e.trans h3, le_trans h4 f, ?_⟩
  intro fp1 map1 hr
  obtain ⟨g1, g2⟩ := g fp1 map1 hr
  refine ⟨?_, g2⟩
  rw [g1, List.length_append, List.length_singleton]
  omega

theorem store_stem_marked (d : saved_data R S) (buf : List Char) (L : Nat) :
    (store_stem d buf L).1.stem_arr.set (store_stem d buf L).2.toNat
      { buf := ((store_stem d buf L).1.stem_arr.getD (store_stem d buf L).2.toNat default).buf,
        len := ((store_stem d buf L).1.stem_arr.getD (store_stem d buf L).2.toNat default).len,
        from_mmap := true } = d.stem_arr ++ [⟨buf, L, true⟩] ∧
    (store_stem d buf L).2 = (d.stem_arr.length : Int) := by
  unfold store_stem
  simp only [Int.toNat_ofNat, and_true]
  rw [List.set_append_right _ _ (le_refl _)]
  simp [List.getD_eq_getElem?_getD]

theorem load_stems_ok (mem : List Char) :
    ∀ (n : Nat) (d : saved_data R S) (fp : mmap_area) (stem_map : List Int),
      stems_distinct d.stem_arr →
      (∀ x ∈ stem_map, 0 ≤ x ∧ x.toNat < d.stem_arr.length) →
      stems_loaded d stem_map n (load_stems mem n d fp stem_map) := by
  intro n
  induction n with
  | zero =>
    intro d fp stem_map hd hmap
    refine ⟨hd, rfl, rfl, rfl, le_refl _, ?_⟩
    intro fp1 map1 h
    simp only [load_stems, Option.some.injEq, Prod.mk.injEq] at h
    obtain ⟨_, rfl⟩ := h
    exact ⟨rfl, hmap⟩
  | succ n ih =>
    intro d fp stem_map hd hmap
    have fail : stems_loaded d stem_map (n + 1) (d, none) :=
      ⟨hd, rfl, rfl, rfl, le_refl _, fun _ _ h => by cases h⟩
    rw [load_stems]
    split
    · exact fail
    · split
      · exact fail
      · split
        · split
          · exact fail
          · split
            · exact fail
            · simp only []
              split
              · rename_i stem_len fp1 _ _ _ _ bytes fp2 _ _ hneg
                obtain ⟨e1, e2⟩ := store_stem_marked d (c_str (List.drop fp1.addr mem)) stem_len
                rw [e1, e2]
                refine stems_loaded_step d _ stem_map _ n _ ?_ ?_ ?_ ?_ (ih _ _ _ ?_ ?_)
                · rfl
                · rfl
                · rfl
                · simp
                · exact stems_distinct_snoc _ hd _ _ _ _
                    (find_stem_neg d _ _ (by omega)) (fun _ => rfl)
                · intro x hx
                  simp only [List.length_append, List.length_singleton]
                  rcases List.mem_append.1 hx with hx | hx
                  · have := hmap x hx
                    omega
                  · rw [List.mem_singleton] at hx
                    subst hx
                    omega
              · rename_i stem_len fp1 _ _ _ _ bytes fp2 _ _ hpos
                refine stems_loaded_step d d stem_map _ n _ rfl rfl rfl (le_refl _)
                  (ih _ _ _ hd ?_)
                intro x hx
                rcases List.mem_append.1 hx with hx | hx
                · exact hmap x hx
                · rw [List.mem_singleton] at hx
                  subst hx
                  have h0 : 0 ≤ find_stem d (c_str (List.drop fp1.addr mem)) stem_len := by
                    omega
                  exact ⟨h0, find_stem_nonneg d _ _ h0⟩
        · exact fail

theorem slot_changed_refl (d : saved_data R S) : slot_changed d d :=
  ⟨rfl, rfl, rfl, rfl, fun _ _ => rfl⟩

theorem slot_changed_set (d d1 : saved_data R S) (h : slot_changed d d1)
    (f : spec R S → spec R S) : slot_changed d (set_slot d1 f) := by
  obtain ⟨h1, h2, h3, h4, h5⟩ := h
  refine ⟨h1, h2, h3, ?_, ?_⟩
  · show (d1.spec_arr.set d1.nspec _).length = _
    rw [List.length_set]
    exact h4
  · intro i hi
    rw [← h5 i hi]
    exact spec_at_set_ne d1 d1.nspec i _ (by rw [h2]; exact hi)

theorem spec_at_set_slot (d1 : saved_data R S) (f : spec R S → spec R S)
    (h : d1.nspec < d1.spec_arr.length) :
    spec_at (set_slot d1 f) d1.nspec = f (spec_at d1 d1.nspec) := by
  simp [set_slot, spec_at, List.getD_eq_getElem?_getD, List.getElem?_set, h]

theorem set_slot_stem_id (d1 : saved_data R S) (f : spec R S → spec R S)
    (hf : ∀ sp, (f sp).stem_id = sp.stem_id) :
    (spec_at (set_slot d1 f) d1.nspec).stem_id = (spec_at d1 d1.nspec).stem_id := by
  by_cases h : d1.nspec < d1.spec_arr.length
  · rw [spec_at_set_slot d1 f h, hf]
  · have : set_slot d1 f = d1 := by
      unfold set_slot
      rw [List.set_eq_of_length_le (by omega)]
    rw [this]

theorem load_spec_blobs_step (A : pcre_cache R S) (mem : List Char) (d0 d : saved_data R S)
    (fp : mmap_area) (h0 : slot_changed d0 d) :
    ∃ d1, slot_changed d0 d1 ∧
      (spec_at d1 d0.nspec).stem_id = (spec_at d d0.nspec).stem_id ∧
      ((load_spec_blobs A mem d fp).1 = d1 ∨
        (load_spec_blobs A mem d fp).1 = { d1 with nspec := d1.nspec + 1 }) := by
  have hn : d.nspec = d0.nspec := h0.2.1
  have s1 : ∀ f : spec R S → spec R S, (∀ sp, (f sp).stem_id = sp.stem_id) →
      slot_changed d0 (set_slot d f) ∧
      (spec_at (set_slot d f) d0.nspec).stem_id = (spec_at d d0.nspec).stem_id :=
    fun f hf => ⟨slot_changed_set d0 d h0 f, by rw [← hn]; exact set_slot_stem_id d f hf⟩
  have s2 : ∀ f g : spec R S → spec R S, (∀ sp, (f sp).stem_id = sp.stem_id) →
      (∀ sp, (g sp).stem_id = sp.stem_id) →
      slot_changed d0 (set_slot (set_slot d f) g) ∧
      (spec_at (set_slot (set_slot d f) g) d0.nspec).stem_id = (spec_at d d0.nspec).stem_id :=
    fun f g hf hg => ⟨slot_changed_set d0 _ (s1 f hf).1 g, by
      rw [← (s1 f hf).2, ← hn]
      exact set_slot_stem_id (set_slot d f) g hg⟩
  have l1 : ∀ (x : R) (r : saved_data R S),
      (r = set_slot d (fun sp => { sp with regex := some x }) ∨
        r = { set_slot d (fun sp => { sp with regex := some x }) with
          nspec := (set_slot d (fun sp => { sp with regex := some x })).nspec + 1 }) →
      ∃ d1, slot_changed d0 d1 ∧
        (spec_at d1 d0.nspec).stem_id = (spec_at d d0.nspec).stem_id ∧
        (r = d1 ∨ r = { d1 with nspec := d1.nspec + 1 }) :=
    fun x r hr => ⟨set_slot d (fun sp => { sp with regex := some x }),
      (s1 (fun sp => { sp with regex := some x }) (fun _ => rfl)).1,
      (s1 (fun sp => { sp with regex := some x }) (fun _ => rfl)).2, hr⟩
  have l2 : ∀ (x : R) (y : S) (r : saved_data R S),
      (r = set_slot (set_slot d (fun sp => { sp with regex := some x }))
          (fun sp => { sp with sd := some y }) ∨
        r = { set_slot (set_slot d (fun sp => { sp with regex := some x }))
            (fun sp => { sp with sd := some y }) with
          nspec := (set_slot (set_slot d (fun sp => { sp with regex := some x }))
            (fun sp => { sp with sd := some y })).nspec + 1 }) →
      ∃ d1, slot_changed d0 d1 ∧
        (spec_at d1 d0.nspec).stem_id = (spec_at d d0.nspec).stem_id ∧
        (r = d1 ∨ r = { d1 with nspec := d1.nspec + 1 }) :=
    fun x y r hr => ⟨set_slot (set_slot d (fun sp => { sp with regex := some x }))
        (fun sp => { sp with sd := some y }),
      (s2 (fun sp => { sp with regex := some x }) (fun sp => { sp with sd := some y })
        (fun _ => rfl) (fun _ => rfl)).1,
      (s2 (fun sp => { sp with regex := some x }) (fun sp => { sp with sd := some y })
        (fun _ => rfl) (fun _ => rfl)).2, hr⟩
  unfold load_spec_blobs
  split
  · exact ⟨d, h0, rfl, Or.inl rfl⟩
  · split
    · exact ⟨d, h0, rfl, Or.inl rfl⟩
    · simp only []
      split
      · exact l1 _ _ (Or.inl rfl)
      · split
        · exact l1 _ _ (Or.inl rfl)
        · split
          · exact l1 _ _ (Or.inl rfl)
          · split
            · exact l1 _ _ (Or.inl rfl)
            · split
              · exact l2 _ _ _ (Or.inl rfl)
              · split
                · exact l2 _ _ _ (Or.inl rfl)
                · exact l2 _ _ _ (Or.inr rfl)

theorem to_int32_le (n : Nat) : to_int32 n ≤ (n : Int) := by
  unfold to_int32
  split_ifs <;> omega

theorem stem_map_entry_ok (stems : List stem) (stem_map : List Int) (sml : Nat) (sid : Int)
    (hmap : ∀ x ∈ stem_map, 0 ≤ x ∧ x.toNat < stems.length) (hsml : stem_map.length = sml) :
    stem_id_ok stems (if sid < 0 ∨ sid ≥ to_int32 sml then -1 else stem_map.getD sid.toNat 0) := by
  split_ifs with h
  · exact Or.inl rfl
  · right
    have := to_int32_le sml
    have hlt : sid.toNat < stem_map.length := by omega
    rw [List.getD_eq_getElem _ _ hlt]
    exact hmap _ (List.getElem_mem _)

theorem spec_at_set_slot_of (d0 d1 : saved_data R S) (f : spec R S → spec R S)
    (h : slot_changed d0 d1) (hroom : d0.nspec < d0.spec_arr.length) :
    spec_at (set_slot d1 f) d0.nspec = f (spec_at d1 d0.nspec) := by
  rw [← h.2.1]
  exact spec_at_set_slot d1 f (by rw [h.2.1, h.2.2.2.1]; exact hroom)

theorem load_spec_blobs_finish (A : pcre_cache R S) (mem : List Char) (d0 d : saved_data R S)
    (fp : mmap_area) (h0 : slot_changed d0 d)
    (hid : stem_id_ok d0.stem_arr (spec_at d d0.nspec).stem_id) :
    ∃ d1, slot_changed d0 d1 ∧
      ((load_spec_blobs A mem d fp).1 = d1 ∨
        ((load_spec_blobs A mem d fp).1 = { d1 with nspec := d1.nspec + 1 } ∧
          stem_id_ok d0.stem_arr (spec_at d1 d0.nspec).stem_id)) := by
  obtain ⟨d1, hc, hs, hres⟩ := load_spec_blobs_step A mem d0 d fp h0
  exact ⟨d1, hc, hres.imp id (fun e => ⟨e, by rw [hs]; exact hid⟩)⟩

theorem load_spec_fields_step (A : pcre_cache R S) (mem : List Char) (version sml : Nat)
    (stem_map : List Int) (d0 d : saved_data R S) (fp : mmap_area)
    (h0 : slot_changed d0 d) (hroom : d0.nspec < d0.spec_arr.length)
    (hmap : ∀ x ∈ stem_map, 0 ≤ x ∧ x.toNat < d0.stem_arr.length)
    (hsml : stem_map.length = sml) :
    ∃ d1, slot_changed d0 d1 ∧
      ((load_spec_fields A mem version sml stem_map d fp).1 = d1 ∨
        ((load_spec_fields A mem version sml stem_map d fp).1 =
            { d1 with nspec := d1.nspec + 1 } ∧
          stem_id_ok d0.stem_arr (spec_at d1 d0.nspec).stem_id)) := by
  have c1 : ∀ f, slot_changed d0 (set_slot d f) := fun f => slot_changed_set d0 d h0 f
  have c2 : ∀ f g, slot_changed d0 (set_slot (set_slot d f) g) :=
    fun f g => slot_changed_set d0 _ (c1 f) g
  have c3 : ∀ f g h, slot_changed d0 (set_slot (set_slot (set_slot d f) g) h) :=
    fun f g h => slot_changed_set d0 _ (c2 f g) h
  have c4 : ∀ f g h k,
      slot_changed d0 (set_slot (set_slot (set_slot (set_slot d f) g) h) k) :=
    fun f g h k => slot_changed_set d0 _ (c3 f g h) k
  unfold load_spec_fields
  simp only []
  split
  · exact ⟨d, h0, Or.inl rfl⟩
  · split
    · refine ⟨_, ?_, Or.inl rfl⟩
      exact c1 _
    · split
      · refine ⟨_, ?_, Or.inl rfl⟩
        exact c2 _ _
      · split
        · split
          · refine ⟨_, ?_, Or.inl rfl⟩
            exact c3 _ _ _
          · refine load_spec_blobs_finish A mem d0 _ _ (c4 _ _ _ _) ?_
            simp only [spec_at_set_slot_of d0 _ _ (c3 _ _ _) hroom,
              spec_at_set_slot_of d0 _ _ (c2 _ _) hroom,
              spec_at_set_slot_of d0 _ _ (c1 _) hroom]
            exact stem_map_entry_ok _ _ _ _ hmap hsml
        · refine load_spec_blobs_finish A mem d0 _ _ (c3 _ _ _) ?_
          simp only [spec_at_set_slot_of d0 _ _ (c2 _ _) hroom,
            spec_at_set_slot_of d0 _ _ (c1 _) hroom]
          exact stem_map_entry_ok _ _ _ _ hmap hsml

theorem load_spec_record_step (A : pcre_cache R S) (mem : List Char) (version sml : Nat)
    (stem_map : List Int) (d : saved_data R S) (fp : mmap_area) (hslots : slots_ok d)
    (hmap : ∀ x ∈ stem_map, 0 ≤ x ∧ x.toNat < d.stem_arr.length)
    (hsml : stem_map.length = sml) :
    ∃ d1, slot_changed (grow_specs d) d1 ∧
      ((load_spec_record A mem version sml stem_map d fp).1 = d1 ∨
        ((load_spec_record A mem version sml stem_map d fp).1 =
            { d1 with nspec := d1.nspec + 1 } ∧
          stem_id_ok (grow_specs d).stem_arr (spec_at d1 (grow_specs d).nspec).stem_id)) := by
  obtain ⟨hroom, _, _⟩ := grow_specs_room d hslots
  obtain ⟨gs, gn⟩ := grow_specs_frame d
  have hroom0 : (grow_specs d).nspec < (grow_specs d).spec_arr.length := by
    rw [gn]; exact hroom
  have hmap0 : ∀ x ∈ stem_map, 0 ≤ x ∧ x.toNat < (grow_specs d).stem_arr.length := by
    rw [gs]; exact hmap
  have c1 : ∀ f, slot_changed (grow_specs d) (set_slot (grow_specs d) f) :=
    fun f => slot_changed_set _ _ (slot_changed_refl _) f
  have c2 : ∀ f g, slot_changed (grow_specs d) (set_slot (set_slot (grow_specs d) f) g) :=
    fun f g => slot_changed_set _ _ (c1 f) g
  have c3 : ∀ f g h,
      slot_changed (grow_specs d) (set_slot (set_slot (set_slot (grow_specs d) f) g) h) :=
    fun f g h => slot_changed_set _ _ (c2 f g) h
  unfold load_spec_record
  simp only []
  split
  · refine ⟨_, ?_, Or.inl rfl⟩
    exact c1 _
  · split
    · refine ⟨_, ?_, Or.inl rfl⟩
      exact c1 _
    · split
      · refine ⟨_, ?_, Or.inl rfl⟩
        exact c1 _
      · split
        · refine ⟨_, ?_, Or.inl rfl⟩
          exact c1 _
        · split
          · refine ⟨_, ?_, Or.inl rfl⟩
            exact c2 _ _
          · split
            · refine ⟨_, ?_, Or.inl rfl⟩
              exact c2 _ _
            · split
              · refine ⟨_, ?_, Or.inl rfl⟩
                exact c3 _ _ _
              · split
                · refine ⟨_, ?_, Or.inl rfl⟩
                  exact c3 _ _ _
                · exact load_spec_fields_step A mem version sml stem_map (grow_specs d) _ _
                    (c3 _ _ _) hroom0 hmap0 hsml

theorem load_spec_record_ok (A : pcre_cache R S) (mem : List Char) (version sml : Nat)
    (stem_map : List Int) (d : saved_data R S) (fp : mmap_area)
    (hslots : slots_ok d) (hids : stem_ids_ok d)
    (hmap : ∀ x ∈ stem_map, 0 ≤ x ∧ x.toNat < d.stem_arr.length)
    (hsml : stem_map.length = sml) :
    slots_ok (load_spec_record A mem version sml stem_map d fp).1 ∧
    stem_ids_ok (load_spec_record A mem version sml stem_map d fp).1 ∧
    (load_spec_record A mem version sml stem_map d fp).1.stem_arr = d.stem_arr := by
  obtain ⟨d1, ⟨h1, h2, h3, h4, h5⟩, hres⟩ :=
    load_spec_record_step A mem version sml stem_map d fp hslots hmap hsml
  obtain ⟨_, hs0, _⟩ := grow_specs_room d hslots
  obtain ⟨gs, gn⟩ := grow_specs_frame d
  have hs1 : slots_ok d1 := by
    unfold slots_ok at hs0 ⊢
    rw [h3, h4]
    exact hs0
  have hold : ∀ i, i < d.nspec → stem_id_ok d1.stem_arr (spec_at d1 i).stem_id := by
    intro i hi
    rw [h1, gs, h5 i (by rw [gn]; omega), spec_at_grow_specs d i hi]
    exact hids i hi
  rcases hres with e | ⟨e, hv⟩
  · rw [e]
    refine ⟨hs1, ?_, h1.trans gs⟩
    intro i hi
    rw [h2, gn] at hi
    exact hold i hi
  · rw [e]
    refine ⟨hs1, ?_, h1.trans gs⟩
    intro i hi
    have hi1 : i < d.nspec + 1 := by
      have : i < d1.nspec + 1 := hi
      rw [h2, gn] at this
      exact this
    show stem_id_ok d1.stem_arr (spec_at d1 i).stem_id
    by_cases hlt : i < d.nspec
    · exact hold i hlt
    · have : i = d.nspec := by omega
      subst this
      rw [h1]
      rw [gn] at hv
      exact hv

theorem load_specs_ok (A : pcre_cache R S) (mem : List Char) (version sml : Nat)
    (stem_map : List Int) (hsml : stem_map.length = sml) :
    ∀ (n : Nat) (d : saved_data R S) (fp : mmap_area),
      slots_ok d → stem_ids_ok d →
      (∀ x ∈ stem_map, 0 ≤ x ∧ x.toNat < d.stem_arr.length) →
      slots_ok (load_specs A mem version sml stem_map n d fp).1 ∧
      stem_ids_ok (load_specs A mem version sml stem_map n d fp).1 ∧
      (load_specs A mem version sml stem_map n d fp).1.stem_arr = d.stem_arr := by
  intro n
  induction n with
  | zero =>
    intro d fp hs hi _
    exact ⟨hs, hi, rfl⟩
  | succ n ih =>
    intro d fp hs hi hmap
    obtain ⟨r1, r2, r3⟩ := load_spec_record_ok A mem version sml stem_map d fp hs hi hmap hsml
    rw [load_specs]
    split
    · exact ⟨r1, r2, r3⟩
    · obtain ⟨q1, q2, q3⟩ := ih _ ‹mmap_area› r1 r2 (by rw [r3]; exact hmap)
      exact ⟨q1, q2, q3.trans r3⟩

theorem load_mmap_ok (A : pcre_cache R S) (mem : List Char) (d : saved_data R S)
    (h : store_ok d) : store_ok (load_mmap A d mem).1 := by
  obtain ⟨hs, hd, hi⟩ := h
  have hstems : ∀ n fp, store_ok (load_stems mem n d fp []).1 ∧
      ∀ fp1 map1, (load_stems mem n d fp []).2 = some (fp1, map1) →
        map1.length = n ∧
        ∀ x ∈ map1, 0 ≤ x ∧ x.toNat < (load_stems mem n d fp []).1.stem_arr.length := by
    intro n fp
    obtain ⟨a, b, c, e, f, g⟩ := load_stems_ok mem n d fp [] hd (by simp)
    refine ⟨⟨?_, a, ?_⟩, ?_⟩
    · unfold slots_ok
      rw [e, b]
      exact hs
    · intro i hi1
      rw [c] at hi1
      have : spec_at (load_stems mem n d fp []).1 i = spec_at d i := by
        unfold spec_at
        rw [b]
      rw [this]
      exact stem_id_ok_mono _ _ _ f (hi i hi1)
    · intro fp1 map1 hr
      obtain ⟨g1, g2⟩ := g fp1 map1 hr
      exact ⟨by simpa using g1, g2⟩
  unfold load_mmap
  split
  · exact ⟨hs, hd, hi⟩
  · split
    · exact ⟨hs, hd, hi⟩
    · split
      · exact ⟨hs, hd, hi⟩
      · simp only []
        split
        · exact (hstems _ _).1
        · split
          · exact (hstems _ _).1
          · split
            · exact (hstems _ _).1
            · rename_i fp2 stem_map hq _ _ _ _ _
              obtain ⟨⟨k1, k2, k3⟩, k4⟩ := hstems _ _
              obtain ⟨m1, m2⟩ := k4 _ _ hq
              obtain ⟨q1, q2, q3⟩ := load_specs_ok A mem _ _ stem_map m1 _ _ ‹mmap_area›
                k1 k3 m2
              split
              · exact ⟨q1, by rw [q3]; exact k2, q2⟩
              · exact ⟨q1, by rw [q3]; exact k2, q2⟩

theorem cache_store_ok (A : pcre_cache R S) (mem : List Char) :
    store_ok (cache_store A mem : saved_data R S) :=
  load_mmap_ok A mem _ store_ok_empty

end

section
variable {R S : Type}

/-- C14. Take a mapped compiled file that `load_mmap` loads with success on
a fresh handle and the lines of a text file processed on a fresh handle.  If
both stores hold the same number of specifications, the records agree one by
one in pattern text, label, type filter, meta-character flag and stem text,
and every pattern of either store answers on every subject as one oracle `m`
of pattern text and stem length says, then after `sort_specs` a lookup of any
key with any type returns the specification of the same index and the same
label from both stores; nothing is assumed on how the two stem tables number
their stems. -/
theorem cache_and_text_lookups_agree (E : pcre_engine R S) (A : pcre_cache R S)
    (mem : List Char) (lines : List (List Char)) (validating : Bool)
    (subset : Option (List Char)) (m : List Char → Nat → List Char → Option Int)
    (_hload : (load_mmap A (empty_data R S) mem).2 = 0)
    (hn : (cache_store A mem : saved_data R S).nspec =
      (text_store E validating subset lines).nspec)
    (hrec : ∀ i, i < (cache_store A mem : saved_data R S).nspec →
      records_agree (cache_store A mem) (text_store E validating subset lines) i)
    (hmc : ∀ i, i < (cache_store A mem : saved_data R S).nspec → ∀ subject,
      spec_try E (cache_store A mem : saved_data R S).stem_arr
          (spec_at (cache_store A mem) i) subject false =
        m (spec_at (cache_store A mem : saved_data R S) i).regex_str
          (spec_stem_len (cache_store A mem) (spec_at (cache_store A mem) i)) subject)
    (hmt : ∀ i, i < (text_store E validating subset lines).nspec → ∀ subject,
      spec_try E (text_store E validating subset lines).stem_arr
          (spec_at (text_store E validating subset lines) i) subject false =
        m (spec_at (text_store E validating subset lines) i).regex_str
          (spec_stem_len (text_store E validating subset lines)
            (spec_at (text_store E validating subset lines) i)) subject)
    (key : List Char) (type : Int) :
    (lookup E (sort_specs (cache_store A mem)) key type).2 =
      (lookup E (sort_specs (text_store E validating subset lines)) key type).2 ∧
    label_of (sort_specs (cache_store A mem))
        (lookup E (sort_specs (cache_store A mem)) key type).2 =
      label_of (sort_specs (text_store E validating subset lines))
        (lookup E (sort_specs (text_store E validating subset lines)) key type).2 := by
  unfold lookup
  rw [lookup_common_index, lookup_common_index]
  exact lookup_index_two_stores E _ _ m hn (cache_store_ok A mem).2.1
    (text_store_ok E validating subset lines).2.1 (cache_store_ok A mem).2.2
    (text_store_ok E validating subset lines).2.2 hrec hmc hmt key type

end

section
set_option maxRecDepth 20000

theorem demo_oracle_cache_two_rules (i : Nat)
    (hi : i < (cache_store demo_cache cache_two_rules).nspec) (subject : List Char) :
    spec_try demo_engine (cache_store demo_cache cache_two_rules).stem_arr
        (spec_at (cache_store demo_cache cache_two_rules) i) subject false =
      demo_oracle (spec_at (cache_store demo_cache cache_two_rules) i).regex_str
        (spec_stem_len (cache_store demo_cache cache_two_rules)
          (spec_at (cache_store demo_cache cache_two_rules) i)) subject := by
  have hn : (cache_store demo_cache cache_two_rules).nspec = 2 := by decide
  rw [hn] at hi
  interval_cases i
  · rfl
  · rfl

theorem demo_oracle_lines_two_rules (i : Nat)
    (hi : i < (text_store demo_engine false none lines_two_rules).nspec)
    (subject : List Char) :
    spec_try demo_engine (text_store demo_engine false none lines_two_rules).stem_arr
        (spec_at (text_store demo_engine false none lines_two_rules) i) subject false =
      demo_oracle (spec_at (text_store demo_engine false none lines_two_rules) i).regex_str
        (spec_stem_len (text_store demo_engine false none lines_two_rules)
          (spec_at (text_store demo_engine false none lines_two_rules) i)) subject := by
  have hn : (text_store demo_engine false none lines_two_rules).nspec = 2 := by decide
  rw [hn] at hi
  interval_cases i
  · rfl
  · rfl

/-- Instance of C14: the compiled file `cache_two_rules`, whose stem table
lists `/var` before `/etc`, and the text file `lines_two_rules`, whose parse
meets `/etc` first; the first rule has the stem id 1 in one store and 0 in the
other, and the lookup of `/var/log` agrees. -/
theorem cache_and_text_lookups_agree_witness :
    (spec_at (cache_store demo_cache cache_two_rules) 0).stem_id = 1 ∧
    (spec_at (text_store demo_engine false none lines_two_rules) 0).stem_id = 0 ∧
    ((lookup demo_engine (sort_specs (cache_store demo_cache cache_two_rules))
        "/var/log".toList 0).2 =
      (lookup demo_engine (sort_specs (text_store demo_engine false none lines_two_rules))
        "/var/log".toList 0).2 ∧
    label_of (sort_specs (cache_store demo_cache cache_two_rules))
        (lookup demo_engine (sort_specs (cache_store demo_cache cache_two_rules))
          "/var/log".toList 0).2 =
      label_of (sort_specs (text_store demo_engine false none lines_two_rules))
        (lookup demo_engine (sort_specs (text_store demo_engine false none lines_two_rules))
          "/var/log".toList 0).2) :=
  ⟨by decide, by decide,
    cache_and_text_lookups_agree demo_engine demo_cache cache_two_rules lines_two_rules false
      none demo_oracle (by decide) (by decide) (by decide) demo_oracle_cache_two_rules
      demo_oracle_lines_two_rules "/var/log".toList 0⟩

/-- The lookups of C14 on the two stores of the worked example, evaluated:
both give `L2` for `/var/log`, `L1` for `/etc/passwd` and nothing for
`/etc/shadow`. -/
theorem cache_and_text_lookups_examples :
    label_of (sort_specs (cache_store demo_cache cache_two_rules))
        (lookup demo_engine (sort_specs (cache_store demo_cache cache_two_rules))
          "/var/log".toList 0).2 = some "L2".toList ∧
    label_of (sort_specs (text_store demo_engine false none lines_two_rules))
        (lookup demo_engine (sort_specs (text_store demo_engine false none lines_two_rules))
          "/var/log".toList 0).2 = some "L2".toList ∧
    label_of (sort_specs (cache_store demo_cache cache_two_rules))
        (lookup demo_engine (sort_specs (cache_store demo_cache cache_two_rules))
          "/etc/passwd".toList 0).2 = some "L1".toList ∧
    label_of (sort_specs (cache_store demo_cache cache_two_rules))
        (lookup demo_engine (sort_specs (cache_store demo_cache cache_two_rules))
          "/etc/shadow".toList 0).2 = none := by
  decide

end

/-! ## A compile failure in the walk; the stem of a file name; `next_entry` -/

section
variable {R S : Type}

theorem try_query_of_compile_failure (E : pcre_engine R S) (stems : List stem) (q : query)
    (sp : spec R S) (soft : Bool) (h : (compile_regex E stems sp).2 < 0) :
    try_query E stems q sp soft = none := by
  unfold try_query spec_try
  simp only []
  rw [if_pos h]

/-- C21. If the walk of a lookup meets a candidate specification (one that
passes the stem and type pre-filter) whose compilation fails, and no
specification of higher precedence (a greater index) matches the path, then
the lookup returns nothing, whatever the specifications of lower precedence
would give. -/
theorem compile_failure_aborts_lookup (E : pcre_engine R S) (d : saved_data R S)
    (key : List Char) (type : Int) (i : Nat) (hi : i < d.nspec)
    (hc : candidate (spec_at d i) (query_of d key type).file_stem
      (query_of d key type).mode = true)
    (hfail : (compile_regex E d.stem_arr (spec_at d i)).2 < 0)
    (hno : ∀ j, i < j → j < d.nspec →
      ¬ spec_hit E d.stem_arr (query_of d key type) (spec_at d j)) :
    (lookup E d key type).2 = none := by
  have hnone := try_query_of_compile_failure E d.stem_arr (query_of d key type) (spec_at d i)
    false hfail
  unfold lookup
  rw [lookup_common_index]
  unfold lookup_index
  cases hw : walk_ending E d.stem_arr (query_of d key type) false (spec_at d) d.nspec with
  | exhausted => rfl
  | failed => rfl
  | stopped k =>
    exfalso
    obtain ⟨hk, hck, htk, hup⟩ := walk_ending_stopped E d.stem_arr _ false (spec_at d) d.nspec k hw
    have htk0 : try_query E d.stem_arr (query_of d key type) (spec_at d k) false = some 0 := by
      rcases htk with h | ⟨h, _⟩
      · exact h
      · cases h
    rcases Nat.lt_trichotomy k i with hlt | heq | hgt
    · have := hup i hlt hi hc
      rw [hnone] at this
      cases this
    · subst heq
      rw [hnone] at htk0
      cases htk0
    · exact hno k hgt hk ⟨hck, htk0⟩

end

/-- Instance of C21: the last rule `/etc/[a` does not compile, so the lookup of
`/etc/x` finds nothing although the rule `/etc/.*` before it matches. -/
theorem compile_failure_aborts_lookup_witness :
    (lookup demo_engine store_bad_pattern "/etc/x".toList 0).2 = none ∧
    spec_hit demo_engine store_bad_pattern.stem_arr
      (query_of store_bad_pattern "/etc/x".toList 0) (spec_at store_bad_pattern 0) :=
  ⟨compile_failure_aborts_lookup demo_engine store_bad_pattern "/etc/x".toList 0 1
      (by decide) (by decide) (by decide)
      (fun j h1 h2 => by
        have hn : store_bad_pattern.nspec = 2 := by decide
        omega),
    by decide⟩

section
variable {R S : Type}

theorem strchr_spec (c : Char) :
    ∀ s : List Char,
      (strchr s c = none ↔ ∀ j, j < s.length → s.getD j NUL ≠ c) ∧
      (∀ k, strchr s c = some k →
        k < s.length ∧ s.getD k NUL = c ∧ ∀ j, j < k → s.getD j NUL ≠ c) := by
  intro s
  induction s with
  | nil =>
    refine ⟨⟨fun _ j hj => absurd hj (Nat.not_lt_zero j), fun _ => rfl⟩, ?_⟩
    intro k h
    cases h
  | cons x xs ih =>
    obtain ⟨ih1, ih2⟩ := ih
    by_cases hx : x = c
    · have e : strchr (x :: xs) c = some 0 := by
        rw [strchr, if_pos hx]
      rw [e]
      refine ⟨⟨fun h => (by cases h), fun h => ?_⟩, ?_⟩
      · exact absurd (by simpa using hx) (h 0 (by simp))
      · intro k hk
        cases hk
        exact ⟨by simp, by simpa using hx, fun j hj => absurd hj (Nat.not_lt_zero j)⟩
    · have e : strchr (x :: xs) c = (strchr xs c).map (· + 1) := by
        rw [strchr, if_neg hx]
      rw [e]
      refine ⟨⟨fun h j hj => ?_, fun h => ?_⟩, ?_⟩
      · cases j with
        | zero => simpa using hx
        | succ j =>
          have hn : strchr xs c = none := by
            cases hs : strchr xs c with
            | none => rfl
            | some v => rw [hs] at h; cases h
          simpa using ih1.1 hn j (by simpa using hj)
      · have : strchr xs c = none := ih1.2 (fun j hj => by
          simpa using h (j + 1) (by simpa using hj))
        rw [this]
        rfl
      · intro k hk
        cases hs : strchr xs c with
        | none => rw [hs] at hk; cases hk
        | some v =>
          rw [hs] at hk
          simp only [Option.map_some', Option.some.injEq] at hk
          subst hk
          obtain ⟨a, b, c1⟩ := ih2 v hs
          refine ⟨by simpa using a, by simpa using b, ?_⟩
          intro j hj
          cases j with
          | zero => simpa using hx
          | succ j => simpa using c1 j (by omega)

theorem get_stem_from_file_name_spec (key : List Char) :
    (get_stem_from_file_name key = 0 ↔
      ∀ j, 1 ≤ j → j < key.length → key.getD j NUL ≠ '/') ∧
    (get_stem_from_file_name key ≠ 0 →
      1 ≤ get_stem_from_file_name key ∧ get_stem_from_file_name key < key.length ∧
      key.getD (get_stem_from_file_name key) NUL = '/' ∧
      ∀ j, 1 ≤ j → j < get_stem_from_file_name key → key.getD j NUL ≠ '/') := by
  obtain ⟨h1, h2⟩ := strchr_spec '/' key.tail
  have htail : ∀ j, key.tail.getD j NUL = key.getD (j + 1) NUL := by
    intro j
    cases key with
    | nil => simp
    | cons x xs => simp
  have hlen : key.tail.length = key.length - 1 := by simp
  unfold get_stem_from_file_name
  cases hs : strchr key.tail '/' with
  | none =>
    simp only [ne_eq, not_true_eq_false, false_implies, and_true, true_iff]
    intro j hj1 hj2
    have := h1.1 hs (j - 1) (by omega)
    rw [htail] at this
    have e : j - 1 + 1 = j := by omega
    rw [e] at this
    exact this
  | some k =>
    obtain ⟨a, b, c⟩ := h2 k hs
    simp only [ne_eq, Nat.add_one_ne_zero, not_false_eq_true, false_iff, true_implies]
    rw [htail] at b
    refine ⟨?_, by omega, by omega, b, ?_⟩
    · intro h
      have := h (k + 1) (by omega) (by omega)
      exact this b
    · intro j hj1 hj2
      have := c (j - 1) (by omega)
      rw [htail] at this
      have e : j - 1 + 1 = j := by omega
      rw [e] at this
      exact this

theorem stem_matches_iff_take (key : List Char) (k : Nat) (st : stem)
    (hk : k < key.length) (hlen : st.len = st.buf.length) (hnul : NUL ∉ st.buf) :
    stem_matches key k st ↔ key.take k = st.buf := by
  unfold stem_matches
  constructor
  · rintro ⟨h1, h2⟩
    have hle : k ≤ st.buf.length := by omega
    have := (strncmp_eq_iff_take k key st.buf hle
      (fun c hc hc0 => hnul (by
        have := List.mem_of_mem_take hc
        rw [hc0] at this
        exact this))).1 h2
    rw [this, List.take_of_length_le (by omega)]
  · intro h
    have hl : st.buf.length = k := by
      rw [← h, List.length_take]
      omega
    refine ⟨by omega, ?_⟩
    refine (strncmp_eq_iff_take k key st.buf (by omega)
      (fun c hc hc0 => hnul (by
        have := List.mem_of_mem_take hc
        rw [hc0] at this
        exact this))).2 ?_
    rw [h, List.take_of_length_le (by omega)]

/-- C23, as the code has it. The stem length of a file name is the index `k`
of the first `/` found from the second byte on (0 when there is none), so the
candidate stem text is the first `k` bytes, the text before that `/`: a stem
of the index that holds its own length and has no NUL byte passes the test
exactly when its text is those `k` bytes.  `find_stem_from_file` gives -1 and
leaves the name alone when there is no such `/` or no stem of the index passes
the test; otherwise it gives the first stem that passes, and the name from
that `/` on. -/
theorem file_stem_is_text_before_slash (d : saved_data R S) (key : List Char) :
    (get_stem_from_file_name key = 0 ↔
      ∀ j, 1 ≤ j → j < key.length → key.getD j NUL ≠ '/') ∧
    (get_stem_from_file_name key ≠ 0 →
      1 ≤ get_stem_from_file_name key ∧ get_stem_from_file_name key < key.length ∧
      key.getD (get_stem_from_file_name key) NUL = '/' ∧
      (∀ j, 1 ≤ j → j < get_stem_from_file_name key → key.getD j NUL ≠ '/') ∧
      ∀ st : stem, st.len = st.buf.length → NUL ∉ st.buf →
        (stem_matches key (get_stem_from_file_name key) st ↔
          key.take (get_stem_from_file_name key) = st.buf)) ∧
    ((get_stem_from_file_name key = 0 ∨
        ∀ st ∈ d.stem_arr, ¬ stem_matches key (get_stem_from_file_name key) st) →
      find_stem_from_file d key = (-1, key)) ∧
    (∀ i, get_stem_from_file_name key ≠ 0 → i < d.stem_arr.length →
      stem_matches key (get_stem_from_file_name key) (d.stem_arr.getD i default) →
      (∀ j, j < i →
        ¬ stem_matches key (get_stem_from_file_name key) (d.stem_arr.getD j default)) →
      find_stem_from_file d key = ((i : Int), key.drop (get_stem_from_file_name key))) := by
  obtain ⟨g1, g2⟩ := get_stem_from_file_name_spec key
  refine ⟨g1, fun h => ?_, fun h => ?_, fun i h0 hi hm hfirst => ?_⟩
  · obtain ⟨a, b, c, e⟩ := g2 h
    exact ⟨a, b, c, e, fun st hl hn => stem_matches_iff_take key _ st b hl hn⟩
  · unfold find_stem_from_file
    simp only []
    by_cases h0 : get_stem_from_file_name key = 0
    · rw [if_pos h0]
    · rw [if_neg h0]
      have hall := h.resolve_left h0
      rcases find_stem_scan_spec key (get_stem_from_file_name key) d.stem_arr 0 with
        ⟨h1, _⟩ | ⟨k, hk, _, h2, _⟩
      · rw [h1]
        rfl
      · exact absurd h2 (hall _ (by
          rw [List.getD_eq_getElem _ _ hk]
          exact List.getElem_mem _))
  · unfold find_stem_from_file
    simp only []
    rw [if_neg h0]
    rcases find_stem_scan_spec key (get_stem_from_file_name key) d.stem_arr 0 with
      ⟨_, h2⟩ | ⟨k, hk, h1, h2, h3⟩
    · exact absurd hm (h2 _ (by
        rw [List.getD_eq_getElem _ _ hi]
        exact List.getElem_mem _))
    · have hki : k = i := by
        rcases Nat.lt_trichotomy k i with hlt | heq | hgt
        · exact absurd h2 (hfirst k hlt)
        · exact heq
        · exact absurd hm (h3 i hgt)
      subst hki
      rw [h1]
      simp only [Nat.zero_add]
      rw [if_neg (by omega)]

/-- C24. `next_entry` fails exactly when more bytes are asked for than are
left, and then leaves the area as it was; otherwise the bytes it copies are
those at the old address, the address moves on by the count and the length
left falls by the count.  So over any sequence of calls the sum of address and
length left stays the same, and a call that succeeds never reads behind the
end that the area had at the start. -/
theorem next_entry_bounds (mem : List Char) (fp : mmap_area) (n : Nat) :
    (next_entry mem fp n = none ↔ n > fp.len) ∧
    (n > fp.len → area_after mem fp n = fp) ∧
    (n ≤ fp.len →
      next_entry mem fp n = some ((mem.drop fp.addr).take n, ⟨fp.addr + n, fp.len - n⟩) ∧
      area_after mem fp n = ⟨fp.addr + n, fp.len - n⟩) ∧
    (∀ ns, (area_after_all mem fp ns).addr + (area_after_all mem fp ns).len =
      fp.addr + fp.len) ∧
    (∀ ns m, next_entry mem (area_after_all mem fp ns) m ≠ none →
      (area_after_all mem fp ns).addr + m ≤ fp.addr + fp.len) := by
  have hnone : ∀ (a : mmap_area) (k : Nat), next_entry mem a k = none ↔ k > a.len := by
    intro a k
    unfold next_entry
    split_ifs with h
    · exact ⟨fun _ => h, fun _ => rfl⟩
    · exact ⟨fun h1 => (by cases h1), fun h1 => absurd h1 h⟩
  have hstep : ∀ (a : mmap_area) (k : Nat),
      (area_after mem a k).addr + (area_after mem a k).len = a.addr + a.len := by
    intro a k
    unfold area_after next_entry
    split_ifs with h
    · rfl
    · simp only
      omega
  have hall : ∀ (ns : List Nat) (a : mmap_area),
      (area_after_all mem a ns).addr + (area_after_all mem a ns).len = a.addr + a.len := by
    intro ns
    induction ns with
    | nil => intro a; rfl
    | cons k ks ih =>
      intro a
      rw [area_after_all, ih, hstep]
  refine ⟨hnone fp n, fun h => ?_, fun h => ⟨?_, ?_⟩, fun ns => hall ns fp, fun ns m h => ?_⟩
  · unfold area_after
    rw [(hnone fp n).2 h]
  · exact next_entry_eq mem fp n h
  · unfold area_after
    rw [next_entry_eq mem fp n h]
  · have hm : ¬ m > (area_after_all mem fp ns).len := fun hgt => h ((hnone _ m).2 hgt)
    have := hall ns fp
    omega

end

section
set_option maxRecDepth 20000

/-- C23 as claimed fails: for the name `/etc/passwd` the stem length is 4, not
5; the stem `/etc` of the index, which is the first 4 bytes, is found and the
name is left at `/passwd`, while no stem of the index is the 5 bytes `/etc/`
that the claim names. -/
theorem file_stem_is_not_through_slash :
    get_stem_from_file_name "/etc/passwd".toList = 4 ∧
    find_stem_from_file decl_etc "/etc/passwd".toList = (0, "/passwd".toList) ∧
    (decl_etc.stem_arr.getD 0 default).buf = "/etc/passwd".toList.take 4 ∧
    ∀ st ∈ decl_etc.stem_arr, st.buf ≠ "/etc/passwd".toList.take 5 := by
  decide

end

/-! ## `spec_hasMetaChars` -/

section
variable {R S : Type}

theorem backslash_not_meta : is_meta_char '\\' = false := by decide

theorem getD_append_at (pre l : List Char) (c : Char) :
    (pre ++ c :: l).getD pre.length NUL = c := by
  rw [List.getD_eq_getElem?_getD, List.getElem?_append_right (le_refl _)]
  simp

theorem meta_scan_spec_aux :
    ∀ (n : Nat) (l : List Char), l.length ≤ n →
    ∀ (pos : Nat) (pre : List Char), pre.length = pos →
      scan_visits (pre ++ l) pos = true →
      (∀ p, meta_scan l pos = some p →
        unskipped_meta (pre ++ l) p ∧ pos ≤ p ∧
        ∀ j, pos ≤ j → j < p → ¬ unskipped_meta (pre ++ l) j) ∧
      (meta_scan l pos = none → ∀ j, pos ≤ j → ¬ unskipped_meta (pre ++ l) j) := by
  intro n
  induction n with
  | zero =>
    intro l hl pos pre hpre _
    have hnil : l = [] := List.length_eq_zero.1 (Nat.le_zero.1 hl)
    subst hnil
    refine ⟨fun p h => (by cases h), fun _ j hj hu => ?_⟩
    have := hu.1
    simp only [List.append_nil] at this
    omega
  | succ n ih =>
  intro l hl pos pre hpre hv
  match l, hl with
  | [], _ =>
    refine ⟨fun p h => (by cases h), fun _ j hj hu => ?_⟩
    have := hu.1
    simp only [List.append_nil] at this
    omega
  | [c], _ =>
    subst hpre
    have hget : (pre ++ [c]).getD pre.length NUL = c := getD_append_at pre [] c
    rw [meta_scan]
    by_cases hm : is_meta_char c = true
    · rw [if_pos hm]
      refine ⟨fun p h => ?_, fun h => (by cases h)⟩
      simp only [Option.some.injEq] at h
      subst h
      refine ⟨⟨by simp, hv, by rw [hget]; exact hm⟩, le_refl _, fun j h1 h2 => by omega⟩
    · rw [if_neg hm]
      refine ⟨fun p h => (by cases h), fun _ j hj hu => ?_⟩
      have hl := hu.1
      simp only [List.length_append, List.length_singleton] at hl
      have : j = pre.length := by omega
      subst this
      have := hu.2.2
      rw [hget] at this
      exact hm this
  | c :: c2 :: rest, hl2 =>
    have ih1 := ih rest (by simp only [List.length_cons] at hl2; omega)
    have ih2 := ih (c2 :: rest) (by simp only [List.length_cons] at hl2 ⊢; omega)
    subst hpre
    have hget : (pre ++ c :: c2 :: rest).getD pre.length NUL = c :=
      getD_append_at pre (c2 :: rest) c
    have e1 : pre ++ c :: c2 :: rest = (pre ++ [c]) ++ c2 :: rest := by simp
    have e2 : pre ++ c :: c2 :: rest = (pre ++ [c, c2]) ++ rest := by simp
    rw [meta_scan]
    by_cases hm : is_meta_char c = true
    · rw [if_pos hm]
      refine ⟨fun p h => ?_, fun h => (by cases h)⟩
      simp only [Option.some.injEq] at h
      subst h
      refine ⟨⟨by simp, hv, by rw [hget]; exact hm⟩, le_refl _, fun j h1 h2 => by omega⟩
    · rw [if_neg hm]
      have hnot0 : ¬ unskipped_meta (pre ++ c :: c2 :: rest) pre.length := by
        intro hu
        have := hu.2.2
        rw [hget] at this
        exact hm this
      by_cases hb : c = '\\'
      · rw [if_pos hb]
        have hv1 : scan_visits (pre ++ c :: c2 :: rest) (pre.length + 1) = false := by
          rw [scan_visits, hv, hget, hb]
          rfl
        have hv2 : scan_visits (pre ++ c :: c2 :: rest) (pre.length + 2) = true := by
          rw [scan_visits, hv1]
          rfl
        have hnot1 : ¬ unskipped_meta (pre ++ c :: c2 :: rest) (pre.length + 1) := by
          intro hu
          have := hu.2.1
          rw [hv1] at this
          cases this
        obtain ⟨r1, r2⟩ := ih1 (pre.length + 2) (pre ++ [c, c2]) (by simp)
          (by rw [← e2]; exact hv2)
        rw [← e2] at r1 r2
        refine ⟨fun p h => ?_, fun h j hj => ?_⟩
        · obtain ⟨a, b, c3⟩ := r1 p h
          refine ⟨a, by omega, fun j h1 h2 => ?_⟩
          by_cases hj0 : j = pre.length
          · rw [hj0]; exact hnot0
          by_cases hj1 : j = pre.length + 1
          · rw [hj1]; exact hnot1
          exact c3 j (by omega) h2
        · by_cases hj0 : j = pre.length
          · rw [hj0]; exact hnot0
          by_cases hj1 : j = pre.length + 1
          · rw [hj1]; exact hnot1
          exact r2 h j (by omega)
      · rw [if_neg hb]
        have hv1 : scan_visits (pre ++ c :: c2 :: rest) (pre.length + 1) = true := by
          rw [scan_visits, hv, hget]
          simp [hb]
        obtain ⟨r1, r2⟩ := ih2 (pre.length + 1) (pre ++ [c]) (by simp)
          (by rw [← e1]; exact hv1)
        rw [← e1] at r1 r2
        refine ⟨fun p h => ?_, fun h j hj => ?_⟩
        · obtain ⟨a, b, c3⟩ := r1 p h
          refine ⟨a, by omega, fun j h1 h2 => ?_⟩
          by_cases hj0 : j = pre.length
          · rw [hj0]; exact hnot0
          exact c3 j (by omega) h2
        · by_cases hj0 : j = pre.length
          · rw [hj0]; exact hnot0
          exact r2 h j (by omega)

/-- C30. `spec_hasMetaChars` sets `hasMetaChars` exactly when some index of
the pattern holds one of `. ^ $ ? * + | [ ( {` that the left-to-right scan
looks at, the scan skipping the byte after each backslash it looks at;
`prefix_len` is then the first such index, and it is the length of the pattern
when there is none; no other field of the specification that the lookup reads
is changed. -/
theorem spec_hasMetaChars_first_meta (sp : spec R S) :
    ((spec_hasMetaChars sp).hasMetaChars = true ↔ ∃ i, unskipped_meta sp.regex_str i) ∧
    ((spec_hasMetaChars sp).hasMetaChars = true →
      unskipped_meta sp.regex_str (spec_hasMetaChars sp).prefix_len ∧
      ∀ j, j < (spec_hasMetaChars sp).prefix_len → ¬ unskipped_meta sp.regex_str j) ∧
    ((spec_hasMetaChars sp).hasMetaChars = false →
      (spec_hasMetaChars sp).prefix_len = sp.regex_str.length) ∧
    (spec_hasMetaChars sp).regex_str = sp.regex_str ∧
    (spec_hasMetaChars sp).stem_id = sp.stem_id ∧
    (spec_hasMetaChars sp).mode = sp.mode ∧
    (spec_hasMetaChars sp).lr = sp.lr := by
  obtain ⟨r1, r2⟩ :=
    meta_scan_spec_aux sp.regex_str.length sp.regex_str (le_refl _) 0 [] rfl rfl
  simp only [List.nil_append] at r1 r2
  unfold spec_hasMetaChars
  cases hs : meta_scan sp.regex_str 0 with
  | none =>
    simp only [Bool.false_eq_true, false_iff, false_implies, true_implies, true_and, and_true,
      not_exists]
    exact fun i => r2 hs i (Nat.zero_le i)
  | some p =>
    obtain ⟨a, _, c⟩ := r1 p hs
    simp only [true_iff, true_implies, Bool.true_eq_false, false_implies, true_and, and_true]
    exact ⟨⟨p, a⟩, a, fun j hj => c j (Nat.zero_le j) hj⟩

end

/-- Worked examples of C30: an escaped dot is skipped and the star after it is
found at index 4; a pattern whose only meta character is escaped has none; a
backslash that ends the pattern skips nothing that exists. -/
theorem spec_hasMetaChars_examples :
    meta_scan "/a\\.*".toList 0 = some 4 ∧
    meta_scan "/a\\.b".toList 0 = none ∧
    meta_scan "/ab\\".toList 0 = none ∧
    meta_scan "/a\\\\.b".toList 0 = some 4 ∧
    (spec_hasMetaChars { blank_spec demo_re Unit with regex_str := "/ab\\".toList }).prefix_len
      = 4 := by
  decide

/-! ## The stem test against the unsplit pattern; text rules after a failed load -/

section
variable {R S : Type}

/-- What the stem-split test of the lookup accepts, for a specification with
a stem in a store with distinct stems and for the type 0: the cleaned key has
a `/` after its first byte, the stem of the specification passes the stem test
on the text before the first such `/`, and the pattern without the stem
matches the key from that `/` on. -/
theorem stem_split_test_iff (E : pcre_engine R S) (d : saved_data R S) (key : List Char)
    (i : Nat) (hd : stems_distinct d.stem_arr) (h0 : 0 ≤ (spec_at d i).stem_id)
    (hlt : (spec_at d i).stem_id.toNat < d.stem_arr.length) :
    spec_hit E d.stem_arr (query_of d key 0) (spec_at d i) ↔
      (get_stem_from_file_name (clean_key key) ≠ 0 ∧
        stem_matches (clean_key key) (get_stem_from_file_name (clean_key key))
          (d.stem_arr.getD (spec_at d i).stem_id.toNat default) ∧
        spec_try E d.stem_arr (spec_at d i)
          ((clean_key key).drop (get_stem_from_file_name (clean_key key))) false = some 0) := by
  have hne : (spec_at d i).stem_id ≠ -1 := by omega
  have hspec := find_stem_from_file_spec d hd (clean_key key) _ h0 hlt
  have hmode : query_mode 0 = 0 := by decide
  unfold spec_hit candidate try_query subject_of query_of
  simp only [hmode, beq_self_eq_true, Bool.true_or, Bool.and_true, Bool.or_eq_true,
    beq_iff_eq, hne, false_or, if_false]
  constructor
  · rintro ⟨h1, h2⟩
    have hfs := hspec.1 h1.symm
    refine ⟨hfs.1, hfs.2, ?_⟩
    rw [← find_stem_from_file_buf d (clean_key key) (by rw [← h1]; exact h0)]
    exact h2
  · rintro ⟨h1, h2, h3⟩
    have hfs := hspec.2 ⟨h1, h2⟩
    refine ⟨hfs.symm, ?_⟩
    rw [find_stem_from_file_buf d (clean_key key) (by rw [hfs]; exact h0)]
    exact h3

/-- On a slot that is blank in these two fields `process_line`, with
validation off, appends a specification that is neither compiled nor marked
as coming from a compiled file. -/
theorem process_entries_blank_slot (E : pcre_engine R S) (subset : Option (List Char))
    (d : saved_data R S) (regex : List Char) (type : Option (List Char))
    (context : List Char) (hkeep : ¬ subset_discards subset regex) (hok : slots_ok d)
    (h1 : (spec_at (grow_specs d) d.nspec).regcomp = false)
    (h2 : (spec_at (grow_specs d) d.nspec).from_mmap = false) :
    (spec_at (process_entries E false subset d regex type context).1 d.nspec).regcomp = false ∧
    (spec_at (process_entries E false subset d regex type context).1 d.nspec).from_mmap =
      false := by
  obtain ⟨hroom, _, _⟩ := grow_specs_room d hok
  obtain ⟨hfs1, _, _⟩ := find_stem_from_spec_specs (grow_specs d) regex
  have hlen : d.nspec < (find_stem_from_spec (grow_specs d) regex).1.spec_arr.length := by
    rw [hfs1]; exact hroom
  have hsame : spec_at (find_stem_from_spec (grow_specs d) regex).1 d.nspec =
      spec_at (grow_specs d) d.nspec := by
    unfold spec_at
    rw [hfs1]
  unfold process_entries
  simp only []
  rw [if_neg (fun hh => hkeep ((discard_cond_iff subset regex).1 hh))]
  simp only [spec_at, List.getD_eq_getElem?_getD, List.getElem?_set, hlen, if_true,
    Option.getD_some, Bool.false_eq_true, if_false]
  rw [(spec_hasMetaChars_fields _).2.2.2.2.2.1, (spec_hasMetaChars_fields _).2.2.2.2.2.2]
  simp only [spec_at, List.getD_eq_getElem?_getD] at hsame h1 h2
  simp only [hsame, h1, h2, and_self]

end

section
set_option maxRecDepth 20000

/-- C22. Stem compression is not transparent on these rules.  The rule
`/etc/?` has the stem `/etc`; the unsplit pattern `^/etc/?$` matches the path
`/etc`, but the path has no `/` after its first byte and so no stem, the
stem-split test rejects it and the lookup finds nothing.  The rule `/a\/b` has
the stem `/a\`, cut after the backslash that escapes the second slash: the
unsplit pattern matches the path `/a/b`, which the stem-split test rejects,
and does not match the path `/a\/b`, which the stem-split test accepts. -/
theorem stem_split_differs_from_unsplit :
    (spec_at store_optional_slash 0).stem_id = 0 ∧
    (store_optional_slash.stem_arr.getD 0 default).buf = "/etc".toList ∧
    unsplit_try demo_engine (spec_at store_optional_slash 0) "/etc".toList = some 0 ∧
    ¬ spec_hit demo_engine store_optional_slash.stem_arr
      (query_of store_optional_slash "/etc".toList 0) (spec_at store_optional_slash 0) ∧
    (lookup demo_engine store_optional_slash "/etc".toList 0).2 = none ∧
    (spec_at store_backslash 0).stem_id = 0 ∧
    (store_backslash.stem_arr.getD 0 default).buf = "/a\\".toList ∧
    unsplit_try demo_engine (spec_at store_backslash 0) "/a/b".toList = some 0 ∧
    ¬ spec_hit demo_engine store_backslash.stem_arr
      (query_of store_backslash "/a/b".toList 0) (spec_at store_backslash 0) ∧
    (lookup demo_engine store_backslash "/a/b".toList 0).2 = none ∧
    unsplit_try demo_engine (spec_at store_backslash 0) "/a\\/b".toList =
      some PCRE_ERROR_NOMATCH ∧
    spec_hit demo_engine store_backslash.stem_arr
      (query_of store_backslash "/a\\/b".toList 0) (spec_at store_backslash 0) ∧
    (lookup demo_engine store_backslash "/a\\/b".toList 0).2 = some 0 := by
  decide

/-- C29. After `load_mmap` has failed inside the second record of the
compiled file `cache_cut`, leaving one specification in the store,
`process_file` parses the text file with validation off: `process_line`
appends the rule `/etc/passwd` at index 1, in the slot that the failed load
left half-read, and that specification is marked compiled and marked as coming
from the compiled file; the rule appended next, in a blank slot, is neither. -/
theorem text_rule_in_half_read_slot :
    (load_mmap demo_cache (empty_data demo_re Unit) cache_cut).2 = -1 ∧
    (load_mmap demo_cache (empty_data demo_re Unit) cache_cut).1.nspec = 1 ∧
    (process_file demo_engine demo_cache false none (empty_data demo_re Unit)
      (spec_file.present lines_two_rules (some cache_cut))).data.nspec = 3 ∧
    (spec_at (process_file demo_engine demo_cache false none (empty_data demo_re Unit)
      (spec_file.present lines_two_rules (some cache_cut))).data 1).regex_str =
      "/etc/passwd".toList ∧
    (spec_at (process_file demo_engine demo_cache false none (empty_data demo_re Unit)
      (spec_file.present lines_two_rules (some cache_cut))).data 1).type_str = none ∧
    (spec_at (process_file demo_engine demo_cache false none (empty_data demo_re Unit)
      (spec_file.present lines_two_rules (some cache_cut))).data 1).regcomp = true ∧
    (spec_at (process_file demo_engine demo_cache false none (empty_data demo_re Unit)
      (spec_file.present lines_two_rules (some cache_cut))).data 1).from_mmap = true ∧
    (spec_at (process_file demo_engine demo_cache false none (empty_data demo_re Unit)
      (spec_file.present lines_two_rules (some cache_cut))).data 2).regex_str =
      "/var/.*".toList ∧
    (spec_at (process_file demo_engine demo_cache false none (empty_data demo_re Unit)
      (spec_file.present lines_two_rules (some cache_cut))).data 2).regcomp = false ∧
    (spec_at (process_file demo_engine demo_cache false none (empty_data demo_re Unit)
      (spec_file.present lines_two_rules (some cache_cut))).data 2).from_mmap = false := by
  decide

end

/-! ## The specification records of a compiled file -/

section
variable {R S : Type}

theorem set_slot_set_slot (d : saved_data R S) (f g : spec R S → spec R S) :
    set_slot (set_slot d f) g = set_slot d (fun sp => g (f sp)) := by
  by_cases h : d.nspec < d.spec_arr.length
  · have e : spec_at (set_slot d f) (set_slot d f).nspec = f (spec_at d d.nspec) :=
      spec_at_set_slot d f h
    unfold set_slot at e ⊢
    simp only at e ⊢
    rw [e, List.set_set]
  · have e1 : ∀ k : spec R S → spec R S, set_slot d k = d := by
      intro k
      unfold set_slot
      rw [List.set_eq_of_length_le (by omega)]
    rw [e1 f, e1 g, e1]

theorem getD_take_of_lt (l : List Char) (n i : Nat) (h : i < n) :
    (l.take n).getD i NUL = l.getD i NUL := by
  simp [List.getD_eq_getElem?_getD, List.getElem?_take, h]

theorem c_str_take_of_nul (l : List Char) (n : Nat) (hn : 0 < n)
    (h : l.getD (n - 1) NUL = NUL) : c_str (l.take n) = c_str l := by
  unfold c_str
  induction l generalizing n with
  | nil => simp
  | cons x xs ih =>
    obtain ⟨m, rfl⟩ : ∃ m, n = m + 1 := ⟨n - 1, by omega⟩
    rw [List.take_succ_cons]
    by_cases hx : x = NUL
    · simp [List.takeWhile_cons, hx]
    · simp only [List.takeWhile_cons, ne_eq, hx, not_false_eq_true, decide_True, if_true]
      congr 1
      cases m with
      | zero =>
        simp only [Nat.zero_add, Nat.sub_self, List.getD_cons_zero] at h
        exact absurd h hx
      | succ k =>
        refine ih (k + 1) (by omega) ?_
        simpa using h

theorem load_spec_blobs_decode (A : pcre_cache R S) (mem : List Char) (d : saved_data R S)
    (fp : mmap_area) :
    (load_spec_blobs A mem d fp).2 = (decode_blobs A mem fp).map (fun r => r.2.2) ∧
    ∀ r s fp1, decode_blobs A mem fp = some (r, s, fp1) →
      (load_spec_blobs A mem d fp).1 =
        { set_slot d (fun sp => { sp with regex := some r, sd := some s }) with
          nspec := d.nspec + 1 } := by
  unfold load_spec_blobs decode_blobs decode_blob
  cases h1 : next_u32 mem fp with
  | none => simp
  | some v1 =>
    obtain ⟨len, fp1⟩ := v1
    simp only []
    by_cases hz : len = 0
    · simp [hz]
    · simp only [hz, if_false]
      cases h2 : next_entry mem fp1 len with
      | none => simp
      | some v2 =>
        obtain ⟨b2, fp2⟩ := v2
        simp only []
        by_cases hi : A.info_size (A.regex_at (mem.drop fp1.addr)) ≠ some len
        · simp [hi]
        · simp only [hi, if_false]
          cases h3 : next_u32 mem fp2 with
          | none => simp
          | some v3 =>
            obtain ⟨alen, fp3⟩ := v3
            simp only []
            by_cases hz2 : alen = 0
            · simp [hz2]
            · simp only [hz2, if_false]
              cases h4 : next_entry mem fp3 alen with
              | none => simp
              | some v4 =>
                obtain ⟨b4, fp4⟩ := v4
                simp only []
                by_cases hs : A.info_studysize (A.regex_at (mem.drop fp1.addr))
                    (A.study_at (mem.drop fp3.addr)) ≠ some alen
                · simp [hs]
                · simp only [hs, if_false, Option.map_some', true_and, Option.some.injEq,
                    Prod.mk.injEq, and_imp]
                  intro r s fp5 e1 e2 _
                  subst e1 e2
                  rw [set_slot_set_slot]
                  rfl

theorem load_spec_fields_decode (A : pcre_cache R S) (mem : List Char) (version sml : Nat)
    (stem_map : List Int) (label pattern_text : List Char) (d : saved_data R S)
    (fp : mmap_area) :
    (load_spec_fields A mem version sml stem_map d fp).2 =
      (decode_fields A mem version label pattern_text fp).map (fun r => r.2) ∧
    ∀ r fp1, decode_fields A mem version label pattern_text fp = some (r, fp1) →
      (load_spec_fields A mem version sml stem_map d fp).1 =
        { set_slot d (fun sp => { sp with
            mode := r.type_filter
            stem_id := translate_stem_id sml stem_map r.stem_id
            hasMetaChars := decide (r.has_meta % 256 ≠ 0)
            prefix_len := r.fixed_prefix_len.getD sp.prefix_len
            regex := some r.pattern_blob
            sd := some r.aux_blob }) with
          nspec := d.nspec + 1 } := by
  unfold load_spec_fields decode_fields decode_prefix_len
  simp only []
  cases h1 : next_entry mem fp
      (if version ≥ SELINUX_COMPILED_FCONTEXT_MODE then 4 else A.sizeof_mode_t) with
  | none => simp
  | some v1 =>
    obtain ⟨mode_bytes, fp1⟩ := v1
    simp only []
    cases h2 : next_u32 mem fp1 with
    | none => simp
    | some v2 =>
      obtain ⟨stem_bits, fp2⟩ := v2
      simp only []
      cases h3 : next_u32 mem fp2 with
      | none => simp
      | some v3 =>
        obtain ⟨meta_chars, fp3⟩ := v3
        simp only []
        by_cases hv : version ≥ SELINUX_COMPILED_FCONTEXT_PREFIX_LEN
        · simp only [hv, if_true]
          cases h4 : next_u32 mem fp3 with
          | none => simp
          | some v4 =>
            obtain ⟨plen, fp4⟩ := v4
            simp only []
            rw [(load_spec_blobs_decode A mem _ fp4).1]
            cases h5 : decode_blobs A mem fp4 with
            | none => simp
            | some v5 =>
              obtain ⟨regex, study, fp5⟩ := v5
              simp only [Option.map_some', true_and, Option.some.injEq, Prod.mk.injEq, and_imp]
              intro r fp6 e1 _
              subst e1
              rw [(load_spec_blobs_decode A mem _ fp4).2 regex study fp5 h5, set_slot_set_slot,
                set_slot_set_slot, set_slot_set_slot, set_slot_set_slot]
              rfl
        · simp only [hv, if_false]
          rw [(load_spec_blobs_decode A mem _ fp3).1]
          cases h5 : decode_blobs A mem fp3 with
          | none => simp
          | some v5 =>
            obtain ⟨regex, study, fp5⟩ := v5
            simp only [Option.map_some', true_and, Option.some.injEq, Prod.mk.injEq, and_imp]
            intro r fp6 e1 _
            subst e1
            rw [(load_spec_blobs_decode A mem _ fp3).2 regex study fp5 h5, set_slot_set_slot,
              set_slot_set_slot, set_slot_set_slot]
            rfl

theorem decode_fields_strings (A : pcre_cache R S) (mem : List Char) (version : Nat)
    (label pattern_text : List Char) (fp : mmap_area) (r : cache_record R S) (fp1 : mmap_area)
    (h : decode_fields A mem version label pattern_text fp = some (r, fp1)) :
    r.label = label ∧ r.pattern_text = pattern_text := by
  unfold decode_fields at h
  split at h
  · cases h
  · split at h
    · cases h
    · split at h
      · cases h
      · split at h
        · cases h
        · split at h
          · cases h
          · simp only [Option.some.injEq, Prod.mk.injEq] at h
            rw [← h.1]
            exact ⟨rfl, rfl⟩

theorem load_spec_record_decode (A : pcre_cache R S) (mem : List Char) (version sml : Nat)
    (stem_map : List Int) (d : saved_data R S) (fp : mmap_area) :
    (load_spec_record A mem version sml stem_map d fp).2 =
      (decode_record A mem version fp).map (fun r => r.2) ∧
    ∀ r fp1, decode_record A mem version fp = some (r, fp1) →
      (load_spec_record A mem version sml stem_map d fp).1 =
        append_record sml stem_map d r := by
  unfold load_spec_record decode_record decode_string decode_blob
  simp only []
  cases h1 : next_u32 mem fp with
  | none => simp
  | some v1 =>
    obtain ⟨ctx_len, fp1⟩ := v1
    simp only []
    by_cases hz : ctx_len = 0
    · simp [hz]
    · simp only [hz, if_false]
      cases h2 : next_entry mem fp1 ctx_len with
      | none => simp
      | some v2 =>
        obtain ⟨str_buf, fp2⟩ := v2
        simp only []
        have hbuf : str_buf = (mem.drop fp1.addr).take ctx_len := by
          unfold next_entry at h2
          split_ifs at h2
          simp only [Option.some.injEq, Prod.mk.injEq] at h2
          exact h2.1.symm
        have hget : str_buf.getD (ctx_len - 1) NUL = (mem.drop fp1.addr).getD (ctx_len - 1) NUL := by
          rw [hbuf]
          exact getD_take_of_lt _ _ _ (by omega)
        rw [hget]
        by_cases hn : (mem.drop fp1.addr).getD (ctx_len - 1) NUL = NUL
        swap
        · simp only [hn, ne_eq, not_false_eq_true, if_true]
          simp
        · simp only [hn, ne_eq, not_true_eq_false, if_false]
          have hstr : c_str str_buf = c_str (mem.drop fp1.addr) := by
            rw [hbuf]
            exact c_str_take_of_nul _ _ (by omega) hn
          cases h3 : next_u32 mem fp2 with
          | none => simp
          | some v3 =>
            obtain ⟨regex_len, fp3⟩ := v3
            simp only []
            by_cases hz2 : regex_len = 0
            · simp [hz2]
            · simp only [hz2, if_false]
              cases h4 : next_entry mem fp3 regex_len with
              | none => simp
              | some v4 =>
                obtain ⟨regex_bytes, fp4⟩ := v4
                simp only []
                have hbuf2 : regex_bytes = (mem.drop fp3.addr).take regex_len := by
                  unfold next_entry at h4
                  split_ifs at h4
                  simp only [Option.some.injEq, Prod.mk.injEq] at h4
                  exact h4.1.symm
                have hget2 : regex_bytes.getD (regex_len - 1) NUL =
                    (mem.drop fp3.addr).getD (regex_len - 1) NUL := by
                  rw [hbuf2]
                  exact getD_take_of_lt _ _ _ (by omega)
                rw [hget2]
                by_cases hn2 : (mem.drop fp3.addr).getD (regex_len - 1) NUL = NUL
                swap
                · simp only [hn2, ne_eq, not_false_eq_true, if_true]
                  simp
                · simp only [hn2, ne_eq, not_true_eq_false, if_false]
                  refine ⟨(load_spec_fields_decode A mem version sml stem_map
                    (c_str (mem.drop fp1.addr)) (c_str (mem.drop fp3.addr)) _ fp4).1, ?_⟩
                  intro r fp5 hr
                  rw [(load_spec_fields_decode A mem version sml stem_map
                    (c_str (mem.drop fp1.addr)) (c_str (mem.drop fp3.addr)) _ fp4).2 r fp5 hr,
                    set_slot_set_slot, set_slot_set_slot, set_slot_set_slot, hstr]
                  obtain ⟨e1, e2⟩ := decode_fields_strings A mem version _ _ fp4 r fp5 hr
                  unfold append_record fill_slot
                  rw [e1, e2]
                  rfl

end

section

variable {R S : Type}

theorem load_stems_frame (mem : List Char) :
    ∀ (n : Nat) (d : saved_data R S) (fp : mmap_area) (stem_map : List Int),
      (load_stems mem n d fp stem_map).1.spec_arr = d.spec_arr ∧
      (load_stems mem n d fp stem_map).1.nspec = d.nspec ∧
      (load_stems mem n d fp stem_map).1.alloc_specs = d.alloc_specs := by
  intro n
  induction n with
  | zero =>
    intro d fp m
    exact ⟨rfl, rfl, rfl⟩
  | succ n ih =>
    intro d fp m
    rw [load_stems]
    split
    · exact ⟨rfl, rfl, rfl⟩
    · split
      · exact ⟨rfl, rfl, rfl⟩
      · split
        · split
          · exact ⟨rfl, rfl, rfl⟩
          · split
            · exact ⟨rfl, rfl, rfl⟩
            · simp only []
              split
              · exact ih _ _ _
              · exact ih _ _ _
        · exact ⟨rfl, rfl, rfl⟩

theorem load_specs_decode (A : pcre_cache R S) (mem : List Char) (version sml : Nat)
    (stem_map : List Int) :
    ∀ (n : Nat) (d : saved_data R S) (fp : mmap_area),
      (load_specs A mem version sml stem_map n d fp).2 =
        (decode_records A mem version n fp).map (fun r => r.2) ∧
      ∀ rs fp1, decode_records A mem version n fp = some (rs, fp1) →
        (load_specs A mem version sml stem_map n d fp).1 = append_records sml stem_map d rs := by
  intro n
  induction n with
  | zero =>
    intro d fp
    refine ⟨rfl, ?_⟩
    intro rs fp1 h
    simp only [decode_records, Option.some.injEq, Prod.mk.injEq] at h
    rw [← h.1]
    rfl
  | succ n ih =>
    intro d fp
    obtain ⟨a, b⟩ := load_spec_record_decode A mem version sml stem_map d fp
    rw [load_specs, decode_records]
    cases hr : decode_record A mem version fp with
    | none =>
      rw [hr] at a
      rw [a]
      simp
    | some v =>
      obtain ⟨r, fp1⟩ := v
      rw [hr] at a
      rw [a]
      simp only [Option.map_some']
      obtain ⟨a1, b1⟩ := ih (load_spec_record A mem version sml stem_map d fp).1 fp1
      rw [a1]
      cases hrs : decode_records A mem version n fp1 with
      | none => simp
      | some w =>
        obtain ⟨rs, fp2⟩ := w
        simp only [Option.map_some', true_and, Option.some.injEq, Prod.mk.injEq, and_imp]
        intro rs1 fp3 e1 _
        subst e1
        rw [b1 rs fp2 hrs, b r fp1 hr]
        rfl

theorem decode_records_length (A : pcre_cache R S) (mem : List Char) (version : Nat) :
    ∀ (n : Nat) (fp : mmap_area) (rs : List (cache_record R S)) (fp1 : mmap_area),
      decode_records A mem version n fp = some (rs, fp1) → rs.length = n := by
  intro n
  induction n with
  | zero =>
    intro fp rs fp1 h
    simp only [decode_records, Option.some.injEq, Prod.mk.injEq] at h
    rw [← h.1]
    rfl
  | succ n ih =>
    intro fp rs fp1 h
    rw [decode_records] at h
    split at h
    · cases h
    · split at h
      · cases h
      · rename_i hrs
        simp only [Option.some.injEq, Prod.mk.injEq] at h
        rw [← h.1, List.length_cons, ih _ _ _ hrs]

theorem load_mmap_decode (A : pcre_cache R S) (d : saved_data R S) (mem : List Char)
    (h : (load_mmap A d mem).2 = 0) :
    ∃ version sml smap d0 n fp rs fp1,
      spec_section A d mem = some (version, sml, smap, d0, n, fp) ∧
      decode_records A mem version n fp = some (rs, fp1) ∧
      (load_mmap A d mem).1 = append_records sml smap d0 rs ∧
      d0.spec_arr = d.spec_arr ∧ d0.nspec = d.nspec ∧ d0.alloc_specs = d.alloc_specs := by
  unfold load_mmap at h ⊢
  unfold spec_section
  cases h1 : load_header A mem ⟨0, mapped_len A mem⟩ with
  | none =>
    rw [h1] at h
    simp at h
  | some v1 =>
    obtain ⟨version, fp⟩ := v1
    rw [h1] at h
    simp only [] at h ⊢
    cases h2 : next_u32 mem fp with
    | none =>
      rw [h2] at h
      simp at h
    | some v2 =>
      obtain ⟨sml, fp1⟩ := v2
      rw [h2] at h
      simp only [] at h ⊢
      by_cases hz : sml = 0
      · simp [hz] at h
      · simp only [hz, if_false] at h ⊢
        obtain ⟨f1, f2, f3⟩ := load_stems_frame mem sml d fp1 []
        cases h3 : (load_stems mem sml d fp1 []).2 with
        | none =>
          rw [h3] at h
          simp at h
        | some v3 =>
          obtain ⟨fp2, smap⟩ := v3
          rw [h3] at h
          simp only [] at h ⊢
          cases h4 : next_u32 mem fp2 with
          | none =>
            rw [h4] at h
            simp at h
          | some v4 =>
            obtain ⟨n, fp3⟩ := v4
            rw [h4] at h
            simp only [] at h ⊢
            by_cases hz2 : n = 0
            · simp [hz2] at h
            · simp only [hz2, if_false] at h ⊢
              obtain ⟨a, b⟩ := load_specs_decode A mem version sml smap n
                (load_stems mem sml d fp1 []).1 fp3
              cases h5 : decode_records A mem version n fp3 with
              | none =>
                rw [h5] at a
                rw [a] at h
                simp at h
              | some v5 =>
                obtain ⟨rs, fp4⟩ := v5
                rw [h5] at a
                rw [a]
                exact ⟨version, sml, smap, _, n, fp3, rs, fp4, rfl, h5, b rs fp4 h5, f1, f2, f3⟩

end

section

variable {R S : Type}

theorem append_record_spec (sml : Nat) (smap : List Int) (d : saved_data R S)
    (r : cache_record R S) (h : slots_ok d) :
    slots_ok (append_record sml smap d r) ∧
    (append_record sml smap d r).nspec = d.nspec + 1 ∧
    (append_record sml smap d r).stem_arr = d.stem_arr ∧
    spec_at (append_record sml smap d r) d.nspec =
      fill_slot sml smap r (spec_at (grow_specs d) d.nspec) ∧
    ∀ i, i < d.nspec → spec_at (append_record sml smap d r) i = spec_at d i := by
  obtain ⟨hroom, hs, _⟩ := grow_specs_room d h
  obtain ⟨gs, gn⟩ := grow_specs_frame d
  refine ⟨?_, ?_, ?_, ?_, ?_⟩
  · unfold slots_ok at hs ⊢
    show (grow_specs d).alloc_specs ≤ ((grow_specs d).spec_arr.set _ _).length
    rw [List.length_set]
    exact hs
  · show (grow_specs d).nspec + 1 = d.nspec + 1
    rw [gn]
  · exact gs
  · show spec_at (set_slot (grow_specs d) (fill_slot sml smap r)) d.nspec = _
    rw [← gn]
    exact spec_at_set_slot _ _ (by rw [gn]; exact hroom)
  · intro i hi
    show spec_at (set_slot (grow_specs d) (fill_slot sml smap r)) i = _
    rw [← spec_at_grow_specs d i hi]
    exact spec_at_set_ne (grow_specs d) _ i _ (by rw [gn]; omega)

theorem append_records_spec (sml : Nat) (smap : List Int) :
    ∀ (rs : List (cache_record R S)) (d : saved_data R S), slots_ok d →
      (append_records sml smap d rs).nspec = d.nspec + rs.length ∧
      (∀ i, i < d.nspec → spec_at (append_records sml smap d rs) i = spec_at d i) ∧
      ∀ k r, rs[k]? = some r →
        ∃ sp0, spec_at (append_records sml smap d rs) (d.nspec + k) = fill_slot sml smap r sp0 := by
  intro rs
  induction rs with
  | nil =>
    intro d _
    refine ⟨rfl, fun _ _ => rfl, ?_⟩
    intro k r h
    simp at h
  | cons r0 rs ih =>
    intro d hd
    obtain ⟨a1, a2, _, a4, a5⟩ := append_record_spec sml smap d r0 hd
    obtain ⟨b1, b2, b3⟩ := ih (append_record sml smap d r0) a1
    have e : append_records sml smap d (r0 :: rs) =
        append_records sml smap (append_record sml smap d r0) rs := rfl
    rw [e]
    refine ⟨?_, ?_, ?_⟩
    · rw [b1, a2, List.length_cons]
      omega
    · intro i hi
      rw [b2 i (by rw [a2]; omega), a5 i hi]
    · intro k r hk
      cases k with
      | zero =>
        simp only [List.getElem?_cons_zero, Option.some.injEq] at hk
        subst hk
        rw [Nat.add_zero, b2 d.nspec (by rw [a2]; omega), a4]
        exact ⟨_, rfl⟩
      | succ k =>
        rw [List.getElem?_cons_succ] at hk
        obtain ⟨sp0, hsp⟩ := b3 k r hk
        rw [a2] at hsp
        refine ⟨sp0, ?_⟩
        rw [← hsp]
        congr 1
        omega

/-- C28. When `load_mmap` returns 0 on a compiled file, the part of the file
before the specification loop has been read (`spec_section`), the `n` records
that the file declares decode in order (`decode_records`), and the store has
exactly `n` specifications more; the one at position `k` behind the old ones
is marked as coming from the mapping and as compiled, holds the compiled
pattern of record `k`, and has the label, the pattern text and the type filter
of record `k`; every specification that was in the store before the call is
unchanged.  The store is assumed to have the slots that its `alloc_specs`
counts. -/
theorem load_mmap_appends_records (A : pcre_cache R S) (d : saved_data R S) (mem : List Char)
    (hslots : slots_ok d) (h : (load_mmap A d mem).2 = 0) :
    ∃ version sml smap d0 n fp rs fp1,
      spec_section A d mem = some (version, sml, smap, d0, n, fp) ∧
      decode_records A mem version n fp = some (rs, fp1) ∧
      rs.length = n ∧
      (load_mmap A d mem).1.nspec = d.nspec + n ∧
      (∀ k r, rs[k]? = some r →
        (spec_at (load_mmap A d mem).1 (d.nspec + k)).from_mmap = true ∧
        (spec_at (load_mmap A d mem).1 (d.nspec + k)).regcomp = true ∧
        (spec_at (load_mmap A d mem).1 (d.nspec + k)).regex = some r.pattern_blob ∧
        (spec_at (load_mmap A d mem).1 (d.nspec + k)).lr.ctx_raw = r.label ∧
        (spec_at (load_mmap A d mem).1 (d.nspec + k)).regex_str = r.pattern_text ∧
        (spec_at (load_mmap A d mem).1 (d.nspec + k)).mode = r.type_filter) ∧
      ∀ i, i < d.nspec → spec_at (load_mmap A d mem).1 i = spec_at d i := by
  obtain ⟨version, sml, smap, d0, n, fp, rs, fp1, h1, h2, h3, f1, f2, f3⟩ :=
    load_mmap_decode A d mem h
  have hd0 : slots_ok d0 := by
    unfold slots_ok at hslots ⊢
    rw [f1, f3]
    exact hslots
  have hat : ∀ i, spec_at d0 i = spec_at d i := by
    intro i
    unfold spec_at
    rw [f1]
  obtain ⟨a1, a2, a3⟩ := append_records_spec sml smap rs d0 hd0
  have hlen := decode_records_length A mem version n fp rs fp1 h2
  refine ⟨version, sml, smap, d0, n, fp, rs, fp1, h1, h2, hlen, ?_, ?_, ?_⟩
  · rw [h3, a1, f2, hlen]
  · intro k r hk
    obtain ⟨sp0, hsp⟩ := a3 k r hk
    rw [h3, ← f2, hsp]
    exact ⟨rfl, rfl, rfl, rfl, rfl, rfl⟩
  · intro i hi
    rw [h3, a2 i (by rw [f2]; exact hi), hat]

end

section

set_option maxRecDepth 20000

/-- Instance of C28: the compiled file `cache_two_rules` loads into the empty
store. -/
theorem load_mmap_appends_records_witness :
    slots_ok (empty_data demo_re Unit) ∧
    (load_mmap demo_cache (empty_data demo_re Unit) cache_two_rules).2 = 0 ∧
    ∃ version sml smap d0 n fp rs fp1,
      spec_section demo_cache (empty_data demo_re Unit) cache_two_rules =
        some (version, sml, smap, d0, n, fp) ∧
      decode_records demo_cache cache_two_rules version n fp = some (rs, fp1) ∧
      rs.length = n ∧
      (load_mmap demo_cache (empty_data demo_re Unit) cache_two_rules).1.nspec =
        (empty_data demo_re Unit).nspec + n ∧
      (∀ k r, rs[k]? = some r →
        (spec_at (load_mmap demo_cache (empty_data demo_re Unit) cache_two_rules).1
          ((empty_data demo_re Unit).nspec + k)).from_mmap = true ∧
        (spec_at (load_mmap demo_cache (empty_data demo_re Unit) cache_two_rules).1
          ((empty_data demo_re Unit).nspec + k)).regcomp = true ∧
        (spec_at (load_mmap demo_cache (empty_data demo_re Unit) cache_two_rules).1
          ((empty_data demo_re Unit).nspec + k)).regex = some r.pattern_blob ∧
        (spec_at (load_mmap demo_cache (empty_data demo_re Unit) cache_two_rules).1
          ((empty_data demo_re Unit).nspec + k)).lr.ctx_raw = r.label ∧
        (spec_at (load_mmap demo_cache (empty_data demo_re Unit) cache_two_rules).1
          ((empty_data demo_re Unit).nspec + k)).regex_str = r.pattern_text ∧
        (spec_at (load_mmap demo_cache (empty_data demo_re Unit) cache_two_rules).1
          ((empty_data demo_re Unit).nspec + k)).mode = r.type_filter) ∧
      ∀ i, i < (empty_data demo_re Unit).nspec →
        spec_at (load_mmap demo_cache (empty_data demo_re Unit) cache_two_rules).1 i =
          spec_at (empty_data demo_re Unit) i :=
  ⟨Nat.le_refl _, by decide,
    load_mmap_appends_records demo_cache (empty_data demo_re Unit) cache_two_rules
      (Nat.le_refl _) (by decide)⟩

/-- The records of `cache_two_rules` as `load_mmap` leaves them in the empty
store: two specifications, in the order of the file. -/
theorem load_mmap_appends_records_example :
    (load_mmap demo_cache (empty_data demo_re Unit) cache_two_rules).1.nspec = 2 ∧
    (used_specs (load_mmap demo_cache (empty_data demo_re Unit) cache_two_rules).1).map
      (fun sp => (sp.lr.ctx_raw, sp.regex_str, sp.mode, sp.from_mmap, sp.regcomp)) =
      [("L1".toList, "/etc/passwd".toList, 0, true, true),
       ("L2".toList, "/var/.*".toList, 0, true, true)] := by
  decide

end

/-! ## The stem records of a compiled file -/

section

variable {R S : Type}

theorem le_value_lt : ∀ l : List Char, le_value l < 256 ^ l.length := by
  intro l
  induction l with
  | nil => simp [le_value]
  | cons b rest ih =>
    rw [le_value, List.length_cons, pow_succ]
    have := Nat.mod_lt b.toNat (show 256 > 0 by decide)
    omega

theorem field32_lt (mem : List Char) (off : Nat) : field32 mem off < 4294967296 := by
  unfold field32
  have h := le_value_lt ((mem.drop off).take 4)
  have hl : ((mem.drop off).take 4).length ≤ 4 := by
    rw [List.length_take]
    exact Nat.min_le_left _ _
  calc le_value ((mem.drop off).take 4) < 256 ^ ((mem.drop off).take 4).length := h
    _ ≤ 256 ^ 4 := Nat.pow_le_pow_right (by decide) hl
    _ = 4294967296 := by norm_num

theorem strncmp_eq_refl (n : Nat) : ∀ a : List Char, strncmp_eq a a n = true := by
  induction n with
  | zero => intro a; rfl
  | succ n ih =>
    intro a
    rw [strncmp_eq]
    simp only [ne_eq, not_true_eq_false, if_false]
    split_ifs
    · rfl
    · exact ih _

/-- One round of the stem loop of `load_mmap`, computed. -/
theorem load_stems_succ_eq (mem : List Char) (n : Nat) (d : saved_data R S) (fp : mmap_area)
    (stem_map : List Int) :
    load_stems mem (n + 1) d fp stem_map =
      if stem_record_rejected mem fp then (d, none)
      else if find_stem d (stem_record_text mem fp) (field32 mem fp.addr) < 0 then
        load_stems mem n
          { d with stem_arr := d.stem_arr ++
              [⟨stem_record_text mem fp, field32 mem fp.addr, true⟩] }
          (stem_record_end mem fp) (stem_map ++ [(d.stem_arr.length : Int)])
      else
        load_stems mem n d (stem_record_end mem fp)
          (stem_map ++ [find_stem d (stem_record_text mem fp) (field32 mem fp.addr)]) := by
  rw [load_stems]
  unfold stem_record_rejected stem_record_fits stem_record_text stem_record_end
  by_cases h4 : 4 ≤ fp.len
  swap
  · rw [next_u32_none mem fp (by omega)]
    simp [h4]
  rw [next_u32_eq mem fp h4]
  simp only []
  have hlt := field32_lt mem fp.addr
  by_cases h0 : field32 mem fp.addr = 0
  · simp [h0]
  by_cases hmax : field32 mem fp.addr = UINT32_MAX
  · have : ¬ field32 mem fp.addr < UINT32_MAX := by omega
    simp [hmax, h0, this]
  have hlt2 : field32 mem fp.addr < UINT32_MAX := by
    unfold UINT32_MAX at hmax ⊢
    omega
  simp only [h0, hmax, hlt2, if_true, if_false, or_false]
  by_cases hroom : field32 mem fp.addr + 1 ≤ fp.len - 4
  swap
  · rw [next_entry_none mem _ _ (by simpa using hroom)]
    simp [hroom]
  rw [next_entry_eq mem _ _ hroom]
  simp only []
  rw [getD_take_of_lt _ _ _ (Nat.lt_succ_self _)]
  by_cases hnul : (mem.drop (fp.addr + 4)).getD (field32 mem fp.addr) NUL = NUL
  swap
  · simp only [h4, hroom, hnul, ne_eq, not_false_eq_true, if_true, and_false, and_true]
  simp only [h4, hroom, hnul, ne_eq, not_true_eq_false, if_false, and_self]
  obtain ⟨e1, e2⟩ := store_stem_marked d (c_str (mem.drop (fp.addr + 4))) (field32 mem fp.addr)
  split_ifs with hneg
  · rw [e1, e2]
    rfl
  · rfl

end

section

variable {R S : Type}

theorem load_stems_map_prefix (mem : List Char) :
    ∀ (n : Nat) (d : saved_data R S) (fp : mmap_area) (m : List Int) (fp1 : mmap_area)
      (m1 : List Int),
      (load_stems mem n d fp m).2 = some (fp1, m1) → ∃ t, m1 = m ++ t ∧ t.length = n := by
  intro n
  induction n with
  | zero =>
    intro d fp m fp1 m1 h
    simp only [load_stems, Option.some.injEq, Prod.mk.injEq] at h
    exact ⟨[], by rw [← h.2, List.append_nil], rfl⟩
  | succ n ih =>
    intro d fp m fp1 m1 h
    rw [load_stems_succ_eq] at h
    split_ifs at h
    · obtain ⟨t, e, hl⟩ := ih _ _ _ _ _ h
      exact ⟨_ :: t, by rw [e, List.append_assoc]; rfl, by rw [List.length_cons, hl]⟩
    · obtain ⟨t, e, hl⟩ := ih _ _ _ _ _ h
      exact ⟨_ :: t, by rw [e, List.append_assoc]; rfl, by rw [List.length_cons, hl]⟩

theorem load_stems_map_entry (mem : List Char) (n : Nat) (d : saved_data R S) (fp : mmap_area)
    (m : List Int) (id : Int) (fp1 : mmap_area) (m1 : List Int)
    (h : (load_stems mem n d fp (m ++ [id])).2 = some (fp1, m1)) : m1.getD m.length 0 = id := by
  obtain ⟨t, e, _⟩ := load_stems_map_prefix mem n d fp (m ++ [id]) fp1 m1 h
  rw [e, List.append_assoc, List.getD_eq_getElem?_getD, List.getElem?_append_right (le_refl _)]
  simp

theorem c_str_eq_take (l : List Char) (L : Nat) (h1 : NUL ∉ l.take L)
    (h2 : l.getD L NUL = NUL) : c_str l = l.take L := by
  unfold c_str
  induction l generalizing L with
  | nil => simp
  | cons x xs ih =>
    cases L with
    | zero =>
      simp only [List.getD_cons_zero] at h2
      simp [List.takeWhile_cons, h2]
    | succ L =>
      rw [List.take_succ_cons] at h1 ⊢
      have hx : x ≠ NUL := fun e => h1 (by rw [e]; exact List.mem_cons_self _ _)
      have hxs : NUL ∉ xs.take L := fun e => h1 (List.mem_cons_of_mem _ e)
      rw [List.takeWhile_cons]
      simp only [hx, ne_eq, not_false_eq_true, decide_True, if_true]
      rw [ih L hxs (by simpa using h2)]

/-- C25 (amended). For the stem record at the cursor with the length field
`L`: the stem loop of `load_mmap` goes to `err`, leaving the store as it is,
when the record is refused, that is when `L` is 0 or `UINT32_MAX`, or the
length field or the `L + 1` bytes behind it do not fit in what remains, or the
byte at offset `L` is not NUL.  Otherwise the loop goes on behind the `L + 1`
bytes with one more table entry `id`, which is the entry of this record in the
finished table; `id` is the index of a stem of length `L` whose text agrees
with the record's text over `L` bytes as `strncmp` compares them: the first
such stem of the index when there is one, the index then being unchanged, else
a stem appended to the index with the record's text, the length `L` and the
mark `from_mmap`.  When the record's first `L` bytes are in the file and none
of them is NUL, the record's text is these `L` bytes. -/
theorem stem_record_loaded (mem : List Char) (n : Nat) (d : saved_data R S) (fp : mmap_area)
    (stem_map : List Int) :
    (stem_record_rejected mem fp → load_stems mem (n + 1) d fp stem_map = (d, none)) ∧
    (¬ stem_record_rejected mem fp →
      ∃ (id : Nat) (d1 : saved_data R S),
        load_stems mem (n + 1) d fp stem_map =
          load_stems mem n d1 (stem_record_end mem fp) (stem_map ++ [(id : Int)]) ∧
        (∀ fp3 map3, (load_stems mem (n + 1) d fp stem_map).2 = some (fp3, map3) →
          map3.getD stem_map.length 0 = (id : Int)) ∧
        id < d1.stem_arr.length ∧
        stem_matches (stem_record_text mem fp) (field32 mem fp.addr)
          (d1.stem_arr.getD id default) ∧
        ((∃ st ∈ d.stem_arr, stem_matches (stem_record_text mem fp) (field32 mem fp.addr) st) →
          d1 = d ∧
          ∀ j, j < id → ¬ stem_matches (stem_record_text mem fp) (field32 mem fp.addr)
            (d.stem_arr.getD j default)) ∧
        ((∀ st ∈ d.stem_arr, ¬ stem_matches (stem_record_text mem fp) (field32 mem fp.addr) st) →
          id = d.stem_arr.length ∧
          d1 = { d with stem_arr := d.stem_arr ++
            [⟨stem_record_text mem fp, field32 mem fp.addr, true⟩] })) ∧
    (¬ stem_record_rejected mem fp → fp.addr + 4 + field32 mem fp.addr ≤ mem.length →
      NUL ∉ (mem.drop (fp.addr + 4)).take (field32 mem fp.addr) →
      stem_record_text mem fp = (mem.drop (fp.addr + 4)).take (field32 mem fp.addr)) := by
  refine ⟨?_, ?_, ?_⟩
  · intro h
    rw [load_stems_succ_eq, if_pos h]
  · intro h
    have hstep := load_stems_succ_eq mem n d fp stem_map
    rw [if_neg h] at hstep
    rcases find_stem_scan_spec (stem_record_text mem fp) (field32 mem fp.addr) d.stem_arr 0
      with ⟨h1, h2⟩ | ⟨k, hk, h1, h2, h3⟩
    · have hneg : find_stem d (stem_record_text mem fp) (field32 mem fp.addr) < 0 := by
        unfold find_stem
        rw [h1]
        decide
      rw [if_pos hneg] at hstep
      refine ⟨d.stem_arr.length, _, hstep, ?_, ?_, ?_, ?_, ?_⟩
      · intro fp3 map3 hm
        rw [hstep] at hm
        exact load_stems_map_entry mem n _ _ stem_map _ fp3 map3 hm
      · show d.stem_arr.length < (d.stem_arr ++ [_]).length
        rw [List.length_append, List.length_singleton]
        omega
      · show stem_matches _ _ ((d.stem_arr ++ [_]).getD d.stem_arr.length default)
        rw [List.getD_eq_getElem?_getD, List.getElem?_append_right (le_refl _)]
        simp only [Nat.sub_self, List.getElem?_cons_zero, Option.getD_some]
        exact ⟨rfl, strncmp_eq_refl _ _⟩
      · rintro ⟨st, hst, hm⟩
        exact absurd hm (h2 st hst)
      · intro _
        exact ⟨rfl, rfl⟩
    · have hid : find_stem d (stem_record_text mem fp) (field32 mem fp.addr) = (k : Int) := by
        unfold find_stem
        rw [h1, Nat.zero_add]
      have hnn : ¬ find_stem d (stem_record_text mem fp) (field32 mem fp.addr) < 0 := by
        rw [hid]
        omega
      rw [if_neg hnn, hid] at hstep
      refine ⟨k, d, hstep, ?_, hk, h2, ?_, ?_⟩
      · intro fp3 map3 hm
        rw [hstep] at hm
        exact load_stems_map_entry mem n _ _ stem_map _ fp3 map3 hm
      · intro _
        exact ⟨rfl, h3⟩
      · intro hno
        exact absurd h2 (hno _ (by
          rw [List.getD_eq_getElem _ _ hk]
          exact List.getElem_mem _))
  · intro h _ hnul
    have hfit : stem_record_fits mem fp := by
      by_contra hc
      exact h (Or.inl hc)
    exact c_str_eq_take _ _ hnul hfit.2.2

end

section

set_option maxRecDepth 20000

/-- C25 as claimed fails: in the compiled file `cache_empty_stem` the stem
record has the length 0, the one byte behind the length field is there and is
NUL, yet the stem loop goes to `err` and `load_mmap` returns -1; the same file
with the stem `/etc` in place of the empty one loads. -/
theorem empty_stem_record_fails_load :
    field32 cache_empty_stem 20 = 0 ∧
    stem_record_fits cache_empty_stem ⟨20, mapped_len demo_cache cache_empty_stem - 20⟩ ∧
    (load_stems cache_empty_stem 1 (empty_data demo_re Unit)
      ⟨20, mapped_len demo_cache cache_empty_stem - 20⟩ []).2 = none ∧
    (load_mmap demo_cache (empty_data demo_re Unit) cache_empty_stem).2 = -1 ∧
    (load_mmap demo_cache (empty_data demo_re Unit)
      (enc_header ++ enc32 1 ++ enc_stem "/etc".toList ++ enc32 1 ++
        enc_spec "L1".toList "/etc/passwd".toList 0 0 4 0 11)).2 = 0 := by
  decide

/-- The stem loop on the two stem records of `cache_two_rules`, from the empty
index: the table is `[0, 1]`, both stems are new and marked; from an index
that already holds `/etc` the table is `[1, 0]` and only `/var` is added. -/
theorem stem_record_loaded_examples :
    (load_stems cache_two_rules 2 (empty_data demo_re Unit)
      ⟨20, mapped_len demo_cache cache_two_rules - 20⟩ []).2.map (fun r => r.2) =
        some [0, 1] ∧
    (load_stems cache_two_rules 2 (empty_data demo_re Unit)
      ⟨20, mapped_len demo_cache cache_two_rules - 20⟩ []).1.stem_arr =
        [⟨"/var".toList, 4, true⟩, ⟨"/etc".toList, 4, true⟩] ∧
    (load_stems cache_two_rules 2 (load_lines lines_passwd)
      ⟨20, mapped_len demo_cache cache_two_rules - 20⟩ []).2.map (fun r => r.2) =
        some [1, 0] ∧
    (load_stems cache_two_rules 2 (load_lines lines_passwd)
      ⟨20, mapped_len demo_cache cache_two_rules - 20⟩ []).1.stem_arr =
        [⟨"/etc".toList, 4, false⟩, ⟨"/var".toList, 4, true⟩] := by
  decide

end

/-! ## The stem id and the prefix length of a specification record -/

section

variable {R S : Type}

theorem translate_stem_id_small (sml : Nat) (smap : List Int) (s : Int)
    (h : sml < 2147483648) :
    translate_stem_id sml smap s =
      if s < 0 ∨ s ≥ (sml : Int) then -1 else smap.getD s.toNat 0 := by
  have e : to_int32 sml = (sml : Int) := by
    unfold to_int32
    rw [if_pos h]
  unfold translate_stem_id
  rw [e]

theorem translate_stem_id_large (sml : Nat) (smap : List Int) (s : Int)
    (h : 2147483648 ≤ sml) (h2 : sml < 4294967296) : translate_stem_id sml smap s = -1 := by
  have e : to_int32 sml = (sml : Int) - 4294967296 := by
    unfold to_int32
    rw [if_neg (by omega)]
  unfold translate_stem_id
  rw [e, if_pos]
  by_cases hs : s < 0
  · exact Or.inl hs
  · right
    omega

/-- A record that decodes is loaded: the round of the specification loop
succeeds whatever the stem id of the record is, and the slot it fills is
`fill_slot` of the slot as `grow_specs` hands it over. -/
theorem load_spec_record_slot (A : pcre_cache R S) (mem : List Char) (version sml : Nat)
    (smap : List Int) (d : saved_data R S) (fp : mmap_area) (r : cache_record R S)
    (fp1 : mmap_area) (hd : slots_ok d) (h : decode_record A mem version fp = some (r, fp1)) :
    (load_spec_record A mem version sml smap d fp).2 = some fp1 ∧
    (load_spec_record A mem version sml smap d fp).1.nspec = d.nspec + 1 ∧
    spec_at (load_spec_record A mem version sml smap d fp).1 d.nspec =
      fill_slot sml smap r (spec_at (grow_specs d) d.nspec) := by
  obtain ⟨a, b⟩ := load_spec_record_decode A mem version sml smap d fp
  obtain ⟨_, c2, _, c4, _⟩ := append_record_spec sml smap d r hd
  rw [b r fp1 h, a, h]
  exact ⟨rfl, c2, c4⟩

/-- The prefix length field of a record: from version 4 on the next 32-bit
field, which is consumed; before version 4 no field, and no byte is
consumed. -/
theorem decode_prefix_len_spec (mem : List Char) (version : Nat) (fp : mmap_area) :
    (version ≥ 4 → 4 ≤ fp.len →
      decode_prefix_len mem version fp =
        some (some (field32 mem fp.addr), ⟨fp.addr + 4, fp.len - 4⟩)) ∧
    (version ≥ 4 → fp.len < 4 → decode_prefix_len mem version fp = none) ∧
    (version < 4 → decode_prefix_len mem version fp = some (none, fp)) := by
  unfold decode_prefix_len SELINUX_COMPILED_FCONTEXT_PREFIX_LEN
  refine ⟨?_, ?_, ?_⟩
  · intro hv hl
    rw [if_pos hv, next_u32_eq mem fp hl]
  · intro hv hl
    rw [if_pos hv, next_u32_none mem fp hl]
  · intro hv
    rw [if_neg (by omega)]

/-- The stem id and the prefix length of a loaded specification, for a store
with the slots that its `alloc_specs` counts and a stem count below 2^31: the
stem id is -1 when the signed id of the record is negative or not below the
stem count, else the table entry; the prefix length is the field of the record
when it has one, else what the slot held before. -/
theorem loaded_stem_id_and_prefix_len (A : pcre_cache R S) (mem : List Char)
    (version sml : Nat) (smap : List Int) (d : saved_data R S) (fp : mmap_area)
    (r : cache_record R S) (fp1 : mmap_area) (hd : slots_ok d) (hsml : sml < 2147483648)
    (h : decode_record A mem version fp = some (r, fp1)) :
    (spec_at (load_spec_record A mem version sml smap d fp).1 d.nspec).stem_id =
      (if r.stem_id < 0 ∨ r.stem_id ≥ (sml : Int) then -1 else smap.getD r.stem_id.toNat 0) ∧
    (spec_at (load_spec_record A mem version sml smap d fp).1 d.nspec).prefix_len =
      r.fixed_prefix_len.getD (spec_at (grow_specs d) d.nspec).prefix_len := by
  obtain ⟨_, _, e⟩ := load_spec_record_slot A mem version sml smap d fp r fp1 hd h
  rw [e]
  exact ⟨translate_stem_id_small sml smap r.stem_id hsml, rfl⟩

end

section

set_option maxRecDepth 20000

theorem record_stem_zero_decodes :
    ∃ r, decode_record demo_cache record_stem_zero 4 ⟨0, 4096⟩ = some (r, ⟨44, 4052⟩) ∧
      r.stem_id = 0 :=
  ⟨_, rfl, rfl⟩

/-- One round of the specification loop on the record `record_stem_zero`,
which has the stem id 0.  With the stem count 2147483648, which
`(int32_t)stem_map_len` turns into a negative number, the round succeeds and
gives the specification the stem id -1, whatever the table holds; with the
stem count 2147483647 it gives it the entry 0 of the table. -/
theorem stem_id_lost_with_large_stem_count :
    ∀ smap : List Int,
      (load_spec_record demo_cache record_stem_zero 4 2147483648 smap
        (empty_data demo_re Unit) ⟨0, 4096⟩).2 = some ⟨44, 4052⟩ ∧
      (spec_at (load_spec_record demo_cache record_stem_zero 4 2147483648 smap
        (empty_data demo_re Unit) ⟨0, 4096⟩).1 0).stem_id = -1 ∧
      (spec_at (load_spec_record demo_cache record_stem_zero 4 2147483647 smap
        (empty_data demo_re Unit) ⟨0, 4096⟩).1 0).stem_id = smap.getD 0 0 := by
  intro smap
  obtain ⟨r, hr, hs⟩ := record_stem_zero_decodes
  obtain ⟨a1, _, a3⟩ := load_spec_record_slot demo_cache record_stem_zero 4 2147483648 smap
    (empty_data demo_re Unit) ⟨0, 4096⟩ r ⟨44, 4052⟩ (Nat.le_refl _) hr
  obtain ⟨_, _, b3⟩ := load_spec_record_slot demo_cache record_stem_zero 4 2147483647 smap
    (empty_data demo_re Unit) ⟨0, 4096⟩ r ⟨44, 4052⟩ (Nat.le_refl _) hr
  refine ⟨a1, ?_, ?_⟩
  · show (spec_at _ (empty_data demo_re Unit).nspec).stem_id = -1
    rw [a3]
    exact translate_stem_id_large _ _ _ (by decide) (by decide)
  · show (spec_at _ (empty_data demo_re Unit).nspec).stem_id = _
    rw [b3]
    show translate_stem_id _ _ _ = _
    rw [translate_stem_id_small _ _ _ (by decide), hs]
    rfl

/-- C27. The compiled file `cache_v3` has the version 3 and no prefix length
field.  Loaded by `init` as the second file after a first file without a
compiled file, its rule `/home/.*` has the prefix length 0.  When the first
file has the compiled file `cache_cut`, whose load fails inside the record of
`/var/.*` behind the prefix length 5 of that record, and a text file without a
rule, the same rule of `cache_v3` ends with the prefix length 5: its slot is
the half-read one, and the loop assigns `prefix_len` only from version 4 on.
Both calls of `init` return 0. -/
theorem old_version_record_keeps_stale_prefix_len :
    field32 cache_v3 4 = 3 ∧
    (init demo_engine demo_cache false none false
      (spec_file.present lines_comment none)
      (spec_file.present lines_home (some cache_v3)) spec_file.absent
      (empty_data demo_re Unit)).2 = 0 ∧
    (used_specs (init demo_engine demo_cache false none false
      (spec_file.present lines_comment none)
      (spec_file.present lines_home (some cache_v3)) spec_file.absent
      (empty_data demo_re Unit)).1).map
        (fun sp => (sp.regex_str, sp.from_mmap, sp.prefix_len)) =
      [("/home/.*".toList, true, 0)] ∧
    (load_mmap demo_cache (empty_data demo_re Unit) cache_cut).2 = -1 ∧
    (spec_at (load_mmap demo_cache (empty_data demo_re Unit) cache_cut).1 1).prefix_len = 5 ∧
    (init demo_engine demo_cache false none false
      (spec_file.present lines_comment (some cache_cut))
      (spec_file.present lines_home (some cache_v3)) spec_file.absent
      (empty_data demo_re Unit)).2 = 0 ∧
    (used_specs (init demo_engine demo_cache false none false
      (spec_file.present lines_comment (some cache_cut))
      (spec_file.present lines_home (some cache_v3)) spec_file.absent
      (empty_data demo_re Unit)).1).map
        (fun sp => (sp.regex_str, sp.from_mmap, sp.prefix_len)) =
      [("/home/.*".toList, true, 5), ("/etc/passwd".toList, true, 11)] := by
  decide

end

/-! ## A compiled file with 2^31 stem records -/

section

variable {R S : Type}

theorem next_entry_moved (mem : List Char) (a k : Nat) (fp : mmap_area) (b : Nat)
    (bytes : List Char) (fp1 : mmap_area)
    (h : next_entry (mem.drop a) fp b = some (bytes, fp1)) :
    next_entry mem (moved a k fp) b = some (bytes, moved a k fp1) := by
  unfold next_entry at h ⊢
  unfold moved
  split_ifs at h with hb
  simp only [Option.some.injEq, Prod.mk.injEq] at h
  obtain ⟨h1, h2⟩ := h
  rw [if_neg (by simp only; omega), ← h1, ← h2, List.drop_drop]
  simp only [Option.some.injEq, Prod.mk.injEq, mmap_area.mk.injEq, true_and]
  omega

theorem next_u32_moved (mem : List Char) (a k : Nat) (fp : mmap_area)
    (v : Nat) (fp1 : mmap_area) (h : next_u32 (mem.drop a) fp = some (v, fp1)) :
    next_u32 mem (moved a k fp) = some (v, moved a k fp1) := by
  unfold next_u32 at h ⊢
  cases h1 : next_entry (mem.drop a) fp 4 with
  | none =>
    rw [h1] at h
    cases h
  | some r =>
    obtain ⟨bytes, fp2⟩ := r
    rw [h1] at h
    rw [next_entry_moved mem a k fp 4 bytes fp2 h1]
    simp only [Option.some.injEq, Prod.mk.injEq] at h ⊢
    exact ⟨h.1, by rw [h.2]⟩

theorem decode_blob_moved (mem : List Char) (a k : Nat) (fp : mmap_area)
    (len : Nat) (bytes : List Char) (fp1 : mmap_area)
    (h : decode_blob (mem.drop a) fp = some (len, bytes, fp1)) :
    decode_blob mem (moved a k fp) = some (len, bytes, moved a k fp1) := by
  unfold decode_blob at h ⊢
  cases h1 : next_u32 (mem.drop a) fp with
  | none =>
    rw [h1] at h
    cases h
  | some r =>
    obtain ⟨v, fp2⟩ := r
    rw [h1] at h
    rw [next_u32_moved mem a k fp v fp2 h1]
    simp only [] at h ⊢
    by_cases hz : v = 0
    · simp [hz] at h
    · simp only [hz, if_false] at h ⊢
      cases h2 : next_entry (mem.drop a) fp2 v with
      | none =>
        rw [h2] at h
        cases h
      | some r2 =>
        obtain ⟨bs, fp3⟩ := r2
        rw [h2] at h
        rw [next_entry_moved mem a k fp2 v bs fp3 h2]
        simp only [Option.some.injEq, Prod.mk.injEq] at h ⊢
        obtain ⟨e1, e2, e3⟩ := h
        refine ⟨e1, ?_, by rw [e3]⟩
        rw [← e2, List.drop_drop]
        show List.drop (a + fp2.addr) mem = _
        rw [Nat.add_comm]

theorem decode_string_moved (mem : List Char) (a k : Nat) (fp : mmap_area)
    (s : List Char) (fp1 : mmap_area)
    (h : decode_string (mem.drop a) fp = some (s, fp1)) :
    decode_string mem (moved a k fp) = some (s, moved a k fp1) := by
  unfold decode_string at h ⊢
  cases h1 : decode_blob (mem.drop a) fp with
  | none =>
    rw [h1] at h
    cases h
  | some r =>
    obtain ⟨len, bytes, fp2⟩ := r
    rw [h1] at h
    rw [decode_blob_moved mem a k fp len bytes fp2 h1]
    simp only [] at h ⊢
    split_ifs at h ⊢
    simp only [Option.some.injEq, Prod.mk.injEq] at h ⊢
    exact ⟨h.1, by rw [h.2]⟩

theorem decode_blobs_moved (A : pcre_cache R S) (mem : List Char) (a k : Nat) (fp : mmap_area)
    (r : R) (s : S) (fp1 : mmap_area)
    (h : decode_blobs A (mem.drop a) fp = some (r, s, fp1)) :
    decode_blobs A mem (moved a k fp) = some (r, s, moved a k fp1) := by
  unfold decode_blobs at h ⊢
  cases h1 : decode_blob (mem.drop a) fp with
  | none =>
    rw [h1] at h
    cases h
  | some v =>
    obtain ⟨len, bytes, fp2⟩ := v
    rw [h1] at h
    rw [decode_blob_moved mem a k fp len bytes fp2 h1]
    simp only [] at h ⊢
    split_ifs at h ⊢ with hsz
    cases h2 : decode_blob (mem.drop a) fp2 with
    | none =>
      rw [h2] at h
      cases h
    | some v2 =>
      obtain ⟨len2, bytes2, fp3⟩ := v2
      rw [h2] at h
      rw [decode_blob_moved mem a k fp2 len2 bytes2 fp3 h2]
      simp only [] at h ⊢
      split_ifs at h ⊢
      simp only [Option.some.injEq, Prod.mk.injEq] at h ⊢
      exact ⟨h.1, h.2.1, by rw [h.2.2]⟩

theorem decode_prefix_len_moved (mem : List Char) (version a k : Nat) (fp : mmap_area)
    (p : Option Nat) (fp1 : mmap_area)
    (h : decode_prefix_len (mem.drop a) version fp = some (p, fp1)) :
    decode_prefix_len mem version (moved a k fp) = some (p, moved a k fp1) := by
  unfold decode_prefix_len at h ⊢
  split_ifs at h ⊢
  · cases h1 : next_u32 (mem.drop a) fp with
    | none =>
      rw [h1] at h
      cases h
    | some v =>
      obtain ⟨plen, fp2⟩ := v
      rw [h1] at h
      rw [next_u32_moved mem a k fp plen fp2 h1]
      simp only [Option.some.injEq, Prod.mk.injEq] at h ⊢
      exact ⟨h.1, by rw [h.2]⟩
  · simp only [Option.some.injEq, Prod.mk.injEq] at h ⊢
    exact ⟨h.1, by rw [h.2]⟩

theorem decode_fields_moved (A : pcre_cache R S) (mem : List Char) (version a k : Nat)
    (label pattern_text : List Char) (fp : mmap_area) (r : cache_record R S) (fp1 : mmap_area)
    (h : decode_fields A (mem.drop a) version label pattern_text fp = some (r, fp1)) :
    decode_fields A mem version label pattern_text (moved a k fp) = some (r, moved a k fp1) := by
  unfold decode_fields at h ⊢
  cases h1 : next_entry (mem.drop a) fp
      (if version ≥ SELINUX_COMPILED_FCONTEXT_MODE then 4 else A.sizeof_mode_t) with
  | none =>
    rw [h1] at h
    cases h
  | some v1 =>
    obtain ⟨mode_bytes, fp2⟩ := v1
    rw [h1] at h
    rw [next_entry_moved mem a k fp _ mode_bytes fp2 h1]
    simp only [] at h ⊢
    cases h2 : next_u32 (mem.drop a) fp2 with
    | none =>
      rw [h2] at h
      cases h
    | some v2 =>
      obtain ⟨stem_bits, fp3⟩ := v2
      rw [h2] at h
      rw [next_u32_moved mem a k fp2 stem_bits fp3 h2]
      simp only [] at h ⊢
      cases h3 : next_u32 (mem.drop a) fp3 with
      | none =>
        rw [h3] at h
        cases h
      | some v3 =>
        obtain ⟨meta_chars, fp4⟩ := v3
        rw [h3] at h
        rw [next_u32_moved mem a k fp3 meta_chars fp4 h3]
        simp only [] at h ⊢
        cases h4 : decode_prefix_len (mem.drop a) version fp4 with
        | none =>
          rw [h4] at h
          cases h
        | some v4 =>
          obtain ⟨plen, fp5⟩ := v4
          rw [h4] at h
          rw [decode_prefix_len_moved mem version a k fp4 plen fp5 h4]
          simp only [] at h ⊢
          cases h5 : decode_blobs A (mem.drop a) fp5 with
          | none =>
            rw [h5] at h
            cases h
          | some v5 =>
            obtain ⟨regex, study, fp6⟩ := v5
            rw [h5] at h
            rw [decode_blobs_moved A mem a k fp5 regex study fp6 h5]
            simp only [Option.some.injEq, Prod.mk.injEq] at h ⊢
            exact ⟨h.1, by rw [h.2]⟩

theorem decode_record_moved (A : pcre_cache R S) (mem : List Char) (version a k : Nat)
    (fp : mmap_area) (r : cache_record R S) (fp1 : mmap_area)
    (h : decode_record A (mem.drop a) version fp = some (r, fp1)) :
    decode_record A mem version (moved a k fp) = some (r, moved a k fp1) := by
  unfold decode_record at h ⊢
  cases h1 : decode_string (mem.drop a) fp with
  | none =>
    rw [h1] at h
    cases h
  | some v1 =>
    obtain ⟨label, fp2⟩ := v1
    rw [h1] at h
    rw [decode_string_moved mem a k fp label fp2 h1]
    simp only [] at h ⊢
    cases h2 : decode_string (mem.drop a) fp2 with
    | none =>
      rw [h2] at h
      cases h
    | some v2 =>
      obtain ⟨pattern_text, fp3⟩ := v2
      rw [h2] at h
      rw [decode_string_moved mem a k fp2 pattern_text fp3 h2]
      simp only [] at h ⊢
      exact decode_fields_moved A mem version a k label pattern_text fp3 r fp1 h

end

section

set_option maxRecDepth 20000

theorem char_toNat_ofNat : ∀ k, k < 256 → (Char.ofNat k).toNat = k := by
  decide

theorem le_value_enc32 (n : Nat) (h : n < 4294967296) : le_value (enc32 n) = n := by
  unfold enc32
  simp only [le_value]
  rw [char_toNat_ofNat _ (Nat.mod_lt _ (by decide)), char_toNat_ofNat _ (Nat.mod_lt _ (by decide)),
    char_toNat_ofNat _ (Nat.mod_lt _ (by decide)), char_toNat_ofNat _ (Nat.mod_lt _ (by decide))]
  omega

theorem rep_bytes_length (b : List Char) : ∀ n, (rep_bytes n b).length = n * b.length := by
  intro n
  induction n with
  | zero => simp [rep_bytes]
  | succ n ih =>
    rw [rep_bytes, List.length_append, ih]
    ring

theorem drop_append_at (pre rest : List Char) (k : Nat) (h : pre.length = k) :
    (pre ++ rest).drop k = rest := by
  rw [← h]
  exact List.drop_left _ _

theorem take_drop_append_left (pre rest : List Char) (k b : Nat) (h : k + b ≤ pre.length) :
    ((pre ++ rest).drop k).take b = (pre.drop k).take b := by
  rw [List.drop_append_of_le_length (by omega),
    List.take_append_of_le_length (by rw [List.length_drop]; omega)]

theorem mapped_len_ge (mem : List Char) : mem.length ≤ mapped_len demo_cache mem := by
  unfold mapped_len
  show mem.length ≤ mem.length + (4096 - 1) - (mem.length + (4096 - 1)) % 4096
  omega

theorem field32_of_drop (mem rest : List Char) (a v : Nat) (h : mem.drop a = enc32 v ++ rest)
    (hv : v < 4294967296) : field32 mem a = v := by
  unfold field32
  rw [h, List.take_append_of_le_length (by simp [enc32]), List.take_of_length_le (by simp [enc32])]
  exact le_value_enc32 v hv

end

section

set_option maxRecDepth 20000

theorem stem_a_round (mem rest : List Char) (fp : mmap_area)
    (hd : mem.drop fp.addr = enc_stem "/a".toList ++ rest) (hl : 7 ≤ fp.len) :
    ¬ stem_record_rejected mem fp ∧ field32 mem fp.addr = 2 ∧
    stem_record_text mem fp = "/a".toList ∧
    stem_record_end mem fp = ⟨fp.addr + 7, fp.len - 7⟩ ∧
    mem.drop (fp.addr + 7) = rest := by
  have hd2 : mem.drop fp.addr = enc32 2 ++ (['/', 'a', NUL] ++ rest) := by
    rw [hd]
    rfl
  have hf : field32 mem fp.addr = 2 := field32_of_drop mem _ fp.addr 2 hd2 (by decide)
  have hd4 : mem.drop (fp.addr + 4) = ['/', 'a', NUL] ++ rest := by
    have : mem.drop (fp.addr + 4) = (mem.drop fp.addr).drop 4 := by
      rw [List.drop_drop, Nat.add_comm]
    rw [this, hd2]
    rfl
  have hd7 : mem.drop (fp.addr + 7) = rest := by
    have : mem.drop (fp.addr + 7) = (mem.drop fp.addr).drop 7 := by
      rw [List.drop_drop, Nat.add_comm]
    rw [this, hd2]
    rfl
  refine ⟨?_, hf, ?_, ?_, hd7⟩
  · unfold stem_record_rejected stem_record_fits
    rw [hf, hd4]
    have h1 : ¬ (2 : Nat) = 0 := by decide
    have h2 : ¬ (2 : Nat) = UINT32_MAX := by decide
    have h3 : (['/', 'a', NUL] ++ rest).getD 2 NUL = NUL := rfl
    have h4 : 4 ≤ fp.len := by omega
    have h5 : 2 + 1 ≤ fp.len - 4 := by omega
    simp only [h1, h2, h3, h4, h5, and_self, not_true_eq_false, or_self, not_false_eq_true]
  · unfold stem_record_text
    rw [hd4]
    simp [c_str, NUL, List.takeWhile_cons]
  · unfold stem_record_end
    rw [hf]
    simp only [mmap_area.mk.injEq, true_and]
    omega

theorem load_stems_repeated (mem rest : List Char) :
    ∀ (k : Nat) (fp : mmap_area) (m : List Int),
      mem.drop fp.addr = rep_bytes k (enc_stem "/a".toList) ++ rest → 7 * k ≤ fp.len →
      load_stems mem k stem_a_store fp m =
        (stem_a_store, some (⟨fp.addr + 7 * k, fp.len - 7 * k⟩, m ++ List.replicate k 0)) := by
  intro k
  induction k with
  | zero =>
    intro fp m _ _
    simp [load_stems]
  | succ k ih =>
    intro fp m hd hl
    have hd1 : mem.drop fp.addr =
        enc_stem "/a".toList ++ (rep_bytes k (enc_stem "/a".toList) ++ rest) := by
      rw [hd, rep_bytes, List.append_assoc]
    obtain ⟨h1, h2, h3, h4, h5⟩ := stem_a_round mem _ fp hd1 (by omega)
    have hfind : ¬ find_stem stem_a_store "/a".toList 2 < 0 := by decide
    have hid : find_stem stem_a_store "/a".toList 2 = 0 := by decide
    rw [load_stems_succ_eq, if_neg h1, h2, h3, if_neg hfind, h4, hid,
      ih ⟨fp.addr + 7, fp.len - 7⟩ (m ++ [0]) h5 (by simp only; omega)]
    simp only [Prod.mk.injEq, Option.some.injEq, mmap_area.mk.injEq, true_and,
      List.append_assoc, List.singleton_append, List.replicate_succ, and_true]
    omega

theorem load_stems_many (mem rest : List Char) (k : Nat) (fp : mmap_area)
    (hd : mem.drop fp.addr = rep_bytes (k + 1) (enc_stem "/a".toList) ++ rest)
    (hl : 7 * (k + 1) ≤ fp.len) :
    load_stems mem (k + 1) (empty_data demo_re Unit) fp [] =
      (stem_a_store,
        some (⟨fp.addr + 7 * (k + 1), fp.len - 7 * (k + 1)⟩, List.replicate (k + 1) 0)) := by
  have hd1 : mem.drop fp.addr =
      enc_stem "/a".toList ++ (rep_bytes k (enc_stem "/a".toList) ++ rest) := by
    rw [hd, rep_bytes, List.append_assoc]
  obtain ⟨h1, h2, h3, h4, h5⟩ := stem_a_round mem _ fp hd1 (by omega)
  have hfind : find_stem (empty_data demo_re Unit) "/a".toList 2 < 0 := by decide
  rw [load_stems_succ_eq, if_neg h1, h2, h3, if_pos hfind, h4]
  have e := load_stems_repeated mem rest k ⟨fp.addr + 7, fp.len - 7⟩ [0] h5 (by simp only; omega)
  show load_stems mem k stem_a_store ⟨fp.addr + 7, fp.len - 7⟩ [0] = _
  rw [e]
  simp only [Prod.mk.injEq, Option.some.injEq, mmap_area.mk.injEq, true_and,
    List.singleton_append, List.replicate_succ, and_true]
  omega

theorem record_stem_zero_alone :
    ∃ r, decode_record demo_cache record_stem_zero 4 ⟨0, 44⟩ = some (r, ⟨44, 0⟩) ∧
      r.stem_id = 0 :=
  ⟨_, rfl, rfl⟩

/-- The compiled file `cache_many_stems n` loads for every stem count `n`
from 1 to 2^32 - 1: `load_mmap` returns 0, the store has the one
specification of the file, and its stem id is what the translation of the
record's stem id 0 gives for the stem count `n` and a table of `n` zeros. -/
theorem load_mmap_many_stems (k : Nat) (hk : k + 1 < 4294967296) :
    (load_mmap demo_cache (empty_data demo_re Unit) (cache_many_stems (k + 1))).2 = 0 ∧
    (load_mmap demo_cache (empty_data demo_re Unit) (cache_many_stems (k + 1))).1.nspec = 1 ∧
    (spec_at (load_mmap demo_cache (empty_data demo_re Unit)
      (cache_many_stems (k + 1))).1 0).stem_id =
        translate_stem_id (k + 1) (List.replicate (k + 1) 0) 0 := by
  have hH : enc_header.length = 16 := by decide
  have hS : (enc_stem "/a".toList).length = 7 := by decide
  have hZ : record_stem_zero.length = 44 := by decide
  have hE : ∀ v, (enc32 v).length = 4 := fun _ => rfl
  have hmem : cache_many_stems (k + 1) = enc_header ++ (enc32 (k + 1) ++
      (rep_bytes (k + 1) (enc_stem "/a".toList) ++ (enc32 1 ++ record_stem_zero))) := by
    unfold cache_many_stems
    simp only [List.append_assoc]
  have hlen : (cache_many_stems (k + 1)).length = 68 + 7 * (k + 1) := by
    rw [hmem]
    simp only [List.length_append, hH, hS, hZ, hE, rep_bytes_length]
    omega
  have hM := mapped_len_ge (cache_many_stems (k + 1))
  rw [hlen] at hM
  have hd16 : (cache_many_stems (k + 1)).drop 16 = enc32 (k + 1) ++
      (rep_bytes (k + 1) (enc_stem "/a".toList) ++ (enc32 1 ++ record_stem_zero)) := by
    rw [hmem]
    exact drop_append_at _ _ 16 hH
  have hd20 : (cache_many_stems (k + 1)).drop 20 =
      rep_bytes (k + 1) (enc_stem "/a".toList) ++ (enc32 1 ++ record_stem_zero) := by
    have : (cache_many_stems (k + 1)).drop 20 = ((cache_many_stems (k + 1)).drop 16).drop 4 := by
      rw [List.drop_drop]
    rw [this, hd16]
    exact drop_append_at _ _ 4 (hE _)
  have hdA : (cache_many_stems (k + 1)).drop (20 + 7 * (k + 1)) =
      enc32 1 ++ record_stem_zero := by
    have : (cache_many_stems (k + 1)).drop (20 + 7 * (k + 1)) =
        ((cache_many_stems (k + 1)).drop 20).drop (7 * (k + 1)) := by
      rw [List.drop_drop, Nat.add_comm]
    rw [this, hd20]
    exact drop_append_at _ _ _ (by rw [rep_bytes_length, hS, Nat.mul_comm])
  have hdB : (cache_many_stems (k + 1)).drop (20 + 7 * (k + 1) + 4) = record_stem_zero := by
    have : (cache_many_stems (k + 1)).drop (20 + 7 * (k + 1) + 4) =
        ((cache_many_stems (k + 1)).drop (20 + 7 * (k + 1))).drop 4 := by
      rw [List.drop_drop, Nat.add_comm]
    rw [this, hdA]
    exact drop_append_at _ _ 4 (hE _)
  have hf : ∀ off, off + 4 ≤ 16 →
      field32 (cache_many_stems (k + 1)) off = field32 enc_header off := by
    intro off ho
    unfold field32
    rw [hmem]
    exact congrArg le_value (take_drop_append_left _ _ off 4 (by rw [hH]; exact ho))
  have hver : ((cache_many_stems (k + 1)).drop 12).take 4 = (enc_header.drop 12).take 4 := by
    rw [hmem]
    exact take_drop_append_left _ _ 12 4 (by rw [hH])
  have hrej : ¬ header_rejected demo_cache (cache_many_stems (k + 1)) := by
    unfold header_rejected
    rw [hf 0 (by decide), hf 4 (by decide), hf 8 (by decide)]
    have e0 : field32 enc_header 0 = SELINUX_MAGIC_COMPILED_FCONTEXT := by decide
    have e4 : field32 enc_header 4 = 4 := by decide
    have e8 : field32 enc_header 8 = 4 := by decide
    have ev : (enc_header.drop 12).take 4 = demo_cache.pcre_version := by decide
    have el : demo_cache.pcre_version.length = 4 := by decide
    rw [e0, e4, e8, hver, ev, el]
    intro h
    rcases h with h | h | h | h | ⟨_, h | h | h | h⟩
    · omega
    · exact h rfl
    · omega
    · exact absurd h (by decide)
    · omega
    · exact h rfl
    · omega
    · exact h rfl
  have hend : header_end demo_cache (cache_many_stems (k + 1)) =
      ⟨16, mapped_len demo_cache (cache_many_stems (k + 1)) - 16⟩ := by
    unfold header_end
    rw [hf 4 (by decide)]
    rfl
  have hhead := (load_header_spec demo_cache (cache_many_stems (k + 1)) (by decide)).2 hrej
  rw [hf 4 (by decide), hend] at hhead
  have e4 : field32 enc_header 4 = 4 := by decide
  rw [e4] at hhead
  have hn : field32 (cache_many_stems (k + 1)) 16 = k + 1 :=
    field32_of_drop _ _ 16 (k + 1) hd16 hk
  have hu1 := next_u32_eq (cache_many_stems (k + 1))
    ⟨16, mapped_len demo_cache (cache_many_stems (k + 1)) - 16⟩ (by simp only; omega)
  simp only [hn] at hu1
  have hst := load_stems_many (cache_many_stems (k + 1)) (enc32 1 ++ record_stem_zero) k
    ⟨16 + 4, mapped_len demo_cache (cache_many_stems (k + 1)) - 16 - 4⟩ hd20
    (by simp only; omega)
  have hone : field32 (cache_many_stems (k + 1)) (20 + 7 * (k + 1)) = 1 :=
    field32_of_drop _ _ _ 1 hdA (by decide)
  have hu2 := next_u32_eq (cache_many_stems (k + 1))
    ⟨16 + 4 + 7 * (k + 1), mapped_len demo_cache (cache_many_stems (k + 1)) - 16 - 4 -
      7 * (k + 1)⟩ (by simp only; omega)
  simp only [Nat.reduceAdd, hone] at hu2
  obtain ⟨r, hr, hs⟩ := record_stem_zero_alone
  rw [← hdB] at hr
  have hrec := decode_record_moved demo_cache (cache_many_stems (k + 1)) 4
    (20 + 7 * (k + 1) + 4) (mapped_len demo_cache (cache_many_stems (k + 1)) - 68 - 7 * (k + 1))
    ⟨0, 44⟩ r ⟨44, 0⟩ hr
  have hfp : moved (20 + 7 * (k + 1) + 4)
      (mapped_len demo_cache (cache_many_stems (k + 1)) - 68 - 7 * (k + 1)) ⟨0, 44⟩ =
      ⟨20 + 7 * (k + 1) + 4,
        mapped_len demo_cache (cache_many_stems (k + 1)) - 16 - 4 - 7 * (k + 1) - 4⟩ := by
    unfold moved
    simp only [mmap_area.mk.injEq, true_and]
    omega
  rw [hfp] at hrec
  obtain ⟨s1, s2, s3⟩ := load_spec_record_slot demo_cache (cache_many_stems (k + 1)) 4 (k + 1)
    (List.replicate (k + 1) 0) stem_a_store _ r _ (Nat.le_refl _) hrec
  have hload : load_mmap demo_cache (empty_data demo_re Unit) (cache_many_stems (k + 1)) =
      ((load_spec_record demo_cache (cache_many_stems (k + 1)) 4 (k + 1)
        (List.replicate (k + 1) 0) stem_a_store
        ⟨20 + 7 * (k + 1) + 4,
          mapped_len demo_cache (cache_many_stems (k + 1)) - 16 - 4 - 7 * (k + 1) - 4⟩).1,
        0) := by
    unfold load_mmap
    rw [hhead]
    simp only []
    rw [hu1]
    simp only [Nat.succ_ne_zero, if_false]
    simp only [Nat.reduceAdd] at hst
    rw [hst]
    simp only []
    rw [hu2]
    simp only [Nat.succ_ne_zero, if_false, one_ne_zero]
    rw [load_specs]
    rw [s1]
    simp only [load_specs]
  rw [hload]
  refine ⟨rfl, s2, ?_⟩
  show (spec_at _ stem_a_store.nspec).stem_id = _
  rw [s3]
  show translate_stem_id _ _ r.stem_id = _
  rw [hs]

end

section

set_option maxRecDepth 20000

theorem load_mmap_many_stems_pos (n : Nat) (h0 : 0 < n) (hn : n < 4294967296) :
    (load_mmap demo_cache (empty_data demo_re Unit) (cache_many_stems n)).2 = 0 ∧
    (load_mmap demo_cache (empty_data demo_re Unit) (cache_many_stems n)).1.nspec = 1 ∧
    (spec_at (load_mmap demo_cache (empty_data demo_re Unit) (cache_many_stems n)).1 0).stem_id =
      translate_stem_id n (List.replicate n 0) 0 := by
  cases n with
  | zero => exact absurd h0 (Nat.lt_irrefl 0)
  | succ k => exact load_mmap_many_stems k hn

theorem getD_replicate_zero (n i : Nat) : (List.replicate n (0 : Int)).getD i 0 = 0 := by
  induction n generalizing i with
  | zero => rfl
  | succ n ih =>
    cases i with
    | zero => rfl
    | succ i => exact ih i

theorem translate_stem_id_zeros (n : Nat) (h0 : 0 < n) (hn : n < 2147483648) :
    translate_stem_id n (List.replicate n 0) 0 = 0 := by
  rw [translate_stem_id_small n _ 0 hn, if_neg (by omega)]
  exact getD_replicate_zero n _

/-- C26. The compiled file `cache_many_stems 2147483648` declares 2147483648
stems, holds that many stem records (each the stem `/a`, which the index keeps
once, with the id 0) and one specification record, whose stem id is 0.
`load_mmap` returns 0 on it and gives the specification the stem id -1, not
the entry 0 of the table: `(int32_t)stem_map_len` is negative.  With one stem
record less the same specification gets the stem id 0. -/
theorem many_stems_lose_stem_id :
    (load_mmap demo_cache (empty_data demo_re Unit) (cache_many_stems 2147483648)).2 = 0 ∧
    (load_mmap demo_cache (empty_data demo_re Unit) (cache_many_stems 2147483648)).1.nspec = 1 ∧
    (spec_at (load_mmap demo_cache (empty_data demo_re Unit)
      (cache_many_stems 2147483648)).1 0).stem_id = -1 ∧
    (load_mmap demo_cache (empty_data demo_re Unit) (cache_many_stems 2147483647)).2 = 0 ∧
    (load_mmap demo_cache (empty_data demo_re Unit) (cache_many_stems 2147483647)).1.nspec = 1 ∧
    (spec_at (load_mmap demo_cache (empty_data demo_re Unit)
      (cache_many_stems 2147483647)).1 0).stem_id = 0 := by
  obtain ⟨a1, a2, a3⟩ := load_mmap_many_stems_pos 2147483648 (by decide) (by decide)
  obtain ⟨b1, b2, b3⟩ := load_mmap_many_stems_pos 2147483647 (by decide) (by decide)
  refine ⟨a1, a2, ?_, b1, b2, ?_⟩
  · rw [a3]
    exact translate_stem_id_large _ _ _ (by decide) (by decide)
  · rw [b3]
    exact translate_stem_id_zeros _ (by decide) (by decide)

/-- The compiled file `cache_many_stems 2`, evaluated: it loads, the table is
`[0, 0]`, the index holds the stem `/a` once, and the specification has the
stem id 0. -/
theorem many_stems_example :
    (load_mmap demo_cache (empty_data demo_re Unit) (cache_many_stems 2)).2 = 0 ∧
    (load_stems (cache_many_stems 2) 2 (empty_data demo_re Unit)
      ⟨20, mapped_len demo_cache (cache_many_stems 2) - 20⟩ []).2.map (fun r => r.2) =
        some [0, 0] ∧
    (load_mmap demo_cache (empty_data demo_re Unit) (cache_many_stems 2)).1.stem_arr =
      [⟨"/a".toList, 2, true⟩] ∧
    (used_specs (load_mmap demo_cache (empty_data demo_re Unit) (cache_many_stems 2)).1).map
      (fun sp => (sp.regex_str, sp.stem_id)) = [("/a/b".toList, 0)] := by
  decide

end

/-! ## The slash-collapsing step, once more -/

theorem collapse_slashes_length : ∀ (n : Nat) (s : List Char), s.length ≤ n →
    (collapse_slashes s).length ≤ s.length := by
  intro n
  induction n with
  | zero =>
    intro s hs
    have : s = [] := List.length_eq_zero.mp (Nat.le_zero.mp hs)
    subst this
    simp [collapse_slashes]
  | succ n ih =>
    intro s hs
    match s, hs with
    | [], _ => simp [collapse_slashes]
    | [c], _ => simp [collapse_slashes]
    | x :: y :: rest, hs =>
      have h1 := ih (y :: rest) (by simpa using hs)
      rw [collapse_slashes]
      split_ifs
      · exact le_trans h1 (by simp)
      · simp only [List.length_cons] at h1 ⊢
        omega

/-- C38. The key that the "Remove duplicate slashes" block of `lookup_common`
produces is never longer than the path, so it fits, with its NUL, the buffer
of `strlen(key) + 1` bytes; a path in which `strstr(key, "//")` finds nothing
is left as it is; and the block applied to its own result changes nothing. -/
theorem clean_key_idempotent (key : List Char) :
    (clean_key key).length ≤ key.length ∧
    (strstr_slashes key = none → clean_key key = key) ∧
    strstr_slashes (clean_key key) = none ∧
    clean_key (clean_key key) = clean_key key := by
  have hnone : strstr_slashes (clean_key key) = none := by
    rw [clean_key_eq]
    exact strstr_collapse key
  refine ⟨?_, ?_, hnone, ?_⟩
  · rw [clean_key_eq]
    exact collapse_slashes_length _ _ (le_refl _)
  · intro h
    unfold clean_key
    rw [h]
  · generalize clean_key key = k at hnone
    unfold clean_key
    rw [hnone]

/-- The block of C38 on examples: runs of slashes shrink to one slash, and a
second pass changes nothing. -/
theorem clean_key_idempotent_examples :
    clean_key "//a///b//".toList = "/a/b/".toList ∧
    clean_key (clean_key "//a///b//".toList) = "/a/b/".toList ∧
    clean_key "/a/b".toList = "/a/b".toList ∧
    clean_key "///".toList = "/".toList := by
  decide

/-! ## `get_stem_from_spec` -/

theorem is_meta_char_iff (c : Char) : is_meta_char c = true ↔ c ∈ ".^$?*+|[(\x7b".toList := by
  unfold is_meta_char
  simp

theorem any_take_meta (buf : List Char) (k : Nat) (hk : k ≤ buf.length) :
    (buf.take k).any is_meta_char = true ↔ ∃ j, j < k ∧ is_meta_char (buf.getD j NUL) = true := by
  rw [List.any_eq_true]
  constructor
  · rintro ⟨c, hc, hm⟩
    obtain ⟨j, hj, rfl⟩ := List.getElem_of_mem hc
    rw [List.length_take] at hj
    have hjk : j < k := lt_of_lt_of_le hj (Nat.min_le_left _ _)
    refine ⟨j, hjk, ?_⟩
    rw [List.getElem_take] at hm
    rw [List.getD_eq_getElem _ _ (by omega)]
    exact hm
  · rintro ⟨j, hj, hm⟩
    have hjl : j < buf.length := by omega
    refine ⟨buf.getD j NUL, ?_, hm⟩
    rw [List.getD_eq_getElem _ _ hjl]
    have hjt : j < (buf.take k).length := by rw [List.length_take]; omega
    have : (buf.take k)[j] = buf[j] := List.getElem_take ..
    rw [← this]
    exact List.getElem_mem _

theorem getD_tail (buf : List Char) (j : Nat) : buf.tail.getD j NUL = buf.getD (j + 1) NUL := by
  cases buf with
  | nil => rfl
  | cons x xs => rfl

/-- C31. `get_stem_from_spec` returns a non-zero length exactly when the
pattern has a `/` at some position `k >= 1`, `k` the first such position, and
none of the bytes at the positions `0 .. k-1` is one of `. ^ $ ? * + | [ ( {`;
the length returned is then `k`: the stem is the first `k` bytes of the
pattern, and the byte behind it is that `/`.  (For the empty pattern, on which
the C function reads past the terminator, the model returns 0.) -/
theorem get_stem_from_spec_iff (buf : List Char) :
    (get_stem_from_spec buf ≠ 0 ↔
      ∃ k, 1 ≤ k ∧ k < buf.length ∧ buf.getD k NUL = '/' ∧
        (∀ j, 1 ≤ j → j < k → buf.getD j NUL ≠ '/') ∧
        ∀ j, j < k → buf.getD j NUL ∉ ".^$?*+|[(\x7b".toList) ∧
    (∀ k, 1 ≤ k → k < buf.length → buf.getD k NUL = '/' →
      (∀ j, 1 ≤ j → j < k → buf.getD j NUL ≠ '/') →
      (∀ j, j < k → buf.getD j NUL ∉ ".^$?*+|[(\x7b".toList) →
      get_stem_from_spec buf = k ∧ (buf.take k).length = k ∧
      buf.drop k = '/' :: buf.drop (k + 1)) := by
  have key : ∀ k, 1 ≤ k → k < buf.length → buf.getD k NUL = '/' →
      (∀ j, 1 ≤ j → j < k → buf.getD j NUL ≠ '/') →
      (∀ j, j < k → buf.getD j NUL ∉ ".^$?*+|[(\x7b".toList) →
      get_stem_from_spec buf = k := by
    intro k hk1 hkl hk hfirst hmeta
    obtain ⟨k0, rfl⟩ : ∃ k0, k = k0 + 1 := ⟨k - 1, by omega⟩
    have hs : strchr buf.tail '/' = some k0 := by
      obtain ⟨s1, s2⟩ := strchr_spec '/' buf.tail
      cases hc : strchr buf.tail '/' with
      | none =>
        exfalso
        have := s1.mp hc k0 (by rw [List.length_tail]; omega)
        rw [getD_tail] at this
        exact this hk
      | some k1 =>
        obtain ⟨a, b, c⟩ := s2 k1 hc
        rw [getD_tail] at b
        have h1 : ¬ k1 < k0 := fun hlt => hfirst (k1 + 1) (by omega) (by omega) b
        have h2 : ¬ k0 < k1 := fun hlt => by
          have := c k0 hlt
          rw [getD_tail] at this
          exact this hk
        have : k1 = k0 := by omega
        rw [this]
    unfold get_stem_from_spec
    rw [hs]
    simp only []
    rw [if_neg]
    intro hany
    obtain ⟨j, hj, hm⟩ := (any_take_meta buf (k0 + 1) (by omega)).mp hany
    exact hmeta j hj ((is_meta_char_iff _).mp hm)
  refine ⟨⟨?_, ?_⟩, ?_⟩
  · intro h
    unfold get_stem_from_spec at h
    cases hc : strchr buf.tail '/' with
    | none =>
      rw [hc] at h
      exact absurd rfl h
    | some k0 =>
      rw [hc] at h
      simp only [] at h
      obtain ⟨a, b, c⟩ := (strchr_spec '/' buf.tail).2 k0 hc
      rw [List.length_tail] at a
      rw [getD_tail] at b
      by_cases hany : (buf.take (k0 + 1)).any is_meta_char = true
      · rw [if_pos hany] at h
        exact absurd rfl h
      · refine ⟨k0 + 1, by omega, by omega, b, ?_, ?_⟩
        · intro j hj1 hjk
          obtain ⟨j0, rfl⟩ : ∃ j0, j = j0 + 1 := ⟨j - 1, by omega⟩
          have := c j0 (by omega)
          rw [getD_tail] at this
          exact this
        · intro j hj hm
          exact hany ((any_take_meta buf (k0 + 1) (by omega)).mpr
            ⟨j, hj, (is_meta_char_iff _).mpr hm⟩)
  · rintro ⟨k, h1, h2, h3, h4, h5⟩
    rw [key k h1 h2 h3 h4 h5]
    omega
  · intro k h1 h2 h3 h4 h5
    refine ⟨key k h1 h2 h3 h4 h5, ?_, ?_⟩
    · rw [List.length_take]
      omega
    · rw [List.drop_eq_getElem_cons h2]
      congr 1
      rw [← h3, List.getD_eq_getElem _ _ h2]

/-- The stems of C31 on examples: the stem of `/etc/passwd` is the 4 bytes
`/etc`; a meta character before the second slash, or no second slash, gives no
stem. -/
theorem get_stem_from_spec_examples :
    get_stem_from_spec "/etc/passwd".toList = 4 ∧
    "/etc/passwd".toList.take 4 = "/etc".toList ∧
    get_stem_from_spec "/e.c/passwd".toList = 0 ∧
    get_stem_from_spec "/etc".toList = 0 ∧
    get_stem_from_spec "/etc(/.*)?".toList = 0 ∧
    get_stem_from_spec "/usr/(bin|sbin)/.*".toList = 4 := by
  decide

/-! ## `compile_regex` -/

section
variable {R S : Type}

/-- C36. `compile_regex` on a specification that is marked compiled returns 0
and leaves it as it is.  On one that is not, the compiled pattern it stores is
what the engine makes of the text `^`, the pattern text (without its first
`stem_arr[stem_id].len` bytes when the specification has a stem, `stem_id >=
0`), `$`; the specification is marked compiled exactly when the engine
compiles that text and the study of the result does not fail, and then the
return code is 0, else it is -1; no other field than the compiled pattern, the
study data and the mark changes. -/
theorem compile_regex_spec (E : pcre_engine R S) (stems : List stem) (sp : spec R S) :
    (sp.regcomp = true → compile_regex E stems sp = (sp, 0)) ∧
    (sp.regcomp = false →
      (compile_regex E stems sp).1.regex =
        E.pcre_compile
          ('^' :: ((if 0 ≤ sp.stem_id
              then sp.regex_str.drop (stems.getD sp.stem_id.toNat default).len
              else sp.regex_str) ++ ['$'])) ∧
      ((compile_regex E stems sp).1.regcomp = true ↔
        ∃ r s, E.pcre_compile
          ('^' :: ((if 0 ≤ sp.stem_id
              then sp.regex_str.drop (stems.getD sp.stem_id.toNat default).len
              else sp.regex_str) ++ ['$'])) = some r ∧
          E.pcre_study r = study_result.ok s ∧ (compile_regex E stems sp).1.sd = s) ∧
      ((compile_regex E stems sp).1.regcomp = true ↔ (compile_regex E stems sp).2 = 0) ∧
      ((compile_regex E stems sp).1.regcomp = false ↔ (compile_regex E stems sp).2 = -1)) ∧
    (compile_regex E stems sp).1.lr = sp.lr ∧
    (compile_regex E stems sp).1.regex_str = sp.regex_str ∧
    (compile_regex E stems sp).1.type_str = sp.type_str ∧
    (compile_regex E stems sp).1.mode = sp.mode ∧
    (compile_regex E stems sp).1.matches_ = sp.matches_ ∧
    (compile_regex E stems sp).1.stem_id = sp.stem_id ∧
    (compile_regex E stems sp).1.hasMetaChars = sp.hasMetaChars ∧
    (compile_regex E stems sp).1.from_mmap = sp.from_mmap ∧
    (compile_regex E stems sp).1.prefix_len = sp.prefix_len := by
  have htext : anchored_regex stems sp =
      '^' :: ((if 0 ≤ sp.stem_id
          then sp.regex_str.drop (stems.getD sp.stem_id.toNat default).len
          else sp.regex_str) ++ ['$']) := rfl
  rw [← htext]
  refine ⟨compile_regex_of_regcomp E stems sp, ?_, ?_⟩
  · intro h
    cases hc : E.pcre_compile (anchored_regex stems sp) with
    | none =>
      rw [compile_regex_of_none E stems sp h hc]
      simp [h]
    | some r =>
      cases hs : E.pcre_study r with
      | error =>
        rw [compile_regex_of_study_error E stems sp r h hc hs]
        simp [h, hs]
      | ok s =>
        rw [compile_regex_of_ok E stems sp r s h hc hs]
        simp [hs]
  · unfold compile_regex
    split
    · exact ⟨rfl, rfl, rfl, rfl, rfl, rfl, rfl, rfl, rfl⟩
    · split
      · exact ⟨rfl, rfl, rfl, rfl, rfl, rfl, rfl, rfl, rfl⟩
      · split <;> exact ⟨rfl, rfl, rfl, rfl, rfl, rfl, rfl, rfl, rfl⟩

end

section
set_option maxRecDepth 20000

/-- The text of C36 on examples with the demo engine: the rule `/etc/.*` with
the stem `/etc` is compiled from `^/.*$`, the rule `.*/real` without a stem
from `^.*/real$`; the pattern `/etc/[a` is not marked compiled. -/
theorem compile_regex_examples :
    anchored_regex store_bad_pattern.stem_arr (spec_at store_bad_pattern 0) =
      "^/.*$".toList ∧
    (compile_regex demo_engine store_bad_pattern.stem_arr (spec_at store_bad_pattern 0)).2 = 0 ∧
    (compile_regex demo_engine store_bad_pattern.stem_arr
      (spec_at store_bad_pattern 0)).1.regcomp = true ∧
    anchored_regex store_bad_pattern.stem_arr (spec_at store_bad_pattern 1) =
      "^/[a$".toList ∧
    (compile_regex demo_engine store_bad_pattern.stem_arr (spec_at store_bad_pattern 1)).2 =
      -1 ∧
    (compile_regex demo_engine store_bad_pattern.stem_arr
      (spec_at store_bad_pattern 1)).1.regcomp = false ∧
    anchored_regex store_alias_zero.stem_arr (spec_at store_alias_zero 0) =
      "^.*/real$".toList := by
  decide

end

/-! ## The stem index of the text loader -/

section
variable {R S : Type}

theorem find_stem_scan_snoc (buf : List Char) (L : Nat) (x : stem)
    (hx : stem_matches buf L x) :
    ∀ (stems : List stem) (start : Nat), (∀ st ∈ stems, ¬ stem_matches buf L st) →
      find_stem_scan buf L (stems ++ [x]) start = ((start + stems.length : Nat) : Int) := by
  intro stems
  induction stems with
  | nil =>
    intro start _
    have hx1 : L = x.len ∧ strncmp_eq buf x.buf L = true := hx
    rw [List.nil_append, find_stem_scan, if_pos hx1, List.length_nil, Nat.add_zero]
  | cons st rest ih =>
    intro start h
    have h1 : ¬ (L = st.len ∧ strncmp_eq buf st.buf L = true) := h st (List.mem_cons_self _ _)
    rw [List.cons_append, find_stem_scan, if_neg h1,
      ih (start + 1) (fun s hs => h s (List.mem_cons_of_mem _ hs)), List.length_cons]
    have : start + 1 + rest.length = start + (rest.length + 1) := by omega
    rw [this]

theorem stem_matches_take (buf : List Char) (L : Nat) (fm : Bool) :
    stem_matches buf L ⟨buf.take L, L, fm⟩ := by
  refine ⟨rfl, ?_⟩
  show strncmp_eq buf (buf.take L) L = true
  rw [strncmp_eq_take_right L buf buf L (le_refl _)]
  exact strncmp_eq_refl L buf

/-- What `find_stem_from_spec` does for a pattern with a stem, in terms of the
test of `find_stem`. -/
theorem find_stem_from_spec_matches (d : saved_data R S) (buf : List Char)
    (hstem : get_stem_from_spec buf ≠ 0) :
    0 ≤ (find_stem_from_spec d buf).2 ∧
    (find_stem_from_spec d buf).2.toNat < (find_stem_from_spec d buf).1.stem_arr.length ∧
    stem_matches buf (get_stem_from_spec buf)
      ((find_stem_from_spec d buf).1.stem_arr.getD (find_stem_from_spec d buf).2.toNat default) ∧
    (∀ i, i < d.stem_arr.length →
      (find_stem_from_spec d buf).1.stem_arr.getD i default = d.stem_arr.getD i default) ∧
    ((∃ st ∈ d.stem_arr, stem_matches buf (get_stem_from_spec buf) st) →
      (find_stem_from_spec d buf).1 = d) ∧
    ((∀ st ∈ d.stem_arr, ¬ stem_matches buf (get_stem_from_spec buf) st) →
      (find_stem_from_spec d buf).2 = (d.stem_arr.length : Int) ∧
      (find_stem_from_spec d buf).1 =
        { d with stem_arr := d.stem_arr ++
          [⟨buf.take (get_stem_from_spec buf), get_stem_from_spec buf, false⟩] }) ∧
    find_stem (find_stem_from_spec d buf).1 buf (get_stem_from_spec buf) =
      (find_stem_from_spec d buf).2 := by
  rcases find_stem_scan_spec buf (get_stem_from_spec buf) d.stem_arr 0
    with ⟨h1, h2⟩ | ⟨k, hk, h1, h2, h3⟩
  · have hneg : ¬ 0 ≤ find_stem d buf (get_stem_from_spec buf) := by
      unfold find_stem
      rw [h1]
      decide
    have hr : find_stem_from_spec d buf =
        ({ d with stem_arr := d.stem_arr ++
            [⟨buf.take (get_stem_from_spec buf), get_stem_from_spec buf, false⟩] },
          (d.stem_arr.length : Int)) := by
      unfold find_stem_from_spec
      simp only []
      rw [if_neg hstem, if_neg hneg]
      rfl
    rw [hr]
    refine ⟨Int.natCast_nonneg _, ?_, ?_, ?_, ?_, ?_, ?_⟩
    · show (d.stem_arr.length : Int).toNat < (d.stem_arr ++ [_]).length
      rw [Int.toNat_ofNat, List.length_append, List.length_singleton]
      omega
    · show stem_matches _ _ ((d.stem_arr ++ [_]).getD (d.stem_arr.length : Int).toNat default)
      rw [Int.toNat_ofNat, List.getD_eq_getElem?_getD,
        List.getElem?_append_right (le_refl _)]
      simp only [Nat.sub_self, List.getElem?_cons_zero, Option.getD_some]
      exact stem_matches_take _ _ _
    · intro i hi
      show (d.stem_arr ++ [_]).getD i default = _
      rw [List.getD_eq_getElem?_getD, List.getD_eq_getElem?_getD,
        List.getElem?_append_left hi]
    · rintro ⟨st, hst, hm⟩
      exact absurd hm (h2 st hst)
    · intro _
      exact ⟨rfl, rfl⟩
    · unfold find_stem
      show find_stem_scan buf _ (d.stem_arr ++ [_]) 0 = _
      rw [find_stem_scan_snoc buf _ _ (stem_matches_take _ _ _) d.stem_arr 0 h2, Nat.zero_add]
  · have hid : find_stem d buf (get_stem_from_spec buf) = (k : Int) := by
      unfold find_stem
      rw [h1, Nat.zero_add]
    have hnn : 0 ≤ find_stem d buf (get_stem_from_spec buf) := by
      rw [hid]
      exact Int.natCast_nonneg _
    have hr : find_stem_from_spec d buf = (d, (k : Int)) := by
      unfold find_stem_from_spec
      simp only []
      rw [if_neg hstem, if_pos hnn, hid]
    rw [hr]
    refine ⟨Int.natCast_nonneg _, ?_, ?_, fun _ _ => rfl, fun _ => rfl, ?_, hid⟩
    · show (k : Int).toNat < d.stem_arr.length
      rw [Int.toNat_ofNat]
      exact hk
    · show stem_matches _ _ (d.stem_arr.getD (k : Int).toNat default)
      rw [Int.toNat_ofNat]
      exact h2
    · intro hno
      exact absurd h2 (hno _ (by
        rw [List.getD_eq_getElem _ _ hk]
        exact List.getElem_mem _))

theorem stem_matches_iff_content (buf : List Char) (L : Nat) (st : stem)
    (hL : L ≤ buf.length) (hnul : NUL ∉ buf) :
    stem_matches buf L st ↔ st.len = L ∧ st.buf.take L = buf.take L := by
  unfold stem_matches
  rw [strncmp_eq_symm L buf st.buf,
    strncmp_eq_iff_take L st.buf buf hL (fun c hc hc0 => hnul (by
      have := List.mem_of_mem_take hc
      rw [hc0] at this
      exact this))]
  constructor
  · rintro ⟨a, b⟩
    exact ⟨a.symm, b⟩
  · rintro ⟨a, b⟩
    exact ⟨a.symm, b⟩

/-- C33. For a pattern with a stem, of length `L` (the pattern a C string, so
without a NUL byte): `find_stem_from_spec` returns the index of an entry of
the stem index whose length is `L` and whose first `L` bytes are the stem
text.  When the index already has such an entry the store is left as it is
(and the id is that of the first such entry); otherwise the id is the old
number of stems and exactly one entry, with the stem text and the length `L`,
is appended.  Every entry that was in the index keeps its place and content,
and `find_stem` for the same text afterwards returns the same id. -/
theorem find_stem_from_spec_interns (d : saved_data R S) (buf : List Char)
    (hstem : get_stem_from_spec buf ≠ 0) (hnul : NUL ∉ buf) :
    0 ≤ (find_stem_from_spec d buf).2 ∧
    (find_stem_from_spec d buf).2.toNat < (find_stem_from_spec d buf).1.stem_arr.length ∧
    ((find_stem_from_spec d buf).1.stem_arr.getD
      (find_stem_from_spec d buf).2.toNat default).len = get_stem_from_spec buf ∧
    ((find_stem_from_spec d buf).1.stem_arr.getD
      (find_stem_from_spec d buf).2.toNat default).buf.take (get_stem_from_spec buf) =
        buf.take (get_stem_from_spec buf) ∧
    ((∃ st ∈ d.stem_arr, st.len = get_stem_from_spec buf ∧
        st.buf.take (get_stem_from_spec buf) = buf.take (get_stem_from_spec buf)) →
      (find_stem_from_spec d buf).1 = d ∧
      (find_stem_from_spec d buf).2.toNat < d.stem_arr.length) ∧
    ((∀ st ∈ d.stem_arr, ¬ (st.len = get_stem_from_spec buf ∧
        st.buf.take (get_stem_from_spec buf) = buf.take (get_stem_from_spec buf))) →
      (find_stem_from_spec d buf).2 = (d.stem_arr.length : Int) ∧
      ∃ fm, (find_stem_from_spec d buf).1 =
        { d with stem_arr := d.stem_arr ++
          [⟨buf.take (get_stem_from_spec buf), get_stem_from_spec buf, fm⟩] }) ∧
    (∀ i, i < d.stem_arr.length →
      (find_stem_from_spec d buf).1.stem_arr.getD i default = d.stem_arr.getD i default) ∧
    (find_stem_from_spec d buf).1.spec_arr = d.spec_arr ∧
    (find_stem_from_spec d buf).1.nspec = d.nspec ∧
    find_stem (find_stem_from_spec d buf).1 buf (get_stem_from_spec buf) =
      (find_stem_from_spec d buf).2 := by
  obtain ⟨a1, a2, a3, a4, a5, a6, a7⟩ := find_stem_from_spec_matches d buf hstem
  have hL := get_stem_from_spec_le buf
  have hiff := fun st => stem_matches_iff_content buf (get_stem_from_spec buf) st hL hnul
  obtain ⟨b1, b2⟩ := (hiff _).mp a3
  obtain ⟨c1, c2, _⟩ := find_stem_from_spec_specs d buf
  refine ⟨a1, a2, b1, b2, ?_, ?_, a4, c1, c2, a7⟩
  · rintro ⟨st, hst, hm⟩
    have e := a5 ⟨st, hst, (hiff st).mpr hm⟩
    refine ⟨e, ?_⟩
    have := a2
    rw [e] at this
    exact this
  · intro hno
    obtain ⟨e1, e2⟩ := a6 (fun st hst hm => hno st hst ((hiff st).mp hm))
    exact ⟨e1, false, e2⟩

theorem intern_stems_spec : ∀ (ps : List (List Char)) (d : saved_data R S),
    stems_distinct d.stem_arr →
      stems_distinct (intern_stems d ps).1.stem_arr ∧
      (intern_stems d ps).2.length = ps.length ∧
      d.stem_arr.length ≤ (intern_stems d ps).1.stem_arr.length ∧
      (∀ k, k < d.stem_arr.length →
        (intern_stems d ps).1.stem_arr.getD k default = d.stem_arr.getD k default) ∧
      ∀ i, i < ps.length → get_stem_from_spec (ps.getD i []) ≠ 0 →
        0 ≤ (intern_stems d ps).2.getD i (-1) ∧
        ((intern_stems d ps).2.getD i (-1)).toNat < (intern_stems d ps).1.stem_arr.length ∧
        stem_matches (ps.getD i []) (get_stem_from_spec (ps.getD i []))
          ((intern_stems d ps).1.stem_arr.getD ((intern_stems d ps).2.getD i (-1)).toNat
            default) := by
  intro ps
  induction ps with
  | nil =>
    intro d hd
    refine ⟨hd, rfl, le_refl _, fun _ _ => rfl, ?_⟩
    intro i hi
    exact absurd hi (Nat.not_lt_zero _)
  | cons p ps ih =>
    intro d hd
    obtain ⟨f1, _, f3⟩ := find_stem_from_spec_ok d p hd
    obtain ⟨g1, g2, g3, g4, g5⟩ := ih (find_stem_from_spec d p).1 f1
    have hkeep : ∀ i, i < d.stem_arr.length →
        (find_stem_from_spec d p).1.stem_arr.getD i default = d.stem_arr.getD i default := by
      intro i hi
      by_cases hs : get_stem_from_spec p = 0
      · unfold find_stem_from_spec
        simp only []
        rw [if_pos hs]
      · exact (find_stem_from_spec_matches d p hs).2.2.2.1 i hi
    rw [intern_stems]
    refine ⟨g1, by rw [List.length_cons, List.length_cons, g2], le_trans f3 g3, ?_, ?_⟩
    · intro k hk
      rw [g4 k (lt_of_lt_of_le hk f3), hkeep k hk]
    · intro i hi hs
      cases i with
      | zero =>
        simp only [List.getD_cons_zero] at hs ⊢
        obtain ⟨a1, a2, a3, _⟩ := find_stem_from_spec_matches d p hs
        refine ⟨a1, lt_of_lt_of_le a2 g3, ?_⟩
        rw [g4 _ a2]
        exact a3
      | succ i =>
        simp only [List.getD_cons_succ] at hs ⊢
        exact g5 i (by simpa using hi) hs

theorem stem_matches_of_take_eq (p q : List Char) (L : Nat) (st : stem)
    (h : p.take L = q.take L) (hm : stem_matches q L st) : stem_matches p L st := by
  obtain ⟨h1, h2⟩ := hm
  refine ⟨h1, ?_⟩
  rw [strncmp_eq_symm, ← strncmp_eq_take_right L st.buf p L (le_refl _), h,
    strncmp_eq_take_right L st.buf q L (le_refl _), strncmp_eq_symm]
  exact h2

/-- C32. After the calls of `find_stem_from_spec` for any patterns `ps`, in
order, on a fresh store: no two entries of the stem index have the same length
and the same text; and two of the patterns that have a stem and the same stem
text got the same id, the index of a stem. -/
theorem interned_stems_unique (ps : List (List Char)) :
    (intern_stems (empty_data R S) ps).1.stem_arr.Pairwise
      (fun a b => ¬ (a.len = b.len ∧ a.buf = b.buf)) ∧
    (intern_stems (empty_data R S) ps).2.length = ps.length ∧
    ∀ i j, i < ps.length → j < ps.length →
      get_stem_from_spec (ps.getD i []) ≠ 0 → get_stem_from_spec (ps.getD j []) ≠ 0 →
      (ps.getD i []).take (get_stem_from_spec (ps.getD i [])) =
        (ps.getD j []).take (get_stem_from_spec (ps.getD j [])) →
      (intern_stems (empty_data R S) ps).2.getD i (-1) =
        (intern_stems (empty_data R S) ps).2.getD j (-1) ∧
      0 ≤ (intern_stems (empty_data R S) ps).2.getD i (-1) ∧
      ((intern_stems (empty_data R S) ps).2.getD i (-1)).toNat <
        (intern_stems (empty_data R S) ps).1.stem_arr.length := by
  obtain ⟨h1, h2, _, _, h5⟩ := intern_stems_spec ps (empty_data R S) List.Pairwise.nil
  refine ⟨?_, h2, ?_⟩
  · refine List.Pairwise.imp ?_ h1
    intro a b hab hc
    apply hab
    refine ⟨hc.1, ?_⟩
    rw [← hc.2]
    exact strncmp_eq_refl _ _
  · intro i j hi hj hsi hsj htake
    obtain ⟨a1, a2, a3⟩ := h5 i hi hsi
    obtain ⟨b1, b2, b3⟩ := h5 j hj hsj
    have hlen : get_stem_from_spec (ps.getD i []) = get_stem_from_spec (ps.getD j []) := by
      have := congrArg List.length htake
      rw [List.length_take, List.length_take,
        Nat.min_eq_left (get_stem_from_spec_le _), Nat.min_eq_left (get_stem_from_spec_le _)]
        at this
      exact this
    have b4 : stem_matches (ps.getD i []) (get_stem_from_spec (ps.getD i []))
        ((intern_stems (empty_data R S) ps).1.stem_arr.getD
          ((intern_stems (empty_data R S) ps).2.getD j (-1)).toNat default) := by
      rw [hlen] at htake ⊢
      exact stem_matches_of_take_eq _ _ _ _ htake b3
    have := stems_distinct_unique _ h1 _ _ _ _ a2 b2 a3 b4
    refine ⟨?_, a1, a2⟩
    omega

end

section
set_option maxRecDepth 20000

/-- Instance of C33: the pattern `/etc/shadow` on the store of the rules
`/etc/passwd` and `/etc(/.*)?`, whose index holds the stem `/etc`. -/
theorem find_stem_from_spec_interns_witness :
    get_stem_from_spec "/etc/shadow".toList ≠ 0 ∧ NUL ∉ "/etc/shadow".toList ∧
    (find_stem_from_spec decl_etc "/etc/shadow".toList).2 = 0 ∧
    find_stem (find_stem_from_spec decl_etc "/etc/shadow".toList).1 "/etc/shadow".toList
      (get_stem_from_spec "/etc/shadow".toList) =
      (find_stem_from_spec decl_etc "/etc/shadow".toList).2 :=
  ⟨by decide, by decide, by decide,
    (find_stem_from_spec_interns decl_etc "/etc/shadow".toList (by decide)
      (by decide)).2.2.2.2.2.2.2.2.2⟩

/-- The ids of C32 and C33 on an example: the patterns `/etc/passwd`,
`/var/.*`, `/etc/shadow`, `.*` and `/var/log/.*` get the ids 0, 1, 0, -1, 1,
and the index holds the two stems `/etc` and `/var`. -/
theorem interned_stems_example :
    (intern_stems (empty_data demo_re Unit)
      ["/etc/passwd".toList, "/var/.*".toList, "/etc/shadow".toList, ".*".toList,
        "/var/log/.*".toList]).2 = [0, 1, 0, -1, 1] ∧
    (intern_stems (empty_data demo_re Unit)
      ["/etc/passwd".toList, "/var/.*".toList, "/etc/shadow".toList, ".*".toList,
        "/var/log/.*".toList]).1.stem_arr =
      [⟨"/etc".toList, 4, false⟩, ⟨"/var".toList, 4, false⟩] := by
  decide

end

/-! ## Stem length, fixed prefix length and pattern length -/

section
variable {R S : Type}

theorem get_stem_from_spec_pos (buf : List Char) (h : get_stem_from_spec buf ≠ 0) :
    1 ≤ get_stem_from_spec buf ∧ get_stem_from_spec buf < buf.length ∧
    buf.getD (get_stem_from_spec buf) NUL = '/' ∧
    ∀ j, j < get_stem_from_spec buf → is_meta_char (buf.getD j NUL) = false := by
  unfold get_stem_from_spec at h ⊢
  cases hc : strchr buf.tail '/' with
  | none =>
    rw [hc] at h
    exact absurd rfl h
  | some k0 =>
    rw [hc] at h
    simp only [] at h ⊢
    obtain ⟨a, b, _⟩ := (strchr_spec '/' buf.tail).2 k0 hc
    rw [List.length_tail] at a
    rw [getD_tail] at b
    by_cases hany : (buf.take (k0 + 1)).any is_meta_char = true
    · rw [if_pos hany] at h
      exact absurd rfl h
    · rw [if_neg hany]
      refine ⟨by omega, by omega, b, ?_⟩
      intro j hj
      by_contra hm
      exact hany ((any_take_meta buf (k0 + 1) (by omega)).mpr
        ⟨j, hj, by simpa using hm⟩)

theorem meta_scan_bounds (l : List Char) (p : Nat) (h : meta_scan l 0 = some p) :
    p < l.length ∧ is_meta_char (l.getD p NUL) = true := by
  obtain ⟨a, _⟩ := meta_scan_spec_aux l.length l (le_refl _) 0 [] rfl rfl
  obtain ⟨⟨h1, _, h3⟩, _, _⟩ := a p h
  exact ⟨h1, h3⟩

/-- The stem length `L` of a pattern with a stem, the offset `p` that
`spec_hasMetaChars` stores for it and its length `n`: `1 <= L <= p <= n` and
`L < n`. -/
theorem pattern_stem_bounds (regex : List Char) (hs : get_stem_from_spec regex ≠ 0) :
    1 ≤ get_stem_from_spec regex ∧
    get_stem_from_spec regex ≤
      (match meta_scan regex 0 with
        | some p => p
        | none => regex.length) ∧
    (match meta_scan regex 0 with
      | some p => p
      | none => regex.length) ≤ regex.length ∧
    get_stem_from_spec regex < regex.length := by
  obtain ⟨a, b, _, c⟩ := get_stem_from_spec_pos regex hs
  cases hm : meta_scan regex 0 with
  | none => exact ⟨a, le_of_lt b, le_refl _, b⟩
  | some p =>
    obtain ⟨p1, p2⟩ := meta_scan_bounds regex p hm
    refine ⟨a, ?_, le_of_lt p1, b⟩
    show get_stem_from_spec regex ≤ p
    by_contra hlt
    have := c p (by omega)
    rw [p2] at this
    exact absurd this (by decide)

theorem process_entries_new_spec (E : pcre_engine R S) (validating : Bool)
    (subset : Option (List Char)) (d : saved_data R S)
    (regex : List Char) (type : Option (List Char)) (context : List Char)
    (hkeep : ¬ subset_discards subset regex) (hok : slots_ok d) :
    (process_entries E validating subset d regex type context).1.stem_arr =
      (find_stem_from_spec (grow_specs d) regex).1.stem_arr ∧
    (spec_at (process_entries E validating subset d regex type context).1 d.nspec).stem_id =
      (find_stem_from_spec (grow_specs d) regex).2 ∧
    (spec_at (process_entries E validating subset d regex type context).1 d.nspec).prefix_len =
      (match meta_scan regex 0 with
        | some p => p
        | none => regex.length) := by
  unfold process_entries
  simp only []
  rw [if_neg (fun h => hkeep ((discard_cond_iff subset regex).1 h))]
  obtain ⟨hroom, _, _⟩ := grow_specs_room d hok
  obtain ⟨hfs1, _, _⟩ := find_stem_from_spec_specs (grow_specs d) regex
  have hlen : d.nspec < (find_stem_from_spec (grow_specs d) regex).1.spec_arr.length := by
    rw [hfs1]; exact hroom
  have hget : ∀ x : spec R S,
      spec_at { (find_stem_from_spec (grow_specs d) regex).1 with
          spec_arr := (find_stem_from_spec (grow_specs d) regex).1.spec_arr.set d.nspec x,
          nspec := d.nspec + 1 } d.nspec = x := by
    intro x
    simp [spec_at, List.getD_eq_getElem?_getD, List.getElem?_set, hlen]
  refine ⟨rfl, ?_, ?_⟩
  · rw [hget, (spec_hasMetaChars_fields _).2.2.2.2.1]
    cases validating
    · rfl
    · exact (compile_regex_fields E _ _).2.1
  · rw [hget]
    have hre : ∀ sp : spec R S, sp.regex_str = regex →
        (spec_hasMetaChars sp).prefix_len =
          (match meta_scan regex 0 with
            | some p => p
            | none => regex.length) := by
      intro sp hsp
      unfold spec_hasMetaChars
      rw [hsp]
      cases meta_scan regex 0 <;> rfl
    apply hre
    cases validating
    · rfl
    · exact (compile_regex_fields E _ _).1

theorem process_entries_stem_within (E : pcre_engine R S) (validating : Bool)
    (subset : Option (List Char)) (d : saved_data R S)
    (regex : List Char) (type : Option (List Char)) (context : List Char) (n0 : Nat)
    (hd : store_ok d) (hold : ∀ i, n0 ≤ i → i < d.nspec → stem_within_prefix d i) :
    ∀ i, n0 ≤ i → i < (process_entries E validating subset d regex type context).1.nspec →
      stem_within_prefix (process_entries E validating subset d regex type context).1 i := by
  by_cases hdisc : subset_discards subset regex
  · rw [process_entries_discarded E validating subset d regex type context hdisc]
    exact hold
  obtain ⟨hslots, hstems, hids⟩ := hd
  obtain ⟨_, hn, hre, _, _, _, hsame, _⟩ :=
    process_entries_appended E validating subset d regex type context hdisc hslots
  obtain ⟨hst, hid, hpl⟩ :=
    process_entries_new_spec E validating subset d regex type context hdisc hslots
  obtain ⟨gs, _⟩ := grow_specs_frame d
  have hkeepst : ∀ k, k < d.stem_arr.length →
      (find_stem_from_spec (grow_specs d) regex).1.stem_arr.getD k default =
        d.stem_arr.getD k default := by
    intro k hk
    by_cases hs : get_stem_from_spec regex = 0
    · unfold find_stem_from_spec
      simp only []
      rw [if_pos hs, gs]
    · rw [(find_stem_from_spec_matches (grow_specs d) regex hs).2.2.2.1 k (by rw [gs]; exact hk),
        gs]
  intro i hi0 hi
  rw [hn] at hi
  by_cases hlt : i < d.nspec
  · unfold stem_within_prefix
    rw [hsame i hlt, hst]
    intro hnn
    have hin := hids i hlt
    have hk : (spec_at d i).stem_id.toNat < d.stem_arr.length := by
      rcases hin with h | h
      · rw [h] at hnn
        exact absurd hnn (by decide)
      · exact h.2
    have e : stem_len_at (find_stem_from_spec (grow_specs d) regex).1.stem_arr
        (spec_at d i).stem_id = stem_len_at d.stem_arr (spec_at d i).stem_id := by
      unfold stem_len_at
      rw [hkeepst _ hk]
    rw [e]
    exact hold i hi0 hlt hnn
  · have : i = d.nspec := by omega
    subst this
    unfold stem_within_prefix
    rw [hid, hpl, hre, hst]
    intro hnn
    have hs : get_stem_from_spec regex ≠ 0 := by
      intro h0
      unfold find_stem_from_spec at hnn
      simp only [] at hnn
      rw [if_pos h0] at hnn
      have hnn1 : (0 : Int) ≤ -1 := hnn
      exact absurd hnn1 (by decide)
    obtain ⟨_, _, m, _⟩ := find_stem_from_spec_matches (grow_specs d) regex hs
    have e : stem_len_at (find_stem_from_spec (grow_specs d) regex).1.stem_arr
        (find_stem_from_spec (grow_specs d) regex).2 = get_stem_from_spec regex := by
      unfold stem_len_at
      exact m.1.symm
    rw [e]
    exact pattern_stem_bounds regex hs

theorem process_line_rc (E : pcre_engine R S) (validating : Bool)
    (subset : Option (List Char)) (d : saved_data R S) (line_buf : List Char) :
    (process_line E validating subset d line_buf).2 = 0 := by
  rcases process_line_shape E validating subset d line_buf with h | ⟨regex, type, context, h⟩
  · rw [h]
  · rw [h]
    unfold process_entries
    simp only []
    split_ifs <;> rfl

/-- C39. Every specification that `process_line` appends while the lines of
a text file are processed, from any store that both loaders can have built,
and that has a stem (`stem_id >= 0`): its stem length `s`, its fixed prefix
length `p` and the length `n` of its pattern satisfy `1 <= s <= p <= n` and
`s < n`. -/
theorem text_spec_stem_bounds (E : pcre_engine R S) (validating : Bool)
    (subset : Option (List Char)) (lines : List (List Char)) (d : saved_data R S)
    (hd : store_ok d) :
    ∀ i, d.nspec ≤ i → i < (process_lines E validating subset d lines).1.nspec →
      0 ≤ (spec_at (process_lines E validating subset d lines).1 i).stem_id →
      1 ≤ stem_len_at (process_lines E validating subset d lines).1.stem_arr
        (spec_at (process_lines E validating subset d lines).1 i).stem_id ∧
      stem_len_at (process_lines E validating subset d lines).1.stem_arr
          (spec_at (process_lines E validating subset d lines).1 i).stem_id ≤
        (spec_at (process_lines E validating subset d lines).1 i).prefix_len ∧
      (spec_at (process_lines E validating subset d lines).1 i).prefix_len ≤
        (spec_at (process_lines E validating subset d lines).1 i).regex_str.length ∧
      stem_len_at (process_lines E validating subset d lines).1.stem_arr
          (spec_at (process_lines E validating subset d lines).1 i).stem_id <
        (spec_at (process_lines E validating subset d lines).1 i).regex_str.length := by
  have main : ∀ (ls : List (List Char)) (d1 : saved_data R S), store_ok d1 →
      (∀ i, d.nspec ≤ i → i < d1.nspec → stem_within_prefix d1 i) →
      ∀ i, d.nspec ≤ i → i < (process_lines E validating subset d1 ls).1.nspec →
        stem_within_prefix (process_lines E validating subset d1 ls).1 i := by
    intro ls
    induction ls with
    | nil =>
      intro d1 _ h
      exact h
    | cons line rest ih =>
      intro d1 hd1 h
      rw [process_lines]
      rw [if_neg (by rw [process_line_rc]; exact fun hh => hh rfl)]
      rcases process_line_shape E validating subset d1 line with e | ⟨regex, type, context, e⟩
      · rw [e]
        exact ih d1 hd1 h
      · rw [e]
        exact ih _ (process_entries_ok E validating subset d1 regex type context hd1)
          (process_entries_stem_within E validating subset d1 regex type context d.nspec hd1 h)
  intro i h1 h2
  exact main lines d hd (fun i a b => absurd b (by omega)) i h1 h2

end

section
set_option maxRecDepth 20000

/-- Instance of C39: the text file `lines_two_rules` on the empty store; the
rule `/var/.*` has the stem length 4, the fixed prefix length 5 and the
pattern length 7. -/
theorem text_spec_stem_bounds_witness :
    store_ok (empty_data demo_re Unit) ∧
    (spec_at (process_lines demo_engine false none (empty_data demo_re Unit)
      lines_two_rules).1 1).regex_str = "/var/.*".toList ∧
    (spec_at (process_lines demo_engine false none (empty_data demo_re Unit)
      lines_two_rules).1 1).prefix_len = 5 ∧
    (1 ≤ stem_len_at (process_lines demo_engine false none (empty_data demo_re Unit)
        lines_two_rules).1.stem_arr
      (spec_at (process_lines demo_engine false none (empty_data demo_re Unit)
        lines_two_rules).1 1).stem_id ∧
    stem_len_at (process_lines demo_engine false none (empty_data demo_re Unit)
        lines_two_rules).1.stem_arr
        (spec_at (process_lines demo_engine false none (empty_data demo_re Unit)
          lines_two_rules).1 1).stem_id ≤
      (spec_at (process_lines demo_engine false none (empty_data demo_re Unit)
        lines_two_rules).1 1).prefix_len ∧
    (spec_at (process_lines demo_engine false none (empty_data demo_re Unit)
        lines_two_rules).1 1).prefix_len ≤
      (spec_at (process_lines demo_engine false none (empty_data demo_re Unit)
        lines_two_rules).1 1).regex_str.length ∧
    stem_len_at (process_lines demo_engine false none (empty_data demo_re Unit)
        lines_two_rules).1.stem_arr
        (spec_at (process_lines demo_engine false none (empty_data demo_re Unit)
          lines_two_rules).1 1).stem_id <
      (spec_at (process_lines demo_engine false none (empty_data demo_re Unit)
        lines_two_rules).1 1).regex_str.length) :=
  ⟨store_ok_empty, by decide, by decide,
    text_spec_stem_bounds demo_engine false none lines_two_rules (empty_data demo_re Unit)
      store_ok_empty 1 (by decide) (by decide) (by decide)⟩

end

/-! ## What `process_line` appends -/

section
variable {R S : Type}

/-- C34. `process_line` on a store that has the slots its `alloc_specs`
counts.  A blank line, a comment line (first non-blank byte `#`) and a line
with one field leave the store as it is and return 0.  A line with exactly two
fields whose pattern the prefix filter keeps appends one specification: the
pattern is field 1, the label field 2, there is no type token and the mode is
0.  A line with exactly three fields appends one with the pattern field 1, the
type token field 2 (its mode, 0 for an invalid token) and the label field 3.
In both cases the return code is 0, the new specification is at the old
`nspec`, and every specification before it is as it was. -/
theorem process_line_fields (E : pcre_engine R S) (validating : Bool)
    (subset : Option (List Char)) (d : saved_data R S) (line : List Char)
    (hok : slots_ok d) :
    ((first_nonblank line = none ∨ first_nonblank line = some '#') →
      process_line E validating subset d line = (d, 0)) ∧
    (¬ (first_nonblank line = none ∨ first_nonblank line = some '#') →
      (∀ f1, ws_tokens line = [f1] → process_line E validating subset d line = (d, 0)) ∧
      (∀ f1 f2, ws_tokens line = [f1, f2] → ¬ subset_discards subset f1 →
        (process_line E validating subset d line).2 = 0 ∧
        (process_line E validating subset d line).1.nspec = d.nspec + 1 ∧
        (spec_at (process_line E validating subset d line).1 d.nspec).regex_str = f1 ∧
        (spec_at (process_line E validating subset d line).1 d.nspec).lr.ctx_raw = f2 ∧
        (spec_at (process_line E validating subset d line).1 d.nspec).type_str = none ∧
        (spec_at (process_line E validating subset d line).1 d.nspec).mode = 0 ∧
        ∀ i, i < d.nspec →
          spec_at (process_line E validating subset d line).1 i = spec_at d i) ∧
      (∀ f1 f2 f3, ws_tokens line = [f1, f2, f3] → ¬ subset_discards subset f1 →
        (process_line E validating subset d line).2 = 0 ∧
        (process_line E validating subset d line).1.nspec = d.nspec + 1 ∧
        (spec_at (process_line E validating subset d line).1 d.nspec).regex_str = f1 ∧
        (spec_at (process_line E validating subset d line).1 d.nspec).type_str = some f2 ∧
        (spec_at (process_line E validating subset d line).1 d.nspec).mode =
          (if string_to_mode f2 = MODE_INVALID then 0 else string_to_mode f2) ∧
        (spec_at (process_line E validating subset d line).1 d.nspec).lr.ctx_raw = f3 ∧
        ∀ i, i < d.nspec →
          spec_at (process_line E validating subset d line).1 i = spec_at d i)) := by
  obtain ⟨c1, c2⟩ := process_line_cases E validating subset d line
  refine ⟨c1, ?_⟩
  intro hc
  obtain ⟨c3, c4, c5⟩ := c2 hc
  refine ⟨c3, ?_, ?_⟩
  · intro f1 f2 ht hkeep
    rw [c4 f1 f2 ht]
    obtain ⟨a1, a2, a3, a4, a5, a6, a7, _⟩ :=
      process_entries_appended E validating subset d f1 none f2 hkeep hok
    exact ⟨a1, a2, a3, a4, a5, a6, a7⟩
  · intro f1 f2 f3 ht hkeep
    rw [c5 f1 f2 f3 [] ht]
    obtain ⟨a1, a2, a3, a4, a5, a6, a7, _⟩ :=
      process_entries_appended E validating subset d f1 (some f2) f3 hkeep hok
    exact ⟨a1, a2, a3, a5, a6, a4, a7⟩

end

section
set_option maxRecDepth 20000

/-- Instance of C34: the line `/dev/.* -d L1` on the store of the rules
`/etc/passwd` and `/etc(/.*)?`, which are left at the indices 0 and 1. -/
theorem process_line_fields_witness :
    slots_ok decl_etc ∧
    decl_etc.nspec = 2 ∧
    S_IFDIR = (if string_to_mode "-d".toList = MODE_INVALID then 0
      else string_to_mode "-d".toList) ∧
    ((process_line demo_engine false none decl_etc "/dev/.* -d L1\n".toList).2 = 0 ∧
      (process_line demo_engine false none decl_etc "/dev/.* -d L1\n".toList).1.nspec =
        decl_etc.nspec + 1 ∧
      (spec_at (process_line demo_engine false none decl_etc "/dev/.* -d L1\n".toList).1
        decl_etc.nspec).regex_str = "/dev/.*".toList ∧
      (spec_at (process_line demo_engine false none decl_etc "/dev/.* -d L1\n".toList).1
        decl_etc.nspec).type_str = some "-d".toList ∧
      (spec_at (process_line demo_engine false none decl_etc "/dev/.* -d L1\n".toList).1
        decl_etc.nspec).mode =
          (if string_to_mode "-d".toList = MODE_INVALID then 0
            else string_to_mode "-d".toList) ∧
      (spec_at (process_line demo_engine false none decl_etc "/dev/.* -d L1\n".toList).1
        decl_etc.nspec).lr.ctx_raw = "L1".toList ∧
      ∀ i, i < decl_etc.nspec →
        spec_at (process_line demo_engine false none decl_etc "/dev/.* -d L1\n".toList).1 i =
          spec_at decl_etc i) :=
  ⟨by unfold slots_ok; decide, by decide, by decide,
    ((process_line_fields demo_engine false none decl_etc "/dev/.* -d L1\n".toList
      (by unfold slots_ok; decide)).2 (by decide)).2.2 "/dev/.*".toList "-d".toList
        "L1".toList (by decide) (by rintro ⟨p, h, _⟩; cases h)⟩

/-- The cases of C34 on examples, from the empty store: a comment, a blank
line and a line with one field add nothing; two fields and three fields add
one specification each. -/
theorem process_line_fields_examples :
    (load_lines ["# /a L1\n".toList, "\n".toList, "   \n".toList, "/a\n".toList]).nspec = 0 ∧
    (used_specs (load_lines ["/a L1\n".toList, "/b -d L2\n".toList, "/c -x L3\n".toList])).map
      (fun sp => (sp.regex_str, sp.type_str, sp.mode, sp.lr.ctx_raw)) =
      [("/a".toList, none, 0, "L1".toList),
       ("/b".toList, some "-d".toList, S_IFDIR, "L2".toList),
       ("/c".toList, some "-x".toList, 0, "L3".toList)] := by
  decide

end

/-! ## The hit counts -/

section
variable {R S : Type}

theorem spec_at_set_self (d : saved_data R S) (i : Nat) (x : spec R S)
    (h : i < d.spec_arr.length) :
    spec_at { d with spec_arr := d.spec_arr.set i x } i = x := by
  simp [spec_at, List.getD_eq_getElem?_getD, List.getElem?_set, h]

theorem store_compiled_matches (E : pcre_engine R S) (d : saved_data R S) (i j : Nat) :
    (spec_at (store_compiled E d i) j).matches_ = (spec_at d j).matches_ := by
  unfold store_compiled
  by_cases hji : j = i
  · subst hji
    by_cases hl : j < d.spec_arr.length
    · rw [spec_at_set_self d j _ hl]
      exact (compile_regex_fields E _ _).2.2.2
    · rw [List.set_eq_of_length_le (by omega)]
  · rw [spec_at_set_ne d i j _ hji]

theorem store_counted_matches (E : pcre_engine R S) (d : saved_data R S) (i : Nat)
    (hl : i < d.spec_arr.length) :
    (spec_at (store_counted E d i) i).matches_ = int_incr (spec_at d i).matches_ ∧
    ∀ j, j ≠ i → spec_at (store_counted E d i) j = spec_at d j := by
  unfold store_counted
  simp only []
  constructor
  · have hl2 : i < (d.spec_arr.set i (compile_regex E d.stem_arr (spec_at d i)).1).length := by
      rw [List.length_set]
      exact hl
    have := spec_at_set_self
      { d with spec_arr := d.spec_arr.set i (compile_regex E d.stem_arr (spec_at d i)).1 } i
      { (compile_regex E d.stem_arr (spec_at d i)).1 with
        matches_ := int_incr (compile_regex E d.stem_arr (spec_at d i)).1.matches_ } hl2
    rw [this]
    show int_incr (compile_regex E d.stem_arr (spec_at d i)).1.matches_ = _
    rw [(compile_regex_fields E _ _).2.2.2]
  · intro j hj
    have e1 := spec_at_set_ne
      { d with spec_arr := d.spec_arr.set i (compile_regex E d.stem_arr (spec_at d i)).1 } i j
      { (compile_regex E d.stem_arr (spec_at d i)).1 with
        matches_ := int_incr (compile_regex E d.stem_arr (spec_at d i)).1.matches_ } hj
    rw [e1]
    exact spec_at_set_ne d i j _ hj

theorem store_compiled_length (E : pcre_engine R S) (d : saved_data R S) (i : Nat) :
    (store_compiled E d i).spec_arr.length = d.spec_arr.length := by
  unfold store_compiled
  exact List.length_set _ _ _

/-- The hit counts after the loop of `lookup_common`, not in soft-partial
mode: the count of the specification at which the loop stopped has been
incremented (`int_incr`), every other count is as it was. -/
theorem lookup_walk_matches (E : pcre_engine R S) (key buf : List Char) (fs : Int)
    (mode : Nat) (n : Nat) :
    ∀ (d : saved_data R S) (tr : List Nat), n ≤ d.spec_arr.length →
      (lookup_walk E key buf fs mode false n d tr).data.spec_arr.length = d.spec_arr.length ∧
      (∀ i, (lookup_walk E key buf fs mode false n d tr).ending = walk_end.stopped i →
        (spec_at (lookup_walk E key buf fs mode false n d tr).data i).matches_ =
          int_incr (spec_at d i).matches_ ∧
        ∀ j, j ≠ i →
          (spec_at (lookup_walk E key buf fs mode false n d tr).data j).matches_ =
            (spec_at d j).matches_) ∧
      ((∀ i, (lookup_walk E key buf fs mode false n d tr).ending ≠ walk_end.stopped i) →
        ∀ j, (spec_at (lookup_walk E key buf fs mode false n d tr).data j).matches_ =
          (spec_at d j).matches_) := by
  induction n with
  | zero =>
    intro d tr _
    refine ⟨rfl, ?_, fun _ _ => rfl⟩
    intro i h
    cases h
  | succ i ih =>
    intro d tr hn
    rw [lookup_walk_succ]
    by_cases hc : candidate (spec_at d i) fs mode = true
    swap
    · rw [if_neg hc]
      exact ih d tr (by omega)
    rw [if_pos hc]
    by_cases hf : (compile_regex E d.stem_arr (spec_at d i)).2 < 0
    · rw [if_pos hf]
      refine ⟨store_compiled_length E d i, ?_, fun _ j => store_compiled_matches E d i j⟩
      intro k h
      cases h
    rw [if_neg hf]
    by_cases h0 : walk_rc E d i key buf false = 0
    · rw [if_pos h0]
      obtain ⟨a, b⟩ := store_counted_matches E d i (by omega)
      refine ⟨?_, ?_, ?_⟩
      · unfold store_counted
        simp only [List.length_set]
      · intro k h
        simp only [walk_end.stopped.injEq] at h
        subst h
        exact ⟨a, fun j hj => by rw [b j hj]⟩
      · intro h
        exact absurd rfl (h i)
    rw [if_neg h0, if_neg (by simp)]
    by_cases hnm : walk_rc E d i key buf false = PCRE_ERROR_NOMATCH
    · rw [if_pos hnm]
      obtain ⟨a, b, c⟩ := ih (store_compiled E d i) (i :: tr)
        (by rw [store_compiled_length]; omega)
      refine ⟨by rw [a, store_compiled_length], ?_, ?_⟩
      · intro k h
        obtain ⟨b1, b2⟩ := b k h
        refine ⟨by rw [b1, store_compiled_matches], ?_⟩
        intro j hj
        rw [b2 j hj, store_compiled_matches]
      · intro h j
        rw [c h j, store_compiled_matches]
    · rw [if_neg hnm]
      refine ⟨store_compiled_length E d i, ?_, fun _ j => store_compiled_matches E d i j⟩
      intro k h
      cases h

theorem int_incr_of_lt (x : Int) (h1 : -2147483648 ≤ x) (h2 : x < 2147483647) :
    int_incr x = x + 1 := by
  unfold int_incr
  omega

theorem int_incr_range (x : Int) :
    -2147483648 ≤ int_incr x ∧ int_incr x ≤ 2147483647 := by
  unfold int_incr
  omega

/-- The hit counts after a lookup (not in soft-partial mode) on a store whose
`nspec` specifications are all in the array.  When the loop stops at the
specification `i`, which then passes the pre-filter and whose pattern matches
fully, the hit count of `i` is incremented as an `int` is and every other hit
count is unchanged; this is also so when the label of `i` is `<<none>>` and
the lookup returns nothing.  The incremented count is the count plus one as
long as the count was below `INT_MAX`; at `INT_MAX` it is `INT_MIN`.  When the
loop does not stop (no match, or a failure) no hit count changes.  In both
cases the number of specifications, their places, and of each its pattern
text, label, type token, mode, stem id, meta flag, fixed prefix length and
origin mark, and the stem index, are unchanged.  A returned specification is
the one at which the loop stopped. -/
theorem lookup_counts_hit (E : pcre_engine R S) (d : saved_data R S) (key : List Char)
    (type : Int) (hlen : d.nspec ≤ d.spec_arr.length) :
    (∀ i, walk_ending E d.stem_arr (query_of d key type) false (spec_at d) d.nspec =
        walk_end.stopped i →
      spec_hit E d.stem_arr (query_of d key type) (spec_at d i) ∧
      (spec_at (lookup E d key type).1 i).matches_ = int_incr (spec_at d i).matches_ ∧
      (-2147483648 ≤ (spec_at d i).matches_ → (spec_at d i).matches_ < 2147483647 →
        (spec_at (lookup E d key type).1 i).matches_ = (spec_at d i).matches_ + 1) ∧
      ((spec_at d i).matches_ = 2147483647 →
        (spec_at (lookup E d key type).1 i).matches_ = -2147483648) ∧
      (∀ j, j ≠ i → (spec_at (lookup E d key type).1 j).matches_ = (spec_at d j).matches_) ∧
      ((spec_at d i).lr.ctx_raw = none_label → (lookup E d key type).2 = none) ∧
      ((spec_at d i).lr.ctx_raw ≠ none_label → (lookup E d key type).2 = some i)) ∧
    ((∀ i, walk_ending E d.stem_arr (query_of d key type) false (spec_at d) d.nspec ≠
        walk_end.stopped i) →
      (lookup E d key type).2 = none ∧
      ∀ j, (spec_at (lookup E d key type).1 j).matches_ = (spec_at d j).matches_) ∧
    (lookup E d key type).1.nspec = d.nspec ∧
    (lookup E d key type).1.stem_arr = d.stem_arr ∧
    (lookup E d key type).1.spec_arr.length = d.spec_arr.length ∧
    ∀ j, (spec_at (lookup E d key type).1 j).regex_str = (spec_at d j).regex_str ∧
      (spec_at (lookup E d key type).1 j).lr = (spec_at d j).lr ∧
      (spec_at (lookup E d key type).1 j).type_str = (spec_at d j).type_str ∧
      (spec_at (lookup E d key type).1 j).mode = (spec_at d j).mode ∧
      (spec_at (lookup E d key type).1 j).stem_id = (spec_at d j).stem_id ∧
      (spec_at (lookup E d key type).1 j).hasMetaChars = (spec_at d j).hasMetaChars ∧
      (spec_at (lookup E d key type).1 j).prefix_len = (spec_at d j).prefix_len ∧
      (spec_at (lookup E d key type).1 j).from_mmap = (spec_at d j).from_mmap := by
  obtain ⟨e1, e2, e3⟩ := lookup_common_data E d key type false
  have hidx := lookup_common_index E d key type false
  have hdata : d.nspec ≠ 0 → (lookup E d key type).1 = (lookup_walk_of E d key type false).data := by
    intro hn
    unfold lookup lookup_common
    rw [if_neg hn]
    simp only []
    split
    · split <;> rfl
    · rfl
  have hend := lookup_walk_of_ending E d key type false
  have hw := lookup_walk_matches E (query_of d key type).key (query_of d key type).buf
    (query_of d key type).file_stem (query_of d key type).mode d.nspec d [] hlen
  rw [← lookup_walk_of_eq] at hw
  obtain ⟨w1, w2, w3⟩ := hw
  refine ⟨?_, ?_, e1.symm, e2.symm, ?_, ?_⟩
  · intro i hi
    have hn : d.nspec ≠ 0 := by
      intro h0
      rw [h0] at hi
      cases hi
    obtain ⟨s1, s2, s3, _⟩ := walk_ending_stopped E d.stem_arr _ false _ _ _ hi
    have hit : spec_hit E d.stem_arr (query_of d key type) (spec_at d i) := by
      refine ⟨s2, ?_⟩
      rcases s3 with h | ⟨h, _⟩
      · exact h
      · cases h
    rw [← hend] at hi
    obtain ⟨m1, m2⟩ := w2 i hi
    rw [hdata hn]
    refine ⟨hit, m1, ?_, ?_, m2, ?_, ?_⟩
    · intro h1 h2
      rw [m1]
      exact int_incr_of_lt _ h1 h2
    · intro h
      rw [m1, h]
      rfl
    · intro hl
      show (lookup_common E d key type false).2 = none
      rw [hidx]
      unfold lookup_index
      rw [← hend, hi]
      simp only [hl, if_true]
    · intro hl
      show (lookup_common E d key type false).2 = some i
      rw [hidx]
      unfold lookup_index
      rw [← hend, hi]
      simp only [hl, if_false]
  · intro hno
    constructor
    · show (lookup_common E d key type false).2 = none
      rw [hidx]
      unfold lookup_index
      split
      · rename_i i hi
        exact absurd hi (hno i)
      · rfl
    · by_cases hn : d.nspec = 0
      · intro j
        unfold lookup lookup_common
        rw [if_pos hn]
      · rw [hdata hn]
        apply w3
        intro i
        rw [hend]
        exact hno i
  · by_cases hn : d.nspec = 0
    · unfold lookup lookup_common
      rw [if_pos hn]
    · rw [hdata hn]
      exact w1
  · intro j
    obtain ⟨a1, a2, a3, a4, a5, a6, a7, a8, _⟩ := e3 j
    exact ⟨a2.symm, a1.symm, a3.symm, a4.symm, a5.symm, a6.symm, a8.symm, a7.symm⟩

end

section
set_option maxRecDepth 20000

/-- The lookup of `/etc/shadow` on the store of the rules `/etc/.* -> L1` and
`/etc/shadow -> <<none>>` stops at the second rule, whose label is `<<none>>`:
nothing is returned and the hit count of that rule is 1 afterwards, that of
the other rule 0. -/
theorem lookup_counts_hit_witness :
    store_shadow.nspec ≤ store_shadow.spec_arr.length ∧
    walk_ending demo_engine store_shadow.stem_arr
      (query_of store_shadow "/etc/shadow".toList 0) false (spec_at store_shadow)
      store_shadow.nspec = walk_end.stopped 1 ∧
    (spec_at store_shadow 1).lr.ctx_raw = none_label ∧
    (spec_at store_shadow 1).matches_ = 0 ∧
    (lookup demo_engine store_shadow "/etc/shadow".toList 0).2 = none ∧
    (used_specs (lookup demo_engine store_shadow "/etc/shadow".toList 0).1).map
      (fun sp => sp.matches_) = [0, 1] ∧
    (spec_hit demo_engine store_shadow.stem_arr
        (query_of store_shadow "/etc/shadow".toList 0) (spec_at store_shadow 1) ∧
      (spec_at (lookup demo_engine store_shadow "/etc/shadow".toList 0).1 1).matches_ =
        int_incr (spec_at store_shadow 1).matches_ ∧
      (-2147483648 ≤ (spec_at store_shadow 1).matches_ →
        (spec_at store_shadow 1).matches_ < 2147483647 →
        (spec_at (lookup demo_engine store_shadow "/etc/shadow".toList 0).1 1).matches_ =
          (spec_at store_shadow 1).matches_ + 1) ∧
      ((spec_at store_shadow 1).matches_ = 2147483647 →
        (spec_at (lookup demo_engine store_shadow "/etc/shadow".toList 0).1 1).matches_ =
          -2147483648) ∧
      (∀ j, j ≠ 1 →
        (spec_at (lookup demo_engine store_shadow "/etc/shadow".toList 0).1 j).matches_ =
          (spec_at store_shadow j).matches_) ∧
      ((spec_at store_shadow 1).lr.ctx_raw = none_label →
        (lookup demo_engine store_shadow "/etc/shadow".toList 0).2 = none) ∧
      ((spec_at store_shadow 1).lr.ctx_raw ≠ none_label →
        (lookup demo_engine store_shadow "/etc/shadow".toList 0).2 = some 1)) :=
  ⟨by decide, by decide, by decide, by decide, by decide, by decide,
    (lookup_counts_hit demo_engine store_shadow "/etc/shadow".toList 0 (by decide)).1 1
      (by decide)⟩

end

/-! ## Lookups do not depend on hit counts or on what has been compiled -/

section
variable {R S : Type}

theorem anchored_regex_congr (stems : List stem) (a b : spec R S)
    (h1 : a.regex_str = b.regex_str) (h2 : a.stem_id = b.stem_id) :
    anchored_regex stems a = anchored_regex stems b := by
  unfold anchored_regex
  rw [h1, h2]

theorem lazily_compiled_congr (E : pcre_engine R S) (stems : List stem) (a b : spec R S)
    (h1 : a.regex_str = b.regex_str) (h2 : a.stem_id = b.stem_id)
    (h3 : a.regcomp = b.regcomp) (h4 : a.regex = b.regex) (h5 : a.sd = b.sd)
    (h : lazily_compiled E stems a) : lazily_compiled E stems b := by
  intro hb
  obtain ⟨r, s, c1, c2, c3, c4⟩ := h (by rw [h3]; exact hb)
  exact ⟨r, s, by rw [← anchored_regex_congr stems a b h1 h2]; exact c1, c2,
    by rw [← h4]; exact c3, by rw [← h5]; exact c4⟩

theorem spec_variant_refl (E : pcre_engine R S) (stems : List stem) (a : spec R S) :
    spec_variant E stems a a :=
  ⟨rfl, rfl, rfl, rfl, rfl, rfl, rfl, rfl, Or.inl ⟨rfl, rfl, rfl⟩⟩

theorem spec_variant_symm (E : pcre_engine R S) (stems : List stem) (a b : spec R S)
    (h : spec_variant E stems a b) : spec_variant E stems b a := by
  obtain ⟨h1, h2, h3, h4, h5, h6, h7, h8, h9⟩ := h
  refine ⟨h1.symm, h2.symm, h3.symm, h4.symm, h5.symm, h6.symm, h7.symm, h8.symm, ?_⟩
  rcases h9 with ⟨a1, a2, a3⟩ | ⟨a1, a2⟩
  · exact Or.inl ⟨a1.symm, a2.symm, a3.symm⟩
  · exact Or.inr ⟨a2, a1⟩

theorem spec_variant_trans (E : pcre_engine R S) (stems : List stem) (a b c : spec R S)
    (h : spec_variant E stems a b) (k : spec_variant E stems b c) :
    spec_variant E stems a c := by
  obtain ⟨h1, h2, h3, h4, h5, h6, h7, h8, h9⟩ := h
  obtain ⟨k1, k2, k3, k4, k5, k6, k7, k8, k9⟩ := k
  refine ⟨h1.trans k1, h2.trans k2, h3.trans k3, h4.trans k4, h5.trans k5, h6.trans k6,
    h7.trans k7, h8.trans k8, ?_⟩
  rcases h9 with ⟨a1, a2, a3⟩ | ⟨a1, a2⟩
  · rcases k9 with ⟨b1, b2, b3⟩ | ⟨b1, b2⟩
    · exact Or.inl ⟨a1.trans b1, a2.trans b2, a3.trans b3⟩
    · exact Or.inr ⟨lazily_compiled_congr E stems b a h2.symm h5.symm a1.symm a2.symm a3.symm b1,
        b2⟩
  · rcases k9 with ⟨b1, b2, b3⟩ | ⟨_, b2⟩
    · exact Or.inr ⟨a1, lazily_compiled_congr E stems b c k2 k5 b1 b2 b3 a2⟩
    · exact Or.inr ⟨a1, b2⟩

theorem spec_variant_compile (E : pcre_engine R S) (stems : List stem) (sp : spec R S) :
    spec_variant E stems sp (compile_regex E stems sp).1 := by
  by_cases h : sp.regcomp = true
  · rw [compile_regex_of_regcomp E stems sp h]
    exact spec_variant_refl E stems sp
  have hf : sp.regcomp = false := by simpa using h
  have hlazy : lazily_compiled E stems sp := fun hh => absurd hh h
  cases hc : E.pcre_compile (anchored_regex stems sp) with
  | none =>
    rw [compile_regex_of_none E stems sp hf hc]
    refine ⟨rfl, rfl, rfl, rfl, rfl, rfl, rfl, rfl, Or.inr ⟨hlazy, ?_⟩⟩
    intro hh
    exact absurd hh h
  | some r =>
    cases hs : E.pcre_study r with
    | error =>
      rw [compile_regex_of_study_error E stems sp r hf hc hs]
      refine ⟨rfl, rfl, rfl, rfl, rfl, rfl, rfl, rfl, Or.inr ⟨hlazy, ?_⟩⟩
      intro hh
      exact absurd hh h
    | ok s =>
      rw [compile_regex_of_ok E stems sp r s hf hc hs]
      refine ⟨rfl, rfl, rfl, rfl, rfl, rfl, rfl, rfl, Or.inr ⟨hlazy, ?_⟩⟩
      intro _
      exact ⟨r, s, hc, hs, rfl, rfl⟩

theorem spec_variant_hit (E : pcre_engine R S) (stems : List stem) (sp : spec R S) (m : Int) :
    spec_variant E stems sp { sp with matches_ := m } :=
  ⟨rfl, rfl, rfl, rfl, rfl, rfl, rfl, rfl, Or.inl ⟨rfl, rfl, rfl⟩⟩

theorem spec_try_of_state (E : pcre_engine R S) (stems : List stem) (a b : spec R S)
    (h1 : a.regex_str = b.regex_str) (h2 : a.stem_id = b.stem_id)
    (h3 : a.regcomp = b.regcomp) (h4 : a.regex = b.regex) (h5 : a.sd = b.sd)
    (subject : List Char) (soft : Bool) :
    spec_try E stems a subject soft = spec_try E stems b subject soft := by
  have ha := anchored_regex_congr stems a b h1 h2
  unfold spec_try compile_regex exec_spec
  rw [ha, h3]
  cases hb : b.regcomp
  · simp only [Bool.false_eq_true, if_false]
    cases E.pcre_compile (anchored_regex stems b) with
    | none => rfl
    | some r =>
      simp only []
      cases E.pcre_study r <;> rfl
  · simp only [if_true]
    rw [h4, h5]

theorem spec_try_lazily (E : pcre_engine R S) (stems : List stem) (a : spec R S)
    (h : lazily_compiled E stems a) (subject : List Char) (soft : Bool) :
    spec_try E stems a subject soft =
      spec_try E stems { a with regcomp := false } subject soft := by
  cases hr : a.regcomp
  · have : ({ a with regcomp := false } : spec R S) = a := by
      cases a
      simp only [spec.mk.injEq, true_and] at hr ⊢
      simp_all
    rw [this]
  · obtain ⟨r, s, c1, c2, c3, c4⟩ := h hr
    have ha : anchored_regex stems ({ a with regcomp := false } : spec R S) =
        anchored_regex stems a := rfl
    rw [spec_try, compile_regex_of_regcomp E stems a hr, spec_try,
      compile_regex_of_ok E stems { a with regcomp := false } r s rfl (by rw [ha]; exact c1) c2]
    unfold exec_spec
    simp only [c3, c4]

/-- Specifications that differ only in hit count and compiled state give the
same return code on every subject. -/
theorem spec_variant_equiv (E : pcre_engine R S) (stems : List stem) (a b : spec R S)
    (h : spec_variant E stems a b) : spec_equiv E stems a b := by
  obtain ⟨h1, h2, h3, h4, h5, h6, h7, h8, h9⟩ := h
  refine ⟨h1, h2, h3, h4, h5, h6, h7, h8, ?_⟩
  intro subject soft
  rcases h9 with ⟨a1, a2, a3⟩ | ⟨a1, a2⟩
  · exact spec_try_of_state E stems a b h2 h5 a1 a2 a3 subject soft
  · rw [spec_try_lazily E stems a a1, spec_try_lazily E stems b a2]
    unfold spec_try compile_regex
    have ha : anchored_regex stems ({ a with regcomp := false } : spec R S) =
        anchored_regex stems ({ b with regcomp := false } : spec R S) :=
      anchored_regex_congr stems _ _ h2 h5
    rw [ha]
    simp only [Bool.false_eq_true, if_false]
    cases E.pcre_compile (anchored_regex stems { b with regcomp := false }) with
    | none => rfl
    | some r =>
      simp only []
      cases E.pcre_study r <;> rfl

theorem store_variant_refl (E : pcre_engine R S) (d : saved_data R S) : store_variant E d d :=
  ⟨rfl, rfl, fun _ => spec_variant_refl E _ _⟩

theorem store_variant_symm (E : pcre_engine R S) {d d1 : saved_data R S}
    (h : store_variant E d d1) : store_variant E d1 d :=
  ⟨h.1.symm, h.2.1.symm, fun i => h.2.1 ▸ spec_variant_symm E _ _ _ (h.2.2 i)⟩

theorem store_variant_trans (E : pcre_engine R S) {d d1 d2 : saved_data R S}
    (h : store_variant E d d1) (k : store_variant E d1 d2) : store_variant E d d2 :=
  ⟨h.1.trans k.1, h.2.1.trans k.2.1,
    fun i => spec_variant_trans E _ _ _ _ (h.2.2 i) (h.2.1 ▸ k.2.2 i)⟩

theorem store_variant_equiv (E : pcre_engine R S) {d d1 : saved_data R S}
    (h : store_variant E d d1) : store_equiv E d d1 :=
  ⟨h.1, h.2.1, fun i => spec_variant_equiv E _ _ _ (h.2.2 i)⟩

theorem store_variant_set (E : pcre_engine R S) (d : saved_data R S) (i : Nat) (x : spec R S)
    (h : spec_variant E d.stem_arr (spec_at d i) x) :
    store_variant E d { d with spec_arr := d.spec_arr.set i x } := by
  refine ⟨rfl, rfl, fun j => ?_⟩
  by_cases hj : j = i
  · subst hj
    by_cases hlen : j < d.spec_arr.length
    · rw [spec_at_set_self d j x hlen]
      exact h
    · have : ({ d with spec_arr := d.spec_arr.set j x } : saved_data R S) = d := by
        rw [List.set_eq_of_length_le (by omega)]
      rw [this]
      exact spec_variant_refl E _ _
  · rw [spec_at_set_ne d i j x hj]
    exact spec_variant_refl E _ _

theorem store_variant_compiled (E : pcre_engine R S) (d : saved_data R S) (i : Nat) :
    store_variant E d (store_compiled E d i) :=
  store_variant_set E d i _ (spec_variant_compile E d.stem_arr (spec_at d i))

theorem store_variant_counted (E : pcre_engine R S) (d : saved_data R S) (i : Nat) :
    store_variant E d (store_counted E d i) := by
  have h := store_variant_set E d i _
    (spec_variant_trans E d.stem_arr _ _ _ (spec_variant_compile E d.stem_arr (spec_at d i))
      (spec_variant_hit E d.stem_arr (compile_regex E d.stem_arr (spec_at d i)).1
        (int_incr (compile_regex E d.stem_arr (spec_at d i)).1.matches_)))
  simpa [store_counted, List.set_set] using h

theorem lookup_walk_variant (E : pcre_engine R S) (key buf : List Char) (fs : Int)
    (mode : Nat) (soft : Bool) (n : Nat) :
    ∀ (d : saved_data R S) (tr : List Nat),
      store_variant E d (lookup_walk E key buf fs mode soft n d tr).data := by
  induction n with
  | zero => intro d tr; exact store_variant_refl E d
  | succ i ih =>
    intro d tr
    rw [lookup_walk_succ]
    split_ifs
    · exact store_variant_compiled E d i
    · exact store_variant_counted E d i
    · exact store_variant_compiled E d i
    · exact store_variant_trans E (store_variant_compiled E d i) (ih _ _)
    · exact store_variant_compiled E d i
    · exact ih d tr

theorem lookup_common_variant (E : pcre_engine R S) (d : saved_data R S) (key : List Char)
    (type : Int) (soft : Bool) :
    store_variant E d (lookup_common E d key type soft).1 := by
  unfold lookup_common
  split_ifs
  · exact store_variant_refl E d
  · have h : store_variant E d (lookup_walk_of E d key type soft).data := by
      rw [lookup_walk_of_eq]
      exact lookup_walk_variant E _ _ _ _ soft d.nspec d []
    simp only []
    split
    · split <;> exact h
    · exact h

/-- C40. The pattern engine is a function, so its answers are determined by
its arguments.  Two stores with the same stems that differ at most in hit
counts and in which specifications `compile_regex` has compiled give the same
result for every lookup; a lookup leaves a store that differs from the one
before it in this way only; and the same lookup run a second time returns the
same specification. -/
theorem lookup_ignores_counts_and_compilation (E : pcre_engine R S) (d d1 : saved_data R S)
    (key : List Char) (type : Int) (h : store_variant E d d1) :
    (lookup E d1 key type).2 = (lookup E d key type).2 ∧
    store_variant E d (lookup E d key type).1 ∧
    (lookup E (lookup E d key type).1 key type).2 = (lookup E d key type).2 ∧
    (lookup E (lookup E d1 key type).1 key type).2 = (lookup E d key type).2 := by
  have hv := lookup_common_variant E d key type false
  have hv1 := lookup_common_variant E d1 key type false
  have e : ∀ x y : saved_data R S, store_variant E x y →
      (lookup E y key type).2 = (lookup E x key type).2 := by
    intro x y hxy
    show (lookup_common E y key type false).2 = (lookup_common E x key type false).2
    rw [lookup_common_index, lookup_common_index]
    exact lookup_index_congr E x y (store_variant_equiv E hxy) key type false
  refine ⟨e d d1 h, hv, e d _ hv, ?_⟩
  exact e d _ (store_variant_trans E h hv1)

end

section
set_option maxRecDepth 20000

/-- Instance of C40: the store of the rules `/etc/passwd` and `/etc(/.*)?`
before and after a lookup of `/etc/passwd`, which compiles the first rule and
counts a hit for it; the lookup of `/etc/hosts` gives the second rule in both
stores. -/
theorem lookup_ignores_counts_and_compilation_witness :
    store_variant demo_engine store_etc (lookup demo_engine store_etc "/etc/passwd".toList 0).1 ∧
    (used_specs store_etc).map (fun sp => (sp.regcomp, sp.matches_)) =
      [(false, 0), (false, 0)] ∧
    (used_specs (lookup demo_engine store_etc "/etc/passwd".toList 0).1).map
      (fun sp => (sp.regcomp, sp.matches_)) = [(false, 0), (true, 1)] ∧
    (lookup demo_engine store_etc "/etc/hosts".toList 0).2 = some 0 ∧
    (lookup demo_engine (lookup demo_engine store_etc "/etc/passwd".toList 0).1
      "/etc/hosts".toList 0).2 = (lookup demo_engine store_etc "/etc/hosts".toList 0).2 :=
  ⟨lookup_common_variant demo_engine store_etc "/etc/passwd".toList 0 false,
    by decide, by decide, by decide,
    (lookup_ignores_counts_and_compilation demo_engine store_etc
      (lookup demo_engine store_etc "/etc/passwd".toList 0).1 "/etc/hosts".toList 0
      (lookup_common_variant demo_engine store_etc "/etc/passwd".toList 0 false)).1⟩

end

/-! ## Zero counts and zero lengths in a compiled file -/

section
variable {R S : Type}

theorem next_entry_addr (mem : List Char) (fp : mmap_area) (b : Nat) (x : List Char)
    (fp1 : mmap_area) (h : next_entry mem fp b = some (x, fp1)) : fp1.addr = fp.addr + b := by
  unfold next_entry at h
  split_ifs at h
  simp only [Option.some.injEq, Prod.mk.injEq] at h
  rw [← h.2]

theorem next_u32_val (mem : List Char) (fp : mmap_area) (v : Nat) (fp1 : mmap_area)
    (h : next_u32 mem fp = some (v, fp1)) : v = field32 mem fp.addr ∧ fp1.addr = fp.addr + 4 := by
  by_cases h4 : 4 ≤ fp.len
  · rw [next_u32_eq mem fp h4] at h
    simp only [Option.some.injEq, Prod.mk.injEq] at h
    exact ⟨h.1.symm, by rw [← h.2]⟩
  · rw [next_u32_none mem fp (by omega)] at h
    cases h

theorem decode_blob_len (mem : List Char) (fp : mmap_area) (len : Nat) (bytes : List Char)
    (fp1 : mmap_area) (h : decode_blob mem fp = some (len, bytes, fp1)) :
    len = field32 mem fp.addr ∧ len ≠ 0 ∧ fp1.addr = fp.addr + 4 + len := by
  unfold decode_blob at h
  cases h1 : next_u32 mem fp with
  | none =>
    rw [h1] at h
    cases h
  | some r =>
    obtain ⟨v, fp2⟩ := r
    rw [h1] at h
    simp only [] at h
    obtain ⟨e1, e2⟩ := next_u32_val mem fp v fp2 h1
    by_cases hz : v = 0
    · simp [hz] at h
    · simp only [hz, if_false] at h
      cases h2 : next_entry mem fp2 v with
      | none =>
        rw [h2] at h
        cases h
      | some r2 =>
        obtain ⟨bs, fp3⟩ := r2
        rw [h2] at h
        simp only [Option.some.injEq, Prod.mk.injEq] at h
        obtain ⟨a1, _, a3⟩ := h
        have := next_entry_addr mem fp2 v bs fp3 h2
        subst a1
        refine ⟨e1, hz, ?_⟩
        rw [← a3, this, e2]

theorem decode_string_len (mem : List Char) (fp : mmap_area) (s : List Char)
    (fp1 : mmap_area) (h : decode_string mem fp = some (s, fp1)) :
    field32 mem fp.addr ≠ 0 ∧ fp1.addr = fp.addr + 4 + field32 mem fp.addr := by
  unfold decode_string at h
  cases h1 : decode_blob mem fp with
  | none =>
    rw [h1] at h
    cases h
  | some r =>
    obtain ⟨len, bytes, fp2⟩ := r
    rw [h1] at h
    simp only [] at h
    obtain ⟨e1, e2, e3⟩ := decode_blob_len mem fp len bytes fp2 h1
    split_ifs at h
    simp only [Option.some.injEq, Prod.mk.injEq] at h
    rw [← h.2, ← e1]
    exact ⟨e2, e3⟩

theorem decode_blobs_len (A : pcre_cache R S) (mem : List Char) (fp : mmap_area)
    (r : R) (s : S) (fp1 : mmap_area) (h : decode_blobs A mem fp = some (r, s, fp1)) :
    field32 mem fp.addr ≠ 0 ∧ field32 mem (fp.addr + 4 + field32 mem fp.addr) ≠ 0 ∧
    fp1.addr = fp.addr + 4 + field32 mem fp.addr + 4 +
      field32 mem (fp.addr + 4 + field32 mem fp.addr) := by
  unfold decode_blobs at h
  cases h1 : decode_blob mem fp with
  | none =>
    rw [h1] at h
    cases h
  | some v =>
    obtain ⟨len, bytes, fp2⟩ := v
    rw [h1] at h
    simp only [] at h
    obtain ⟨e1, e2, e3⟩ := decode_blob_len mem fp len bytes fp2 h1
    split_ifs at h
    cases h2 : decode_blob mem fp2 with
    | none =>
      rw [h2] at h
      cases h
    | some v2 =>
      obtain ⟨len2, bytes2, fp3⟩ := v2
      rw [h2] at h
      simp only [] at h
      obtain ⟨g1, g2, g3⟩ := decode_blob_len mem fp2 len2 bytes2 fp3 h2
      split_ifs at h
      simp only [Option.some.injEq, Prod.mk.injEq] at h
      rw [← h.2.2, ← e1, ← e3, ← g1]
      exact ⟨e2, g2, by rw [g3]⟩

theorem decode_prefix_len_addr (mem : List Char) (version : Nat) (fp : mmap_area)
    (p : Option Nat) (fp1 : mmap_area) (h : decode_prefix_len mem version fp = some (p, fp1)) :
    fp1.addr = fp.addr +
      (if version ≥ SELINUX_COMPILED_FCONTEXT_PREFIX_LEN then 4 else 0) := by
  unfold decode_prefix_len at h
  split_ifs at h ⊢
  · cases h1 : next_u32 mem fp with
    | none =>
      rw [h1] at h
      cases h
    | some v =>
      obtain ⟨plen, fp2⟩ := v
      rw [h1] at h
      simp only [Option.some.injEq, Prod.mk.injEq] at h
      rw [← h.2]
      exact (next_u32_val mem fp plen fp2 h1).2
  · simp only [Option.some.injEq, Prod.mk.injEq] at h
    rw [← h.2]
    rfl

theorem decode_fields_len (A : pcre_cache R S) (mem : List Char) (version : Nat)
    (label pattern_text : List Char) (fp : mmap_area) (r : cache_record R S) (fp1 : mmap_area)
    (h : decode_fields A mem version label pattern_text fp = some (r, fp1)) :
    field32 mem (fp.addr + fixed_size A version) ≠ 0 ∧
    field32 mem (fp.addr + fixed_size A version + 4 +
      field32 mem (fp.addr + fixed_size A version)) ≠ 0 ∧
    fp1.addr = fp.addr + fixed_size A version + 4 +
      field32 mem (fp.addr + fixed_size A version) + 4 +
      field32 mem (fp.addr + fixed_size A version + 4 +
        field32 mem (fp.addr + fixed_size A version)) := by
  unfold decode_fields at h
  cases h1 : next_entry mem fp
      (if version ≥ SELINUX_COMPILED_FCONTEXT_MODE then 4 else A.sizeof_mode_t) with
  | none =>
    rw [h1] at h
    cases h
  | some v1 =>
    obtain ⟨mode_bytes, fp2⟩ := v1
    rw [h1] at h
    simp only [] at h
    have a1 := next_entry_addr mem fp _ mode_bytes fp2 h1
    cases h2 : next_u32 mem fp2 with
    | none =>
      rw [h2] at h
      cases h
    | some v2 =>
      obtain ⟨stem_bits, fp3⟩ := v2
      rw [h2] at h
      simp only [] at h
      have a2 := (next_u32_val mem fp2 stem_bits fp3 h2).2
      cases h3 : next_u32 mem fp3 with
      | none =>
        rw [h3] at h
        cases h
      | some v3 =>
        obtain ⟨meta_chars, fp4⟩ := v3
        rw [h3] at h
        simp only [] at h
        have a3 := (next_u32_val mem fp3 meta_chars fp4 h3).2
        cases h4 : decode_prefix_len mem version fp4 with
        | none =>
          rw [h4] at h
          cases h
        | some v4 =>
          obtain ⟨plen, fp5⟩ := v4
          rw [h4] at h
          simp only [] at h
          have a4 := decode_prefix_len_addr mem version fp4 plen fp5 h4
          cases h5 : decode_blobs A mem fp5 with
          | none =>
            rw [h5] at h
            cases h
          | some v5 =>
            obtain ⟨regex, study, fp6⟩ := v5
            rw [h5] at h
            simp only [Option.some.injEq, Prod.mk.injEq] at h
            obtain ⟨b1, b2, b3⟩ := decode_blobs_len A mem fp5 regex study fp6 h5
            have e5 : fp5.addr = fp.addr + fixed_size A version := by
              rw [a4, a3, a2, a1]
              unfold fixed_size
              omega
            rw [e5] at b1 b2 b3
            rw [← h.2]
            exact ⟨b1, b2, b3⟩

theorem decode_record_len (A : pcre_cache R S) (mem : List Char) (version : Nat)
    (fp : mmap_area) (r : cache_record R S) (fp1 : mmap_area)
    (h : decode_record A mem version fp = some (r, fp1)) :
    (∀ L ∈ (record_lengths mem (fixed_size A version) fp.addr).1, L ≠ 0) ∧
    fp1.addr = (record_lengths mem (fixed_size A version) fp.addr).2 := by
  unfold decode_record at h
  cases h1 : decode_string mem fp with
  | none =>
    rw [h1] at h
    cases h
  | some v1 =>
    obtain ⟨label, fp2⟩ := v1
    rw [h1] at h
    simp only [] at h
    obtain ⟨a1, a2⟩ := decode_string_len mem fp label fp2 h1
    cases h2 : decode_string mem fp2 with
    | none =>
      rw [h2] at h
      cases h
    | some v2 =>
      obtain ⟨pattern_text, fp3⟩ := v2
      rw [h2] at h
      simp only [] at h
      obtain ⟨b1, b2⟩ := decode_string_len mem fp2 pattern_text fp3 h2
      obtain ⟨c1, c2, c3⟩ := decode_fields_len A mem version label pattern_text fp3 r fp1 h
      rw [a2] at b1 b2
      rw [b2] at c1 c2 c3
      unfold record_lengths
      simp only [List.mem_cons, List.mem_singleton, List.not_mem_nil, or_false]
      refine ⟨?_, c3⟩
      rintro L (rfl | rfl | rfl | rfl)
      · exact a1
      · exact b1
      · exact c1
      · exact c2

theorem decode_records_len (A : pcre_cache R S) (mem : List Char) (version : Nat) :
    ∀ (n : Nat) (fp : mmap_area) (rs : List (cache_record R S)) (fp1 : mmap_area),
      decode_records A mem version n fp = some (rs, fp1) →
        ∀ L ∈ spec_lengths mem (fixed_size A version) n fp.addr, L ≠ 0 := by
  intro n
  induction n with
  | zero =>
    intro fp rs fp1 _ L hL
    simp [spec_lengths] at hL
  | succ n ih =>
    intro fp rs fp1 h L hL
    rw [decode_records] at h
    cases h1 : decode_record A mem version fp with
    | none =>
      rw [h1] at h
      cases h
    | some v =>
      obtain ⟨r, fp2⟩ := v
      rw [h1] at h
      simp only [] at h
      obtain ⟨a1, a2⟩ := decode_record_len A mem version fp r fp2 h1
      cases h2 : decode_records A mem version n fp2 with
      | none =>
        rw [h2] at h
        cases h
      | some w =>
        obtain ⟨rs2, fp3⟩ := w
        rw [spec_lengths, List.mem_append] at hL
        rcases hL with hL | hL
        · exact a1 L hL
        · rw [← a2] at hL
          exact ih fp2 rs2 fp3 h2 L hL

theorem load_stems_len (mem : List Char) :
    ∀ (n : Nat) (d : saved_data R S) (fp : mmap_area) (m : List Int) (fp1 : mmap_area)
      (m1 : List Int), (load_stems mem n d fp m).2 = some (fp1, m1) →
        (∀ L ∈ stem_lengths mem n fp.addr, L ≠ 0) ∧ fp1.addr = stems_end mem n fp.addr := by
  intro n
  induction n with
  | zero =>
    intro d fp m fp1 m1 h
    simp only [load_stems, Option.some.injEq, Prod.mk.injEq] at h
    refine ⟨?_, by rw [← h.1]; rfl⟩
    intro L hL
    simp [stem_lengths] at hL
  | succ n ih =>
    intro d fp m fp1 m1 h
    rw [load_stems_succ_eq] at h
    by_cases hrej : stem_record_rejected mem fp
    · rw [if_pos hrej] at h
      cases h
    rw [if_neg hrej] at h
    have hz : field32 mem fp.addr ≠ 0 := fun e => hrej (Or.inr (Or.inl e))
    have hstep : ∀ (d2 : saved_data R S) (m2 : List Int),
        (load_stems mem n d2 (stem_record_end mem fp) m2).2 = some (fp1, m1) →
        (∀ L ∈ stem_lengths mem (n + 1) fp.addr, L ≠ 0) ∧
          fp1.addr = stems_end mem (n + 1) fp.addr := by
      intro d2 m2 h2
      obtain ⟨a, b⟩ := ih d2 (stem_record_end mem fp) m2 fp1 m1 h2
      rw [stem_lengths, stems_end]
      refine ⟨?_, b⟩
      intro L hL
      rcases List.mem_cons.mp hL with e | e
      · rw [e]
        exact hz
      · exact a L e
    split_ifs at h
    · exact hstep _ _ h
    · exact hstep _ _ h

theorem load_header_some (A : pcre_cache R S) (mem : List Char) (v : Nat) (fp : mmap_area)
    (h : load_header A mem ⟨0, mapped_len A mem⟩ = some (v, fp)) :
    v = field32 mem 4 ∧ fp.addr = (header_end A mem).addr := by
  unfold load_header at h
  cases h1 : next_u32 mem ⟨0, mapped_len A mem⟩ with
  | none =>
    rw [h1] at h
    cases h
  | some r1 =>
    obtain ⟨magic, fp1⟩ := r1
    rw [h1] at h
    simp only [] at h
    obtain ⟨_, a1⟩ := next_u32_val mem _ magic fp1 h1
    split_ifs at h
    cases h2 : next_u32 mem fp1 with
    | none =>
      rw [h2] at h
      cases h
    | some r2 =>
      obtain ⟨version, fp2⟩ := r2
      rw [h2] at h
      simp only [] at h
      obtain ⟨b0, b1⟩ := next_u32_val mem fp1 version fp2 h2
      rw [a1] at b0 b1
      simp only [Nat.zero_add] at b0 b1
      unfold header_end
      rw [← b0]
      by_cases hmax : version > SELINUX_COMPILED_FCONTEXT_MAX_VERS
      · rw [if_pos hmax] at h
        cases h
      rw [if_neg hmax] at h
      by_cases hp : version ≥ SELINUX_COMPILED_FCONTEXT_PCRE_VERS
      · rw [if_pos hp] at h ⊢
        cases h3 : next_u32 mem fp2 with
        | none =>
          rw [h3] at h
          cases h
        | some r3 =>
          obtain ⟨entry_len, fp3⟩ := r3
          rw [h3] at h
          simp only [] at h
          obtain ⟨_, c1⟩ := next_u32_val mem fp2 entry_len fp3 h3
          by_cases hl : A.pcre_version.length ≠ entry_len
          · rw [if_pos hl] at h
            cases h
          rw [if_neg hl] at h
          cases h4 : next_entry mem fp3 entry_len with
          | none =>
            rw [h4] at h
            cases h
          | some r4 =>
            obtain ⟨str_buf, fp4⟩ := r4
            rw [h4] at h
            simp only [] at h
            have d1 := next_entry_addr mem fp3 entry_len str_buf fp4 h4
            split_ifs at h
            simp only [Option.some.injEq, Prod.mk.injEq] at h
            rw [← h.1, ← h.2]
            refine ⟨rfl, ?_⟩
            show fp4.addr = 12 + A.pcre_version.length
            rw [d1, c1, b1]
            have : A.pcre_version.length = entry_len := not_not.mp hl
            omega
      · rw [if_neg hp] at h ⊢
        simp only [Option.some.injEq, Prod.mk.injEq] at h
        rw [← h.1, ← h.2]
        exact ⟨rfl, b1⟩

theorem load_mmap_rc (A : pcre_cache R S) (d : saved_data R S) (mem : List Char) :
    (load_mmap A d mem).2 = 0 ∨ (load_mmap A d mem).2 = -1 := by
  unfold load_mmap
  split
  · exact Or.inr rfl
  · split
    · exact Or.inr rfl
    · split
      · exact Or.inr rfl
      · simp only []
        split
        · exact Or.inr rfl
        · split
          · exact Or.inr rfl
          · split
            · exact Or.inr rfl
            · split
              · exact Or.inr rfl
              · exact Or.inl rfl

/-- What a compiled file that `load_mmap` accepts declares: no count and no
length of its layout is 0. -/
theorem load_mmap_lengths (A : pcre_cache R S) (d : saved_data R S) (mem : List Char)
    (h : (load_mmap A d mem).2 = 0) : ∀ L ∈ declared_lengths A mem, L ≠ 0 := by
  obtain ⟨version, sml, smap, d0, n, fp, rs, fp1, h1, h2, _⟩ := load_mmap_decode A d mem h
  unfold spec_section at h1
  cases g1 : load_header A mem ⟨0, mapped_len A mem⟩ with
  | none =>
    rw [g1] at h1
    cases h1
  | some v1 =>
    obtain ⟨version1, fp0⟩ := v1
    rw [g1] at h1
    simp only [] at h1
    obtain ⟨a1, a2⟩ := load_header_some A mem version1 fp0 g1
    cases g2 : next_u32 mem fp0 with
    | none =>
      rw [g2] at h1
      cases h1
    | some v2 =>
      obtain ⟨sml1, fpa⟩ := v2
      rw [g2] at h1
      simp only [] at h1
      obtain ⟨b1, b2⟩ := next_u32_val mem fp0 sml1 fpa g2
      by_cases hz : sml1 = 0
      · simp [hz] at h1
      simp only [hz, if_false] at h1
      cases g3 : (load_stems mem sml1 d fpa []).2 with
      | none =>
        rw [g3] at h1
        cases h1
      | some v3 =>
        obtain ⟨fpb, smap1⟩ := v3
        rw [g3] at h1
        simp only [] at h1
        obtain ⟨c1, c2⟩ := load_stems_len mem sml1 d fpa [] fpb smap1 g3
        cases g4 : next_u32 mem fpb with
        | none =>
          rw [g4] at h1
          cases h1
        | some v4 =>
          obtain ⟨n1, fpc⟩ := v4
          rw [g4] at h1
          simp only [] at h1
          obtain ⟨e1, e2⟩ := next_u32_val mem fpb n1 fpc g4
          by_cases hz2 : n1 = 0
          · simp [hz2] at h1
          simp only [hz2, if_false, Option.some.injEq, Prod.mk.injEq] at h1
          obtain ⟨k1, _, _, _, k5, k6⟩ := h1
          subst k1 k5 k6
          have hrec := decode_records_len A mem version1 n1 fpc rs fp1 h2
          rw [a2] at b1 b2
          rw [b2] at c1 c2
          rw [c2] at e1 e2
          rw [e2, a1] at hrec
          unfold declared_lengths
          simp only [List.mem_cons, List.mem_append]
          rw [← b1, ← e1]
          rintro L (rfl | hL | rfl | hL)
          · exact hz
          · exact c1 L hL
          · exact hz2
          · exact hrec L hL

/-- C37. A compiled file in which, by the layout of the file, the stem count
or the specification count is 0, or a stem, a label, a pattern text, a
compiled pattern blob or an auxiliary blob has the declared length 0, is
refused: `load_mmap` returns -1 on it, whatever the store. -/
theorem load_mmap_rejects_zero_length (A : pcre_cache R S) (d : saved_data R S)
    (mem : List Char) (h : 0 ∈ declared_lengths A mem) : (load_mmap A d mem).2 = -1 := by
  rcases load_mmap_rc A d mem with h0 | h1
  · exact absurd rfl (load_mmap_lengths A d mem h0 0 h)
  · exact h1

end

section
set_option maxRecDepth 20000

/-- Instance of C37: the compiled file `cache_empty_stem`, whose one stem
record declares the length 0; its lengths by the layout are stem count 1,
stem length 0, specification count 1, label 3, pattern text 12, compiled
pattern 12, auxiliary blob 1. -/
theorem load_mmap_rejects_zero_length_witness :
    declared_lengths demo_cache cache_empty_stem = [1, 0, 1, 3, 12, 12, 1] ∧
    (0 ∈ declared_lengths demo_cache cache_empty_stem ∧
      (load_mmap demo_cache (empty_data demo_re Unit) cache_empty_stem).2 = -1) :=
  ⟨by decide, by decide,
    load_mmap_rejects_zero_length demo_cache (empty_data demo_re Unit) cache_empty_stem
      (by decide)⟩

/-- The lengths of C37 on the compiled file `cache_two_rules`, which loads:
none is 0. -/
theorem declared_lengths_example :
    declared_lengths demo_cache cache_two_rules =
      [2, 4, 4, 2, 3, 12, 8, 1, 3, 8, 6, 1] ∧
    (load_mmap demo_cache (empty_data demo_re Unit) cache_two_rules).2 = 0 := by
  decide

end

/-! ## The hit counter is an `int` -/

section
variable {R S : Type}

theorem int_incr_add (x : Int) (n : Nat) :
    (int_incr x + (n : Int) + 2147483648) % 4294967296 - 2147483648 =
      (x + ((n + 1 : Nat) : Int) + 2147483648) % 4294967296 - 2147483648 := by
  unfold int_incr
  push_cast
  omega

/-- A lookup leaves a store on which the walk of the same query ends in the
same way. -/
theorem lookup_keeps_walk (E : pcre_engine R S) (d : saved_data R S) (key : List Char)
    (type : Int) :
    walk_ending E (lookup E d key type).1.stem_arr (query_of (lookup E d key type).1 key type)
        false (spec_at (lookup E d key type).1) (lookup E d key type).1.nspec =
      walk_ending E d.stem_arr (query_of d key type) false (spec_at d) d.nspec := by
  obtain ⟨hn, hs, hsp⟩ := lookup_common_data E d key type false
  show walk_ending E (lookup_common E d key type false).1.stem_arr
      (query_of (lookup_common E d key type false).1 key type) false
      (spec_at (lookup_common E d key type false).1) (lookup_common E d key type false).1.nspec = _
  rw [query_of_congr d _ hs, ← hn, ← hs]
  exact (walk_ending_equiv E d.stem_arr _ false (spec_at d) _ d.nspec hsp).symm

/-- Repeated lookups of a key whose walk stops at the specification `i`: every
one of them stops at `i`, and after `n` of them the hit count of `i` is the
count before plus `n`, reduced to the range of an `int`; the other counts are
unchanged. -/
theorem lookup_times_counts (E : pcre_engine R S) (key : List Char) (type : Int) (i : Nat) :
    ∀ (n : Nat) (d : saved_data R S), d.nspec ≤ d.spec_arr.length →
      walk_ending E d.stem_arr (query_of d key type) false (spec_at d) d.nspec =
        walk_end.stopped i →
      -2147483648 ≤ (spec_at d i).matches_ → (spec_at d i).matches_ ≤ 2147483647 →
      (spec_at (lookup_times E key type n d) i).matches_ =
        ((spec_at d i).matches_ + (n : Int) + 2147483648) % 4294967296 - 2147483648 ∧
      (∀ j, j ≠ i →
        (spec_at (lookup_times E key type n d) j).matches_ = (spec_at d j).matches_) ∧
      (∀ j, (spec_at (lookup_times E key type n d) j).lr = (spec_at d j).lr) ∧
      (lookup_times E key type n d).nspec ≤ (lookup_times E key type n d).spec_arr.length ∧
      walk_ending E (lookup_times E key type n d).stem_arr
          (query_of (lookup_times E key type n d) key type) false
          (spec_at (lookup_times E key type n d)) (lookup_times E key type n d).nspec =
        walk_end.stopped i := by
  intro n
  induction n with
  | zero =>
    intro d hlen hw h1 h2
    refine ⟨?_, fun _ _ => rfl, fun _ => rfl, hlen, hw⟩
    show (spec_at d i).matches_ = _
    push_cast
    omega
  | succ n ih =>
    intro d hlen hw h1 h2
    obtain ⟨c1, _, c3, c4, c5, c6⟩ := lookup_counts_hit E d key type hlen
    obtain ⟨_, m1, _, _, m2, _, _⟩ := c1 i hw
    have hw1 := lookup_keeps_walk E d key type
    rw [hw] at hw1
    have hr := int_incr_range (spec_at d i).matches_
    rw [← m1] at hr
    obtain ⟨a1, a2, a5, a3, a4⟩ := ih (lookup E d key type).1 (by rw [c3, c5]; exact hlen) hw1
      hr.1 hr.2
    refine ⟨?_, ?_, ?_, a3, a4⟩
    · show (spec_at (lookup_times E key type n (lookup E d key type).1) i).matches_ = _
      rw [a1, m1]
      exact int_incr_add _ n
    · intro j hj
      show (spec_at (lookup_times E key type n (lookup E d key type).1) j).matches_ = _
      rw [a2 j hj, m2 j hj]
    · intro j
      show (spec_at (lookup_times E key type n (lookup E d key type).1) j).lr = _
      rw [a5 j, (c6 j).2.1]

end

section
set_option maxRecDepth 20000

/-- C35 fails on the code at a count of `INT_MAX`.  The store of the rules
`/etc/passwd -> L1` and `/etc(/.*)? -> L2`, sorted, and lookups of
`/etc/passwd`: every one of them stops at the rule `/etc/passwd` (slot 1, hit
count 0 at first), which matches fully, and returns it.  After `n` lookups the
hit count of that rule is `n` as long as `n` is at most `INT_MAX` =
2147483647.  The next lookup, number 2147483648, finds the count at `INT_MAX`:
`spec->matches++` overflows the `int`, and the count left is `INT_MIN` =
-2147483648, not the count before plus 1. -/
theorem hit_count_overflows_at_int_max :
    (spec_at store_etc 1).matches_ = 0 ∧
    (spec_at store_etc 1).regex_str = "/etc/passwd".toList ∧
    (∀ n, (lookup demo_engine (lookup_times demo_engine "/etc/passwd".toList 0 n store_etc)
        "/etc/passwd".toList 0).2 = some 1) ∧
    (∀ n : Nat, n ≤ 2147483647 →
      (spec_at (lookup_times demo_engine "/etc/passwd".toList 0 n store_etc) 1).matches_ = n) ∧
    (∀ n : Nat,
      spec_hit demo_engine (lookup_times demo_engine "/etc/passwd".toList 0 n store_etc).stem_arr
        (query_of (lookup_times demo_engine "/etc/passwd".toList 0 n store_etc)
          "/etc/passwd".toList 0)
        (spec_at (lookup_times demo_engine "/etc/passwd".toList 0 n store_etc) 1)) ∧
    (spec_at (lookup_times demo_engine "/etc/passwd".toList 0 2147483647 store_etc) 1).matches_ =
      2147483647 ∧
    (spec_at (lookup demo_engine
        (lookup_times demo_engine "/etc/passwd".toList 0 2147483647 store_etc)
        "/etc/passwd".toList 0).1 1).matches_ = -2147483648 ∧
    (spec_at (lookup demo_engine
        (lookup_times demo_engine "/etc/passwd".toList 0 2147483647 store_etc)
        "/etc/passwd".toList 0).1 1).matches_ ≠
      (spec_at (lookup_times demo_engine "/etc/passwd".toList 0 2147483647 store_etc)
        1).matches_ + 1 := by
  have hlen : store_etc.nspec ≤ store_etc.spec_arr.length := by decide
  have hw : walk_ending demo_engine store_etc.stem_arr
      (query_of store_etc "/etc/passwd".toList 0) false (spec_at store_etc) store_etc.nspec =
      walk_end.stopped 1 := by decide
  have h0 : (spec_at store_etc 1).matches_ = 0 := by decide
  have hlab : (spec_at store_etc 1).lr.ctx_raw ≠ none_label := by decide
  have key := fun n => lookup_times_counts demo_engine "/etc/passwd".toList 0 1 n store_etc
    hlen hw (by rw [h0]; decide) (by rw [h0]; decide)
  have step := fun n => (lookup_counts_hit demo_engine
    (lookup_times demo_engine "/etc/passwd".toList 0 n store_etc) "/etc/passwd".toList 0
    (key n).2.2.2.1).1 1 (key n).2.2.2.2
  have hmax : (spec_at (lookup_times demo_engine "/etc/passwd".toList 0 2147483647 store_etc)
      1).matches_ = 2147483647 := by
    rw [(key 2147483647).1, h0]
    decide
  have hmin := (step 2147483647).2.2.2.1 hmax
  refine ⟨h0, by decide, ?_, ?_, ?_, hmax, hmin, ?_⟩
  · intro n
    refine (step n).2.2.2.2.2.2 ?_
    rw [(key n).2.2.1 1]
    exact hlab
  · intro n hn
    rw [(key n).1, h0]
    omega
  · intro n
    exact (step n).1
  · rw [hmin, hmax]
    decide

end

/-! ## `init`: the duplicate check and the overlay files -/

section
variable {R S : Type}

theorem specs_kept_refl (d : saved_data R S) : specs_kept d d :=
  ⟨Nat.le_refl _, fun _ _ => rfl⟩

theorem specs_kept_trans {d d1 d2 : saved_data R S} (h : specs_kept d d1)
    (k : specs_kept d1 d2) : specs_kept d d2 :=
  ⟨Nat.le_trans h.1 k.1, fun i hi => by rw [k.2 i (by have := h.1; omega), h.2 i hi]⟩

theorem load_spec_record_kept (A : pcre_cache R S) (mem : List Char) (version sml : Nat)
    (stem_map : List Int) (d : saved_data R S) (fp : mmap_area) (hslots : slots_ok d)
    (hmap : ∀ x ∈ stem_map, 0 ≤ x ∧ x.toNat < d.stem_arr.length)
    (hsml : stem_map.length = sml) :
    specs_kept d (load_spec_record A mem version sml stem_map d fp).1 := by
  obtain ⟨d1, ⟨_, h2, _, _, h5⟩, hres⟩ :=
    load_spec_record_step A mem version sml stem_map d fp hslots hmap hsml
  obtain ⟨_, gn⟩ := grow_specs_frame d
  have hold : ∀ i, i < d.nspec → spec_at d1 i = spec_at d i := by
    intro i hi
    rw [h5 i (by rw [gn]; omega), spec_at_grow_specs d i hi]
  rcases hres with e | ⟨e, _⟩
  · rw [e]
    exact ⟨by rw [h2, gn], hold⟩
  · rw [e]
    refine ⟨?_, hold⟩
    show d.nspec ≤ d1.nspec + 1
    rw [h2, gn]
    omega

theorem load_specs_kept (A : pcre_cache R S) (mem : List Char) (version sml : Nat)
    (stem_map : List Int) (hsml : stem_map.length = sml) :
    ∀ (n : Nat) (d : saved_data R S) (fp : mmap_area),
      slots_ok d → stem_ids_ok d →
      (∀ x ∈ stem_map, 0 ≤ x ∧ x.toNat < d.stem_arr.length) →
      specs_kept d (load_specs A mem version sml stem_map n d fp).1 := by
  intro n
  induction n with
  | zero =>
    intro d fp _ _ _
    exact specs_kept_refl d
  | succ n ih =>
    intro d fp hs hi hmap
    obtain ⟨r1, r2, r3⟩ := load_spec_record_ok A mem version sml stem_map d fp hs hi hmap hsml
    have hk := load_spec_record_kept A mem version sml stem_map d fp hs hmap hsml
    rw [load_specs]
    split
    · exact hk
    · exact specs_kept_trans hk (ih _ ‹mmap_area› r1 r2 (by rw [r3]; exact hmap))

/-- Whether it returns 0 or -1, `load_mmap` leaves every specification that was
in the store at its index. -/
theorem load_mmap_kept (A : pcre_cache R S) (mem : List Char) (d : saved_data R S)
    (h : store_ok d) : specs_kept d (load_mmap A d mem).1 := by
  obtain ⟨hs, hd, hi⟩ := h
  have hstems : ∀ n fp, store_ok (load_stems mem n d fp []).1 ∧
      specs_kept d (load_stems mem n d fp []).1 ∧
      ∀ fp1 map1, (load_stems mem n d fp []).2 = some (fp1, map1) →
        map1.length = n ∧
        ∀ x ∈ map1, 0 ≤ x ∧ x.toNat < (load_stems mem n d fp []).1.stem_arr.length := by
    intro n fp
    obtain ⟨a, b, c, e, f, g⟩ := load_stems_ok mem n d fp [] hd (by simp)
    have hsp : ∀ i, spec_at (load_stems mem n d fp []).1 i = spec_at d i := by
      intro i
      unfold spec_at
      rw [b]
    refine ⟨⟨?_, a, ?_⟩, ⟨by rw [c], fun i _ => hsp i⟩, ?_⟩
    · unfold slots_ok
      rw [e, b]
      exact hs
    · intro i hi1
      rw [c] at hi1
      rw [hsp i]
      exact stem_id_ok_mono _ _ _ f (hi i hi1)
    · intro fp1 map1 hr
      obtain ⟨g1, g2⟩ := g fp1 map1 hr
      exact ⟨by simpa using g1, g2⟩
  unfold load_mmap
  split
  · exact specs_kept_refl d
  · split
    · exact specs_kept_refl d
    · split
      · exact specs_kept_refl d
      · simp only []
        split
        · exact (hstems _ _).2.1
        · split
          · exact (hstems _ _).2.1
          · split
            · exact (hstems _ _).2.1
            · rename_i fp2 stem_map hq _ _ _ _ _
              obtain ⟨⟨k1, k2, k3⟩, k5, k4⟩ := hstems _ _
              obtain ⟨m1, m2⟩ := k4 _ _ hq
              split
              · exact specs_kept_trans k5
                  (load_specs_kept A mem _ _ stem_map m1 _ _ _ k1 k3 m2)
              · exact specs_kept_trans k5
                  (load_specs_kept A mem _ _ stem_map m1 _ _ _ k1 k3 m2)

theorem process_lines_rc (E : pcre_engine R S) (validating : Bool)
    (subset : Option (List Char)) (lines : List (List Char)) :
    ∀ d : saved_data R S, (process_lines E validating subset d lines).2 = 0 := by
  induction lines with
  | nil =>
    intro d
    rfl
  | cons line rest ih =>
    intro d
    rw [process_lines]
    rw [if_neg (not_not.mpr (process_line_rc E validating subset d line))]
    exact ih _

theorem process_lines_kept (E : pcre_engine R S) (validating : Bool)
    (subset : Option (List Char)) (lines : List (List Char)) :
    ∀ d : saved_data R S, store_ok d →
      specs_kept d (process_lines E validating subset d lines).1 := by
  induction lines with
  | nil =>
    intro d _
    exact specs_kept_refl d
  | cons line rest ih =>
    intro d hd
    have hrc := process_line_rc E validating subset d line
    have hk : specs_kept d (process_line E validating subset d line).1 ∧
        store_ok (process_line E validating subset d line).1 := by
      rcases process_line_shape E validating subset d line with e | ⟨regex, type, context, e⟩
      · rw [e]
        exact ⟨specs_kept_refl d, hd⟩
      · rw [e]
        refine ⟨?_, process_entries_ok E validating subset d regex type context hd⟩
        by_cases hdisc : subset_discards subset regex
        · rw [process_entries_discarded E validating subset d regex type context hdisc]
          exact specs_kept_refl d
        · obtain ⟨_, a2, _, _, _, _, a7, _⟩ :=
            process_entries_appended E validating subset d regex type context hdisc hd.1
          exact ⟨by rw [a2]; omega, a7⟩
    rw [process_lines]
    rw [if_neg (not_not.mpr hrc)]
    exact specs_kept_trans hk.1 (ih _ hk.2)

/-- What `process_file` returns: -1 with the store untouched for a file that
is not there or cannot be used, and 0 for a regular file, with every
specification that was in the store still at its index. -/
theorem process_file_kept (E : pcre_engine R S) (A : pcre_cache R S) (validating : Bool)
    (subset : Option (List Char)) (d : saved_data R S) (f : spec_file) :
    (f = spec_file.absent → process_file E A validating subset d f = ⟨d, -1, true⟩) ∧
    (f = spec_file.unusable → process_file E A validating subset d f = ⟨d, -1, false⟩) ∧
    (f ≠ spec_file.absent → f ≠ spec_file.unusable →
      (process_file E A validating subset d f).rc = 0) ∧
    (store_ok d → store_ok (process_file E A validating subset d f).data ∧
      specs_kept d (process_file E A validating subset d f).data) := by
  cases f with
  | absent =>
    exact ⟨fun _ => rfl, fun h => (by cases h), fun h => absurd rfl h,
      fun hd => ⟨hd, specs_kept_refl d⟩⟩
  | unusable =>
    exact ⟨fun h => (by cases h), fun _ => rfl, fun _ h => absurd rfl h,
      fun hd => ⟨hd, specs_kept_refl d⟩⟩
  | present lines cache =>
    refine ⟨fun h => (by cases h), fun h => (by cases h), ?_, ?_⟩
    · intro _ _
      unfold process_file
      simp only []
      split_ifs with h0
      · rfl
      · exact process_lines_rc E validating subset lines _
    · intro hd
      unfold process_file
      simp only []
      cases cache with
      | none =>
        simp only []
        rw [if_neg (by decide)]
        exact ⟨process_lines_ok E validating subset lines d hd,
          process_lines_kept E validating subset lines d hd⟩
      | some mem =>
        simp only []
        have hm := load_mmap_ok A mem d hd
        have hk := load_mmap_kept A mem d hd
        split_ifs with h0
        · exact ⟨hm, hk⟩
        · exact ⟨process_lines_ok E validating subset lines _ hm,
            specs_kept_trans hk (process_lines_kept E validating subset lines _ hm)⟩

/-- The steps of `init` behind the duplicate check, with validation off. -/
theorem init_after_load (E : pcre_engine R S) (A : pcre_cache R S)
    (subset : Option (List Char)) (baseonly : Bool)
    (file homedirs local_file : spec_file) (d : saved_data R S)
    (h : (process_file E A false subset d file).rc = 0) :
    init E A false subset baseonly file homedirs local_file d =
      if baseonly = true then (sort_specs (process_file E A false subset d file).data, 0)
      else if (process_file E A false subset (process_file E A false subset d file).data
          homedirs).rc ≠ 0 ∧
        (process_file E A false subset (process_file E A false subset d file).data
          homedirs).enoent = false
      then (free_spec_arr (process_file E A false subset
          (process_file E A false subset d file).data homedirs).data,
        (process_file E A false subset (process_file E A false subset d file).data homedirs).rc)
      else if (process_file E A false subset (process_file E A false subset
          (process_file E A false subset d file).data homedirs).data local_file).rc ≠ 0 ∧
        (process_file E A false subset (process_file E A false subset
          (process_file E A false subset d file).data homedirs).data local_file).enoent = false
      then (free_spec_arr (process_file E A false subset (process_file E A false subset
          (process_file E A false subset d file).data homedirs).data local_file).data,
        (process_file E A false subset (process_file E A false subset
          (process_file E A false subset d file).data homedirs).data local_file).rc)
      else (sort_specs (process_file E A false subset (process_file E A false subset
          (process_file E A false subset d file).data homedirs).data local_file).data, 0) := by
  unfold init
  simp only [h, ne_eq, not_true_eq_false, if_false, Bool.false_eq_true]

/-- An overlay file that is not unusable does not stop `init`: `process_file`
returns 0 for it or fails with `ENOENT`. -/
theorem overlay_passes (E : pcre_engine R S) (A : pcre_cache R S) (validating : Bool)
    (subset : Option (List Char)) (d : saved_data R S) (f : spec_file)
    (hf : f ≠ spec_file.unusable) :
    ¬ ((process_file E A validating subset d f).rc ≠ 0 ∧
      (process_file E A validating subset d f).enoent = false) := by
  obtain ⟨a, _, c, _⟩ := process_file_kept E A validating subset d f
  by_cases ha : f = spec_file.absent
  · rw [a ha]
    simp
  · rw [c ha hf]
    simp

/-- C17, as the code has it. In validating mode, when the primary file has
been loaded and two of its specifications are duplicates (the same pattern
text, and one type filter absent or both equal), `init` fails: it returns the
-1 of `nodups_specs` and frees the array, whatever the overlay files hold and
without sorting.  With validation off no duplicate check is made, and once the
primary file is loaded `init` goes on with what it gave, duplicates included.
Base-only it returns 0 with that store sorted.  Otherwise it processes the two
overlay files: when one of them exists but cannot be used, `init` returns -1
and frees the array, without sorting; else (each overlay is a regular file or
is not there) it returns 0 with the sorted store of all that was loaded, in
which, before the sort, every specification of the primary file is still at
its index. -/
theorem init_fails_on_duplicates (E : pcre_engine R S) (A : pcre_cache R S)
    (subset : Option (List Char)) (baseonly : Bool)
    (file homedirs local_file : spec_file) (d : saved_data R S) (i j : Nat)
    (hload : (process_file E A true subset d file).rc = 0)
    (hij : i < j) (hj : j < (process_file E A true subset d file).data.nspec)
    (hdup : nodups_clash (spec_at (process_file E A true subset d file).data i)
      (spec_at (process_file E A true subset d file).data j) = true) :
    init E A true subset baseonly file homedirs local_file d =
      (free_spec_arr (process_file E A true subset d file).data, -1) ∧
    ((process_file E A false subset d file).rc = 0 →
      init E A false subset true file homedirs local_file d =
        (sort_specs (process_file E A false subset d file).data, 0) ∧
      (homedirs = spec_file.unusable →
        init E A false subset false file homedirs local_file d =
          (free_spec_arr (process_file E A false subset d file).data, -1)) ∧
      (homedirs ≠ spec_file.unusable → local_file = spec_file.unusable →
        init E A false subset false file homedirs local_file d =
          (free_spec_arr (process_file E A false subset
            (process_file E A false subset d file).data homedirs).data, -1)) ∧
      (homedirs ≠ spec_file.unusable → local_file ≠ spec_file.unusable →
        init E A false subset false file homedirs local_file d =
          (sort_specs (process_file E A false subset (process_file E A false subset
            (process_file E A false subset d file).data homedirs).data local_file).data, 0) ∧
        (store_ok d →
          specs_kept (process_file E A false subset d file).data
            (process_file E A false subset (process_file E A false subset
              (process_file E A false subset d file).data homedirs).data local_file).data))) := by
  constructor
  · unfold init
    simp only [hload, ne_eq, not_true_eq_false, if_false, if_true,
      nodups_specs_of_clash _ i j hij hj hdup]
    rfl
  · intro h
    have hneg : ((-1 : Int) ≠ 0) := by decide
    have hu : ∀ x : saved_data R S,
        process_file E A false subset x spec_file.unusable = ⟨x, -1, false⟩ := fun _ => rfl
    refine ⟨?_, ?_, ?_, ?_⟩
    · rw [init_after_load E A subset true file homedirs local_file d h, if_pos rfl]
    · intro hh
      subst hh
      rw [init_after_load E A subset false file _ local_file d h, if_neg (by decide), hu,
        if_pos ⟨hneg, rfl⟩]
    · intro hh hl
      subst hl
      rw [init_after_load E A subset false file homedirs _ d h, if_neg (by decide),
        if_neg (overlay_passes E A false subset _ homedirs hh), hu, if_pos ⟨hneg, rfl⟩]
    · intro hh hl
      constructor
      · rw [init_after_load E A subset false file homedirs local_file d h, if_neg (by decide),
          if_neg (overlay_passes E A false subset _ homedirs hh),
          if_neg (overlay_passes E A false subset _ local_file hl)]
      · intro hd
        obtain ⟨p1, _⟩ := (process_file_kept E A false subset d file).2.2.2 hd
        obtain ⟨h1, h2⟩ := (process_file_kept E A false subset _ homedirs).2.2.2 p1
        obtain ⟨_, l2⟩ := (process_file_kept E A false subset _ local_file).2.2.2 h1
        exact specs_kept_trans h2 l2

end

section
set_option maxRecDepth 20000

/-- Instance of the amended C17: the primary file `lines_duplicate` in
validating mode, with an overlay file of two rules. -/
theorem init_fails_on_duplicates_witness :
    init demo_engine demo_cache true none false (spec_file.present lines_duplicate none)
        (spec_file.present lines_two_rules none) spec_file.absent (empty_data demo_re Unit) =
      (free_spec_arr (process_file demo_engine demo_cache true none (empty_data demo_re Unit)
        (spec_file.present lines_duplicate none)).data, -1) :=
  (init_fails_on_duplicates demo_engine demo_cache none false
    (spec_file.present lines_duplicate none) (spec_file.present lines_two_rules none)
    spec_file.absent (empty_data demo_re Unit) 0 1 (by decide) (by decide) (by decide)
    (by decide)).1

/-- The primary file `lines_duplicate` with validation off.  With the overlay
file of two rules `init` returns 0 and the store has the four specifications,
both duplicates among them; with an overlay that cannot be used it returns -1
and no slot is left; base-only the overlay is not looked at. -/
theorem init_overlay_examples :
    (init demo_engine demo_cache false none false (spec_file.present lines_duplicate none)
      (spec_file.present lines_two_rules none) spec_file.absent
      (empty_data demo_re Unit)).2 = 0 ∧
    (used_specs (init demo_engine demo_cache false none false
      (spec_file.present lines_duplicate none) (spec_file.present lines_two_rules none)
      spec_file.absent (empty_data demo_re Unit)).1).map (fun sp => sp.regex_str) =
      ["/var/.*".toList, "/a".toList, "/a".toList, "/etc/passwd".toList] ∧
    (init demo_engine demo_cache false none false (spec_file.present lines_duplicate none)
      spec_file.unusable spec_file.absent (empty_data demo_re Unit)).2 = -1 ∧
    (init demo_engine demo_cache false none false (spec_file.present lines_duplicate none)
      spec_file.unusable spec_file.absent (empty_data demo_re Unit)).1.spec_arr.length = 0 ∧
    (init demo_engine demo_cache false none false (spec_file.present lines_duplicate none)
      spec_file.absent spec_file.unusable (empty_data demo_re Unit)).2 = -1 ∧
    (init demo_engine demo_cache false none true (spec_file.present lines_duplicate none)
      spec_file.unusable spec_file.unusable (empty_data demo_re Unit)).2 = 0 ∧
    (init demo_engine demo_cache false none true (spec_file.present lines_duplicate none)
      spec_file.unusable spec_file.unusable (empty_data demo_re Unit)).1.nspec = 2 := by
  decide

end

end LabelFile
